import Mathlib

/-!
The repository ichaly/graphql: float encoding and input values.

A shallow embedding of `encodeFloat.go` (`floatToJson`) and `input_value.go`
(`Value`, its constructors and `SetToValueOf` / `SetToValueOfAndExpect`),
followed by the properties proved about them.

Conventions of the embedding:

* a Go `string` / the content of a `bytes.Buffer` is a list of characters, one
  per byte;
* a Go floating-point number is `FloatVal`: NaN, a signed infinity, or a finite
  value `(-1)^neg * m * 2^e`; comparisons follow IEEE-754 and are computed
  exactly on integers;
* a slice expression `b[lo:hi]` is `goSlice`, which is `none` when Go would
  raise a run-time error, so `floatToJson` returns an `Option`;
* `strconv.FormatFloat` belongs to the Go standard library, not to the
  repository, and is a parameter of `floatToJson`.
-/

namespace Graphql

set_option maxRecDepth 8000

/-! ## Go strings and buffers -/

/-- A Go string, byte by byte. -/
abbrev GoString := List Char

/-- The content of a `bytes.Buffer`. -/
abbrev Buffer := List Char

/-- The method `(*bytes.Buffer).WriteString`: the string is appended to the content. -/
def Buffer.WriteString (e : Buffer) (s : GoString) : Buffer := e ++ s

/-- The builtin `len` on a string, a Go `int`. -/
def len (b : GoString) : Int := (b.length : Int)

/-- The slice expression `b[lo:hi]`; `none` stands for the run-time error Go
raises unless `0 <= lo <= hi <= len(b)`. -/
def goSlice (b : GoString) (lo hi : Int) : Option GoString :=
  if 0 ≤ lo ∧ lo ≤ hi ∧ hi ≤ len b then
    some ((b.drop lo.toNat).take (hi - lo).toNat)
  else none

/-! ## Floating-point values -/

/-- A Go floating-point number: NaN, `±Inf`, or the finite value
`(-1)^neg * m * 2^e` (with `m = 0` for the two zeros). -/
inductive FloatVal where
  | nan : FloatVal
  | inf (neg : Bool) : FloatVal
  | finite (neg : Bool) (m : Nat) (e : Int) : FloatVal
deriving DecidableEq, Repr

namespace FloatVal

/-- The finite value is a `float64`: 53 bits of mantissa, exponent of the
least significant bit between `-1074` and `971`. -/
def valid64 : FloatVal → Bool
  | finite _ m e => decide (m < 2 ^ 53) && decide (-1074 ≤ e) && decide (e ≤ 971)
  | _ => true

/-- The finite value is a `float32`: 24 bits of mantissa, exponent of the
least significant bit between `-149` and `104`. -/
def valid32 : FloatVal → Bool
  | finite _ m e => decide (m < 2 ^ 24) && decide (-149 ≤ e) && decide (e ≤ 104)
  | _ => true

/-- Finite values, as opposed to NaN and the infinities. -/
def isFinite : FloatVal → Bool
  | finite _ _ _ => true
  | _ => false

/-- The sign bit. -/
def signbit : FloatVal → Bool
  | nan => false
  | inf neg => neg
  | finite neg _ _ => neg

/-- The function `math.IsNaN`. -/
def IsNaN : FloatVal → Bool
  | nan => true
  | _ => false

/-- The function `math.IsInf(f, sign)`: `sign > 0` asks for `+Inf`, `sign < 0`
for `-Inf`, `sign == 0` for either. -/
def IsInf (f : FloatVal) (sign : Int) : Bool :=
  match f with
  | inf neg => (decide (sign ≥ 0) && !neg) || (decide (sign ≤ 0) && neg)
  | _ => false

/-- The function `math.Abs`: the sign bit is cleared. -/
def Abs : FloatVal → FloatVal
  | nan => nan
  | inf _ => inf false
  | finite _ m e => finite false m e

/-- The signed mantissa of a finite value rescaled to the exponent `c`
(`c` at most the value's own exponent): the value is `scaled * 2^c`. -/
def scaled (neg : Bool) (m : Nat) (e c : Int) : Int :=
  (if neg then -1 else 1) * ((m : Int) * 2 ^ (e - c).toNat)

/-- IEEE-754 comparison; `none` when one side is NaN (unordered). -/
def cmp : FloatVal → FloatVal → Option Ordering
  | nan, _ => none
  | _, nan => none
  | inf a, inf b =>
    if a = b then some .eq else if a then some .lt else some .gt
  | inf a, finite _ _ _ => if a then some .lt else some .gt
  | finite _ _ _, inf b => if b then some .gt else some .lt
  | finite n₁ m₁ e₁, finite n₂ m₂ e₂ =>
    let c := min e₁ e₂
    let x := scaled n₁ m₁ e₁ c
    let y := scaled n₂ m₂ e₂ c
    if x < y then some .lt else if x = y then some .eq else some .gt

/-- Go's `a < b` on floats. -/
def lt (a b : FloatVal) : Bool :=
  match cmp a b with
  | some .lt => true
  | _ => false

/-- Go's `a >= b` on floats. -/
def ge (a b : FloatVal) : Bool :=
  match cmp a b with
  | some .gt => true
  | some .eq => true
  | _ => false

/-- Go's `a <= b` on floats. -/
def le (a b : FloatVal) : Bool :=
  match cmp a b with
  | some .lt => true
  | some .eq => true
  | _ => false

/-- Go's `a != b` on floats (true when either side is NaN). -/
def ne (a b : FloatVal) : Bool :=
  match cmp a b with
  | some .eq => false
  | _ => true

/-- The real number a finite value stands for (`0` for NaN and the infinities,
which the statements below exclude). -/
def toRat : FloatVal → ℚ
  | finite neg m e => (if neg then -1 else 1) * ((m : ℚ) * (2 : ℚ) ^ e)
  | _ => 0

/-- Number of bits of `m`, by repeated halving; `fuel` bounds the number of
halvings. -/
def bitLenAux : Nat → Nat → Nat
  | 0, _ => 0
  | fuel + 1, m => if m = 0 then 0 else bitLenAux fuel (m / 2) + 1

/-- Number of bits of a natural number (`0` for `0`). -/
def bitLen (m : Nat) : Nat := bitLenAux m m

/-- Round half to even of `m / 2^s`. -/
def rneShift (m s : Nat) : Nat :=
  let q := m / 2 ^ s
  let r := m % 2 ^ s
  if 2 * r > 2 ^ s ∨ (2 * r = 2 ^ s ∧ q % 2 = 1) then q + 1 else q

/-- The conversion `float32(x)` of a `float64`: round to nearest, ties to
even, to 24 bits of mantissa with the exponent of the last bit at least
`-149`; a result of `2^128` or more is an infinity. -/
def toFloat32 : FloatVal → FloatVal
  | nan => nan
  | inf neg => inf neg
  | finite neg m e =>
    if m = 0 then finite neg 0 0
    else
      let E : Int := max ((bitLen m : Int) + e - 24) (-149)
      let M : Nat := if E ≤ e then m * 2 ^ (e - E).toNat else rneShift m (E - e).toNat
      if (M : Int) * 2 ^ (E + 149).toNat ≥ 2 ^ (128 + 149) then inf neg
      else finite neg M E

end FloatVal

/-- The constant `0` as a float. -/
def c0 : FloatVal := .finite false 0 0

/-- The constant `1e-6` as a `float64`: the double nearest to `10^-6`. -/
def c64_1e_6 : FloatVal := .finite false 4722366482869645 (-72)

/-- The constant `1e21` as a `float64`: `10^21 = 5^21 * 2^21` exactly. -/
def c64_1e21 : FloatVal := .finite false 476837158203125 21

/-- The constant `1e-6` as a `float32`: the single nearest to `10^-6`. -/
def c32_1e_6 : FloatVal := .finite false 8796093 (-43)

/-- The constant `1e21` as a `float32`: the single nearest to `10^21`. -/
def c32_1e21 : FloatVal := .finite false 14210855 46

/-! ## `floatToJson` (encodeFloat.go) -/

/-- The type of `strconv.FormatFloat(f, fmt, prec, bitSize)`. -/
abbrev FormatFloatFn := FloatVal → Char → Int → Int → GoString

/-- The format byte `floatToJson` settles on (lines 23-30): `'f'`, replaced by
`'e'` when the value is not zero and lies below `1e-6` or at or above `1e21`,
compared at the width given by `bits`. -/
def floatToJsonFmt (bits : Int) (f : FloatVal) : Char :=
  let abs := FloatVal.Abs f
  if FloatVal.ne abs c0 then
    if (bits == 64 && (FloatVal.lt abs c64_1e_6 || FloatVal.ge abs c64_1e21))
        || (bits == 32 && (FloatVal.lt (FloatVal.toFloat32 abs) c32_1e_6
              || FloatVal.ge (FloatVal.toFloat32 abs) c32_1e21)) then
      'e'
    else 'f'
  else 'f'

/-- The clean-up of `e-09` to `e-9` (lines 35-41) applied to the formatted
string `b`, returning what is written to the buffer. -/
def cleanExp (b : GoString) : Option GoString :=
  let n := len b
  if n ≥ 4 then
    match goSlice b (n - 4) (n - 1) with
    | none => none
    | some s =>
      if s = ['e', '-', '0'] then
        match goSlice b 0 (n - 2), goSlice b (n - 1) n with
        | some p, some q => some (p ++ q)
        | _, _ => none
      else some b
  else some b

/-- The function `floatToJson(bits, f, e)`; the result is the buffer after the
call, `none` if a slice expression were out of range. `strconv.FormatFloat` is
a parameter, a total function: the run-time error it raises for a `bitSize`
other than 32 and 64 is not part of the model, which is meant for these two
values of `bits`. -/
def floatToJson (FormatFloat : FormatFloatFn) (bits : Int) (f : FloatVal) (e : Buffer) :
    Option Buffer :=
  if FloatVal.IsInf f 0 || FloatVal.IsNaN f then
    some (e.WriteString ['0', '.', '0'])
  else
    let fmt := floatToJsonFmt bits f
    let b := FormatFloat f fmt (-1) bits
    if fmt == 'e' then
      match cleanExp b with
      | none => none
      | some s => some (e.WriteString s)
    else some (e.WriteString b)

/-! ## Input values (input_value.go) -/

namespace reflect

/-- The type `reflect.Kind`, an unsigned integer. -/
abbrev Kind := Nat

/-- The kind `reflect.Invalid`, the zero value of `Kind`. -/
abbrev Invalid : Kind := 0
/-- The kind `reflect.Bool`. -/
abbrev Bool : Kind := 1
/-- The kind `reflect.Int`. -/
abbrev Int : Kind := 2
/-- The kind `reflect.Float64`. -/
abbrev Float64 : Kind := 14
/-- The kind `reflect.Array`. -/
abbrev Array : Kind := 17
/-- The kind `reflect.Map`. -/
abbrev Map : Kind := 21
/-- The kind `reflect.String`. -/
abbrev String : Kind := 24

/-- The names `Kind.String` prints, in the order of the constants. -/
def kindNames : List GoString :=
  ["invalid", "bool", "int", "int8", "int16", "int32", "int64", "uint", "uint8", "uint16",
    "uint32", "uint64", "uintptr", "float32", "float64", "complex64", "complex128", "array",
    "chan", "func", "interface", "map", "ptr", "slice", "string", "struct",
    "unsafe.Pointer"].map fun s => s.toList

/-- The method `Kind.String`: the name of the kind, or `kind` followed by
`strconv.Itoa(int(k))` when the kind has no name. `Kind` is a `uint`, of 64
bits, and the conversion to `int` wraps around, so that a kind from `2^63` on
is printed as a negative number. -/
def Kind.String (k : Kind) : GoString :=
  let u := k % 2 ^ 64
  match kindNames.get? u with
  | some s => s
  | none =>
    if u < 2 ^ 63 then "kind".toList ++ (Nat.repr u).toList
    else "kind-".toList ++ (Nat.repr (2 ^ 64 - u)).toList

end reflect

/-- A Go error value; `none` is `nil`, `some msg` an error made by `errors.New(msg)`. -/
abbrev GoError := Option GoString

/-- The struct `Value`. A slice is `none` when it is `nil`; `qlTypeName`, a
`*string`, is `none` when it is `nil`; the field `variable` is `variable_`;
`objectValue` has the type `Arguments`, spelled out here because the struct
refers to itself. -/
structure Value where
  isVar : Bool
  isNull : Bool
  isEnum : Bool
  valType : reflect.Kind
  variable_ : GoString
  intValue : Int
  floatValue : FloatVal
  stringValue : GoString
  booleanValue : Bool
  enumValue : GoString
  listValue : Option (List Value)
  objectValue : Option (List (GoString × Value))
  qlTypeName : Option GoString

/-- Modelled from the spec: the declaration of the type `Arguments` is not in
the sources at hand; the spec describes a `Map` value as a mapping from
argument name to input value that keeps the order of declaration, here a list
of pairs, `none` when the map is `nil`. -/
abbrev Arguments := Option (List (GoString × Value))

namespace Value

/-- The zero value of the struct, `Value{}`. -/
def zero : Value where
  isVar := false
  isNull := false
  isEnum := false
  valType := reflect.Invalid
  variable_ := []
  intValue := 0
  floatValue := .finite false 0 0
  stringValue := []
  booleanValue := false
  enumValue := []
  listValue := none
  objectValue := none
  qlTypeName := none

/-- The method `SetToValueOf`, returning the receiver after the call. -/
def SetToValueOf (v : Value) (other : Value) : Value :=
  let v := { v with valType := other.valType }
  if other.valType = reflect.String then { v with stringValue := other.stringValue }
  else if other.valType = reflect.Int then { v with intValue := other.intValue }
  else if other.valType = reflect.Float64 then { v with floatValue := other.floatValue }
  else if other.valType = reflect.Bool then { v with booleanValue := other.booleanValue }
  else if other.valType = reflect.Array then { v with listValue := other.listValue }
  else if other.valType = reflect.Map then { v with objectValue := other.objectValue }
  else v

/-- The method `SetToValueOfAndExpect`, returning the receiver after the call
and the error. -/
def SetToValueOfAndExpect (v : Value) (other : Value) (expect : reflect.Kind) :
    Value × GoError :=
  if other.valType ≠ expect then
    (v, some ("Value expected to be of type ".toList ++ reflect.Kind.String expect))
  else
    (v.SetToValueOf other, none)

end Value

/-- The constructor `makeStringValue`. -/
def makeStringValue (val : GoString) : Value :=
  { Value.zero with valType := reflect.String, stringValue := val }

/-- The constructor `makeBooleanValue`. -/
def makeBooleanValue (val : Bool) : Value :=
  { Value.zero with valType := reflect.Bool, booleanValue := val }

/-- The constructor `makeIntValue`. -/
def makeIntValue (val : Int) : Value :=
  { Value.zero with valType := reflect.Int, intValue := val }

/-- The constructor `makeFloatValue`. -/
def makeFloatValue (val : FloatVal) : Value :=
  { Value.zero with valType := reflect.Float64, floatValue := val }

/-- The constructor `makeEnumValue`. -/
def makeEnumValue (val : GoString) : Value :=
  { Value.zero with isEnum := true, enumValue := val }

/-- The constructor `makeNullValue`. -/
def makeNullValue : Value :=
  { Value.zero with isNull := true }

/-- The constructor `makeArrayValue`: a `nil` list is replaced by the empty list. -/
def makeArrayValue (list : Option (List Value)) : Value :=
  let list := match list with
    | none => some []
    | some l => some l
  { Value.zero with valType := reflect.Array, listValue := list }

/-- The constructor `makeStructValue`: a `nil` map is replaced by the empty map. -/
def makeStructValue (keyValues : Arguments) : Value :=
  let keyValues := match keyValues with
    | none => some []
    | some kv => some kv
  { Value.zero with valType := reflect.Map, objectValue := keyValues }

/-- The constructor `makeVariableValue`. -/
def makeVariableValue (varName : GoString) : Value :=
  { Value.zero with variable_ := varName, isVar := true }


/-! ## JSON numbers and the renderings of `strconv.FormatFloat` -/

/-- A non-empty run of decimal digits. -/
def Digits (ds : GoString) : Prop := ds ≠ [] ∧ ∀ c ∈ ds, c.isDigit = true

/-- An optional minus sign. -/
def OptMinus (sg : GoString) : Prop := sg = [] ∨ sg = ['-']

/-- The integer part of a JSON number: `0`, or digits that do not start with `0`. -/
def JsonInt (ip : GoString) : Prop := ip = ['0'] ∨ (Digits ip ∧ ip.head? ≠ some '0')

/-- The optional fraction of a JSON number: a point and one or more digits. -/
def JsonFrac (fr : GoString) : Prop := fr = [] ∨ ∃ ds, Digits ds ∧ fr = '.' :: ds

/-- The optional exponent of a JSON number: `e` or `E`, an optional sign, and
one or more digits. -/
def JsonExp (ex : GoString) : Prop :=
  ex = [] ∨ ∃ (m : Char) (sg ds : GoString), (m = 'e' ∨ m = 'E') ∧
    (sg = [] ∨ sg = ['+'] ∨ sg = ['-']) ∧ Digits ds ∧ ex = m :: (sg ++ ds)

/-- The grammar of a JSON number (RFC 8259, section 6):
`[ minus ] int [ frac ] [ exp ]`. -/
def JsonNumber (s : GoString) : Prop :=
  ∃ sg ip fr ex, OptMinus sg ∧ JsonInt ip ∧ JsonFrac fr ∧ JsonExp ex ∧ s = sg ++ ip ++ fr ++ ex

/-- A well-formed rendering in format `'f'`: an optional minus sign, an integer
part without superfluous leading zero, and an optional fraction. -/
def WellFormedF (s : GoString) : Prop :=
  ∃ sg ip fr, OptMinus sg ∧ JsonInt ip ∧ JsonFrac fr ∧ s = sg ++ ip ++ fr

/-- A well-formed rendering in format `'e'`: an optional minus sign, one digit,
an optional fraction, `e`, a sign and the digits of the exponent. -/
def WellFormedE (s : GoString) : Prop :=
  ∃ (sg : GoString) (d : Char) (fr : GoString) (es : Char) (ds : GoString),
    OptMinus sg ∧ d.isDigit = true ∧ JsonFrac fr ∧ (es = '+' ∨ es = '-') ∧ Digits ds ∧
      s = sg ++ [d] ++ fr ++ ['e', es] ++ ds

/-- The bytes that occur before the exponent of a JSON number. -/
def MantissaByte (c : Char) : Prop := c = '-' ∨ c = '.' ∨ c.isDigit = true

/-! ## The contract of `strconv.FormatFloat` with precision `-1`

`strconv.FormatFloat` is part of the Go standard library. With precision `-1`
it computes a decimal `0.d₁d₂…dₙ × 10^dp` with the fewest digits that still
reads back as `f`, and lays it out with `fmtE` (format `'e'`) or `fmtF` (format
`'f'`). Below, the digits are a list of numbers `0..9`, most significant first. -/

/-- The byte `byte(d) + '0'` of the digit `d`. -/
def digitByte (d : Nat) : Char := Char.ofNat ((d + 48) % 256)

/-- The rational number `0.d₁d₂…dₙ × 10^dp`. -/
def decValue (ds : List Nat) (dp : Int) : ℚ :=
  ((Nat.ofDigits 10 ds.reverse : Nat) : ℚ) * (10 : ℚ) ^ (dp - (ds.length : Int))

/-- The digits of the exponent as `fmtE` writes them: two digits at least. -/
def expDigits (exp : Nat) : GoString :=
  if exp < 10 then ['0', digitByte exp]
  else if exp < 100 then [digitByte (exp / 10), digitByte (exp % 10)]
  else [digitByte (exp / 100), digitByte (exp / 10 % 10), digitByte (exp % 10)]

/-- The part of the layout `%e` before the exponent: sign, first digit, and a
point and the other digits if there are any. -/
def fmtEMantissa (neg : Bool) (ds : List Nat) : GoString :=
  (if neg then ['-'] else []) ++
    [match ds with
      | [] => '0'
      | d :: _ => digitByte d] ++
    (if ds.length > 1 then '.' :: ds.tail.map digitByte else [])

/-- The layout `%e` of `strconv` for the shortest digits (`prec = nd - 1`):
the mantissa, `e`, the sign of the exponent `dp - 1` (`0` when there is no
digit) and its digits. -/
def fmtE (neg : Bool) (ds : List Nat) (dp : Int) : GoString :=
  let exp : Int := if ds = [] then 0 else dp - 1
  fmtEMantissa neg ds ++ ['e'] ++ ((if exp < 0 then '-' else '+') :: expDigits exp.natAbs)

/-- The layout `%f` of `strconv` for the shortest digits
(`prec = max(nd - dp, 0)`): sign, the integer part padded with zeros (`0` when
`dp <= 0`), and when `prec > 0` a point and `prec` digits. -/
def fmtF (neg : Bool) (ds : List Nat) (dp : Int) : GoString :=
  let prec : Int := max ((ds.length : Int) - dp) 0
  (if neg then ['-'] else []) ++
    (if dp > 0 then
      (ds.take dp.toNat).map digitByte ++ List.replicate (dp.toNat - ds.length) '0'
    else ['0']) ++
    (if prec > 0 then
      '.' :: (List.range prec.toNat).map fun i =>
        let j : Int := dp + (i : Int)
        if 0 ≤ j ∧ j < (ds.length : Int) then digitByte (ds.getD j.toNat 0) else '0'
    else [])

/-- The float `g` is a finite value of the width `bits` (`float32` for 32,
`float64` otherwise). -/
def validAt (bits : Int) (g : FloatVal) : Bool :=
  g.isFinite && (if bits = 32 then g.valid32 else g.valid64)

/-- The float `f` is a nearest float of width `bits` to the rational `v`: no
finite float of that width is strictly closer. A decimal that reads back as
`f` has this property. -/
def NearestFloat (bits : Int) (f : FloatVal) (v : ℚ) : Prop :=
  ∀ g : FloatVal, validAt bits g = true → |v - f.toRat| ≤ |v - g.toRat|

/-- Digits as `strconv` produces them for a non-zero float: at least one, each
below ten, the first and the last not zero. -/
def ShortDigits (ds : List Nat) : Prop :=
  ds ≠ [] ∧ (∀ d ∈ ds, d < 10) ∧ ds.head? ≠ some 0 ∧ ds.getLast? ≠ some 0

/-- The string `s` is a rendering of the non-zero float `f` in format `'e'`
that reads back as `f`: the layout `fmtE` of digits whose decimal has `|f|` as
a nearest float. -/
def RoundTripE (bits : Int) (f : FloatVal) (s : GoString) : Prop :=
  ∃ (ds : List Nat) (dp : Int), ShortDigits ds ∧
    NearestFloat bits (FloatVal.Abs f) (decValue ds dp) ∧ s = fmtE f.signbit ds dp

/-- The string `s` is a shortest rendering of the non-zero float `f` in format
`'f'`: the layout `fmtF` of digits whose decimal has `|f|` as a nearest float,
while every decimal `D × 10^x` with fewer digits reads back as another float. -/
def ShortestF (bits : Int) (f : FloatVal) (s : GoString) : Prop :=
  ∃ (ds : List Nat) (dp : Int), ShortDigits ds ∧
    NearestFloat bits (FloatVal.Abs f) (decValue ds dp) ∧
    (∀ (D : Nat) (x : Int), 0 < D → D < 10 ^ (ds.length - 1) →
      ∃ g : FloatVal, validAt bits g = true ∧ g.toRat ≠ (FloatVal.Abs f).toRat ∧
        |(D : ℚ) * (10 : ℚ) ^ x - g.toRat| ≤ |(D : ℚ) * (10 : ℚ) ^ x - (FloatVal.Abs f).toRat|) ∧
    s = fmtF f.signbit ds dp

/-- The constant `1` as a float. -/
def c1 : FloatVal := .finite false 1 0

/-- The finite value is an integer. -/
def FloatVal.isInteger : FloatVal → Bool
  | .finite _ m e => decide (0 ≤ e) || decide (m % 2 ^ (-e).toNat = 0)
  | _ => false

/-- The float is exactly representable at the width `bits`: for 32, converting
to `float32` and back gives an equal value (`float64(float32(f)) == f`). -/
def FloatVal.representableAt (bits : Int) (f : FloatVal) : Bool :=
  if bits = 32 then
    match FloatVal.cmp (FloatVal.toFloat32 f) f with
    | some .eq => true
    | _ => false
  else true

/-- The shortest digits and decimal point of a few floats, as `strconv`
computes them: `1e-9`, `100e-100`, `1e21`, `12`, `13`, `1e-6`; no digits, which
is the decimal of zero, for any other float. -/
def sampleDigits (f : FloatVal) : List Nat × Int :=
  if FloatVal.Abs f = .finite false 4835703278458517 (-82) then ([1], -8)
  else if FloatVal.Abs f = .finite false 6156563468186637 (-378) then ([1], -97)
  else if FloatVal.Abs f = .finite false 476837158203125 21 then ([1], 22)
  else if FloatVal.Abs f = .finite false 12 0 then ([1, 2], 2)
  else if FloatVal.Abs f = .finite false 13 0 then ([1, 3], 2)
  else if FloatVal.Abs f = .finite false 4722366482869645 (-72) then ([1], -5)
  else ([], 0)

/-- What `strconv.FormatFloat(f, fmt, -1, bits)` returns on the floats of
`sampleDigits`, among them those of `TestValueToJson` (`12`, `13`,
`100e-100`), and on zero; used to evaluate `floatToJson` on concrete inputs. -/
def sampleFormatFloat : FormatFloatFn := fun f fmt _ _ =>
  if fmt = 'e' then fmtE f.signbit (sampleDigits f).1 (sampleDigits f).2
  else fmtF f.signbit (sampleDigits f).1 (sampleDigits f).2

/-! ## Invariants of `Value` -/

namespace Value

/-- None of the flags `isVar`, `isNull`, `isEnum` is set. -/
def noFlag (v : Value) : Prop := v.isVar = false ∧ v.isNull = false ∧ v.isEnum = false

/-- The number of flags among `isVar`, `isNull`, `isEnum` that are set. -/
def flagCount (v : Value) : Nat :=
  (if v.isVar then 1 else 0) + (if v.isNull then 1 else 0) + (if v.isEnum then 1 else 0)

/-- The tag invariant: at most one flag is set, and `valType` is the zero kind
exactly when a flag is set. -/
def TagInvariant (v : Value) : Prop :=
  v.flagCount ≤ 1 ∧ (v.valType = reflect.Invalid ↔ v.flagCount = 1)

/-- The kinds `SetToValueOf` has a payload for: String, Int, Float64, Bool,
Array, Map. -/
def isPayloadKind (k : reflect.Kind) : Prop :=
  k = reflect.String ∨ k = reflect.Int ∨ k = reflect.Float64 ∨ k = reflect.Bool ∨
    k = reflect.Array ∨ k = reflect.Map

/-- The scalar-tag set is disjoint from the flag set: `valType` is a
scalar/container kind only if none of `isVar`, `isNull`, `isEnum` is set. -/
def TagDisjoint (v : Value) : Prop := isPayloadKind v.valType → v.noFlag

/-- The payload fields of a `Value`. -/
inductive PayloadField where
  | variable | intValue | floatValue | stringValue | booleanValue | enumValue
  | listValue | objectValue | qlTypeName
deriving DecidableEq, Repr

/-- The payload field holds its zero value. -/
def fieldIsZero (v : Value) : PayloadField → Prop
  | .variable => v.variable_ = []
  | .intValue => v.intValue = 0
  | .floatValue => v.floatValue = .finite false 0 0
  | .stringValue => v.stringValue = []
  | .booleanValue => v.booleanValue = false
  | .enumValue => v.enumValue = []
  | .listValue => v.listValue = none
  | .objectValue => v.objectValue = none
  | .qlTypeName => v.qlTypeName = none

/-- The payload field selected by the tag of the value: the flags are looked at
before `valType`; a null value and a value of another kind select none. -/
def tagField (v : Value) : Option PayloadField :=
  if v.isVar then some .variable
  else if v.isNull then none
  else if v.isEnum then some .enumValue
  else if v.valType = reflect.String then some .stringValue
  else if v.valType = reflect.Int then some .intValue
  else if v.valType = reflect.Float64 then some .floatValue
  else if v.valType = reflect.Bool then some .booleanValue
  else if v.valType = reflect.Array then some .listValue
  else if v.valType = reflect.Map then some .objectValue
  else none

/-- The only payload field that may hold a non-zero value is the one selected
by the tag. -/
def OnlyTagPayload (v : Value) : Prop :=
  ∀ pf : PayloadField, v.tagField ≠ some pf → v.fieldIsZero pf

/-- Every payload field holds its zero value. -/
def payloadZero (v : Value) : Prop := ∀ pf : PayloadField, v.fieldIsZero pf

end Value

/-- The values reachable from the nine constructors by calls of `SetToValueOf`
and `SetToValueOfAndExpect`, the argument being reachable too. -/
inductive Reachable : Value → Prop where
  | string (val : GoString) : Reachable (makeStringValue val)
  | boolean (val : Bool) : Reachable (makeBooleanValue val)
  | int (val : Int) : Reachable (makeIntValue val)
  | float (val : FloatVal) : Reachable (makeFloatValue val)
  | enum (val : GoString) : Reachable (makeEnumValue val)
  | null : Reachable makeNullValue
  | array (list : Option (List Value)) : Reachable (makeArrayValue list)
  | struct (keyValues : Arguments) : Reachable (makeStructValue keyValues)
  | variable (varName : GoString) : Reachable (makeVariableValue varName)
  | set (v other : Value) : Reachable v → Reachable other → Reachable (v.SetToValueOf other)
  | setExpect (v other : Value) (expect : reflect.Kind) : Reachable v → Reachable other →
      Reachable (v.SetToValueOfAndExpect other expect).1

/-! ## The JSON encoder and the resolver (spec sections 4.6 and 4.7)

The sources of the resolver and of the JSON encoder other than `floatToJson`
are not at hand; what follows is modelled from the spec. A function of the
model returns the bytes a call appends to the output buffer and the errors it
appends to the error list; the JSON path and the depth counter of the
execution context are passed down as arguments. -/

/-- Modelled from the spec: the error kinds of section 7; the type is missing
from the sources at hand. -/
inductive ErrorKind where
  | Parse | AmbiguousOperator | UnknownField | TypeMismatch | CoercionFailure
  | ResolverError | DepthExceeded | Cancelled
deriving DecidableEq, Repr

/-- Modelled from the spec: an element of the JSON path of the execution
context, a field name or a list index. -/
inductive PathElem where
  | key (name : GoString)
  | index (i : Nat)
deriving DecidableEq, Repr

/-- Modelled from the spec: an error of the resolver, which carries a kind, a
human-readable message and the JSON path at which it was raised. -/
structure ResolveError where
  kind : ErrorKind
  message : GoString
  path : List PathElem
deriving DecidableEq, Repr

/-- Modelled from the spec: a value of the host program as the resolver sees
it by reflection (section 4.6): a struct with its type name and its exposed
fields under their GraphQL names, a pointer (`none` when nil), a slice (`none`
when nil), the scalars, and a value of a kind the resolver does not support
(complex numbers, say). Method fields, the `File` scalar and cyclic values are
outside the model; a `time.Time` is given by its RFC 3339 text. -/
inductive HostValue where
  | string (s : GoString)
  | bool (b : Bool)
  | int (i : Int)
  | uint (n : Nat)
  | float32 (f : FloatVal)
  | float64 (f : FloatVal)
  | time (rfc3339 : GoString)
  | unsupported
  | ptr (target : Option HostValue)
  | slice (elems : Option (List HostValue))
  | struct (typeName : GoString) (fields : List (GoString × HostValue))

/-- Modelled from the spec: a directive attached to a selection, in decoded
form: its name and the boolean its argument `if` evaluates to (a literal, or
the value bound to the variable). -/
structure Directive where
  name : GoString
  ifValue : Bool
deriving DecidableEq, Repr

/-- Modelled from the spec: a selection of a query in decoded form (the spec
leaves the byte codes of aliases and directives open): a field with optional
alias, directives and selection set; a fragment spread, linked to the
selection set of the fragment it names; an inline fragment with optional type
condition. Arguments belong to method fields, which are outside the model. -/
inductive Selection where
  | field (alias_ : Option GoString) (name : GoString) (directives : List Directive)
      (sels : List Selection)
  | fragmentSpread (name : GoString) (directives : List Directive) (sels : List Selection)
  | inlineFragment (typeCond : Option GoString) (directives : List Directive)
      (sels : List Selection)

/-- The directives of a selection. -/
def Selection.directives : Selection → List Directive
  | .field _ _ ds _ => ds
  | .fragmentSpread _ ds _ => ds
  | .inlineFragment _ ds _ => ds

/-- The JSON text `null`. -/
def jsonNull : GoString := ['n', 'u', 'l', 'l']

/-- The hexadecimal digit of a number below sixteen. -/
def hexDigit (n : Nat) : Char := if n < 10 then Char.ofNat (48 + n) else Char.ofNat (87 + n)

/-- Modelled from the spec: the escape of one byte of a JSON string (section
4.7): the quote, the backslash, `\n \r \t \b \f`, and the other control bytes
below `0x20` as `\u00XX`. -/
def escapeByte (c : Char) : GoString :=
  if c = '"' then ['\\', '"']
  else if c = '\\' then ['\\', '\\']
  else if c = '\n' then ['\\', 'n']
  else if c = '\r' then ['\\', 'r']
  else if c = '\t' then ['\\', 't']
  else if c = Char.ofNat 8 then ['\\', 'b']
  else if c = Char.ofNat 12 then ['\\', 'f']
  else if c.toNat < 32 then ['\\', 'u', '0', '0', hexDigit (c.toNat / 16), hexDigit (c.toNat % 16)]
  else [c]

/-- Modelled from the spec: the JSON string written for a Go string. -/
def stringToJson (s : GoString) : GoString := ['"'] ++ s.flatMap escapeByte ++ ['"']

/-- The decimal text of an integer. -/
def intToJson (i : Int) : GoString :=
  if i < 0 then '-' :: Nat.toDigits 10 i.natAbs else Nat.toDigits 10 i.toNat

/-- The bytes `floatToJson` appends to a buffer (it never fails, see
`cleanExp_eq`). -/
def floatToJsonBytes (FormatFloat : FormatFloatFn) (bits : Int) (f : FloatVal) : GoString :=
  match floatToJson FormatFloat bits f [] with
  | some b => b
  | none => []

/-- Modelled from the spec: the bytes `valueToJson` writes for a scalar value
or a pointer (section 4.6, rules 3 and 5, section 4.7): a pointer is
dereferenced until a non-nil value or `null`; a string is escaped; integers
are written in decimal, floats by `floatToJson`; a value of an unsupported
kind is written `null`. -/
def valueToJson (FormatFloat : FormatFloatFn) : HostValue → GoString
  | .string s => stringToJson s
  | .bool b => if b then ['t', 'r', 'u', 'e'] else ['f', 'a', 'l', 's', 'e']
  | .int i => intToJson i
  | .uint n => Nat.toDigits 10 n
  | .float32 f => floatToJsonBytes FormatFloat 32 f
  | .float64 f => floatToJsonBytes FormatFloat 64 f
  | .time t => stringToJson t
  | .ptr none => jsonNull
  | .ptr (some v) => valueToJson FormatFloat v
  | _ => jsonNull

/-- The directive is `@skip(if: true)` or `@include(if: false)`. -/
def Directive.omits (d : Directive) : Bool :=
  (d.name = ['s', 'k', 'i', 'p'] && d.ifValue) ||
    (d.name = ['i', 'n', 'c', 'l', 'u', 'd', 'e'] && !d.ifValue)

/-- The directive is `@skip(if: false)` or `@include(if: true)`. -/
def Directive.neutral (d : Directive) : Bool :=
  (d.name = ['s', 'k', 'i', 'p'] && !d.ifValue) ||
    (d.name = ['i', 'n', 'c', 'l', 'u', 'd', 'e'] && d.ifValue)

/-- Modelled from the spec: a selection is omitted when one of its directives
is `@skip(if: true)` or `@include(if: false)`; other directives are ignored
(section 4.6, rule 7). -/
def shouldSkip (directives : List Directive) : Bool :=
  directives.any Directive.omits

/-- The selection set of a selection. -/
def Selection.sels : Selection → List Selection
  | .field _ _ _ ch => ch
  | .fragmentSpread _ _ ch => ch
  | .inlineFragment _ _ ch => ch

/-- The selection with other directives. -/
def Selection.withDirectives (ds : List Directive) : Selection → Selection
  | .field a n _ ch => .field a n ds ch
  | .fragmentSpread n _ ch => .fragmentSpread n ds ch
  | .inlineFragment t _ ch => .inlineFragment t ds ch

/-- The selection with another selection set. -/
def Selection.withSels (ch : List Selection) : Selection → Selection
  | .field a n ds _ => .field a n ds ch
  | .fragmentSpread n ds _ => .fragmentSpread n ds ch
  | .inlineFragment t ds _ => .inlineFragment t ds ch

/-- The selection set on the right is the one on the left after one of these
changes, made at any depth: a selection carrying `@skip(if: true)` or
`@include(if: false)` is deleted, or a directive `@skip(if: false)` or
`@include(if: true)` is removed from a selection. -/
inductive Elides : List Selection → List Selection → Prop where
  | delete (pre post : List Selection) (sel : Selection) (d : Directive) :
      d ∈ sel.directives → d.omits = true → Elides (pre ++ sel :: post) (pre ++ post)
  | dropDirective (pre post : List Selection) (sel : Selection) (ds₁ ds₂ : List Directive)
      (d : Directive) :
      sel.directives = ds₁ ++ d :: ds₂ → d.neutral = true →
      Elides (pre ++ sel :: post) (pre ++ sel.withDirectives (ds₁ ++ ds₂) :: post)
  | inside (pre post : List Selection) (sel : Selection) (ch : List Selection) :
      Elides sel.sels ch → Elides (pre ++ sel :: post) (pre ++ sel.withSels ch :: post)

/-- Case-insensitive equality of two names. -/
def eqFold (a b : GoString) : Bool := a.map Char.toLower = b.map Char.toLower

/-- The JSON key of a field: the alias when present, else the field name
(section 4.6, rule 6). -/
def fieldKey (alias_ : Option GoString) (name : GoString) : GoString :=
  match alias_ with
  | some a => a
  | none => name

/-- The parameters of a resolution that do not change on the way:
`strconv.FormatFloat` and the bound `MaxDepth` on the nesting of objects. -/
structure ResolveEnv where
  FormatFloat : FormatFloatFn
  MaxDepth : Nat

/-- The name of the meta field `__typename`. -/
def typenameField : GoString := "__typename".toList

mutual

/-- Modelled from the spec: the resolution of a value against a selection set
(section 4.6), returning the bytes written and the errors recorded. A struct
is written as an object unless the depth counter exceeds `MaxDepth`, in which
case it is written `null` and an error is recorded (rule 10); a pointer is
dereferenced, `null` when nil (rule 3); a slice is written as a list, `null`
when nil (rule 4); a scalar is written by `valueToJson` (rule 5). -/
def resolveValue (env : ResolveEnv) (v : HostValue) (sels : List Selection)
    (path : List PathElem) (depth : Nat) : GoString × List ResolveError :=
  match v with
  | .struct typeName fields =>
    if depth + 1 > env.MaxDepth then
      (jsonNull, [⟨.DepthExceeded, "max depth exceeded".toList, path⟩])
    else
      let r := resolveSelections env typeName fields sels path (depth + 1) true
      (['{'] ++ r.1 ++ ['}'], r.2.1)
  | .ptr none => (jsonNull, [])
  | .ptr (some target) => resolveValue env target sels path depth
  | .slice none => (jsonNull, [])
  | .slice (some elems) =>
    let r := resolveElems env elems sels path depth 0
    (['['] ++ r.1 ++ [']'], r.2)
  | .string s => (valueToJson env.FormatFloat (.string s), [])
  | .bool b => (valueToJson env.FormatFloat (.bool b), [])
  | .int i => (valueToJson env.FormatFloat (.int i), [])
  | .uint n => (valueToJson env.FormatFloat (.uint n), [])
  | .float32 f => (valueToJson env.FormatFloat (.float32 f), [])
  | .float64 f => (valueToJson env.FormatFloat (.float64 f), [])
  | .time t => (valueToJson env.FormatFloat (.time t), [])
  | .unsupported => (valueToJson env.FormatFloat .unsupported, [])
termination_by (sizeOf v + sizeOf sels, 0)

/-- Modelled from the spec: the elements of a slice from index `i` on, each
resolved with the same selection set, a comma before every element but the
first (section 4.6, rule 4). -/
def resolveElems (env : ResolveEnv) (elems : List HostValue) (sels : List Selection)
    (path : List PathElem) (depth : Nat) (i : Nat) : GoString × List ResolveError :=
  match elems with
  | [] => ([], [])
  | el :: rest =>
    let r₁ := resolveValue env el sels (path ++ [.index i]) depth
    let r₂ := resolveElems env rest sels path depth (i + 1)
    ((if i = 0 then [] else [',']) ++ r₁.1 ++ r₂.1, r₁.2 ++ r₂.2)
termination_by (sizeOf elems + sizeOf sels, 0)

/-- Modelled from the spec: the selections of a selection set resolved in
order against the fields of one struct (section 4.6, rules 1 and 6 to 9).
`first` tells that no key has been written yet in the object; the result holds
the bytes written, the errors recorded and the new value of `first`. A
selection omitted by its directives writes nothing; the selection set of a
fragment spread or inline fragment is resolved against the same struct, the
type condition being advisory. -/
def resolveSelections (env : ResolveEnv) (typeName : GoString)
    (fields : List (GoString × HostValue)) (sels : List Selection) (path : List PathElem)
    (depth : Nat) (first : Bool) : GoString × List ResolveError × Bool :=
  match sels with
  | [] => ([], [], first)
  | .field alias_ name directives children :: rest =>
    let r₁ : GoString × List ResolveError × Bool :=
      if shouldSkip directives then ([], [], first)
      else if name = typenameField then
        ((if first then [] else [',']) ++ stringToJson (fieldKey alias_ name) ++ [':'] ++
          stringToJson typeName, [], false)
      else resolveField env typeName fields (fieldKey alias_ name) name children path depth first
    let r₂ := resolveSelections env typeName fields rest path depth r₁.2.2
    (r₁.1 ++ r₂.1, r₁.2.1 ++ r₂.2.1, r₂.2.2)
  | .fragmentSpread _ directives children :: rest =>
    let r₁ : GoString × List ResolveError × Bool :=
      if shouldSkip directives then ([], [], first)
      else resolveSelections env typeName fields children path depth first
    let r₂ := resolveSelections env typeName fields rest path depth r₁.2.2
    (r₁.1 ++ r₂.1, r₁.2.1 ++ r₂.2.1, r₂.2.2)
  | .inlineFragment _ directives children :: rest =>
    let r₁ : GoString × List ResolveError × Bool :=
      if shouldSkip directives then ([], [], first)
      else resolveSelections env typeName fields children path depth first
    let r₂ := resolveSelections env typeName fields rest path depth r₁.2.2
    (r₁.1 ++ r₂.1, r₁.2.1 ++ r₂.2.1, r₂.2.2)
termination_by (sizeOf fields + sizeOf sels, 0)

/-- Modelled from the spec: one field selection resolved against the fields of
a struct that are still to be looked at (section 4.6, rule 1): the first field
whose name matches case-insensitively is written as `"key":value`, after a
comma unless it is the first key of the object; when no field matches, the
error `<name> does not exists on <TypeName>` is recorded and nothing is
written, as in scenario 3 of section 8. -/
def resolveField (env : ResolveEnv) (typeName : GoString)
    (fields : List (GoString × HostValue)) (key name : GoString) (children : List Selection)
    (path : List PathElem) (depth : Nat) (first : Bool) :
    GoString × List ResolveError × Bool :=
  match fields with
  | [] =>
    ([], [⟨.UnknownField, name ++ " does not exists on ".toList ++ typeName,
      path ++ [.key name]⟩], first)
  | (fieldName, fieldValue) :: rest =>
    if eqFold fieldName name then
      let r := resolveValue env fieldValue children (path ++ [.key key]) depth
      ((if first then [] else [',']) ++ stringToJson key ++ [':'] ++ r.1, r.2, false)
    else resolveField env typeName rest key name children path depth first
termination_by (sizeOf fields + sizeOf children, 1)

end

/-- Modelled from the spec: the kind of an operator. -/
inductive OperatorKind where
  | query | mutation | subscription
deriving DecidableEq, Repr

/-- Modelled from the spec: an operator of a query document in decoded form:
kind, name (empty when there is none) and selection set. -/
structure Operator where
  kind : OperatorKind
  name : GoString
  sels : List Selection

/-- Modelled from the spec: the option `OperatorTarget` of `Resolve` (section
4.6), the empty string when unset. The options `Variables`, `Values`, `Context`
and `GetFormFile` are outside the model. -/
structure ResolveOptions where
  OperatorTarget : GoString

/-- Modelled from the spec: a schema, that is the root values of the host for
queries, mutations and subscriptions, and the bound `MaxDepth`. -/
structure Schema where
  queryRoot : HostValue
  mutationRoot : HostValue
  subscriptionRoot : HostValue
  MaxDepth : Nat

/-- The result `{}` with one error of kind `AmbiguousOperator`. -/
def ambiguousOperator (message : GoString) : GoString × List ResolveError :=
  (['{', '}'], [⟨.AmbiguousOperator, message, []⟩])

/-- Modelled from the spec: the execution of one operator: its selection set
resolved against the root value of its kind. -/
def execOperator (FormatFloat : FormatFloatFn) (s : Schema) (op : Operator) :
    GoString × List ResolveError :=
  let root := match op.kind with
    | .query => s.queryRoot
    | .mutation => s.mutationRoot
    | .subscription => s.subscriptionRoot
  resolveValue ⟨FormatFloat, s.MaxDepth⟩ root op.sels [] 0

/-- Modelled from the spec: the entry point `Resolve` on the decoded operators
of a document (section 4.6): no operator gives `{}`; a single operator is
executed; with several operators the one named by `OperatorTarget` is
executed, and when `OperatorTarget` is unset the call fails with
`AmbiguousOperator` and returns `{}`. The spec does not say what happens when
no operator has the name asked for; the model fails in the same way. -/
def Resolve (FormatFloat : FormatFloatFn) (s : Schema) (operators : List Operator)
    (options : ResolveOptions) : GoString × List ResolveError :=
  match operators with
  | [] => (['{', '}'], [])
  | [op] => execOperator FormatFloat s op
  | _ =>
    if options.OperatorTarget = [] then
      ambiguousOperator "multiple operators without an operator target".toList
    else
      match operators.find? fun op => op.name = options.OperatorTarget with
      | some op => execOperator FormatFloat s op
      | none => ambiguousOperator "no operator has the name of the operator target".toList

/-- Two selection sets that every struct resolves alike. -/
def SameSelections (env : ResolveEnv) (sels sels' : List Selection) : Prop :=
  ∀ (tn : GoString) (fields : List (GoString × HostValue)) (path : List PathElem)
    (depth : Nat) (first : Bool),
    resolveSelections env tn fields sels path depth first =
      resolveSelections env tn fields sels' path depth first

/-- Modelled from the spec: two operators of the same name that execute to the
same body and errors (the resolver is missing from the sources). -/
def SameOperator (FormatFloat : FormatFloatFn) (s : Schema) (a b : Operator) : Prop :=
  a.name = b.name ∧ execOperator FormatFloat s a = execOperator FormatFloat s b

/-! ## The query parser and its bytecode (spec sections 3, 4.1, 4.3 and 4.4)

The parser is not among the sources: `bytecode_test.go` shows its context type
`parserCtx` (fields `res`, `query`, `errors`), its entry `parseQueryToBytecode`
and the bytecode expected for a number of queries. The definitions below model
the lexical reader, the bytecode emitter and the recursive-descent parser of
the spec for the whole grammar of section 4.4: operators with variable
definitions and directives, fragment definitions, fields with alias, arguments,
directives and selection set, fragment spreads, inline fragments, and the input
values. The spec leaves the codes of the sub-records open; the model writes an
alias as `a`, an argument as `A`, a directive as `d`, a variable definition as
`V` and a directive of a variable definition as `D`, each followed by its
payload and NUL. The recursion of the parser is unfolded into single steps over
the stack of open scopes that the emitter keeps; after a step that fails the
run recovers in panic mode and goes on, and at the end of the query it closes
the scopes left open. -/

/-- Modelled from the spec: the NUL byte that ends every record of the
bytecode (section 3; the parser is missing from the sources). -/
def nulByte : Char := Char.ofNat 0

/-- Modelled from the spec: the whitespace of the lexical reader (section
4.1): SP, TAB, CR, LF and the comma. -/
def isWhitespace (c : Char) : Bool :=
  c = ' ' || c = '\t' || c = '\r' || c = '\n' || c = ','

/-- Modelled from the spec: skip whitespace and line comments, which start
with `#` and end with the line (section 4.1); `inComment` tells that the
reader is inside a comment. The result is the unread rest. -/
def skipIgnored : Bool → GoString → GoString
  | _, [] => []
  | true, c :: cs => if c = '\n' ∨ c = '\r' then skipIgnored false cs else skipIgnored true cs
  | false, c :: cs =>
    if isWhitespace c then skipIgnored false cs
    else if c = '#' then skipIgnored true cs
    else c :: cs

/-- Modelled from the spec: the first byte of a name: a letter or `_`. -/
def isNameStart (c : Char) : Bool := c.isAlpha || c = '_'

/-- Modelled from the spec: a byte of a name: a letter, a digit or `_`. -/
def isNameByte (c : Char) : Bool := c.isAlphanum || c = '_'

/-- Modelled from the spec: read a name at the cursor: the longest run of name
bytes, which has to start with a letter or `_`; gives the name and the unread
rest, or nothing (and consumes nothing) when no name starts here. -/
def readName (s : GoString) : Option (GoString × GoString) :=
  match s with
  | [] => none
  | c :: _ => if isNameStart c then some (s.span isNameByte) else none

/-- Modelled from the spec: match the keyword `on`, which is the keyword only
when whitespace follows (section 4.4, key policies); gives the unread rest. -/
def matchOn (s : GoString) : Option GoString :=
  match s with
  | a :: b :: c :: t => if a = 'o' ∧ b = 'n' ∧ isWhitespace c = true then some t else none
  | _ => none

/-- Modelled from the spec: match the three dots of a spread. -/
def matchDots (s : GoString) : Option GoString :=
  match s with
  | a :: b :: c :: t => if a = '.' ∧ b = '.' ∧ c = '.' then some t else none
  | _ => none

/-- Modelled from the spec: match the opening brace of a selection set. -/
def expectOpen (s : GoString) : Option GoString :=
  match s with
  | c :: t => if c = '{' then some t else none
  | [] => none

/-- Modelled from the spec: match a literal byte (section 4.1): the unread
rest after it, or nothing, with nothing consumed, when another byte or the end
of the query is at the cursor. -/
def expectByte (b : Char) (s : GoString) : Option GoString :=
  match s with
  | c :: t => if c = b then some t else none
  | [] => none

/-- The double quote that delimits a string value. -/
def quoteByte : Char := Char.ofNat 34

/-- The backslash that starts an escape of a string value. -/
def backslashByte : Char := Char.ofNat 92

/-- Modelled from the spec: a source character of the GraphQL grammar: TAB,
LF, CR, and every character from U+0020 on. -/
def isSourceChar (c : Char) : Bool := c = '\t' || c = '\n' || c = '\r' || decide (32 ≤ c.toNat)

/-- Modelled from the spec: a character that stands for itself in a string
value: a source character other than the quote, the backslash and the line
terminators. -/
def isStringChar (c : Char) : Bool :=
  isSourceChar c && c != quoteByte && c != backslashByte && c != '\n' && c != '\r'

/-- Modelled from the spec: the bytes that may follow the backslash of an
escape other than a unicode escape: the quote, the backslash, `/`, `b`, `f`,
`n`, `r` and `t` (section 4.4, key policies). -/
def isEscapeByte (c : Char) : Bool :=
  c = quoteByte || c = backslashByte || c = '/' || c = 'b' || c = 'f' || c = 'n' || c = 'r' ||
    c = 't'

/-- A hexadecimal digit of a unicode escape. -/
def isHexDigit (c : Char) : Bool :=
  c.isDigit || (decide (97 ≤ c.toNat) && decide (c.toNat ≤ 102)) ||
    (decide (65 ≤ c.toNat) && decide (c.toNat ≤ 70))

/-- The state of the reader inside a string value: between characters, after
the backslash of an escape, or inside a unicode escape with `due` more
hexadecimal digits to come after the next one. -/
inductive StringState where
  | plain
  | escape
  | hex (due : Nat)
deriving DecidableEq, Repr

/-- Modelled from the spec: read a string value from after its opening quote
to its closing quote, with the backslash escapes of section 4.4; gives the
unread rest, or the place of the failure: the end of the query, a line
terminator or control character, or a byte that is no escape. -/
def scanString : StringState → GoString → Except GoString GoString
  | _, [] => .error []
  | .plain, c :: t =>
    if c = quoteByte then .ok t
    else if c = backslashByte then scanString .escape t
    else if isStringChar c then scanString .plain t
    else .error (c :: t)
  | .escape, c :: t =>
    if c = 'u' then scanString (.hex 3) t
    else if isEscapeByte c then scanString .plain t
    else .error (c :: t)
  | .hex due, c :: t =>
    if isHexDigit c then
      scanString (match due with
        | 0 => .plain
        | k + 1 => .hex k) t
    else .error (c :: t)

/-- Modelled from the spec: read a block string of the GraphQL grammar from
after its opening three quotes to its closing three quotes; a backslash in
front of three quotes keeps them in the string. `skip` bytes are passed
unread first. -/
def scanBlockString : Nat → GoString → Except GoString GoString
  | _, [] => .error []
  | skip + 1, _ :: t => scanBlockString skip t
  | 0, c :: t =>
    if c = quoteByte ∧ t.take 2 = [quoteByte, quoteByte] then .ok (t.drop 2)
    else if c = backslashByte ∧ t.take 3 = [quoteByte, quoteByte, quoteByte] then
      scanBlockString 3 t
    else if isSourceChar c then scanBlockString 0 t
    else .error (c :: t)

/-- Modelled from the spec: read a string value from after its opening quote:
two more quotes open a block string. -/
def scanStringValue (s : GoString) : Except GoString GoString :=
  if s.take 2 = [quoteByte, quoteByte] then scanBlockString 0 (s.drop 2)
  else scanString .plain s

/-- Modelled from the spec: read a run of one or more digits. -/
def scanDigits (s : GoString) : Option GoString :=
  match s with
  | c :: t => if c.isDigit then some (t.dropWhile Char.isDigit) else none
  | [] => none

/-- Modelled from the spec: the end of a number: no name byte and no dot
follows it. -/
def numberEnd (s : GoString) : Except GoString GoString :=
  match s with
  | [] => .ok []
  | c :: _ => if isNameByte c = true ∨ c = '.' then .error s else .ok s

/-- The optional sign of an exponent. -/
def skipSign (s : GoString) : GoString :=
  match s with
  | c :: t => if c = '+' ∨ c = '-' then t else s
  | [] => []

/-- Modelled from the spec: the optional exponent of a float and the end of
the number. -/
def scanExponent (s : GoString) : Except GoString GoString :=
  match s with
  | c :: t =>
    if c = 'e' ∨ c = 'E' then
      match scanDigits (skipSign t) with
      | some t1 => numberEnd t1
      | none => .error (skipSign t)
    else numberEnd s
  | [] => .ok []

/-- Modelled from the spec: the optional fraction of a float, and what
follows it. -/
def scanFraction (s : GoString) : Except GoString GoString :=
  match expectByte '.' s with
  | some t =>
    match scanDigits t with
    | some t1 => scanExponent t1
    | none => .error t
  | none => scanExponent s

/-- Modelled from the spec: read an integer or a float (section 4.4, key
policies): an optional minus sign, the integer part, which is `0` or starts
with another digit, an optional fraction and an optional exponent. -/
def scanNumber (s : GoString) : Except GoString GoString :=
  match (expectByte '-' s).getD s with
  | c :: t =>
    if c = '0' then scanFraction t
    else if c.isDigit then scanFraction (t.dropWhile Char.isDigit)
    else .error (c :: t)
  | [] => .error []

/-- What the reader of input values is reading: one value, the items of a
list up to its closing bracket, or the fields of an object up to its closing
brace. -/
inductive ValueMode where
  | value | items | fields
deriving DecidableEq, Repr

/-- Modelled from the spec: read an input value (section 4.4, key policies):
a variable `$Name` where `allowVar` holds, a string, a list, an object, a
number, or a name, which is `null`, a boolean or an enum value. The result is
the unread rest, or the place of the failure. The first argument bounds the
number of values and brackets read. -/
def scanValueAux : Nat → ValueMode → Bool → GoString → Except GoString GoString
  | 0, _, _, s => .error s
  | n + 1, .value, allowVar, s =>
    match s with
    | [] => .error []
    | c :: t =>
      if c = '$' then
        if allowVar then
          match readName (skipIgnored false t) with
          | some (_, t1) => .ok t1
          | none => .error (skipIgnored false t)
        else .error (c :: t)
      else if c = quoteByte then scanStringValue t
      else if c = '[' then scanValueAux n .items allowVar (skipIgnored false t)
      else if c = '{' then scanValueAux n .fields allowVar (skipIgnored false t)
      else if c = '-' ∨ c.isDigit = true then scanNumber (c :: t)
      else
        match readName (c :: t) with
        | some (_, t1) => .ok t1
        | none => .error (c :: t)
  | n + 1, .items, allowVar, s =>
    match s with
    | [] => .error []
    | c :: t =>
      if c = ']' then .ok t
      else
        match scanValueAux n .value allowVar (c :: t) with
        | .ok t1 => scanValueAux n .items allowVar (skipIgnored false t1)
        | .error p => .error p
  | n + 1, .fields, allowVar, s =>
    match s with
    | [] => .error []
    | c :: t =>
      if c = '}' then .ok t
      else
        match readName (c :: t) with
        | none => .error (c :: t)
        | some (_, t1) =>
          match expectByte ':' (skipIgnored false t1) with
          | none => .error (skipIgnored false t1)
          | some t2 =>
            match scanValueAux n .value allowVar (skipIgnored false t2) with
            | .ok t3 => scanValueAux n .fields allowVar (skipIgnored false t3)
            | .error p => .error p

/-- Modelled from the spec: read one input value at the cursor. Every value
and bracket read takes a byte, so the bound is not reached. -/
def scanValue (allowVar : Bool) (s : GoString) : Except GoString GoString :=
  scanValueAux (2 * s.length + 1) .value allowVar s

/-- The text read between the cursor `s` and the later cursor `t`. -/
def rawText (s t : GoString) : GoString := s.take (s.length - t.length)

/-- Modelled from the spec: the kinds of sub-record that the emitter attaches
to a record (section 3 leaves their codes open): the alias of a field, an
argument, a directive, a variable definition, and a directive of a variable
definition. -/
inductive AttachKind where
  | aliasName | argument | directive | variableDef | variableDirective
deriving DecidableEq, Repr

/-- The opcode letter of a sub-record. -/
def AttachKind.letter : AttachKind → Char
  | .aliasName => 'a'
  | .argument => 'A'
  | .directive => 'd'
  | .variableDef => 'V'
  | .variableDirective => 'D'

/-- Modelled from the spec: a sub-record to attach: its kind and its payload:
the alias; the name of the argument, a colon and the text of its value; the
name of the directive, whose arguments follow as sub-records of their own;
the name of the variable, a colon and the text of its type and default
value. -/
structure Attachment where
  kind : AttachKind
  payload : GoString
deriving DecidableEq, Repr

/-- Modelled from the spec: the bytes of a sub-record: the letter, the
payload, NUL. The payload is written without NUL bytes, which are reserved as
the separator (none can stand in a name, a number or a string; a comment
inside a list or an object can hold one). -/
def Attachment.bytes (a : Attachment) : GoString :=
  a.kind.letter :: a.payload.filter (fun c => c != nulByte) ++ [nulByte]

/-- The bytes of the sub-records, in the order of the source. -/
def attachBytes : List Attachment → GoString
  | [] => []
  | a :: rest => a.bytes ++ attachBytes rest

/-- Modelled from the spec: rule `Arguments` after its opening parenthesis
and the ignored bytes that follow it: pairs `Name ':' Value` up to the closing
parenthesis; the empty list is allowed (section 4.4). The result is the
arguments and the unread rest, or the place of the failure. -/
def scanArguments : Nat → Bool → GoString → Except GoString (List Attachment × GoString)
  | 0, _, s => .error s
  | n + 1, allowVar, s =>
    match s with
    | [] => .error []
    | c :: t =>
      if c = ')' then .ok ([], t)
      else
        match readName (c :: t) with
        | none => .error (c :: t)
        | some (name, t1) =>
          match expectByte ':' (skipIgnored false t1) with
          | none => .error (skipIgnored false t1)
          | some t2 =>
            match scanValue allowVar (skipIgnored false t2) with
            | .error p => .error p
            | .ok t3 =>
              match scanArguments n allowVar (skipIgnored false t3) with
              | .error p => .error p
              | .ok (args, t4) =>
                .ok (⟨.argument, name ++ ':' :: rawText (skipIgnored false t2) t3⟩ :: args, t4)

/-- Modelled from the spec: the optional `Arguments` after a name: when no
opening parenthesis follows, nothing is read. -/
def scanOptArguments (allowVar : Bool) (s : GoString) :
    Except GoString (List Attachment × GoString) :=
  match expectByte '(' (skipIgnored false s) with
  | some t => scanArguments (t.length + 1) allowVar (skipIgnored false t)
  | none => .ok ([], s)

/-- Modelled from the spec: rule `Directives?`: directives `'@' Name
Arguments?` as long as an `@` follows; any name is accepted (section 4.4, key
policies). The result is the sub-records of the directives and their
arguments, and the unread rest. -/
def scanDirectives : Nat → AttachKind → Bool → GoString →
    Except GoString (List Attachment × GoString)
  | 0, _, _, s => .error s
  | n + 1, kind, allowVar, s =>
    match expectByte '@' (skipIgnored false s) with
    | none => .ok ([], s)
    | some t =>
      match readName (skipIgnored false t) with
      | none => .error (skipIgnored false t)
      | some (name, t1) =>
        match scanOptArguments allowVar t1 with
        | .error p => .error p
        | .ok (args, t2) =>
          match scanDirectives n kind allowVar t2 with
          | .error p => .error p
          | .ok (rest, t3) => .ok (⟨kind, name⟩ :: args ++ rest, t3)

/-- The optional `!` of a non-null type. -/
def skipBang (s : GoString) : GoString :=
  match expectByte '!' (skipIgnored false s) with
  | some t => t
  | none => s

/-- Modelled from the spec: the type of a variable definition: a name or a
list type in brackets, each with an optional `!`. -/
def scanType : Nat → GoString → Except GoString GoString
  | 0, s => .error s
  | n + 1, s =>
    match s with
    | [] => .error []
    | c :: t =>
      if c = '[' then
        match scanType n (skipIgnored false t) with
        | .error p => .error p
        | .ok t1 =>
          match expectByte ']' (skipIgnored false t1) with
          | some t2 => .ok (skipBang t2)
          | none => .error (skipIgnored false t1)
      else
        match readName (c :: t) with
        | some (_, t1) => .ok (skipBang t1)
        | none => .error (c :: t)

/-- Modelled from the spec: the optional default value of a variable
definition: `=` and a value without variables. -/
def scanDefault (s : GoString) : Except GoString GoString :=
  match expectByte '=' (skipIgnored false s) with
  | some t => scanValue false (skipIgnored false t)
  | none => .ok s

/-- Modelled from the spec: rule `VariableDefs` after its opening parenthesis
and the ignored bytes that follow it: definitions `'$' Name ':' Type`, each
with an optional default value and optional directives, up to the closing
parenthesis. -/
def scanVariableDefs : Nat → GoString → Except GoString (List Attachment × GoString)
  | 0, s => .error s
  | n + 1, s =>
    match s with
    | [] => .error []
    | c :: t =>
      if c = ')' then .ok ([], t)
      else if c = '$' then
        match readName (skipIgnored false t) with
        | none => .error (skipIgnored false t)
        | some (name, t1) =>
          match expectByte ':' (skipIgnored false t1) with
          | none => .error (skipIgnored false t1)
          | some t2 =>
            match scanType (t2.length + 1) (skipIgnored false t2) with
            | .error p => .error p
            | .ok t3 =>
              match scanDefault t3 with
              | .error p => .error p
              | .ok t4 =>
                match scanDirectives (t4.length + 1) .variableDirective false t4 with
                | .error p => .error p
                | .ok (ds, t5) =>
                  match scanVariableDefs n (skipIgnored false t5) with
                  | .error p => .error p
                  | .ok (rest, t6) =>
                    .ok (⟨.variableDef, name ++ ':' :: rawText (skipIgnored false t2) t4⟩ ::
                      ds ++ rest, t6)
      else .error (c :: t)

/-- Modelled from the spec: the optional `VariableDefs` of an operator. -/
def scanOptVariableDefs (s : GoString) : Except GoString (List Attachment × GoString) :=
  match expectByte '(' (skipIgnored false s) with
  | some t => scanVariableDefs (t.length + 1) (skipIgnored false t)
  | none => .ok ([], s)

/-- Modelled from the spec: the failures of the lexical reader (section 4.1;
the parser is missing from the sources). -/
inductive ParseErrorKind where
  | UnexpectedEOF
  | UnexpectedByte (byte : Char)
deriving DecidableEq, Repr

/-- Modelled from the spec: a parse error with the offset of the byte (or of
the end of the query) at which it was raised. -/
structure ParseError where
  kind : ParseErrorKind
  offset : Nat
deriving DecidableEq, Repr

/-- Modelled from the spec: the kinds of scope on the stack of the bytecode
emitter (section 4.3). -/
inductive ScopeKind where
  | operator | fragmentDef | field | inlineFragment
deriving DecidableEq, Repr

/-- Modelled from the spec: the context of the parser (type `parserCtx` of
`bytecode_test.go`, whose definition is missing from the sources): the
bytecode written so far, the query, the errors, and the emitter's stack of open
scopes. The cursor is kept as the unread rest of the query in `query`, and an
error is noted with the number of bytes unread when it was raised, from which
`parseQuery` computes its offset. -/
structure parserCtx where
  res : GoString
  query : GoString
  errors : List (ParseErrorKind × Nat)
  scopes : List ScopeKind

/-- Modelled from the spec: the second byte of an operator record. -/
def kindLetter : OperatorKind → Char
  | .query => 'q'
  | .mutation => 'm'
  | .subscription => 's'

/-- Modelled from the spec: the keyword of an operator kind. -/
def operatorKeyword (w : GoString) : Option OperatorKind :=
  if w = ['q', 'u', 'e', 'r', 'y'] then some .query
  else if w = ['m', 'u', 't', 'a', 't', 'i', 'o', 'n'] then some .mutation
  else if w = ['s', 'u', 'b', 's', 'c', 'r', 'i', 'p', 't', 'i', 'o', 'n'] then
    some .subscription
  else none

/-- Modelled from the spec: `startOperator(kind, optionalName)` of the emitter:
the record `o`, kind letter, name, and a new open scope; `rest` is the cursor
after the header. -/
def startOperator (ctx : parserCtx) (kind : OperatorKind) (name rest : GoString) : parserCtx :=
  ⟨ctx.res ++ 'o' :: kindLetter kind :: name ++ [nulByte], rest, ctx.errors,
    .operator :: ctx.scopes⟩

/-- Modelled from the spec: `startFragmentDef(name, typeCond)`: the record
`F` with the name, then the record of the type condition, and a new scope. -/
def startFragmentDef (ctx : parserCtx) (name typeCond rest : GoString) : parserCtx :=
  ⟨ctx.res ++ 'F' :: name ++ [nulByte] ++ typeCond ++ [nulByte], rest, ctx.errors,
    .fragmentDef :: ctx.scopes⟩

/-- Modelled from the spec: `startField(name)`: the record `f` with the name
and a new scope; the alias follows as a sub-record. -/
def startField (ctx : parserCtx) (name rest : GoString) : parserCtx :=
  ⟨ctx.res ++ 'f' :: name ++ [nulByte], rest, ctx.errors, .field :: ctx.scopes⟩

/-- Modelled from the spec: `startFragmentSpread(name)`: the record `sf` with
the name; no scope is opened (in `bytecode_test.go` no `e` follows it). -/
def startFragmentSpread (ctx : parserCtx) (name rest : GoString) : parserCtx :=
  ⟨ctx.res ++ 's' :: 'f' :: name ++ [nulByte], rest, ctx.errors, ctx.scopes⟩

/-- Modelled from the spec: `startInlineFragment(typeCond)`: the record `st`
with the type condition and a new scope. -/
def startInlineFragment (ctx : parserCtx) (typeCond rest : GoString) : parserCtx :=
  ⟨ctx.res ++ 's' :: 't' :: typeCond ++ [nulByte], rest, ctx.errors,
    .inlineFragment :: ctx.scopes⟩

/-- Modelled from the spec: `endScope()`: the record `e` and the innermost
scope closed; with no open scope it is rejected (`ScopeUnderflow`). -/
def endScope (ctx : parserCtx) (rest : GoString) : Option parserCtx :=
  match ctx.scopes with
  | [] => none
  | _ :: outer => some ⟨ctx.res ++ ['e', nulByte], rest, ctx.errors, outer⟩

/-- Modelled from the spec: the attachment helpers of the emitter: the
sub-records are written after the record that was started last. -/
def parserCtx.attach (ctx : parserCtx) (atts : List Attachment) : parserCtx :=
  ⟨ctx.res ++ attachBytes atts, ctx.query, ctx.errors, ctx.scopes⟩

/-- Modelled from the spec: a grammar rule is violated at the unread rest `s`:
`UnexpectedEOF` at the end of the query, `UnexpectedByte` otherwise, is
appended to the errors; nothing is written, and the cursor stays at the place
of the failure, from where the run recovers. -/
def parserCtx.fail (ctx : parserCtx) (s : GoString) : parserCtx × Bool :=
  (⟨ctx.res, s, ctx.errors ++ [(match s with
      | [] => ParseErrorKind.UnexpectedEOF
      | c :: _ => ParseErrorKind.UnexpectedByte c, s.length)], ctx.scopes⟩, true)

/-- Modelled from the spec: the rest of `OperationDef` after its name:
optional variable definitions, optional directives, then the opening brace of
the selection set. -/
def operatorHeader (ctx : parserCtx) (kind : OperatorKind) (name s : GoString) :
    parserCtx × Bool :=
  match scanOptVariableDefs s with
  | .error p => ctx.fail p
  | .ok (vars, t1) =>
    match scanDirectives (t1.length + 1) .directive true t1 with
    | .error p => ctx.fail p
    | .ok (ds, t2) =>
      match expectOpen (skipIgnored false t2) with
      | some t3 => ((startOperator ctx kind name t3).attach (vars ++ ds), false)
      | none => ctx.fail (skipIgnored false t2)

/-- Modelled from the spec: the rest of `OperationDef` after its keyword:
an optional name, then the rest of the header. -/
def stepOperator (ctx : parserCtx) (kind : OperatorKind) (s : GoString) : parserCtx × Bool :=
  match readName s with
  | some (name, t) => operatorHeader ctx kind name t
  | none => operatorHeader ctx kind [] s

/-- Modelled from the spec: the rest of `FragmentDef` after its keyword:
`Name 'on' Name`, optional directives and the opening brace of the selection
set. -/
def stepFragmentDef (ctx : parserCtx) (s : GoString) : parserCtx × Bool :=
  match readName s with
  | none => ctx.fail s
  | some (name, t) =>
    match matchOn (skipIgnored false t) with
    | none => ctx.fail (skipIgnored false t)
    | some t1 =>
      match readName (skipIgnored false t1) with
      | none => ctx.fail (skipIgnored false t1)
      | some (typeCond, t2) =>
        match scanDirectives (t2.length + 1) .directive true t2 with
        | .error p => ctx.fail p
        | .ok (ds, t3) =>
          match expectOpen (skipIgnored false t3) with
          | none => ctx.fail (skipIgnored false t3)
          | some t4 => ((startFragmentDef ctx name typeCond t4).attach ds, false)

/-- Modelled from the spec: rule `Definition` at the top level of the
document: the end of the query ends the parse; a bare selection set is a query
operator with no name; otherwise the keyword decides. The flag of the result
tells that the step has ended the parse or has failed. -/
def stepDefinition (ctx : parserCtx) : parserCtx × Bool :=
  match skipIgnored false ctx.query with
  | [] => (⟨ctx.res, [], ctx.errors, ctx.scopes⟩, true)
  | c :: s =>
    match expectOpen (c :: s) with
    | some t => (startOperator ctx .query [] t, false)
    | none =>
      match readName (c :: s) with
      | none => ctx.fail (c :: s)
      | some (w, t) =>
        if w = ['f', 'r', 'a', 'g', 'm', 'e', 'n', 't'] then
          stepFragmentDef ctx (skipIgnored false t)
        else
          match operatorKeyword w with
          | none => ctx.fail (c :: s)
          | some kind => stepOperator ctx kind (skipIgnored false t)

/-- Modelled from the spec: rules `FragmentSpread` and `InlineFragment` after
the three dots: `on` followed by whitespace starts an inline fragment with a
type condition, whose directives and opening brace follow; an opening brace
starts one without type condition; an `@` starts one without type condition
whose directives and opening brace the next step reads; and any other name,
which must not be `on`, is the name of a fragment spread; the rule of the
spread ends with that name, it takes no directives. A directive cannot start
a selection, so an `@` after the opening brace fails here. -/
def stepSpread (ctx : parserCtx) (s : GoString) : parserCtx × Bool :=
  match matchOn s with
  | some t =>
    match readName (skipIgnored false t) with
    | none => ctx.fail (skipIgnored false t)
    | some (typeCond, t1) =>
      match scanDirectives (t1.length + 1) .directive true t1 with
      | .error p => ctx.fail p
      | .ok (ds, t2) =>
        match expectOpen (skipIgnored false t2) with
        | none => ctx.fail (skipIgnored false t2)
        | some t3 => ((startInlineFragment ctx typeCond t3).attach ds, false)
  | none =>
    match expectOpen s with
    | some t =>
      match expectByte '@' (skipIgnored false t) with
      | some _ => ctx.fail (skipIgnored false t)
      | none => (startInlineFragment ctx [] t, false)
    | none =>
      match expectByte '@' s with
      | some _ => (startInlineFragment ctx [] s, false)
      | none =>
        match readName s with
        | none => ctx.fail s
        | some (name, t) =>
          if name = ['o', 'n'] then ctx.fail s else (startFragmentSpread ctx name t, false)

/-- The record written last is that of an inline fragment without type
condition, which is the innermost open scope: its directives and its opening
brace are still to be read when an `@` is at the cursor. -/
def pendingInline (ctx : parserCtx) : Bool :=
  ctx.scopes.head? = some .inlineFragment &&
    (ctx.res.reverse.take 4 = [nulByte, 't', 's', nulByte] ||
      ctx.res = ['s', 't', nulByte])

/-- Modelled from the spec: the directives and the opening brace of an inline
fragment without type condition, read at the `@` that follows its dots. -/
def stepInlineDirectives (ctx : parserCtx) (s : GoString) : parserCtx × Bool :=
  match scanDirectives (s.length + 1) .directive true s with
  | .error p => ctx.fail p
  | .ok (ds, t) =>
    match expectOpen (skipIgnored false t) with
    | none => ctx.fail (skipIgnored false t)
    | some t1 => (⟨ctx.res ++ attachBytes ds, t1, ctx.errors, ctx.scopes⟩, false)

/-- Modelled from the spec: the optional alias of rule `Field`, after the
first name `first` with the cursor `t` behind it: when a colon follows, the
name was the alias and the name of the field comes next. The result is the name
of the field, the sub-record of the alias, and the unread rest. -/
def scanAlias (first t : GoString) : Except GoString (GoString × List Attachment × GoString) :=
  match expectByte ':' (skipIgnored false t) with
  | some t1 =>
    match readName (skipIgnored false t1) with
    | none => .error (skipIgnored false t1)
    | some (name, t2) => .ok (name, [⟨.aliasName, first⟩], t2)
  | none => .ok (first, [], t)

/-- Modelled from the spec: rule `Field` after its first name: the optional
alias, then optional arguments, optional directives and an optional selection
set. The field opens a scope, closed at once when no selection set follows. -/
def stepField (ctx : parserCtx) (first t : GoString) : parserCtx × Bool :=
  match scanAlias first t with
  | .error p => ctx.fail p
  | .ok (name, pre, t2) =>
    match scanOptArguments true t2 with
    | .error p => ctx.fail p
    | .ok (args, t3) =>
      match scanDirectives (t3.length + 1) .directive true t3 with
      | .error p => ctx.fail p
      | .ok (ds, t4) =>
        match expectOpen (skipIgnored false t4) with
        | some t5 => ((startField ctx name t5).attach (pre ++ args ++ ds), false)
        | none =>
          match endScope ((startField ctx name t4).attach (pre ++ args ++ ds)) t4 with
          | some ctx1 => (ctx1, false)
          | none => ctx.fail t4

/-- Modelled from the spec: rule `Selection` inside a selection set: the
closing brace ends the innermost scope, three dots start a spread or an inline
fragment, a name starts a field. -/
def stepSelection (ctx : parserCtx) : parserCtx × Bool :=
  match skipIgnored false ctx.query with
  | [] => ctx.fail []
  | c :: s =>
    if c = '}' then
      match endScope ctx s with
      | some ctx1 => (ctx1, false)
      | none => ctx.fail (c :: s)
    else if c = '@' ∧ pendingInline ctx = true then stepInlineDirectives ctx (c :: s)
    else
      match matchDots (c :: s) with
      | some t => stepSpread ctx (skipIgnored false t)
      | none =>
        match readName (c :: s) with
        | none => ctx.fail (c :: s)
        | some (name, t) => stepField ctx name t

/-- Modelled from the spec: one step of the parser: a definition at the top
level, a selection inside a selection set. -/
def step (ctx : parserCtx) : parserCtx × Bool :=
  match ctx.scopes with
  | [] => stepDefinition ctx
  | _ :: _ => stepSelection ctx

/-- Modelled from the spec: panic-mode recovery inside a selection set: skip
bytes until the nearest synchronization token, a comma, a newline or a closing
brace, which stays unread. -/
def skipToSync : GoString → GoString
  | [] => []
  | c :: t => if c = ',' ∨ c = '\n' ∨ c = '}' then c :: t else skipToSync t

/-- Modelled from the spec: panic-mode recovery at the top level: skip bytes
through the next top-level closing brace, the one that ends the definition;
`depth` counts the braces open on the way. -/
def skipDefinition : Nat → GoString → GoString
  | _, [] => []
  | depth, c :: t =>
    if c = '}' then (if depth ≤ 1 then t else skipDefinition (depth - 1) t)
    else if c = '{' then skipDefinition (depth + 1) t
    else skipDefinition depth t

/-- Modelled from the spec: the recovery after the step from `ctx` has
failed, leaving `failed`: the cursor moves on from the place of the failure as
said for `skipToSync` and `skipDefinition`, and by one byte more when it would
stand where the step began, so that the parse always advances. -/
def recover (ctx failed : parserCtx) : parserCtx :=
  let s :=
    match failed.scopes with
    | [] => skipDefinition 0 failed.query
    | _ :: _ => skipToSync failed.query
  ⟨failed.res, if s.length < ctx.query.length then s else s.drop 1, failed.errors,
    failed.scopes⟩

/-- The `e` records that close the given open scopes. -/
def closeScopes : List ScopeKind → GoString
  | [] => []
  | _ :: outer => 'e' :: nulByte :: closeScopes outer

/-- Modelled from the spec: at the end of the query the scopes still open are
closed, so that no scope dangles (section 8, parser totality). -/
def closeAll (ctx : parserCtx) : parserCtx :=
  ⟨ctx.res ++ closeScopes ctx.scopes, ctx.query, ctx.errors, []⟩

/-- Modelled from the spec: the steps of the parser until the end of the
query: after a step that fails inside the query the parser recovers and goes
on (section 4.4); a step that ends the parse or fails at the end of the query
is the last, and the open scopes are closed. The result is `none` when the
fuel runs out before. -/
def run : Nat → parserCtx → Option parserCtx
  | 0, _ => none
  | fuel + 1, ctx =>
    if (step ctx).2 then
      match (step ctx).1.query with
      | [] => some (closeAll (step ctx).1)
      | _ :: _ => run fuel (recover ctx (step ctx).1)
    else run fuel (step ctx).1

/-- Modelled from the spec: `parseQueryToBytecode` (rule `Document`), with one
unit of fuel for every unread byte and one for the end of the query. -/
def parseQueryToBytecode (ctx : parserCtx) : Option parserCtx :=
  run (ctx.query.length + 1) ctx

/-- The offset of an error noted with `unread` bytes left of a query. -/
def errorAt (query : GoString) (e : ParseErrorKind × Nat) : ParseError :=
  ⟨e.1, query.length - e.2⟩

/-- Modelled from the spec: `parseQuery` of `bytecode_test.go`: the bytecode
and the errors of a query. -/
def parseQuery (query : GoString) : Option (GoString × List ParseError) :=
  (parseQueryToBytecode ⟨[], query, [], []⟩).map fun ctx =>
    (ctx.res, ctx.errors.map (errorAt query))

/-- The opcodes of the bytecode (spec section 3), and the sub-records
attached to a record. -/
inductive Opcode where
  | operator | fragmentDef | field | fragmentSpread | inlineFragment | endScope | attachment
deriving DecidableEq, Repr

/-- The opcode of a record: `oq`, `om`, `os`; `F`; `f`; `sf`; `st`; `e`,
which has no payload; and the sub-records `a`, `A`, `d`, `V` and `D`. -/
def opcodeOf (r : GoString) : Option Opcode :=
  match r with
  | [] => none
  | c :: t =>
    if c = 'e' then (if t = [] then some .endScope else none)
    else if c = 'o' then
      match t with
      | k :: _ => if k = 'q' ∨ k = 'm' ∨ k = 's' then some .operator else none
      | [] => none
    else if c = 'F' then some .fragmentDef
    else if c = 'f' then some .field
    else if c = 's' then
      match t with
      | k :: _ =>
        if k = 'f' then some .fragmentSpread
        else if k = 't' then some .inlineFragment
        else none
      | [] => none
    else if c = 'a' ∨ c = 'A' ∨ c = 'd' ∨ c = 'V' ∨ c = 'D' then some .attachment
    else none

/-- The records of a bytecode, each ended by NUL; `none` when the last record
is not ended. -/
def splitRecords : GoString → Option (List GoString)
  | [] => some []
  | c :: cs =>
    if c = nulByte then (splitRecords cs).map fun rs => [] :: rs
    else
      match splitRecords cs with
      | some (r :: rs) => some ((c :: r) :: rs)
      | _ => none

/-- One record read by the scope check. The state is whether the record of a
type condition is due (after `F`) and the number of open scopes. Operators and
fragment definitions open a scope at the top level only, fields and inline
fragments open one inside a scope only, a fragment spread and a sub-record
stand inside a scope and open none, `e` closes the innermost open scope, and
anything else is rejected. -/
def scopeStep (st : Bool × Nat) (r : GoString) : Option (Bool × Nat) :=
  if st.1 then some (false, st.2)
  else
    match opcodeOf r with
    | some .operator => if st.2 = 0 then some (false, 1) else none
    | some .fragmentDef => if st.2 = 0 then some (true, 1) else none
    | some .field => if 0 < st.2 then some (false, st.2 + 1) else none
    | some .inlineFragment => if 0 < st.2 then some (false, st.2 + 1) else none
    | some .fragmentSpread => if 0 < st.2 then some (false, st.2) else none
    | some .attachment => if 0 < st.2 then some (false, st.2) else none
    | some .endScope => if 0 < st.2 then some (false, st.2 - 1) else none
    | none => none

/-- The number of scopes left open by a list of records read from the top
level; `none` when a record is rejected. -/
def openScopes (recs : List GoString) : Option (Bool × Nat) :=
  recs.foldlM scopeStep (false, 0)

/-- A bytecode is balanced when it is a sequence of records, every scope
opened by `o`, `F`, `f` or `st` is closed by its own `e`, no `e` closes a
scope that is not open, and no scope is open at the end. -/
def Balanced (res : GoString) : Prop :=
  (splitRecords res).bind openScopes = some (false, 0)

instance (res : GoString) : Decidable (Balanced res) := by
  unfold Balanced; infer_instance

/-- The result of a reader that was called with the cursor at `s`: the cursor
has not moved backwards, and a failure is at or behind `s`; `rest` gives the
cursor of a result. -/
def Within {α : Type} (rest : α → GoString) (s : GoString) (r : Except GoString α) : Prop :=
  match r with
  | .ok a => (rest a).length ≤ s.length
  | .error p => p.length ≤ s.length

/-- The outcome of one step of the parser, from `ctx` to `ctx1`: it ends the
parse at the end of the query with no scope open, or it fails with an error and
the bytecode as it was; or it goes on, having read at least one byte and
written the records of one construct with its sub-records. -/
inductive StepOutcome (ctx ctx1 : parserCtx) : Bool → Prop where
  | finished : ctx.scopes = [] → ctx1.res = ctx.res → ctx1.errors = ctx.errors →
      ctx1.scopes = [] → ctx1.query = [] → StepOutcome ctx ctx1 true
  | failed (e : ParseErrorKind × Nat) : ctx1.res = ctx.res →
      ctx1.errors = ctx.errors ++ [e] → e.2 ≤ ctx.query.length →
      ctx1.scopes = ctx.scopes → ctx1.query.length ≤ ctx.query.length →
      StepOutcome ctx ctx1 true
  | opened (r : GoString) (k : ScopeKind) (atts : List Attachment) : nulByte ∉ r →
      (ctx.scopes = [] ∧ opcodeOf r = some .operator ∨
        ctx.scopes ≠ [] ∧ (opcodeOf r = some .field ∨ opcodeOf r = some .inlineFragment)) →
      ctx1.res = ctx.res ++ r ++ [nulByte] ++ attachBytes atts → ctx1.errors = ctx.errors →
      ctx1.scopes = k :: ctx.scopes → ctx1.query.length < ctx.query.length →
      StepOutcome ctx ctx1 false
  | openedFragment (name typeCond : GoString) (k : ScopeKind) (atts : List Attachment) :
      nulByte ∉ name → nulByte ∉ typeCond → ctx.scopes = [] →
      ctx1.res = ctx.res ++ ('F' :: name) ++ [nulByte] ++ typeCond ++ [nulByte] ++
        attachBytes atts →
      ctx1.errors = ctx.errors → ctx1.scopes = k :: ctx.scopes →
      ctx1.query.length < ctx.query.length → StepOutcome ctx ctx1 false
  | spread (r : GoString) : nulByte ∉ r → ctx.scopes ≠ [] →
      opcodeOf r = some .fragmentSpread →
      ctx1.res = ctx.res ++ r ++ [nulByte] → ctx1.errors = ctx.errors →
      ctx1.scopes = ctx.scopes → ctx1.query.length < ctx.query.length →
      StepOutcome ctx ctx1 false
  | leaf (r : GoString) (atts : List Attachment) : nulByte ∉ r → ctx.scopes ≠ [] →
      opcodeOf r = some .field →
      ctx1.res = ctx.res ++ r ++ [nulByte] ++ attachBytes atts ++ ['e', nulByte] →
      ctx1.errors = ctx.errors → ctx1.scopes = ctx.scopes →
      ctx1.query.length < ctx.query.length → StepOutcome ctx ctx1 false
  | closed (k : ScopeKind) : ctx.scopes = k :: ctx1.scopes →
      ctx1.res = ctx.res ++ ['e', nulByte] → ctx1.errors = ctx.errors →
      ctx1.query.length < ctx.query.length → StepOutcome ctx ctx1 false
  | attached (atts : List Attachment) : ctx.scopes ≠ [] →
      ctx1.res = ctx.res ++ attachBytes atts → ctx1.errors = ctx.errors →
      ctx1.scopes = ctx.scopes → ctx1.query.length < ctx.query.length →
      StepOutcome ctx ctx1 false

/-- The invariant of the parser: the bytecode written so far is a sequence of
records that leaves open exactly the scopes on the emitter's stack. -/
def ScopesMatch (ctx : parserCtx) : Prop :=
  ∃ recs, splitRecords ctx.res = some recs ∧ openScopes recs = some (false, ctx.scopes.length)

/-- A name of the grammar: a non-empty run of name bytes that starts with a
letter or `_`. -/
def isName (n : GoString) : Bool :=
  match n with
  | [] => false
  | c :: cs => isNameStart c && cs.all isNameByte

/-- The unread rest `s` does not go on with a name byte. -/
def endsName (s : GoString) : Bool :=
  match s with
  | [] => true
  | c :: _ => !isNameByte c

/-- The invariant of a run inside the first operator `oq` of a document: the
bytecode starts with the record `oq`, and ends with an `e` record whenever no
scope is open. -/
def InQuery (ctx : parserCtx) : Prop :=
  ∃ body, ctx.res = 'o' :: 'q' :: nulByte :: body ∧
    (ctx.scopes = [] → ∃ inner, body = inner ++ ['e', nulByte])

/-- The error at the same byte of a query that has `n` more bytes in front. -/
def ParseError.shift (n : Nat) (e : ParseError) : ParseError := ⟨e.kind, e.offset + n⟩

/-- Modelled from the spec: peek (section 4.1): the first byte behind the
ignored bytes at the cursor, if any. -/
def nextByte (s : GoString) : Option Char := (skipIgnored false s).head?

/-- The ignored text between two tokens (section 4.1): whitespace and line
comments, each from `#` to the end of its line. -/
inductive IgnoredText : GoString → Prop where
  | nil : IgnoredText []
  | white (c : Char) (ws : GoString) : isWhitespace c = true → IgnoredText ws →
      IgnoredText (c :: ws)
  | comment (body : GoString) (nl : Char) (ws : GoString) :
      (∀ c ∈ body, c ≠ '\n' ∧ c ≠ '\r') → (nl = '\n' ∨ nl = '\r') → IgnoredText ws →
      IgnoredText ('#' :: (body ++ nl :: ws))

/-- The characters of a string value between its quotes: characters that
stand for themselves, escapes of one byte, and unicode escapes of four
hexadecimal digits. -/
inductive StringChars : GoString → Prop where
  | nil : StringChars []
  | char (c : Char) (rest : GoString) : isStringChar c = true → StringChars rest →
      StringChars (c :: rest)
  | escape (c : Char) (rest : GoString) : isEscapeByte c = true → StringChars rest →
      StringChars (backslashByte :: c :: rest)
  | unicode (a b c d : Char) (rest : GoString) : isHexDigit a = true → isHexDigit b = true →
      isHexDigit c = true → isHexDigit d = true → StringChars rest →
      StringChars (backslashByte :: 'u' :: a :: b :: c :: d :: rest)

/-- The text `s` is the rest of a block string, from after its opening quotes
through its closing three quotes, followed by `t`: source characters that do
not start three quotes or an escaped three quotes, and escaped three
quotes. -/
inductive BlockChars : GoString → GoString → Prop where
  | close (t : GoString) : BlockChars (quoteByte :: quoteByte :: quoteByte :: t) t
  | escaped (s t : GoString) : BlockChars s t →
      BlockChars (backslashByte :: quoteByte :: quoteByte :: quoteByte :: s) t
  | char (c : Char) (s t : GoString) : isSourceChar c = true →
      ¬ (c = quoteByte ∧ s.take 2 = [quoteByte, quoteByte]) →
      ¬ (c = backslashByte ∧ s.take 3 = [quoteByte, quoteByte, quoteByte]) →
      BlockChars s t → BlockChars (c :: s) t

/-- A non-empty run of digits. -/
def isDigits (ds : GoString) : Bool := !ds.isEmpty && ds.all Char.isDigit

/-- The unread rest `s` does not go on with a name byte or a dot: a number
can end in front of it. -/
def endsNumber (s : GoString) : Bool :=
  match s with
  | [] => true
  | c :: _ => !isNameByte c && c != '.'

/-- The text `s` is a number of the grammar followed by `t`: an optional
minus sign; the integer part, `0` or digits that do not start with `0`; an
optional fraction, a dot and digits; an optional exponent, `e` or `E`, an
optional sign and digits. -/
inductive NumberText : GoString → GoString → Prop where
  | mk (sign int frac exp t : GoString) : (sign = [] ∨ sign = ['-']) →
      (int = ['0'] ∨ (isDigits int = true ∧ int.head? ≠ some '0')) →
      (frac = [] ∨ ∃ ds, isDigits ds = true ∧ frac = '.' :: ds) →
      (exp = [] ∨ ∃ e sg ds, (e = 'e' ∨ e = 'E') ∧ (sg = [] ∨ sg = ['+'] ∨ sg = ['-']) ∧
        isDigits ds = true ∧ exp = e :: (sg ++ ds)) →
      endsNumber t = true → NumberText (sign ++ (int ++ (frac ++ (exp ++ t)))) t

/-- The text `s` is an input value of the grammar followed by `t` (mode
`value`), or the items of a list through its closing bracket (mode `items`),
or the fields of an object through its closing brace (mode `fields`), followed
by `t`. A variable is a value only where `allowVar` holds. A name, which is
`null`, a boolean or an enum value, ends where no name byte follows. -/
inductive ValueText : ValueMode → Bool → GoString → GoString → Prop where
  | var (ws n t : GoString) : IgnoredText ws → isName n = true → endsName t = true →
      ValueText .value true ('$' :: (ws ++ (n ++ t))) t
  | name (allowVar : Bool) (n t : GoString) : isName n = true → endsName t = true →
      ValueText .value allowVar (n ++ t) t
  | number (allowVar : Bool) (s t : GoString) : NumberText s t → ValueText .value allowVar s t
  | string (allowVar : Bool) (body t : GoString) : StringChars body →
      (body = [] → t.head? ≠ some quoteByte) →
      ValueText .value allowVar (quoteByte :: (body ++ quoteByte :: t)) t
  | block (allowVar : Bool) (s t : GoString) : BlockChars s t →
      ValueText .value allowVar (quoteByte :: quoteByte :: quoteByte :: s) t
  | list (allowVar : Bool) (ws s t : GoString) : IgnoredText ws →
      ValueText .items allowVar s t → ValueText .value allowVar ('[' :: (ws ++ s)) t
  | object (allowVar : Bool) (ws s t : GoString) : IgnoredText ws →
      ValueText .fields allowVar s t → ValueText .value allowVar ('{' :: (ws ++ s)) t
  | itemsEnd (allowVar : Bool) (t : GoString) : ValueText .items allowVar (']' :: t) t
  | item (allowVar : Bool) (s ws s1 t : GoString) : ValueText .value allowVar s (ws ++ s1) →
      IgnoredText ws → ValueText .items allowVar s1 t → ValueText .items allowVar s t
  | fieldsEnd (allowVar : Bool) (t : GoString) : ValueText .fields allowVar ('}' :: t) t
  | field (allowVar : Bool) (n ws1 ws2 s ws3 s1 t : GoString) : isName n = true →
      IgnoredText ws1 → IgnoredText ws2 → ValueText .value allowVar s (ws3 ++ s1) →
      IgnoredText ws3 → ValueText .fields allowVar s1 t →
      ValueText .fields allowVar (n ++ (ws1 ++ ':' :: (ws2 ++ s))) t

/-- The text `s` is the rest of rule `Arguments`, from after its opening
parenthesis and the ignored text behind it through its closing parenthesis,
followed by `t`: pairs `Name ':' Value`. -/
inductive ArgumentsText (allowVar : Bool) : GoString → GoString → Prop where
  | close (t : GoString) : ArgumentsText allowVar (')' :: t) t
  | arg (n ws1 ws2 s ws3 s1 t : GoString) : isName n = true → IgnoredText ws1 →
      IgnoredText ws2 → ValueText .value allowVar s (ws3 ++ s1) → IgnoredText ws3 →
      ArgumentsText allowVar s1 t → ArgumentsText allowVar (n ++ (ws1 ++ ':' :: (ws2 ++ s))) t

/-- The text `s` is `Arguments?` followed by `t`: nothing, or ignored text
and the arguments in parentheses. -/
inductive OptArgumentsText (allowVar : Bool) : GoString → GoString → Prop where
  | none (t : GoString) : OptArgumentsText allowVar t t
  | some (ws ws1 s t : GoString) : IgnoredText ws → IgnoredText ws1 →
      ArgumentsText allowVar s t → OptArgumentsText allowVar (ws ++ '(' :: (ws1 ++ s)) t

/-- The text `s` is `Directives?` followed by `t`: directives `'@' Name
Arguments?`, each after ignored text. -/
inductive DirectivesText (allowVar : Bool) : GoString → GoString → Prop where
  | none (t : GoString) : DirectivesText allowVar t t
  | directive (ws ws1 n s s1 t : GoString) : IgnoredText ws → IgnoredText ws1 →
      isName n = true → endsName s = true → OptArgumentsText allowVar s s1 →
      DirectivesText allowVar s1 t → DirectivesText allowVar (ws ++ '@' :: (ws1 ++ (n ++ s))) t

/-- The text `s` is `(Alias ':')? Name` followed by `t`. -/
inductive AliasText : GoString → GoString → Prop where
  | plain (n t : GoString) : isName n = true → endsName t = true → AliasText (n ++ t) t
  | aliased (a ws1 ws2 n t : GoString) : isName a = true → IgnoredText ws1 → IgnoredText ws2 →
      isName n = true → endsName t = true → AliasText (a ++ (ws1 ++ ':' :: (ws2 ++ (n ++ t)))) t

/-- The text `s` is the head of rule `Field`, `(Alias ':')? Name Arguments?
Directives?`, followed by `t`. -/
inductive FieldText : GoString → GoString → Prop where
  | mk (s s1 s2 t : GoString) : AliasText s s1 → OptArgumentsText true s1 s2 →
      DirectivesText true s2 t → FieldText s t

/-- The grammar of the selections of a selection set (rules `Selection`,
`Field`, `FragmentSpread` and `InlineFragment` of section 4.4): the text `s`
is the selections from after the opening brace through the closing brace,
followed by `t`. The tokens stand apart by ignored text, and a name ends where
no name byte follows. -/
inductive SelectionsText : GoString → GoString → Prop where
  | close (ws t : GoString) : IgnoredText ws → SelectionsText (ws ++ '}' :: t) t
  | field (ws s s1 t : GoString) : IgnoredText ws → FieldText s s1 → SelectionsText s1 t →
      SelectionsText (ws ++ s) t
  | fieldSet (ws s ws1 inner rest t : GoString) : IgnoredText ws →
      FieldText s (ws1 ++ '{' :: inner) → IgnoredText ws1 → SelectionsText inner rest →
      SelectionsText rest t → SelectionsText (ws ++ s) t
  | spread (ws ws1 name rest t : GoString) : IgnoredText ws → IgnoredText ws1 →
      isName name = true → name ≠ ['o', 'n'] → endsName rest = true → SelectionsText rest t →
      SelectionsText (ws ++ '.' :: '.' :: '.' :: (ws1 ++ (name ++ rest))) t
  | inlineOn (ws ws1 ws2 typeCond s ws3 inner rest t : GoString) (w : Char) : IgnoredText ws →
      IgnoredText ws1 → isWhitespace w = true → IgnoredText ws2 → isName typeCond = true →
      endsName s = true → DirectivesText true s (ws3 ++ '{' :: inner) → IgnoredText ws3 →
      SelectionsText inner rest → SelectionsText rest t →
      SelectionsText (ws ++ '.' :: '.' :: '.' ::
        (ws1 ++ 'o' :: 'n' :: w :: (ws2 ++ (typeCond ++ s)))) t
  | inline (ws ws1 s ws3 inner rest t : GoString) : IgnoredText ws → IgnoredText ws1 →
      DirectivesText true s (ws3 ++ '{' :: inner) → IgnoredText ws3 →
      SelectionsText inner rest → SelectionsText rest t →
      SelectionsText (ws ++ '.' :: '.' :: '.' :: (ws1 ++ s)) t

/-- Some steps of the parser, none of which ends the parse or fails, lead
from the first context to the second. -/
inductive Steps : parserCtx → parserCtx → Prop where
  | refl (ctx : parserCtx) : Steps ctx ctx
  | head (a b c : parserCtx) : step a = (b, false) → Steps b c → Steps a c

/-! ## The slice expressions of the clean-up -/

/-- The slice expressions `b[lo:hi]` that the clean-up of lines 35-40 of
`encodeFloat.go` evaluates on the formatted string `b`, as pairs `(lo, hi)` in
the order of evaluation: `b[n-4:n-1]` once `n >= 4` holds (the operator `&&`
evaluates its right side only then), and `b[:n-2]` and `b[n-1:]` when that
slice is `e-0`. -/
def cleanExpSlices (b : GoString) : List (Int × Int) :=
  let n := len b
  if n ≥ 4 then
    (n - 4, n - 1) ::
      (match goSlice b (n - 4) (n - 1) with
      | none => []
      | some s => if s = ['e', '-', '0'] then [(0, n - 2), (n - 1, n)] else [])
  else []

/-! ## The response (spec section 6)

`GenerateResponse` is not among the sources; `resolve_test.go` shows one call
of it and the text it returns. -/

/-- Modelled from the spec: the JSON written for one element of the path of
an error: a field name as a string, a list index as a number
(`GenerateResponse` is missing from the sources). -/
def pathElemToJson : PathElem → GoString
  | .key name => stringToJson name
  | .index i => Nat.toDigits 10 i

/-- Modelled from the spec: the items of an array written one after the
other, a comma before each but the first. -/
def writeJoined : Bool → List GoString → GoString
  | _, [] => []
  | first, x :: xs => (if first then [] else [',']) ++ x ++ writeJoined false xs

/-- Modelled from the spec: the object written for one error: its message and
its path (section 6). -/
def errorToJson (e : ResolveError) : GoString :=
  "\x7b\"message\":".toList ++ stringToJson e.message ++ ",\"path\":[".toList ++
    writeJoined true (e.path.map pathElemToJson) ++ "]\x7d".toList

/-- Modelled from the spec: `GenerateResponse(jsonBody, headerHints, errors)`
(section 6; the function is missing from the sources): the body under the key
`data`, followed by the errors under the key `errors` unless there is none.
The header hints, of a type the spec does not describe, are no part of the
text. -/
def GenerateResponse {Hints : Type} (body : GoString) (_hints : Hints)
    (errs : List ResolveError) : GoString :=
  match errs with
  | [] => "\x7b\"data\":".toList ++ body ++ "\x7d".toList
  | _ :: _ =>
    "\x7b\"data\":".toList ++ body ++ ",\"errors\":[".toList ++
      writeJoined true (errs.map errorToJson) ++ "]\x7d".toList

/-- The natural number that a string of decimal digits reads as. -/
def decimalValue (s : GoString) : Nat :=
  s.foldl (fun acc c => 10 * acc + (c.toNat - 48)) 0

/-! ## Properties of `floatToJson` -/

section FloatFacts

open FloatVal

theorem lt_finite (n₁ : Bool) (m₁ : Nat) (e₁ : Int) (n₂ : Bool) (m₂ : Nat) (e₂ : Int) :
    FloatVal.lt (finite n₁ m₁ e₁) (finite n₂ m₂ e₂) = true ↔
      scaled n₁ m₁ e₁ (min e₁ e₂) < scaled n₂ m₂ e₂ (min e₁ e₂) := by
  simp only [FloatVal.lt, FloatVal.cmp]
  split_ifs with h1 h2 <;> simp_all

theorem ge_finite (n₁ : Bool) (m₁ : Nat) (e₁ : Int) (n₂ : Bool) (m₂ : Nat) (e₂ : Int) :
    FloatVal.ge (finite n₁ m₁ e₁) (finite n₂ m₂ e₂) = true ↔
      scaled n₂ m₂ e₂ (min e₁ e₂) ≤ scaled n₁ m₁ e₁ (min e₁ e₂) := by
  simp only [FloatVal.ge, FloatVal.cmp]
  split_ifs with h1 h2
  · simp; omega
  · simp; omega
  · simp; omega

theorem le_finite (n₁ : Bool) (m₁ : Nat) (e₁ : Int) (n₂ : Bool) (m₂ : Nat) (e₂ : Int) :
    FloatVal.le (finite n₁ m₁ e₁) (finite n₂ m₂ e₂) = true ↔
      scaled n₁ m₁ e₁ (min e₁ e₂) ≤ scaled n₂ m₂ e₂ (min e₁ e₂) := by
  simp only [FloatVal.le, FloatVal.cmp]
  split_ifs with h1 h2
  · simp; omega
  · simp; omega
  · simp; omega

theorem ne_finite (n₁ : Bool) (m₁ : Nat) (e₁ : Int) (n₂ : Bool) (m₂ : Nat) (e₂ : Int) :
    FloatVal.ne (finite n₁ m₁ e₁) (finite n₂ m₂ e₂) = true ↔
      scaled n₁ m₁ e₁ (min e₁ e₂) ≠ scaled n₂ m₂ e₂ (min e₁ e₂) := by
  simp only [FloatVal.ne, FloatVal.cmp]
  split_ifs with h1 h2
  · simp; omega
  · simp; omega
  · simp; omega

end FloatFacts

section FloatToJson

open FloatVal

/-- What `cleanExp` returns, in terms of `take` and `drop`: it never fails. -/
theorem cleanExp_eq (b : GoString) :
    cleanExp b = some (if 4 ≤ b.length ∧ (b.drop (b.length - 4)).take 3 = ['e', '-', '0']
      then b.take (b.length - 2) ++ b.drop (b.length - 1) else b) := by
  unfold cleanExp
  simp only [len, goSlice]
  by_cases h4 : 4 ≤ b.length
  · have e1 : ((b.length : Int) - 4).toNat = b.length - 4 := by omega
    have e2 : ((b.length : Int) - 1 - (↑b.length - 4)).toNat = 3 := by omega
    have e3 : ((b.length : Int) - 2 - 0).toNat = b.length - 2 := by omega
    have e4 : ((b.length : Int) - 1).toNat = b.length - 1 := by omega
    have e5 : ((b.length : Int) - (↑b.length - 1)).toNat = 1 := by omega
    have c1 : (0 : Int) ≤ ↑b.length - 4 ∧ (b.length : Int) - 4 ≤ ↑b.length - 1
        ∧ (b.length : Int) - 1 ≤ ↑b.length := by omega
    have c2 : (0 : Int) ≤ 0 ∧ (0 : Int) ≤ ↑b.length - 2 ∧ (b.length : Int) - 2 ≤ ↑b.length := by
      omega
    have c3 : (0 : Int) ≤ ↑b.length - 1 ∧ (b.length : Int) - 1 ≤ ↑b.length
        ∧ (b.length : Int) ≤ ↑b.length := by omega
    have c0 : (b.length : Int) ≥ 4 := by omega
    have t1 : List.take 1 (List.drop (b.length - 1) b) = List.drop (b.length - 1) b := by
      apply List.take_of_length_le
      simp only [List.length_drop]
      omega
    simp only [c0, c1, c2, c3, e1, e2, e3, e4, e5, if_true, and_self, h4, true_and, Int.toNat_zero,
      List.drop_zero, t1]
    split_ifs <;> rfl
  · have c0 : ¬ (b.length : Int) ≥ 4 := by omega
    simp [c0, h4]


theorem lt_false_of_le {a b : FloatVal} (ha : a.isFinite = true) (hb : b.isFinite = true)
    (h : FloatVal.le a b = true) : FloatVal.lt b a = false := by
  cases a <;> cases b <;> simp [isFinite] at ha hb
  rw [le_finite] at h
  rw [Bool.eq_false_iff, ne_eq, lt_finite, min_comm]
  omega

theorem ge_false_of_lt {a b : FloatVal} (ha : a.isFinite = true) (hb : b.isFinite = true)
    (h : FloatVal.lt a b = true) : FloatVal.ge a b = false := by
  cases a <;> cases b <;> simp [isFinite] at ha hb
  rw [lt_finite] at h
  rw [Bool.eq_false_iff, ne_eq, ge_finite]
  omega

theorem lt_or_ge_of_not_between {a lo hi : FloatVal} (ha : a.isFinite = true)
    (hlo : lo.isFinite = true) (hhi : hi.isFinite = true)
    (h : ¬ (FloatVal.le lo a = true ∧ FloatVal.lt a hi = true)) :
    (FloatVal.lt a lo || FloatVal.ge a hi) = true := by
  cases a <;> cases lo <;> cases hi <;> simp [isFinite] at ha hlo hhi
  rw [le_finite, lt_finite] at h
  rw [Bool.or_eq_true, lt_finite, ge_finite, min_comm]
  omega

theorem isFinite_Abs {f : FloatVal} (h : f.isFinite = true) : (Abs f).isFinite = true := by
  cases f <;> simp_all [isFinite, Abs]

theorem not_inf_nan_of_isFinite {f : FloatVal} (h : f.isFinite = true) :
    (IsInf f 0 || IsNaN f) = false := by
  cases f <;> simp_all [isFinite, IsInf, IsNaN]

/-- The result of `floatToJson` on a finite value, for any format byte chosen. -/
theorem floatToJson_finite (FormatFloat : FormatFloatFn) (bits : Int) (f : FloatVal) (e : Buffer)
    (hfin : f.isFinite = true) :
    floatToJson FormatFloat bits f e =
      if floatToJsonFmt bits f = 'e' then
        (cleanExp (FormatFloat f 'e' (-1) bits)).map fun s => e ++ s
      else some (e ++ FormatFloat f (floatToJsonFmt bits f) (-1) bits) := by
  unfold floatToJson
  rw [not_inf_nan_of_isFinite hfin]
  simp only [Bool.false_eq_true, if_false, beq_iff_eq, Buffer.WriteString]
  split_ifs with h
  · rw [h]
    cases cleanExp (FormatFloat f 'e' (-1) bits) <;> rfl
  · rfl

end FloatToJson

/-- C1. For a float that is NaN, `+Inf` or `-Inf`, and for every value of
`bits`, `floatToJson` appends exactly the three bytes `0.0`; the result is the
same whatever `strconv.FormatFloat` is, which is not consulted. -/
theorem C1_floatToJson_nan_inf (FormatFloat : FormatFloatFn) (bits : Int) (f : FloatVal)
    (e : Buffer) (h : f = .nan ∨ f = .inf false ∨ f = .inf true) :
    floatToJson FormatFloat bits f e = some (e ++ ['0', '.', '0']) ∧
      ∀ FormatFloat2 : FormatFloatFn,
        floatToJson FormatFloat2 bits f e = floatToJson FormatFloat bits f e := by
  rcases h with h | h | h <;> subst h <;> exact ⟨rfl, fun _ => rfl⟩

/-- Witness of C1 at NaN with a non-empty buffer. -/
theorem C1_floatToJson_nan_inf_witness :
    floatToJson (fun _ _ _ _ => ['7']) 64 .nan ['['] = some ['[', '0', '.', '0'] ∧
      ∀ FormatFloat2 : FormatFloatFn,
        floatToJson FormatFloat2 64 .nan ['['] = floatToJson (fun _ _ _ _ => ['7']) 64 .nan ['['] :=
  C1_floatToJson_nan_inf (fun _ _ _ _ => ['7']) 64 .nan ['['] (Or.inl rfl)

/-- C2. For a finite float with `bits = 64` and `1e-6 <= |f| < 1e21`,
`floatToJson` selects the format `'f'` and appends exactly
`strconv.FormatFloat(f, 'f', -1, 64)`, with no clean-up. -/
theorem C2_floatToJson_fixed (FormatFloat : FormatFloatFn) (f : FloatVal) (e : Buffer)
    (hfin : f.isFinite = true)
    (hlo : FloatVal.le c64_1e_6 (FloatVal.Abs f) = true)
    (hhi : FloatVal.lt (FloatVal.Abs f) c64_1e21 = true) :
    floatToJsonFmt 64 f = 'f' ∧
      floatToJson FormatFloat 64 f e = some (e ++ FormatFloat f 'f' (-1) 64) := by
  have h1 := lt_false_of_le (by rfl) (isFinite_Abs hfin) hlo
  have h2 := ge_false_of_lt (isFinite_Abs hfin) (by rfl) hhi
  have hf : floatToJsonFmt 64 f = 'f' := by
    simp [floatToJsonFmt, h1, h2]
  refine ⟨hf, ?_⟩
  rw [floatToJson_finite _ _ _ _ hfin, hf]
  simp

/-- Witness of C2 at `f = 13`, written `13`. -/
theorem C2_floatToJson_fixed_witness :
    floatToJsonFmt 64 (.finite false 13 0) = 'f' ∧
      floatToJson sampleFormatFloat 64 (.finite false 13 0) ['['] =
        some (['['] ++ sampleFormatFloat (.finite false 13 0) 'f' (-1) 64) :=
  C2_floatToJson_fixed sampleFormatFloat (.finite false 13 0) ['['] (by decide) (by decide)
    (by decide)

/-- C3, as stated, fails at zero: zero is finite and lies outside
`[1e-6, 1e21)`, yet the format chosen for `bits = 64` is `'f'`. -/
theorem C3_counterexample_zero :
    ¬ ∀ f : FloatVal, f.isFinite = true →
        ¬ (FloatVal.le c64_1e_6 (FloatVal.Abs f) = true ∧
            FloatVal.lt (FloatVal.Abs f) c64_1e21 = true) →
        floatToJsonFmt 64 f = 'e' := by
  intro h
  have := h c0 (by decide) (by decide)
  revert this
  decide

/-- C3, amended. For a finite float with `bits = 64` whose absolute value lies
outside `[1e-6, 1e21)`: when the value is not zero the format is `'e'` and what
is appended is the cleaned-up `strconv.FormatFloat(f, 'e', -1, 64)`; when it is
zero the format is `'f'` and `strconv.FormatFloat(f, 'f', -1, 64)` is appended. -/
theorem C3_floatToJson_exp_outside (FormatFloat : FormatFloatFn) (f : FloatVal) (e : Buffer)
    (hfin : f.isFinite = true)
    (hout : ¬ (FloatVal.le c64_1e_6 (FloatVal.Abs f) = true ∧
        FloatVal.lt (FloatVal.Abs f) c64_1e21 = true)) :
    (FloatVal.ne (FloatVal.Abs f) c0 = true →
        floatToJsonFmt 64 f = 'e' ∧
        ∃ s, cleanExp (FormatFloat f 'e' (-1) 64) = some s ∧
          floatToJson FormatFloat 64 f e = some (e ++ s)) ∧
      (FloatVal.ne (FloatVal.Abs f) c0 = false →
        floatToJsonFmt 64 f = 'f' ∧
        floatToJson FormatFloat 64 f e = some (e ++ FormatFloat f 'f' (-1) 64)) := by
  have h1 := lt_or_ge_of_not_between (isFinite_Abs hfin) (by rfl) (by rfl) hout
  constructor
  · intro hnz
    have hf : floatToJsonFmt 64 f = 'e' := by
      rw [Bool.or_eq_true] at h1
      simp [floatToJsonFmt, hnz, h1]
    refine ⟨hf, ?_⟩
    rw [floatToJson_finite _ _ _ _ hfin, hf, cleanExp_eq]
    exact ⟨_, rfl, by simp⟩
  · intro hz
    have hf : floatToJsonFmt 64 f = 'f' := by
      simp [floatToJsonFmt, hz]
    refine ⟨hf, ?_⟩
    rw [floatToJson_finite _ _ _ _ hfin, hf]
    simp


/-- C4. When exponential notation is selected and the formatted string `b` has
length `n >= 4` with `b[n-4:n-1]` equal to `e-0`, what is appended is
`b[:n-2]` followed by the last byte of `b`, that is `b` with exactly that `0`
removed; every other formatted string is appended unchanged, as are `1e+21` and
`1e-98`, while `1e-09` becomes `1e-9`. -/
theorem C4_floatToJson_cleanup (FormatFloat : FormatFloatFn) (bits : Int) (f : FloatVal)
    (e : Buffer) (b : GoString) (hfin : f.isFinite = true)
    (hfmt : floatToJsonFmt bits f = 'e') (hb : FormatFloat f 'e' (-1) bits = b) :
    ((4 ≤ b.length ∧ (b.drop (b.length - 4)).take 3 = ['e', '-', '0']) →
        floatToJson FormatFloat bits f e =
          some (e ++ (b.take (b.length - 2) ++ b.drop (b.length - 1))) ∧
        (b.drop (b.length - 1)).length = 1 ∧
        b.get? (b.length - 2) = some '0' ∧
        b.take (b.length - 2) ++ b.drop (b.length - 1) = b.eraseIdx (b.length - 2)) ∧
      (¬ (4 ≤ b.length ∧ (b.drop (b.length - 4)).take 3 = ['e', '-', '0']) →
        floatToJson FormatFloat bits f e = some (e ++ b)) ∧
      cleanExp ['1', 'e', '+', '2', '1'] = some ['1', 'e', '+', '2', '1'] ∧
      cleanExp ['1', 'e', '-', '9', '8'] = some ['1', 'e', '-', '9', '8'] ∧
      cleanExp ['1', 'e', '-', '0', '9'] = some ['1', 'e', '-', '9'] := by
  have hres := floatToJson_finite FormatFloat bits f e hfin
  rw [if_pos hfmt, hb, cleanExp_eq] at hres
  refine ⟨?_, ?_, by decide, by decide, by decide⟩
  · intro hc
    rw [if_pos hc] at hres
    refine ⟨hres, ?_, ?_, ?_⟩
    · simp only [List.length_drop]; omega
    · have h2 := congrArg (fun l => l.get? 2) hc.2
      simp only [List.get?_eq_getElem?, List.getElem?_take, List.getElem?_drop] at h2
      have e1 : b.length - 4 + 2 = b.length - 2 := by omega
      simpa [e1] using h2
    · rw [List.eraseIdx_eq_take_drop_succ]
      have e1 : b.length - 2 + 1 = b.length - 1 := by omega
      rw [e1]
  · intro hc
    rw [if_neg hc] at hres
    exact hres

/-- Witness of C4 at the double nearest to `1e-9`, formatted as `1e-09`. -/
theorem C4_floatToJson_cleanup_witness :
    floatToJson sampleFormatFloat 64 (.finite false 4835703278458517 (-82)) ['['] =
      some ['[', '1', 'e', '-', '9'] := by
  have h := (C4_floatToJson_cleanup sampleFormatFloat 64 (.finite false 4835703278458517 (-82))
    ['['] ['1', 'e', '-', '0', '9'] (by decide) (by decide) (by decide)).1 (by decide)
  exact h.1

/-- Witness of the amended C3 at the double nearest to `1e-9`. -/
theorem C3_floatToJson_exp_outside_witness :
    floatToJsonFmt 64 (.finite false 4835703278458517 (-82)) = 'e' :=
  ((C3_floatToJson_exp_outside sampleFormatFloat (.finite false 4835703278458517 (-82)) []
    (by decide) (by decide)).1 (by decide)).1

/-! ## Properties of `Value` -/

/-- C8. `SetToValueOfAndExpect` returns a non-nil error exactly when
`other.valType` differs from `expect`; it returns nil whenever they are equal,
whatever the flags of `other` are. -/
theorem C8_SetToValueOfAndExpect_error_iff (v other : Value) (expect : reflect.Kind) :
    ((v.SetToValueOfAndExpect other expect).2 ≠ none ↔ other.valType ≠ expect) ∧
      ((v.SetToValueOfAndExpect other expect).2 = none ↔ other.valType = expect) := by
  unfold Value.SetToValueOfAndExpect
  by_cases h : other.valType = expect <;> simp [h]

/-- C9. When `SetToValueOfAndExpect` returns nil with `expect` one of String,
Int, Float64, Bool, Array, Map, the receiver afterwards has `valType = expect`
and the payload field selected by that kind equals the same field of `other`. -/
theorem C9_SetToValueOfAndExpect_payload (v other : Value) (expect : reflect.Kind)
    (hok : (v.SetToValueOfAndExpect other expect).2 = none)
    (hk : expect = reflect.String ∨ expect = reflect.Int ∨ expect = reflect.Float64 ∨
      expect = reflect.Bool ∨ expect = reflect.Array ∨ expect = reflect.Map) :
    (v.SetToValueOfAndExpect other expect).1.valType = expect ∧
      (expect = reflect.String →
        (v.SetToValueOfAndExpect other expect).1.stringValue = other.stringValue) ∧
      (expect = reflect.Int →
        (v.SetToValueOfAndExpect other expect).1.intValue = other.intValue) ∧
      (expect = reflect.Float64 →
        (v.SetToValueOfAndExpect other expect).1.floatValue = other.floatValue) ∧
      (expect = reflect.Bool →
        (v.SetToValueOfAndExpect other expect).1.booleanValue = other.booleanValue) ∧
      (expect = reflect.Array →
        (v.SetToValueOfAndExpect other expect).1.listValue = other.listValue) ∧
      (expect = reflect.Map →
        (v.SetToValueOfAndExpect other expect).1.objectValue = other.objectValue) := by
  have hty : other.valType = expect := by
    by_contra hne
    simp [Value.SetToValueOfAndExpect, hne] at hok
  simp only [Value.SetToValueOfAndExpect, hty, ne_eq, not_true_eq_false, if_false]
  rcases hk with h | h | h | h | h | h <;> subst h <;>
    simp [Value.SetToValueOf, hty]

/-- Witness of C9: an Int value copied into a value built by `makeStringValue`. -/
theorem C9_SetToValueOfAndExpect_payload_witness :
    ((makeStringValue ['a']).SetToValueOfAndExpect (makeIntValue 5) reflect.Int).1.valType
        = reflect.Int ∧
      ((makeStringValue ['a']).SetToValueOfAndExpect (makeIntValue 5) reflect.Int).1.intValue
        = 5 := by
  have h := C9_SetToValueOfAndExpect_payload (makeStringValue ['a']) (makeIntValue 5)
    reflect.Int rfl (Or.inr (Or.inl rfl))
  exact ⟨h.1, h.2.2.1 rfl⟩

/-- C10, as stated, fails for a nil list or map: the payload field is then the
empty non-nil container, not the nil argument. -/
theorem C10_counterexample_nil :
    ¬ ((∀ list : Option (List Value), (makeArrayValue list).listValue = list) ∧
        (∀ keyValues : Arguments, (makeStructValue keyValues).objectValue = keyValues)) := by
  intro h
  have h1 := h.1 none
  simp [makeArrayValue] at h1

/-- C10, amended. Every value returned by one of the nine constructors carries
its argument in the payload field of its tag, a nil list or map being stored as
the empty non-nil container and a non-nil one as it is, and every other payload
field holds its zero value. -/
theorem C10_constructors_payload (s : GoString) (b : Bool) (i : Int) (x : FloatVal)
    (list : Option (List Value)) (keyValues : Arguments) :
    ((makeStringValue s).stringValue = s ∧ (makeStringValue s).variable_ = [] ∧
        (makeStringValue s).intValue = 0 ∧ (makeStringValue s).floatValue = .finite false 0 0 ∧
        (makeStringValue s).booleanValue = false ∧ (makeStringValue s).enumValue = [] ∧
        (makeStringValue s).listValue = none ∧ (makeStringValue s).objectValue = none ∧
        (makeStringValue s).qlTypeName = none) ∧
      ((makeBooleanValue b).booleanValue = b ∧ (makeBooleanValue b).variable_ = [] ∧
        (makeBooleanValue b).intValue = 0 ∧ (makeBooleanValue b).floatValue = .finite false 0 0 ∧
        (makeBooleanValue b).stringValue = [] ∧ (makeBooleanValue b).enumValue = [] ∧
        (makeBooleanValue b).listValue = none ∧ (makeBooleanValue b).objectValue = none ∧
        (makeBooleanValue b).qlTypeName = none) ∧
      ((makeIntValue i).intValue = i ∧ (makeIntValue i).variable_ = [] ∧
        (makeIntValue i).floatValue = .finite false 0 0 ∧ (makeIntValue i).stringValue = [] ∧
        (makeIntValue i).booleanValue = false ∧ (makeIntValue i).enumValue = [] ∧
        (makeIntValue i).listValue = none ∧ (makeIntValue i).objectValue = none ∧
        (makeIntValue i).qlTypeName = none) ∧
      ((makeFloatValue x).floatValue = x ∧ (makeFloatValue x).variable_ = [] ∧
        (makeFloatValue x).intValue = 0 ∧ (makeFloatValue x).stringValue = [] ∧
        (makeFloatValue x).booleanValue = false ∧ (makeFloatValue x).enumValue = [] ∧
        (makeFloatValue x).listValue = none ∧ (makeFloatValue x).objectValue = none ∧
        (makeFloatValue x).qlTypeName = none) ∧
      ((makeEnumValue s).enumValue = s ∧ (makeEnumValue s).variable_ = [] ∧
        (makeEnumValue s).intValue = 0 ∧ (makeEnumValue s).floatValue = .finite false 0 0 ∧
        (makeEnumValue s).stringValue = [] ∧ (makeEnumValue s).booleanValue = false ∧
        (makeEnumValue s).listValue = none ∧ (makeEnumValue s).objectValue = none ∧
        (makeEnumValue s).qlTypeName = none) ∧
      (makeNullValue.variable_ = [] ∧
        makeNullValue.intValue = 0 ∧ makeNullValue.floatValue = .finite false 0 0 ∧
        makeNullValue.stringValue = [] ∧ makeNullValue.booleanValue = false ∧
        makeNullValue.enumValue = [] ∧
        makeNullValue.listValue = none ∧ makeNullValue.objectValue = none ∧
        makeNullValue.qlTypeName = none) ∧
      ((makeArrayValue list).listValue = some (list.getD []) ∧
        (makeArrayValue list).variable_ = [] ∧
        (makeArrayValue list).intValue = 0 ∧
        (makeArrayValue list).floatValue = .finite false 0 0 ∧
        (makeArrayValue list).stringValue = [] ∧ (makeArrayValue list).booleanValue = false ∧
        (makeArrayValue list).enumValue = [] ∧ (makeArrayValue list).objectValue = none ∧
        (makeArrayValue list).qlTypeName = none) ∧
      ((makeStructValue keyValues).objectValue = some (keyValues.getD []) ∧
        (makeStructValue keyValues).variable_ = [] ∧
        (makeStructValue keyValues).intValue = 0 ∧
        (makeStructValue keyValues).floatValue = .finite false 0 0 ∧
        (makeStructValue keyValues).stringValue = [] ∧
        (makeStructValue keyValues).booleanValue = false ∧
        (makeStructValue keyValues).enumValue = [] ∧
        (makeStructValue keyValues).listValue = none ∧
        (makeStructValue keyValues).qlTypeName = none) ∧
      ((makeVariableValue s).variable_ = s ∧
        (makeVariableValue s).intValue = 0 ∧
        (makeVariableValue s).floatValue = .finite false 0 0 ∧
        (makeVariableValue s).stringValue = [] ∧ (makeVariableValue s).booleanValue = false ∧
        (makeVariableValue s).enumValue = [] ∧ (makeVariableValue s).listValue = none ∧
        (makeVariableValue s).objectValue = none ∧
        (makeVariableValue s).qlTypeName = none) := by
  refine ⟨?_, ?_, ?_, ?_, ?_, ?_, ?_, ?_, ?_⟩
  · simp [makeStringValue, Value.zero]
  · simp [makeBooleanValue, Value.zero]
  · simp [makeIntValue, Value.zero]
  · simp [makeFloatValue, Value.zero]
  · simp [makeEnumValue, Value.zero]
  · simp [makeNullValue, Value.zero]
  · cases list <;> simp [makeArrayValue, Value.zero]
  · cases keyValues <;> simp [makeStructValue, Value.zero]
  · simp [makeVariableValue, Value.zero]

/-! ## The output of `floatToJson` is a JSON number -/

section JsonNumberFacts




theorem digits_mantissaByte {ds : GoString} (h : Digits ds) : ∀ c ∈ ds, MantissaByte c :=
  fun c hc => Or.inr (Or.inr (h.2 c hc))

theorem optMinus_mantissaByte {sg : GoString} (h : OptMinus sg) : ∀ c ∈ sg, MantissaByte c := by
  rcases h with h | h <;> subst h <;> simp [MantissaByte]

theorem jsonInt_mantissaByte {ip : GoString} (h : JsonInt ip) : ∀ c ∈ ip, MantissaByte c := by
  rcases h with h | h
  · subst h; simp [MantissaByte]
  · exact digits_mantissaByte h.1

theorem jsonFrac_mantissaByte {fr : GoString} (h : JsonFrac fr) : ∀ c ∈ fr, MantissaByte c := by
  rcases h with h | ⟨ds, hds, h⟩
  · subst h; simp
  · subst h
    intro c hc
    rcases List.mem_cons.1 hc with h | h
    · exact Or.inr (Or.inl h)
    · exact digits_mantissaByte hds c h

theorem mantissa_no_e {p : GoString} (h : ∀ c ∈ p, MantissaByte c) : 'e' ∉ p := by
  intro he
  rcases h _ he with h | h | h <;> revert h <;> decide

theorem digits_no_e {ds : GoString} (h : Digits ds) : 'e' ∉ ds :=
  mantissa_no_e (digits_mantissaByte h)

end JsonNumberFacts

section CleanExpFacts

theorem tail4_of_cond {b : GoString}
    (h : 4 ≤ b.length ∧ (b.drop (b.length - 4)).take 3 = ['e', '-', '0']) :
    ∃ (A : GoString) (c : Char), b = A ++ ['e', '-', '0', c] := by
  obtain ⟨h4, h3⟩ := h
  have hlen : (b.drop (b.length - 4)).length = 4 := by
    simp only [List.length_drop]; omega
  have hd : (b.drop (b.length - 4)).drop 3 ≠ [] := by
    intro hnil
    have := congrArg List.length hnil
    simp only [List.length_drop, List.length_nil] at this
    omega
  obtain ⟨c, r, hcr⟩ := List.exists_cons_of_ne_nil hd
  have hr : r = [] := by
    have := congrArg List.length hcr
    simp only [List.length_drop, List.length_cons] at this
    apply List.eq_nil_of_length_eq_zero
    omega
  subst hr
  refine ⟨b.take (b.length - 4), c, ?_⟩
  have e1 : b = b.take (b.length - 4) ++ b.drop (b.length - 4) :=
    (List.take_append_drop _ _).symm
  have e2 : b.drop (b.length - 4) =
      (b.drop (b.length - 4)).take 3 ++ (b.drop (b.length - 4)).drop 3 :=
    (List.take_append_drop _ _).symm
  rw [h3, hcr] at e2
  rw [e2] at e1
  exact e1

theorem cleanExp_tail4 (A : GoString) (c : Char) :
    cleanExp (A ++ ['e', '-', '0', c]) = some (A ++ ['e', '-', c]) := by
  rw [cleanExp_eq]
  have hc : 4 ≤ (A ++ ['e', '-', '0', c]).length ∧
      ((A ++ ['e', '-', '0', c]).drop ((A ++ ['e', '-', '0', c]).length - 4)).take 3
        = ['e', '-', '0'] := by
    simp
  rw [if_pos hc]
  have l1 : (A ++ ['e', '-', '0', c]).length - 2 = A.length + 2 := by simp
  have l2 : (A ++ ['e', '-', '0', c]).length - 1 = A.length + 3 := by simp
  rw [l1, l2]
  have t : List.take (A.length + 2) A = A := List.take_of_length_le (by omega)
  have d : List.drop (A.length + 3) A = [] := List.drop_eq_nil_of_le (by omega)
  simp [List.take_append_eq_append_take, List.drop_append_eq_append_drop, t, d]

/-- The clean-up maps a JSON number to a JSON number, and never fails. -/
theorem cleanExp_jsonNumber {b : GoString} (hb : JsonNumber b) :
    ∃ s, cleanExp b = some s ∧ JsonNumber s := by
  by_cases hc : 4 ≤ b.length ∧ (b.drop (b.length - 4)).take 3 = ['e', '-', '0']
  · obtain ⟨A, c, hA⟩ := tail4_of_cond hc
    obtain ⟨sg, ip, fr, ex, hsg, hip, hfr, hex, hs⟩ := hb
    have hP : ∀ x ∈ sg ++ ip ++ fr, MantissaByte x := by
      intro x hx
      simp only [List.mem_append] at hx
      rcases hx with (hx | hx) | hx
      · exact optMinus_mantissaByte hsg x hx
      · exact jsonInt_mantissaByte hip x hx
      · exact jsonFrac_mantissaByte hfr x hx
    have hPe := mantissa_no_e hP
    have heq : (sg ++ ip ++ fr) ++ ex = A ++ ['e', '-', '0', c] := by rw [← hs, hA]
    -- the exponent is exactly `e-0c`
    have key : ex = ['e', '-', '0', c] ∧ A = sg ++ ip ++ fr := by
      rcases List.append_eq_append_iff.1 heq with ⟨a, hA2, hx⟩ | ⟨a, hP2, hx⟩
      · -- A = P ++ a, ex = a ++ e-0c
        cases a with
        | nil =>
          rw [List.append_nil] at hA2
          rw [List.nil_append] at hx
          exact ⟨hx, hA2⟩
        | cons x a =>
          exfalso
          rcases hex with hex | ⟨m, sg2, ds, hm, hsg2, hds, hex⟩
          · rw [hex] at hx; simp at hx
          · rw [hex] at hx
            simp only [List.cons_append, List.cons.injEq] at hx
            have hmem : 'e' ∈ sg2 ++ ds := by rw [hx.2]; simp
            rcases List.mem_append.1 hmem with h | h
            · rcases hsg2 with h2 | h2 | h2 <;> subst h2 <;> revert h <;> decide
            · exact digits_no_e hds h
      · -- P = A ++ a, e-0c = a ++ ex
        cases a with
        | nil =>
          rw [List.append_nil] at hP2
          rw [List.nil_append] at hx
          exact ⟨hx.symm, hP2.symm⟩
        | cons x a =>
          exfalso
          simp only [List.cons_append, List.cons.injEq] at hx
          apply hPe
          rw [hP2, ← hx.1]
          simp
    obtain ⟨hex2, hA2⟩ := key
    refine ⟨A ++ ['e', '-', c], by rw [hA]; exact cleanExp_tail4 A c, ?_⟩
    -- the last byte is a digit
    have hcd : c.isDigit = true := by
      rcases hex with hex | ⟨m, sg2, ds, hm, hsg2, hds, hex⟩
      · rw [hex] at hex2; simp at hex2
      · rw [hex] at hex2
        simp only [List.cons.injEq] at hex2
        rcases hsg2 with h2 | h2 | h2 <;> subst h2 <;> simp at hex2
        · have hm : '-' ∈ ds := by rw [hex2.2]; simp
          exact absurd (hds.2 _ hm) (by decide)
        · apply hds.2
          rw [hex2.2]; simp
    refine ⟨sg, ip, fr, ['e', '-', c], hsg, hip, hfr, ?_, by rw [hA2]⟩
    right
    exact ⟨'e', ['-'], [c], Or.inl rfl, Or.inr (Or.inr rfl),
      ⟨by simp, by intro x hx; simp at hx; rw [hx]; exact hcd⟩, rfl⟩
  · exact ⟨b, by rw [cleanExp_eq, if_neg hc], hb⟩

theorem floatToJsonFmt_cases (bits : Int) (f : FloatVal) :
    floatToJsonFmt bits f = 'e' ∨ floatToJsonFmt bits f = 'f' := by
  simp only [floatToJsonFmt]
  split_ifs <;> simp

theorem wellFormedF_jsonNumber {s : GoString} (h : WellFormedF s) : JsonNumber s := by
  obtain ⟨sg, ip, fr, hsg, hip, hfr, hs⟩ := h
  exact ⟨sg, ip, fr, [], hsg, hip, hfr, Or.inl rfl, by simp [hs]⟩

theorem wellFormedE_jsonNumber {s : GoString} (h : WellFormedE s) : JsonNumber s := by
  obtain ⟨sg, d, fr, es, ds, hsg, hd, hfr, hes, hds, hs⟩ := h
  refine ⟨sg, [d], fr, 'e' :: ([es] ++ ds), hsg, ?_, hfr, ?_, by simp [hs]⟩
  · by_cases h0 : d = '0'
    · left; rw [h0]
    · right
      refine ⟨⟨by simp, by intro x hx; simp at hx; rw [hx]; exact hd⟩, ?_⟩
      simpa using h0
  · right
    refine ⟨'e', [es], ds, Or.inl rfl, ?_, hds, rfl⟩
    rcases hes with h | h <;> simp [h]

end CleanExpFacts

/-- C5. For every float (finite, NaN or infinite) and every `bits`, in
particular 32 and 64, what `floatToJson` appends is a syntactically valid JSON
number, provided `strconv.FormatFloat` returns a well-formed rendering of a
finite float in the formats `'f'` and `'e'`. -/
theorem C5_floatToJson_jsonNumber (FormatFloat : FormatFloatFn) (bits : Int) (f : FloatVal)
    (e : Buffer)
    (hF : f.isFinite = true → WellFormedF (FormatFloat f 'f' (-1) bits))
    (hE : f.isFinite = true → WellFormedE (FormatFloat f 'e' (-1) bits)) :
    ∃ s, floatToJson FormatFloat bits f e = some (e ++ s) ∧ JsonNumber s := by
  by_cases hfin : f.isFinite = true
  · rw [floatToJson_finite _ _ _ _ hfin]
    by_cases hfmt : floatToJsonFmt bits f = 'e'
    · rw [if_pos hfmt]
      obtain ⟨s, hs, hj⟩ := cleanExp_jsonNumber (wellFormedE_jsonNumber (hE hfin))
      exact ⟨s, by rw [hs]; rfl, hj⟩
    · rw [if_neg hfmt]
      have hf : floatToJsonFmt bits f = 'f' := by
        rcases floatToJsonFmt_cases bits f with h | h
        · exact absurd h hfmt
        · exact h
      rw [hf]
      exact ⟨_, rfl, wellFormedF_jsonNumber (hF hfin)⟩
  · refine ⟨['0', '.', '0'], ?_, ?_⟩
    · cases f with
      | nan => rfl
      | inf neg => cases neg <;> rfl
      | finite neg m x => exact absurd rfl hfin
    · exact ⟨[], ['0'], ['.', '0'], [], Or.inl rfl, Or.inl rfl,
        Or.inr ⟨['0'], ⟨by simp, by decide⟩, rfl⟩, Or.inl rfl, rfl⟩

/-! ## Comparisons and the value of a float -/

section ToRatFacts

open FloatVal

theorem scaled_toRat (n : Bool) (m : Nat) (e c : Int) (hc : c ≤ e) :
    ((scaled n m e c : Int) : ℚ) * (2 : ℚ) ^ c = toRat (finite n m e) := by
  have h2 : ((2 : ℚ) ^ (e - c).toNat) * (2 : ℚ) ^ c = (2 : ℚ) ^ e := by
    rw [← zpow_natCast, Int.toNat_of_nonneg (by omega), ← zpow_add₀ (by norm_num)]
    congr 1
    omega
  unfold scaled toRat
  cases n <;> simp <;> rw [mul_assoc, h2]

theorem lt_iff_toRat {a b : FloatVal} (ha : a.isFinite = true) (hb : b.isFinite = true) :
    FloatVal.lt a b = true ↔ a.toRat < b.toRat := by
  cases a <;> cases b <;> simp [isFinite] at ha hb
  rename_i n₁ m₁ e₁ n₂ m₂ e₂
  rw [lt_finite, ← scaled_toRat n₁ m₁ e₁ (min e₁ e₂) (min_le_left _ _),
    ← scaled_toRat n₂ m₂ e₂ (min e₁ e₂) (min_le_right _ _)]
  have hp : (0 : ℚ) < (2 : ℚ) ^ (min e₁ e₂) := zpow_pos (by norm_num) _
  rw [mul_lt_mul_right hp]
  exact Int.cast_lt.symm

theorem le_iff_toRat {a b : FloatVal} (ha : a.isFinite = true) (hb : b.isFinite = true) :
    FloatVal.le a b = true ↔ a.toRat ≤ b.toRat := by
  cases a <;> cases b <;> simp [isFinite] at ha hb
  rename_i n₁ m₁ e₁ n₂ m₂ e₂
  rw [le_finite, ← scaled_toRat n₁ m₁ e₁ (min e₁ e₂) (min_le_left _ _),
    ← scaled_toRat n₂ m₂ e₂ (min e₁ e₂) (min_le_right _ _)]
  have hp : (0 : ℚ) < (2 : ℚ) ^ (min e₁ e₂) := zpow_pos (by norm_num) _
  rw [mul_le_mul_right hp]
  exact Int.cast_le.symm

theorem ge_iff_toRat {a b : FloatVal} (ha : a.isFinite = true) (hb : b.isFinite = true) :
    FloatVal.ge a b = true ↔ b.toRat ≤ a.toRat := by
  cases a <;> cases b <;> simp [isFinite] at ha hb
  rename_i n₁ m₁ e₁ n₂ m₂ e₂
  rw [ge_finite, ← scaled_toRat n₁ m₁ e₁ (min e₁ e₂) (min_le_left _ _),
    ← scaled_toRat n₂ m₂ e₂ (min e₁ e₂) (min_le_right _ _)]
  have hp : (0 : ℚ) < (2 : ℚ) ^ (min e₁ e₂) := zpow_pos (by norm_num) _
  rw [mul_le_mul_right hp]
  exact Int.cast_le.symm

theorem ne_iff_toRat {a b : FloatVal} (ha : a.isFinite = true) (hb : b.isFinite = true) :
    FloatVal.ne a b = true ↔ a.toRat ≠ b.toRat := by
  cases a <;> cases b <;> simp [isFinite] at ha hb
  rename_i n₁ m₁ e₁ n₂ m₂ e₂
  rw [ne_finite, ← scaled_toRat n₁ m₁ e₁ (min e₁ e₂) (min_le_left _ _),
    ← scaled_toRat n₂ m₂ e₂ (min e₁ e₂) (min_le_right _ _)]
  have hp : (2 : ℚ) ^ (min e₁ e₂) ≠ 0 := (zpow_pos (by norm_num) _).ne.symm
  rw [ne_eq, ne_eq, mul_left_inj' hp, Int.cast_inj]

theorem toRat_Abs (f : FloatVal) : (Abs f).toRat = |f.toRat| := by
  cases f with
  | nan => simp [Abs, toRat]
  | inf n => simp [Abs, toRat]
  | finite n m e =>
    have hp : (0 : ℚ) ≤ (m : ℚ) * (2 : ℚ) ^ e :=
      mul_nonneg (Nat.cast_nonneg _) (zpow_pos (by norm_num) _).le
    cases n <;> simp [Abs, toRat, abs_of_nonneg hp]

theorem toRat_c64_1e_6_lt : c64_1e_6.toRat < (10 : ℚ) ^ (-6 : Int) := by
  norm_num [c64_1e_6, toRat]

theorem toRat_c64_1e21 : c64_1e21.toRat = (10 : ℚ) ^ (21 : Nat) := by
  norm_num [c64_1e21, toRat]

end ToRatFacts

/-! ## Facts about decimals -/

section DecimalFacts

theorem digitByte_isDigit {d : Nat} (h : d < 10) : (digitByte d).isDigit = true := by
  interval_cases d <;> decide

theorem digitByte_ne_zero {d : Nat} (h : d < 10) (h0 : d ≠ 0) : digitByte d ≠ '0' := by
  interval_cases d <;> first | exact absurd rfl h0 | decide

theorem ofDigits_reverse_lt {ds : List Nat} (h : ∀ d ∈ ds, d < 10) :
    Nat.ofDigits 10 ds.reverse < 10 ^ ds.length := by
  have := Nat.ofDigits_lt_base_pow_length (b := 10) (l := ds.reverse) (by norm_num)
    (by intro x hx; exact h x (List.mem_reverse.1 hx))
  simpa using this

theorem ofDigits_reverse_ge {ds : List Nat} (hne : ds ≠ []) (hhd : ds.head? ≠ some 0) :
    10 ^ (ds.length - 1) ≤ Nat.ofDigits 10 ds.reverse := by
  cases ds with
  | nil => exact absurd rfl hne
  | cons d tl =>
    have hd : 1 ≤ d := by
      rcases Nat.eq_zero_or_pos d with h | h
      · subst h; simp at hhd
      · exact h
    rw [List.reverse_cons, Nat.ofDigits_append, Nat.ofDigits_singleton]
    simp only [List.length_reverse, List.length_cons, Nat.add_sub_cancel]
    calc 10 ^ tl.length = 10 ^ tl.length * 1 := by ring
      _ ≤ 10 ^ tl.length * d := Nat.mul_le_mul_left _ hd
      _ ≤ _ := Nat.le_add_left _ _

theorem ofDigits_reverse_mod {ds : List Nat} (hne : ds ≠ []) (h : ∀ d ∈ ds, d < 10)
    (hl : ds.getLast? ≠ some 0) : Nat.ofDigits 10 ds.reverse % 10 ≠ 0 := by
  obtain ⟨d, tl, hrev⟩ : ∃ d tl, ds.reverse = d :: tl := by
    cases hr : ds.reverse with
    | nil => exact absurd (List.reverse_eq_nil_iff.1 hr) hne
    | cons d tl => exact ⟨d, tl, rfl⟩
  have hds : ds = tl.reverse ++ [d] := by
    have := congrArg List.reverse hrev
    simpa using this
  rw [hrev, Nat.ofDigits_cons]
  have hd10 : d < 10 := h d (by rw [hds]; simp)
  have hd0 : d ≠ 0 := by
    intro h0
    apply hl
    rw [hds, h0]
    simp
  omega

theorem decValue_lt {ds : List Nat} (h : ∀ d ∈ ds, d < 10) (dp : Int) :
    decValue ds dp < (10 : ℚ) ^ dp := by
  unfold decValue
  have h1 : ((Nat.ofDigits 10 ds.reverse : Nat) : ℚ) < (10 : ℚ) ^ (ds.length : Int) := by
    rw [zpow_natCast]
    exact_mod_cast ofDigits_reverse_lt h
  have hp : (0 : ℚ) < (10 : ℚ) ^ (dp - (ds.length : Int)) := zpow_pos (by norm_num) _
  calc _ < (10 : ℚ) ^ (ds.length : Int) * (10 : ℚ) ^ (dp - (ds.length : Int)) :=
        mul_lt_mul_of_pos_right h1 hp
    _ = (10 : ℚ) ^ dp := by
        rw [← zpow_add₀ (by norm_num)]
        congr 1
        omega

theorem decValue_ge {ds : List Nat} (hne : ds ≠ []) (hhd : ds.head? ≠ some 0) (dp : Int) :
    (10 : ℚ) ^ (dp - 1) ≤ decValue ds dp := by
  unfold decValue
  have h1 : (10 : ℚ) ^ ((ds.length : Int) - 1) ≤ ((Nat.ofDigits 10 ds.reverse : Nat) : ℚ) := by
    have hl : 1 ≤ ds.length := List.length_pos.2 hne
    have e1 : (ds.length : Int) - 1 = ((ds.length - 1 : Nat) : Int) := by omega
    rw [e1, zpow_natCast]
    exact_mod_cast ofDigits_reverse_ge hne hhd
  have hp : (0 : ℚ) < (10 : ℚ) ^ (dp - (ds.length : Int)) := zpow_pos (by norm_num) _
  calc (10 : ℚ) ^ (dp - 1)
      = (10 : ℚ) ^ ((ds.length : Int) - 1) * (10 : ℚ) ^ (dp - (ds.length : Int)) := by
        rw [← zpow_add₀ (by norm_num)]
        congr 1
        omega
    _ ≤ _ := mul_le_mul_of_nonneg_right h1 hp.le

theorem decValue_pos {ds : List Nat} (hne : ds ≠ []) (hhd : ds.head? ≠ some 0) (dp : Int) :
    0 < decValue ds dp :=
  lt_of_lt_of_le (zpow_pos (by norm_num) _) (decValue_ge hne hhd dp)

end DecimalFacts

/-! ## The exponent written for a small float -/

section SmallFloatFacts

open FloatVal

theorem validAt_c64_1e_6 : validAt 64 c64_1e_6 = true := by decide

theorem validAt_c0 (bits : Int) : validAt bits c0 = true := by
  unfold validAt
  split_ifs <;> decide

theorem toRat_c0 : c0.toRat = 0 := by simp [c0, toRat]

/-- A decimal that reads back as a float below the constant `1e-6` has a
decimal exponent of `-7` or less. -/
theorem roundTrip_exp_le {f : FloatVal} {ds : List Nat} {dp : Int}
    (hfin : f.isFinite = true) (hlt : FloatVal.lt (Abs f) c64_1e_6 = true)
    (hsd : ShortDigits ds) (hn : NearestFloat 64 (Abs f) (decValue ds dp)) :
    dp - 1 ≤ -7 := by
  by_contra hcon
  have h6 : (-6 : Int) ≤ dp - 1 := by omega
  have hv : (10 : ℚ) ^ (-6 : Int) ≤ decValue ds dp :=
    le_trans (zpow_le_zpow_right₀ (by norm_num) h6) (decValue_ge hsd.1 hsd.2.2.1 dp)
  have ha : (Abs f).toRat < c64_1e_6.toRat :=
    (lt_iff_toRat (isFinite_Abs hfin) (by rfl)).1 hlt
  have hc := toRat_c64_1e_6_lt
  have hnear := hn c64_1e_6 validAt_c64_1e_6
  rw [abs_of_pos (by linarith), abs_of_pos (by linarith)] at hnear
  linarith

/-- A decimal that reads back as a non-zero `float64` has a decimal exponent
of `-324` or more. -/
theorem roundTrip_exp_ge {f : FloatVal} {ds : List Nat} {dp : Int}
    (hfin : f.isFinite = true) (hv : f.valid64 = true)
    (hnz : FloatVal.ne (Abs f) c0 = true)
    (hsd : ShortDigits ds) (hn : NearestFloat 64 (Abs f) (decValue ds dp)) :
    -323 ≤ dp := by
  have hne : (Abs f).toRat ≠ c0.toRat := (ne_iff_toRat (isFinite_Abs hfin) (by rfl)).1 hnz
  rw [toRat_c0] at hne
  have hlow : (2 : ℚ) ^ (-1074 : Int) ≤ (Abs f).toRat := by
    cases f with
    | nan => simp [isFinite] at hfin
    | inf n => simp [isFinite] at hfin
    | finite n m e =>
      simp only [Abs, toRat, Bool.false_eq_true, if_false, one_mul] at hne ⊢
      simp only [valid64, Bool.and_eq_true, decide_eq_true_eq] at hv
      have hm : (1 : ℚ) ≤ (m : ℚ) := by
        have : m ≠ 0 := by
          intro h0
          apply hne
          rw [h0]
          simp
        exact_mod_cast Nat.one_le_iff_ne_zero.2 this
      have h2 : (2 : ℚ) ^ (-1074 : Int) ≤ (2 : ℚ) ^ e :=
        zpow_le_zpow_right₀ (by norm_num) hv.1.2
      have hp : (0 : ℚ) < (2 : ℚ) ^ e := zpow_pos (by norm_num) _
      nlinarith
  have hpos := decValue_pos hsd.1 hsd.2.2.1 dp
  have hup := decValue_lt hsd.2.1 dp
  have hnear := hn c0 (validAt_c0 64)
  rw [toRat_c0, sub_zero, abs_of_pos hpos] at hnear
  have h2v : (Abs f).toRat ≤ 2 * decValue ds dp := by
    have := neg_abs_le (decValue ds dp - (Abs f).toRat)
    have := le_abs_self (decValue ds dp - (Abs f).toRat)
    rcases abs_cases (decValue ds dp - (Abs f).toRat) with ⟨h, _⟩ | ⟨h, _⟩ <;> linarith
  by_contra hcon
  have h324 : dp ≤ -324 := by omega
  have h10 : (10 : ℚ) ^ dp ≤ (10 : ℚ) ^ (-324 : Int) := zpow_le_zpow_right₀ (by norm_num) h324
  have hnum : (2 : ℚ) * (10 : ℚ) ^ (-324 : Int) < (2 : ℚ) ^ (-1074 : Int) := by
    rw [zpow_neg, zpow_neg, ← div_eq_mul_inv, div_lt_iff₀ (by positivity),
      inv_mul_eq_div, lt_div_iff₀ (by positivity)]
    norm_num
  linarith

end SmallFloatFacts

section ExpRenderingFacts

theorem fmtE_neg_exp (neg : Bool) {ds : List Nat} {dp : Int} (hne : ds ≠ [])
    (hdp : dp - 1 < 0) :
    fmtE neg ds dp = fmtEMantissa neg ds ++ 'e' :: '-' :: expDigits (dp - 1).natAbs := by
  simp [fmtE, hne, hdp]

theorem fmtEMantissa_bytes (neg : Bool) {ds : List Nat} (h : ∀ d ∈ ds, d < 10) :
    ∀ c ∈ fmtEMantissa neg ds, MantissaByte c := by
  intro c hc
  unfold fmtEMantissa at hc
  simp only [List.mem_append, List.mem_singleton] at hc
  rcases hc with (hc | hc) | hc
  · cases neg
    · simp at hc
    · simp at hc; exact Or.inl hc
  · cases ds with
    | nil => simp at hc; rw [hc]; exact Or.inr (Or.inr (by decide))
    | cons d tl =>
      simp at hc
      rw [hc]
      exact Or.inr (Or.inr (digitByte_isDigit (h d (by simp))))
  · split_ifs at hc
    · rcases List.mem_cons.1 hc with hc | hc
      · exact Or.inr (Or.inl hc)
      · obtain ⟨d, hd, rfl⟩ := List.mem_map.1 hc
        exact Or.inr (Or.inr (digitByte_isDigit (h d (List.mem_of_mem_tail hd))))
    · simp at hc

theorem cleanExp_tail4_ne (A : GoString) (p q r s : Char) (h : [p, q, r] ≠ ['e', '-', '0']) :
    cleanExp (A ++ [p, q, r, s]) = some (A ++ [p, q, r, s]) := by
  rw [cleanExp_eq]
  have hc : ¬ (4 ≤ (A ++ [p, q, r, s]).length ∧
      ((A ++ [p, q, r, s]).drop ((A ++ [p, q, r, s]).length - 4)).take 3
        = ['e', '-', '0']) := by
    intro hc
    apply h
    have := hc.2
    simpa using this
  rw [if_neg hc]

/-- The clean-up applied to a rendering whose exponent is `-k` with
`7 <= k < 1000`: the exponent is then written without leading zero. -/
theorem cleanExp_expDigits (A : GoString) (k : Nat) (h7 : 7 ≤ k) (hk : k < 1000) :
    ∃ exd, cleanExp (A ++ 'e' :: '-' :: expDigits k) = some (A ++ 'e' :: '-' :: exd) ∧
      Digits exd ∧ exd.head? ≠ some '0' := by
  unfold expDigits
  by_cases h10 : k < 10
  · rw [if_pos h10]
    refine ⟨[digitByte k], cleanExp_tail4 A (digitByte k), ⟨by simp, ?_⟩, ?_⟩
    · intro c hc
      simp at hc
      rw [hc]
      exact digitByte_isDigit h10
    · simpa using digitByte_ne_zero h10 (by omega)
  · rw [if_neg h10]
    by_cases h100 : k < 100
    · rw [if_pos h100]
      have hd1 : k / 10 < 10 := by omega
      have hd2 : k % 10 < 10 := by omega
      have hne : digitByte (k / 10) ≠ '0' := digitByte_ne_zero hd1 (by omega)
      refine ⟨[digitByte (k / 10), digitByte (k % 10)], ?_, ⟨by simp, ?_⟩, ?_⟩
      · exact cleanExp_tail4_ne A 'e' '-' (digitByte (k / 10)) (digitByte (k % 10))
          (by simpa using hne)
      · intro c hc
        simp at hc
        rcases hc with hc | hc <;> rw [hc]
        · exact digitByte_isDigit hd1
        · exact digitByte_isDigit hd2
      · simpa using hne
    · rw [if_neg h100]
      have hd1 : k / 100 < 10 := by omega
      have hd2 : k / 10 % 10 < 10 := by omega
      have hd3 : k % 10 < 10 := by omega
      have hne : digitByte (k / 100) ≠ '0' := digitByte_ne_zero hd1 (by omega)
      refine ⟨[digitByte (k / 100), digitByte (k / 10 % 10), digitByte (k % 10)], ?_,
        ⟨by simp, ?_⟩, ?_⟩
      · have := cleanExp_tail4_ne (A ++ ['e']) '-' (digitByte (k / 100))
          (digitByte (k / 10 % 10)) (digitByte (k % 10)) (by simp)
        simpa using this
      · intro c hc
        simp at hc
        rcases hc with hc | hc | hc <;> rw [hc]
        · exact digitByte_isDigit hd1
        · exact digitByte_isDigit hd2
        · exact digitByte_isDigit hd3
      · simpa using hne

/-- A mantissa followed by `e-` and digits that do not start with `0` does not
contain `e-0`. -/
theorem no_e_minus_zero {mant exd : GoString} (hm : ∀ c ∈ mant, MantissaByte c)
    (hd : Digits exd) (hh : exd.head? ≠ some '0') :
    ¬ (['e', '-', '0'] <:+: mant ++ 'e' :: '-' :: exd) := by
  rintro ⟨s, t, hst⟩
  have hme := mantissa_no_e hm
  have hde := digits_no_e hd
  have heq : s ++ (['e', '-', '0'] ++ t) = mant ++ ('e' :: '-' :: exd) := by
    rw [← hst]; simp
  rcases List.append_eq_append_iff.1 heq with ⟨a, h1, h2⟩ | ⟨a, h1, h2⟩
  · -- mant = s ++ a
    cases a with
    | nil =>
      simp at h2
      apply hh
      rw [← h2]
      rfl
    | cons x a =>
      simp only [List.cons_append, List.cons.injEq] at h2
      apply hme
      rw [h1, ← h2.1]
      simp
  · -- s = mant ++ a
    cases a with
    | nil =>
      simp at h2
      apply hh
      rw [h2]
      rfl
    | cons x a =>
      simp only [List.cons_append, List.cons.injEq] at h2
      apply hde
      have hmem : 'e' ∈ '-' :: exd := by rw [h2.2]; simp
      rcases List.mem_cons.1 hmem with h | h
      · exact absurd h (by decide)
      · exact h

end ExpRenderingFacts

/-- C6. For a finite non-zero `float64` with `|f| < 1e-6`, rendered by
`strconv.FormatFloat(f, 'e', -1, 64)` as a decimal that reads back as `f`,
`floatToJson(64, f, e)` appends a mantissa followed by `e-` and decimal digits
with no leading zero; the output does not contain `e-0`. -/
theorem C6_floatToJson_small_exponent (FormatFloat : FormatFloatFn) (f : FloatVal) (e : Buffer)
    (hfin : f.isFinite = true) (hv : f.valid64 = true)
    (hnz : FloatVal.ne (FloatVal.Abs f) c0 = true)
    (hlt : FloatVal.lt (FloatVal.Abs f) c64_1e_6 = true)
    (hFF : RoundTripE 64 f (FormatFloat f 'e' (-1) 64)) :
    ∃ mant exd : GoString,
      floatToJson FormatFloat 64 f e = some (e ++ (mant ++ 'e' :: '-' :: exd)) ∧
      (∀ c ∈ mant, MantissaByte c) ∧ Digits exd ∧ exd.head? ≠ some '0' ∧
      ¬ (['e', '-', '0'] <:+: mant ++ 'e' :: '-' :: exd) := by
  obtain ⟨ds, dp, hsd, hn, hs⟩ := hFF
  have hle := roundTrip_exp_le hfin hlt hsd hn
  have hge := roundTrip_exp_ge hfin hv hnz hsd hn
  have hfmt : floatToJsonFmt 64 f = 'e' := by
    simp [floatToJsonFmt, hnz, hlt]
  rw [floatToJson_finite _ _ _ _ hfin, if_pos hfmt, hs, fmtE_neg_exp _ hsd.1 (by omega)]
  obtain ⟨exd, hclean, hdig, hhead⟩ :=
    cleanExp_expDigits (fmtEMantissa f.signbit ds) (dp - 1).natAbs (by omega) (by omega)
  have hm := fmtEMantissa_bytes f.signbit hsd.2.1
  exact ⟨fmtEMantissa f.signbit ds, exd, by rw [hclean]; rfl, hm, hdig, hhead,
    no_e_minus_zero hm hdig hhead⟩

section NearestFacts

open FloatVal

/-- A `float64` with a mantissa above `2^52` is a nearest `float64` to every
rational within half a unit in the last place. -/
theorem nearest_of_half_ulp (M : Nat) (E : Int) (v : ℚ) (hM : 2 ^ 52 < M)
    (hv : |v - (M : ℚ) * (2 : ℚ) ^ E| ≤ (2 : ℚ) ^ E / 2) :
    NearestFloat 64 (finite false M E) v := by
  intro g hg
  have hf : (finite false M E).toRat = (M : ℚ) * (2 : ℚ) ^ E := by simp [toRat]
  rw [hf]
  have hp : (0 : ℚ) < (2 : ℚ) ^ E := zpow_pos (by norm_num) _
  cases g with
  | nan => simp [validAt, isFinite] at hg
  | inf n => simp [validAt, isFinite] at hg
  | finite n m x =>
    have hm : m < 2 ^ 53 := by
      simp [validAt, isFinite, valid64] at hg
      exact hg.1.1
    by_contra hcon
    rw [not_le] at hcon
    have htri : |(finite n m x).toRat - (M : ℚ) * (2 : ℚ) ^ E| < (2 : ℚ) ^ E := by
      have h1 := abs_sub_le (finite n m x).toRat v ((M : ℚ) * (2 : ℚ) ^ E)
      rw [abs_sub_comm (finite n m x).toRat v] at h1
      linarith
    by_cases hx : E ≤ x
    · -- both values are multiples of `2^E`
      rw [← scaled_toRat n m x E hx] at htri hcon
      have h2 : |((scaled n m x E : Int) : ℚ) - (M : ℚ)| * (2 : ℚ) ^ E < 1 * (2 : ℚ) ^ E := by
        rw [← abs_of_pos hp, ← abs_mul, sub_mul, abs_of_pos hp, one_mul]
        exact htri
      have h3 : |((scaled n m x E : Int) : ℚ) - (M : ℚ)| < 1 := lt_of_mul_lt_mul_right h2 hp.le
      have h4 : scaled n m x E = (M : Int) := by
        have h5 : |((scaled n m x E - (M : Int) : Int) : ℚ)| < 1 := by
          push_cast
          exact h3
        rw [← Int.cast_abs] at h5
        have h6 : |scaled n m x E - (M : Int)| < 1 := by exact_mod_cast h5
        have := Int.abs_lt_one_iff.1 h6
        omega
      rw [h4] at hcon
      simp at hcon
    · -- the other value is below `2^52 * 2^E`
      have hxE : x ≤ E - 1 := by omega
      have habs : |(finite n m x).toRat| ≤ (m : ℚ) * ((2 : ℚ) ^ E / 2) := by
        have hpx : (0 : ℚ) < (2 : ℚ) ^ x := zpow_pos (by norm_num) _
        have h1 : |(finite n m x).toRat| = (m : ℚ) * (2 : ℚ) ^ x := by
          rw [← toRat_Abs]
          simp [Abs, toRat]
        rw [h1]
        have h2 : (2 : ℚ) ^ x ≤ (2 : ℚ) ^ (E - 1) := zpow_le_zpow_right₀ (by norm_num) hxE
        have h3 : (2 : ℚ) ^ (E - 1) = (2 : ℚ) ^ E / 2 := by
          rw [zpow_sub_one₀ (by norm_num)]
          ring
        rw [h3] at h2
        exact mul_le_mul_of_nonneg_left h2 (Nat.cast_nonneg _)
      have hm' : (m : ℚ) ≤ 2 ^ 53 - 1 := by
        have : m + 1 ≤ 2 ^ 53 := hm
        have h : ((m + 1 : Nat) : ℚ) ≤ ((2 ^ 53 : Nat) : ℚ) := Nat.cast_le.2 this
        push_cast at h
        linarith
      have hM' : (2 : ℚ) ^ 52 + 1 ≤ (M : ℚ) := by
        have : 2 ^ 52 + 1 ≤ M := hM
        have h : ((2 ^ 52 + 1 : Nat) : ℚ) ≤ (M : ℚ) := Nat.cast_le.2 this
        push_cast at h
        linarith
      have h5 := le_abs_self (finite n m x).toRat
      have h6 := abs_lt.1 htri
      nlinarith
  
end NearestFacts

/-- Witness of C6 at the double nearest to `1e-9`, rendered `1e-09` by
`strconv.FormatFloat` and written `1e-9`. -/
theorem C6_floatToJson_small_exponent_witness :
    ∃ mant exd : GoString,
      floatToJson sampleFormatFloat 64 (.finite false 4835703278458517 (-82)) ['['] =
        some (['['] ++ (mant ++ 'e' :: '-' :: exd)) ∧
      (∀ c ∈ mant, MantissaByte c) ∧ Digits exd ∧ exd.head? ≠ some '0' ∧
      ¬ (['e', '-', '0'] <:+: mant ++ 'e' :: '-' :: exd) :=
  C6_floatToJson_small_exponent sampleFormatFloat (.finite false 4835703278458517 (-82)) ['[']
    (by decide) (by decide) (by decide) (by decide)
    ⟨[1], -8, ⟨by simp, by simp, by simp, by simp⟩,
      nearest_of_half_ulp 4835703278458517 (-82) _ (by norm_num)
        (by
          rw [abs_le]
          constructor <;> norm_num [decValue]),
      by decide⟩

/-! ## The shortest decimal of an integer-valued float -/

section ShortestIntegerFacts

open FloatVal

/-- If `N` is nearest to `v`, no other value can be as close as `N` to a point
`w` lying between `v` and `N`. -/
theorem no_closer_between {v w N g : ℚ}
    (hw : (v < w ∧ w ≤ N) ∨ (N ≤ w ∧ w < v)) (hgN : g ≠ N)
    (hg : |w - g| ≤ |w - N|) (hnear : |v - N| ≤ |v - g|) : False := by
  rcases hw with ⟨h1, h2⟩ | ⟨h1, h2⟩
  · rw [abs_of_nonpos (by linarith : w - N ≤ 0), abs_le] at hg
    rw [abs_of_neg (by linarith : v - N < 0)] at hnear
    rcases lt_or_gt_of_ne hgN with h | h
    · rcases le_or_lt g v with h3 | h3
      · rw [abs_of_nonneg (by linarith : 0 ≤ v - g)] at hnear
        linarith [hg.1, hg.2]
      · rw [abs_of_neg (by linarith : v - g < 0)] at hnear
        linarith
    · linarith [hg.1, hg.2]
  · rw [abs_of_nonneg (by linarith : 0 ≤ w - N), abs_le] at hg
    rw [abs_of_pos (by linarith : 0 < v - N)] at hnear
    rcases lt_or_gt_of_ne hgN with h | h
    · linarith [hg.1, hg.2]
    · rcases le_or_lt g v with h3 | h3
      · rw [abs_of_nonneg (by linarith : 0 ≤ v - g)] at hnear
        linarith
      · rw [abs_of_neg (by linarith : v - g < 0)] at hnear
        linarith [hg.1, hg.2]

/-- A decimal with a non-zero last digit and digits after the point is not an
integer. -/
theorem decValue_not_int {ds : List Nat} {dp : Int} (hsd : ShortDigits ds)
    (hdp : dp < (ds.length : Int)) (n : Nat) : decValue ds dp ≠ (n : ℚ) := by
  intro h
  obtain ⟨j, hj⟩ : ∃ j : Nat, (ds.length : Int) - dp = (j : Int) + 1 :=
    ⟨((ds.length : Int) - dp - 1).toNat, by omega⟩
  have h1 : decValue ds dp * (10 : ℚ) ^ (j + 1) = ((Nat.ofDigits 10 ds.reverse : Nat) : ℚ) := by
    unfold decValue
    rw [mul_assoc, ← zpow_natCast, ← zpow_add₀ (by norm_num)]
    have : dp - (ds.length : Int) + ((j + 1 : Nat) : Int) = 0 := by push_cast; omega
    rw [this]
    simp
  rw [h] at h1
  have h2 : n * 10 ^ (j + 1) = Nat.ofDigits 10 ds.reverse := by exact_mod_cast h1
  have h3 := ofDigits_reverse_mod hsd.1 hsd.2.1 hsd.2.2.2
  apply h3
  rw [← h2, pow_succ, ← mul_assoc]
  simp

theorem validAt_15_16 (bits : Int) : validAt bits (finite false 15 (-4)) = true := by
  unfold validAt
  split_ifs <;> decide

/-- The shortest decimal that reads back as an integer `N >= 1` has no digit
after the point. -/
theorem shortest_integer_digits {bits : Int} {N : Nat} {ds : List Nat} {dp : Int}
    (hN : 1 ≤ N) (hsd : ShortDigits ds)
    (hn : ∀ g : FloatVal, validAt bits g = true →
      |decValue ds dp - (N : ℚ)| ≤ |decValue ds dp - g.toRat|)
    (hmin : ∀ (D : Nat) (x : Int), 0 < D → D < 10 ^ (ds.length - 1) →
      ∃ g : FloatVal, validAt bits g = true ∧ g.toRat ≠ (N : ℚ) ∧
        |(D : ℚ) * (10 : ℚ) ^ x - g.toRat| ≤ |(D : ℚ) * (10 : ℚ) ^ x - (N : ℚ)|) :
    (ds.length : Int) ≤ dp := by
  by_contra hcon
  have hdp : dp < (ds.length : Int) := by omega
  have hnd : 1 ≤ ds.length := List.length_pos.2 hsd.1
  have hN1 : (1 : ℚ) ≤ (N : ℚ) := by exact_mod_cast hN
  have hvpos := decValue_pos hsd.1 hsd.2.2.1 dp
  have hvlt := decValue_lt hsd.2.1 dp
  have hnint := decValue_not_int hsd hdp
  -- a competitor `D * 10^x` between the decimal and `N` gives a contradiction
  have step : ∀ (D : Nat) (x : Int), 0 < D → D < 10 ^ (ds.length - 1) →
      ((decValue ds dp < (D : ℚ) * (10 : ℚ) ^ x ∧ (D : ℚ) * (10 : ℚ) ^ x ≤ (N : ℚ)) ∨
        ((N : ℚ) ≤ (D : ℚ) * (10 : ℚ) ^ x ∧ (D : ℚ) * (10 : ℚ) ^ x < decValue ds dp)) →
      False := by
    intro D x hD0 hD hbetween
    obtain ⟨g, hgv, hgN, hg⟩ := hmin D x hD0 hD
    exact no_closer_between hbetween hgN hg (hn g hgv)
  rcases lt_or_gt_of_ne (hnint N) with hlt | hgt
  · -- the decimal is below `N`: take its ceiling
    have hw1 : decValue ds dp < (⌈decValue ds dp⌉₊ : ℚ) :=
      lt_of_le_of_ne (Nat.le_ceil _) (hnint _)
    have hw2 : ⌈decValue ds dp⌉₊ ≤ N := Nat.ceil_le.2 hlt.le
    have hw2' : ((⌈decValue ds dp⌉₊ : Nat) : ℚ) ≤ (N : ℚ) := by exact_mod_cast hw2
    have hw0 : 0 < ⌈decValue ds dp⌉₊ := Nat.ceil_pos.2 hvpos
    by_cases hdp0 : dp ≤ 0
    · have hv1 : decValue ds dp < 1 := by
        have : (10 : ℚ) ^ dp ≤ (10 : ℚ) ^ (0 : Int) := zpow_le_zpow_right₀ (by norm_num) hdp0
        simp at this
        linarith
      have hw : ⌈decValue ds dp⌉₊ = 1 := by
        have : ⌈decValue ds dp⌉₊ ≤ 1 := Nat.ceil_le.2 (by exact_mod_cast hv1.le)
        omega
      by_cases hnd2 : 2 ≤ ds.length
      · apply step 1 0 (by norm_num) (Nat.one_lt_pow (by omega) (by norm_num))
        left
        rw [hw] at hw1
        simp only [Nat.cast_one, zpow_zero, mul_one]
        exact ⟨by exact_mod_cast hw1, hN1⟩
      · -- a single digit below the point: the decimal is at most `0.9`
        have hlen : ds.length = 1 := by omega
        have hD9 : Nat.ofDigits 10 ds.reverse ≤ 9 := by
          have := ofDigits_reverse_lt hsd.2.1
          rw [hlen] at this
          omega
        have hv9 : decValue ds dp ≤ 9 / 10 := by
          unfold decValue
          rw [hlen]
          have h10 : (10 : ℚ) ^ (dp - ((1 : Nat) : Int)) ≤ (10 : ℚ) ^ (-1 : Int) :=
            zpow_le_zpow_right₀ (by norm_num) (by push_cast; omega)
          have hp : (0 : ℚ) < (10 : ℚ) ^ (dp - ((1 : Nat) : Int)) := zpow_pos (by norm_num) _
          have hD9' : ((Nat.ofDigits 10 ds.reverse : Nat) : ℚ) ≤ 9 := by exact_mod_cast hD9
          have h101 : (10 : ℚ) ^ (-1 : Int) = 1 / 10 := by norm_num
          rw [h101] at h10
          nlinarith
        have h := hn (finite false 15 (-4)) (validAt_15_16 bits)
        have h1516 : (finite false 15 (-4)).toRat = 15 / 16 := by norm_num [toRat]
        rw [h1516, abs_of_neg (by linarith), abs_of_neg (by linarith)] at h
        linarith
    · obtain ⟨k, hk⟩ : ∃ k : Nat, dp = (k : Int) := ⟨dp.toNat, by omega⟩
      have hk1 : 1 ≤ k := by omega
      have hknd : k ≤ ds.length - 1 := by omega
      have hvk : decValue ds dp < ((10 ^ k : Nat) : ℚ) := by
        have h10 : (10 : ℚ) ^ dp = ((10 ^ k : Nat) : ℚ) := by
          rw [hk, zpow_natCast]
          push_cast
          rfl
        rw [h10] at hvlt
        exact hvlt
      have hwk : ⌈decValue ds dp⌉₊ ≤ 10 ^ k := Nat.ceil_le.2 hvk.le
      have hpow : 10 ^ k ≤ 10 ^ (ds.length - 1) := Nat.pow_le_pow_right (by norm_num) hknd
      rcases Nat.lt_or_eq_of_le hwk with hwlt | hweq
      · apply step ⌈decValue ds dp⌉₊ 0 hw0 (by omega)
        left
        simp only [zpow_zero, mul_one]
        exact ⟨hw1, hw2'⟩
      · apply step 1 (k : Int) (by norm_num) (Nat.one_lt_pow (by omega) (by norm_num))
        left
        have e1 : ((1 : Nat) : ℚ) * (10 : ℚ) ^ (k : Int) = ((⌈decValue ds dp⌉₊ : Nat) : ℚ) := by
          rw [hweq, zpow_natCast]
          push_cast
          ring
        rw [e1]
        exact ⟨hw1, hw2'⟩
  · -- the decimal is above `N`: take its floor
    have hw1 : (⌊decValue ds dp⌋₊ : ℚ) < decValue ds dp :=
      lt_of_le_of_ne (Nat.floor_le hvpos.le) (fun h => hnint _ h.symm)
    have hw2 : N ≤ ⌊decValue ds dp⌋₊ := Nat.le_floor hgt.le
    have hw2' : (N : ℚ) ≤ ((⌊decValue ds dp⌋₊ : Nat) : ℚ) := by exact_mod_cast hw2
    have hdp1 : 1 ≤ dp := by
      by_contra hc
      have : (10 : ℚ) ^ dp ≤ (10 : ℚ) ^ (0 : Int) :=
        zpow_le_zpow_right₀ (by norm_num) (by omega)
      simp at this
      linarith
    obtain ⟨k, hk⟩ : ∃ k : Nat, dp = (k : Int) := ⟨dp.toNat, by omega⟩
    have hknd : k ≤ ds.length - 1 := by omega
    have hvk : decValue ds dp < ((10 ^ k : Nat) : ℚ) := by
      have h10 : (10 : ℚ) ^ dp = ((10 ^ k : Nat) : ℚ) := by
        rw [hk, zpow_natCast]
        push_cast
        rfl
      rw [h10] at hvlt
      exact hvlt
    have hwk : ⌊decValue ds dp⌋₊ < 10 ^ k := by
      have : ((⌊decValue ds dp⌋₊ : Nat) : ℚ) < ((10 ^ k : Nat) : ℚ) := lt_trans hw1 hvk
      exact_mod_cast this
    have hpow : 10 ^ k ≤ 10 ^ (ds.length - 1) := Nat.pow_le_pow_right (by norm_num) hknd
    apply step ⌊decValue ds dp⌋₊ 0 (by omega) (by omega)
    right
    simp only [zpow_zero, mul_one]
    exact ⟨hw2', hw1⟩

end ShortestIntegerFacts

section IntegerFloatFacts

open FloatVal

theorem toFloat32_Abs (f : FloatVal) : toFloat32 (Abs f) = Abs (toFloat32 f) := by
  cases f with
  | nan => rfl
  | inf n => rfl
  | finite n m e =>
    simp only [Abs, toFloat32]
    split_ifs <;> rfl

/-- A float that converts to `float32` and back unchanged: the conversion is
finite and has the same value. -/
theorem toRat_toFloat32_of_representable {f : FloatVal} (hfin : f.isFinite = true)
    (hrep : f.representableAt 32 = true) :
    (toFloat32 f).isFinite = true ∧ (toFloat32 f).toRat = f.toRat := by
  simp only [representableAt, if_true] at hrep
  cases f with
  | nan => simp [isFinite] at hfin
  | inf n => simp [isFinite] at hfin
  | finite n m e =>
    cases hg : toFloat32 (finite n m e) with
    | nan => rw [hg] at hrep; simp [FloatVal.cmp] at hrep
    | inf a =>
      rw [hg] at hrep
      cases a <;> simp [FloatVal.cmp] at hrep
    | finite n' m' e' =>
      rw [hg] at hrep
      refine ⟨rfl, ?_⟩
      by_contra hne
      have := (ne_iff_toRat (a := finite n' m' e') (b := finite n m e) rfl rfl).2 hne
      simp only [FloatVal.ne] at this
      split at hrep <;> simp_all

/-- An integer-valued float has a natural number as absolute value. -/
theorem exists_nat_of_isInteger {f : FloatVal} (hint : f.isInteger = true) :
    ∃ N : Nat, (Abs f).toRat = (N : ℚ) := by
  cases f with
  | nan => simp [isInteger] at hint
  | inf n => simp [isInteger] at hint
  | finite n m e =>
    simp only [isInteger, Bool.or_eq_true, decide_eq_true_eq] at hint
    simp only [Abs, toRat, Bool.false_eq_true, if_false, one_mul]
    rcases hint with h | h
    · refine ⟨m * 2 ^ e.toNat, ?_⟩
      push_cast
      rw [← zpow_natCast, Int.toNat_of_nonneg h]
    · by_cases he : 0 ≤ e
      · refine ⟨m * 2 ^ e.toNat, ?_⟩
        push_cast
        rw [← zpow_natCast, Int.toNat_of_nonneg he]
      · obtain ⟨q, hq⟩ := Nat.dvd_of_mod_eq_zero h
        refine ⟨q, ?_⟩
        rw [hq]
        push_cast
        rw [mul_comm ((2 : ℚ) ^ (-e).toNat) (q : ℚ), mul_assoc, ← zpow_natCast,
          Int.toNat_of_nonneg (by omega), ← zpow_add₀ (by norm_num)]
        simp

/-- The layout `%f` of digits none of which is after the point: the digits
followed by zeros. -/
theorem fmtF_integer (neg : Bool) {ds : List Nat} {dp : Int} (hne : ds ≠ [])
    (h : (ds.length : Int) ≤ dp) :
    fmtF neg ds dp = (if neg then ['-'] else []) ++
      (ds.map digitByte ++ List.replicate (dp.toNat - ds.length) '0') := by
  have hnd : 1 ≤ ds.length := List.length_pos.2 hne
  have hdp : dp > 0 := by omega
  have hprec : ¬ (max ((ds.length : Int) - dp) 0 > 0) := by
    rw [max_eq_right (by omega)]
    omega
  have htake : ds.take dp.toNat = ds := List.take_of_length_le (by omega)
  simp only [fmtF, if_pos hdp, if_neg hprec, htake, List.append_nil]

theorem digits_of_shortDigits {ds : List Nat} (hsd : ShortDigits ds) (n : Nat) :
    Digits (ds.map digitByte ++ List.replicate n '0') ∧
      (ds.map digitByte ++ List.replicate n '0').head? ≠ some '0' := by
  obtain ⟨hne, hlt, hhd, _⟩ := hsd
  refine ⟨⟨by simp [hne], ?_⟩, ?_⟩
  · intro c hc
    rcases List.mem_append.1 hc with hc | hc
    · obtain ⟨d, hd, rfl⟩ := List.mem_map.1 hc
      exact digitByte_isDigit (hlt d hd)
    · rw [(List.mem_replicate.1 hc).2]
      decide
  · cases ds with
    | nil => exact absurd rfl hne
    | cons d tl =>
      have hd0 : d ≠ 0 := by
        intro h0
        apply hhd
        rw [h0]
        rfl
      have := digitByte_ne_zero (hlt d (by simp)) hd0
      simpa using this

theorem toRat_c32_1e_6_lt : c32_1e_6.toRat < 1 := by
  norm_num [c32_1e_6, toRat]

theorem toRat_c32_1e21_gt : (10 : ℚ) ^ (21 : Nat) < c32_1e21.toRat := by
  norm_num [c32_1e21, toRat]

theorem toRat_c1 : c1.toRat = 1 := by
  norm_num [c1, toRat]

/-- For a float representable at the width `bits` (32 or 64) with
`1 <= |f| < 1e21`, `floatToJson` selects the format `'f'`. -/
theorem floatToJsonFmt_of_ge_one {bits : Int} {f : FloatVal}
    (hbits : bits = 32 ∨ bits = 64) (hfin : f.isFinite = true)
    (hrep : f.representableAt bits = true)
    (hlo : FloatVal.le c1 (Abs f) = true) (hhi : FloatVal.lt (Abs f) c64_1e21 = true) :
    floatToJsonFmt bits f = 'f' := by
  have hafin := isFinite_Abs hfin
  have h1 : (1 : ℚ) ≤ (Abs f).toRat := by
    have := (le_iff_toRat (a := c1) rfl hafin).1 hlo
    rwa [toRat_c1] at this
  have h2 : (Abs f).toRat < (10 : ℚ) ^ (21 : Nat) := by
    have := (lt_iff_toRat hafin (b := c64_1e21) rfl).1 hhi
    rwa [toRat_c64_1e21] at this
  rcases hbits with hb | hb <;> subst hb
  · -- float32 comparisons
    have harep : (Abs f).representableAt 32 = true := by
      cases f with
      | nan => simp [isFinite] at hfin
      | inf n => simp [isFinite] at hfin
      | finite n m e =>
        have h := toRat_toFloat32_of_representable hfin hrep
        have h' : (toFloat32 (Abs (finite n m e))).isFinite = true ∧
            (toFloat32 (Abs (finite n m e))).toRat = (Abs (finite n m e)).toRat := by
          rw [toFloat32_Abs]
          refine ⟨isFinite_Abs h.1, ?_⟩
          rw [toRat_Abs, toRat_Abs, h.2]
        simp only [representableAt, if_true]
        have hne : FloatVal.ne (toFloat32 (Abs (finite n m e))) (Abs (finite n m e)) = false := by
          rw [Bool.eq_false_iff, ne_eq, ne_iff_toRat h'.1 hafin]
          simp [h'.2]
        simp only [FloatVal.ne] at hne
        split at hne <;> simp_all
    obtain ⟨h32fin, h32val⟩ := toRat_toFloat32_of_representable hafin harep
    have hlt : FloatVal.lt (toFloat32 (Abs f)) c32_1e_6 = false := by
      rw [Bool.eq_false_iff, ne_eq, lt_iff_toRat (b := c32_1e_6) h32fin rfl, h32val]
      have := toRat_c32_1e_6_lt
      linarith
    have hge : FloatVal.ge (toFloat32 (Abs f)) c32_1e21 = false := by
      rw [Bool.eq_false_iff, ne_eq, ge_iff_toRat (b := c32_1e21) h32fin rfl, h32val]
      have := toRat_c32_1e21_gt
      linarith
    simp [floatToJsonFmt, hlt, hge]
  · have hlt : FloatVal.lt (Abs f) c64_1e_6 = false := by
      rw [Bool.eq_false_iff, ne_eq, lt_iff_toRat (b := c64_1e_6) hafin rfl]
      have := toRat_c64_1e_6_lt
      have h6 : (10 : ℚ) ^ (-6 : Int) < 1 := by norm_num
      linarith
    have hge : FloatVal.ge (Abs f) c64_1e21 = false := ge_false_of_lt hafin rfl hhi
    simp [floatToJsonFmt, hlt, hge]

end IntegerFloatFacts

section DecimalTextFacts

open FloatVal

theorem decimalValue_foldl (acc : Nat) (s : GoString) :
    s.foldl (fun acc c => 10 * acc + (c.toNat - 48)) acc =
      acc * 10 ^ s.length + decimalValue s := by
  unfold decimalValue
  induction s generalizing acc with
  | nil => simp
  | cons c cs ih =>
    simp only [List.foldl_cons, List.length_cons]
    rw [ih (10 * acc + (c.toNat - 48)), ih (10 * 0 + (c.toNat - 48))]
    ring

theorem decimalValue_append (s t : GoString) :
    decimalValue (s ++ t) = decimalValue s * 10 ^ t.length + decimalValue t := by
  conv_lhs => unfold decimalValue
  rw [List.foldl_append, decimalValue_foldl]
  rfl

theorem decimalValue_zeros (k : Nat) : decimalValue (List.replicate k '0') = 0 := by
  induction k with
  | zero => rfl
  | succ n ih =>
    have h0 : decimalValue ['0'] = 0 := by decide
    rw [List.replicate_succ, ← List.singleton_append, decimalValue_append, ih, h0]
    simp

theorem toNat_digitByte {d : Nat} (h : d < 10) : (digitByte d).toNat - 48 = d := by
  interval_cases d <;> rfl

theorem decimalValue_digits {ds : List Nat} (h : ∀ d ∈ ds, d < 10) :
    decimalValue (ds.map digitByte) = Nat.ofDigits 10 ds.reverse := by
  induction ds using List.reverseRecOn with
  | nil => rfl
  | append_singleton l d ih =>
    rw [List.map_append, decimalValue_append, ih (fun x hx => h x (by simp [hx])),
      List.reverse_append, List.reverse_singleton, List.singleton_append, Nat.ofDigits_cons]
    have hd : decimalValue ([d].map digitByte) = d := by
      simp only [List.map_cons, List.map_nil, decimalValue, List.foldl_cons, List.foldl_nil]
      rw [toNat_digitByte (h d (by simp))]
      simp
    rw [hd]
    simp only [List.map_cons, List.map_nil, List.length_singleton]
    push_cast
    ring

/-- The decimal of digits none of which is after the point is the natural
number that the digits followed by zeros read as. -/
theorem decValue_integer {ds : List Nat} {dp : Int} (h : ∀ d ∈ ds, d < 10)
    (hlen : (ds.length : Int) ≤ dp) :
    decValue ds dp =
      ((decimalValue (ds.map digitByte ++ List.replicate (dp.toNat - ds.length) '0') : Nat) :
        ℚ) := by
  rw [decimalValue_append, decimalValue_zeros, decimalValue_digits h, List.length_replicate]
  unfold decValue
  have hk : dp - (ds.length : Int) = ((dp.toNat - ds.length : Nat) : Int) := by omega
  rw [hk, zpow_natCast]
  push_cast
  ring

theorem validAt_nat {bits : Int} {W : Nat}
    (hW : W < 2 ^ 24 ∨ (bits ≠ 32 ∧ W < 2 ^ 53)) : validAt bits (finite false W 0) = true := by
  unfold validAt
  rcases hW with h | ⟨hb, h⟩
  · have h1 : W < 16777216 := by norm_num at h; exact h
    have h2 : W < 9007199254740992 := by omega
    split_ifs
    · simp [isFinite, valid32, h1]
    · simp [isFinite, valid64, h2]
  · have h2 : W < 9007199254740992 := by norm_num at h; exact h
    simp [isFinite, valid64, h2, hb]

theorem validAt_pow (bits : Int) (p : Nat) (hp : p ≤ 104) :
    validAt bits (finite false 1 (p : Int)) = true := by
  unfold validAt
  split_ifs
  · simp [isFinite, valid32]
    omega
  · simp [isFinite, valid64]
    omega

/-- A natural number that has an integer below `2^p` as a nearest float is that
integer, the naturals below `2^p` and `2^p` itself being floats of the width. -/
theorem nearest_nat_exact {bits : Int} {W N p : Nat} (hN : N < 2 ^ p) (hp : p ≤ 104)
    (hvalid : ∀ V : Nat, V < 2 ^ p → validAt bits (finite false V 0) = true)
    (hn : ∀ g : FloatVal, validAt bits g = true → |(W : ℚ) - (N : ℚ)| ≤ |(W : ℚ) - g.toRat|) :
    W = N := by
  by_cases hW : W < 2 ^ p
  · have h := hn (finite false W 0) (hvalid W hW)
    have hv : (finite false W 0).toRat = (W : ℚ) := by simp [toRat]
    rw [hv, sub_self, abs_zero] at h
    have h0 : (W : ℚ) - (N : ℚ) = 0 := abs_eq_zero.1 (le_antisymm h (abs_nonneg _))
    have : (W : ℚ) = (N : ℚ) := by linarith
    exact_mod_cast this
  · exfalso
    rw [not_lt] at hW
    have h := hn (finite false 1 (p : Int)) (validAt_pow bits p hp)
    have hv : (finite false 1 (p : Int)).toRat = ((2 ^ p : Nat) : ℚ) := by
      simp [toRat, zpow_natCast]
    rw [hv] at h
    have hW' : ((2 ^ p : Nat) : ℚ) ≤ (W : ℚ) := by exact_mod_cast hW
    have hN' : (N : ℚ) < ((2 ^ p : Nat) : ℚ) := by exact_mod_cast hN
    rw [abs_of_nonneg (by linarith), abs_of_nonneg (by linarith)] at h
    linarith

end DecimalTextFacts

/-- C7, amended. For an integer-valued float that is exactly representable at
the width `bits` (32 or 64) with `1 <= |f| < 1e21`, rendered by
`strconv.FormatFloat(f, 'f', -1, bits)` as the shortest decimal that reads back
as `f`, `floatToJson` selects the format `'f'` and appends an optional minus
sign followed by decimal digits only, without leading zero: no decimal point
and no exponent. The integer these digits read as has `|f|` as a nearest float
of the width, and it is `|f|` itself when `|f|` is below `2^24` for
`bits = 32` and below `2^53` for `bits = 64`. -/
theorem C7_floatToJson_integer (FormatFloat : FormatFloatFn) (bits : Int)
    (f : FloatVal) (e : Buffer) (hbits : bits = 32 ∨ bits = 64) (hfin : f.isFinite = true)
    (hint : f.isInteger = true) (hrep : f.representableAt bits = true)
    (hlo : FloatVal.le c1 (FloatVal.Abs f) = true)
    (hhi : FloatVal.lt (FloatVal.Abs f) c64_1e21 = true)
    (hFF : ShortestF bits f (FormatFloat f 'f' (-1) bits)) :
    floatToJsonFmt bits f = 'f' ∧
      ∃ digs : GoString,
        floatToJson FormatFloat bits f e =
          some (e ++ ((if f.signbit then ['-'] else []) ++ digs)) ∧
        Digits digs ∧ digs.head? ≠ some '0' ∧
        NearestFloat bits (FloatVal.Abs f) ((decimalValue digs : Nat) : ℚ) ∧
        (FloatVal.lt (FloatVal.Abs f)
            (if bits = 32 then .finite false 1 24 else .finite false 1 53) = true →
          ((decimalValue digs : Nat) : ℚ) = (FloatVal.Abs f).toRat) := by
  have hfmt := floatToJsonFmt_of_ge_one hbits hfin hrep hlo hhi
  refine ⟨hfmt, ?_⟩
  obtain ⟨ds, dp, hsd, hn, hmin, hs⟩ := hFF
  obtain ⟨N, hN⟩ := exists_nat_of_isInteger hint
  have hN1 : 1 ≤ N := by
    have := (le_iff_toRat (a := c1) rfl (isFinite_Abs hfin)).1 hlo
    rw [toRat_c1, hN] at this
    exact_mod_cast this
  have hn0 := hn
  unfold NearestFloat at hn
  rw [hN] at hn hmin
  have hlen := shortest_integer_digits hN1 hsd hn hmin
  have hval := decValue_integer hsd.2.1 hlen
  rw [floatToJson_finite _ _ _ _ hfin, hfmt, hs, fmtF_integer _ hsd.1 hlen]
  have hd := digits_of_shortDigits hsd (dp.toNat - ds.length)
  refine ⟨_, by simp, hd.1, hd.2, ?_, ?_⟩
  · rw [← hval]
    exact hn0
  · intro hsmall
    rw [← hval, hN]
    rw [hval] at hn ⊢
    have key : ∀ p : Nat, p ≤ 104 → (N : ℚ) < ((2 ^ p : Nat) : ℚ) →
        (∀ V : Nat, V < 2 ^ p → validAt bits (FloatVal.finite false V 0) = true) →
        ((decimalValue (ds.map digitByte ++ List.replicate (dp.toNat - ds.length) '0') : Nat) :
          ℚ) = (N : ℚ) := by
      intro p hp hlt hvalid
      have hlt' : N < 2 ^ p := by exact_mod_cast hlt
      have := nearest_nat_exact hlt' hp hvalid hn
      rw [this]
    rcases hbits with hb | hb <;> subst hb
    · simp only [if_true] at hsmall
      have h24 := (lt_iff_toRat (isFinite_Abs hfin) (b := .finite false 1 24) rfl).1 hsmall
      rw [hN] at h24
      refine key 24 (by norm_num) ?_ (fun V hV => validAt_nat (Or.inl hV))
      have : (FloatVal.finite false 1 24).toRat = ((2 ^ 24 : Nat) : ℚ) := by
        norm_num [FloatVal.toRat]
      rw [← this]
      exact h24
    · simp only [show ¬ ((64 : Int) = 32) by decide, if_false] at hsmall
      have h53 := (lt_iff_toRat (isFinite_Abs hfin) (b := .finite false 1 53) rfl).1 hsmall
      rw [hN] at h53
      refine key 53 (by norm_num) ?_ (fun V hV => validAt_nat (Or.inr ⟨by decide, hV⟩))
      have : (FloatVal.finite false 1 53).toRat = ((2 ^ 53 : Nat) : ℚ) := by
        norm_num [FloatVal.toRat]
      rw [← this]
      exact h53

section SampleFacts

open FloatVal

/-- The string `12` is the shortest rendering of the `float32` value `12`. -/
theorem shortestF_12 : ShortestF 32 (finite false 12 0) ['1', '2'] := by
  have h12 : (Abs (finite false 12 0)).toRat = 12 := by norm_num [Abs, toRat]
  have hv : decValue [1, 2] 2 = 12 := by norm_num [decValue, Nat.ofDigits]
  refine ⟨[1, 2], 2, ⟨by simp, by simp, by simp, by simp⟩, ?_, ?_, by decide⟩
  · intro g _
    rw [h12, hv]
    simp
  · intro D x hD0 hD
    rw [h12]
    have hD9 : D ≤ 9 := by
      simp at hD
      omega
    have hD0' : (1 : ℚ) ≤ (D : ℚ) := by exact_mod_cast hD0
    have hD9' : (D : ℚ) ≤ 9 := by exact_mod_cast hD9
    by_cases hw : (D : ℚ) * (10 : ℚ) ^ x ≤ 10
    · refine ⟨finite false 8 0, by decide, by norm_num [toRat], ?_⟩
      have h8 : (finite false 8 0).toRat = 8 := by norm_num [toRat]
      rw [h8, abs_of_nonpos (by linarith : (D : ℚ) * (10 : ℚ) ^ x - 12 ≤ 0), abs_le]
      constructor <;> linarith
    · rw [not_le] at hw
      refine ⟨finite false 16 0, by decide, by norm_num [toRat], ?_⟩
      have h16 : (finite false 16 0).toRat = 16 := by norm_num [toRat]
      have hw20 : (20 : ℚ) ≤ (D : ℚ) * (10 : ℚ) ^ x := by
        have hx1 : 1 ≤ x := by
          by_contra hx
          have : (10 : ℚ) ^ x ≤ (10 : ℚ) ^ (0 : Int) :=
            zpow_le_zpow_right₀ (by norm_num) (by omega)
          simp at this
          have hp : (0 : ℚ) < (10 : ℚ) ^ x := zpow_pos (by norm_num) _
          nlinarith
        by_cases hx2 : 2 ≤ x
        · have : (10 : ℚ) ^ (2 : Int) ≤ (10 : ℚ) ^ x := zpow_le_zpow_right₀ (by norm_num) hx2
          norm_num at this
          nlinarith
        · have hx : x = 1 := by omega
          subst hx
          simp only [zpow_one] at hw ⊢
          have hD2 : 2 ≤ D := by
            by_contra h
            have hD1 : D = 1 := by omega
            rw [hD1] at hw
            norm_num at hw
          have hD2' : (2 : ℚ) ≤ (D : ℚ) := by exact_mod_cast hD2
          linarith
      rw [h16, abs_of_pos (by linarith : (0 : ℚ) < (D : ℚ) * (10 : ℚ) ^ x - 12), abs_le]
      constructor <;> linarith

end SampleFacts

/-- Witness of C5 at the double nearest to `1e-9` with a non-empty buffer. -/
theorem C5_floatToJson_jsonNumber_witness :
    ∃ s, floatToJson sampleFormatFloat 64 (.finite false 4835703278458517 (-82)) ['['] =
      some (['['] ++ s) ∧ JsonNumber s :=
  C5_floatToJson_jsonNumber sampleFormatFloat 64 (.finite false 4835703278458517 (-82)) ['[']
    (fun _ => ⟨[], ['0'], '.' :: "000000001".toList, Or.inl rfl, Or.inl rfl,
      Or.inr ⟨"000000001".toList, ⟨by simp, by decide⟩, rfl⟩, by decide⟩)
    (fun _ => ⟨[], '1', [], '-', ['0', '9'], Or.inl rfl, by decide, Or.inl rfl, Or.inr rfl,
      ⟨by simp, by decide⟩, by decide⟩)

/-- Witness of the amended C7 at the `float32` value `12`, written `12`. -/
theorem C7_floatToJson_integer_witness :
    floatToJsonFmt 32 (.finite false 12 0) = 'f' ∧
      ∃ digs : GoString,
        floatToJson sampleFormatFloat 32 (.finite false 12 0) ['['] =
          some (['['] ++ ((if (FloatVal.finite false 12 0).signbit then ['-'] else []) ++ digs)) ∧
        Digits digs ∧ digs.head? ≠ some '0' ∧
        NearestFloat 32 (FloatVal.Abs (.finite false 12 0)) ((decimalValue digs : Nat) : ℚ) ∧
        (FloatVal.lt (FloatVal.Abs (.finite false 12 0))
            (if (32 : Int) = 32 then .finite false 1 24 else .finite false 1 53) = true →
          ((decimalValue digs : Nat) : ℚ) = (FloatVal.Abs (.finite false 12 0)).toRat) :=
  C7_floatToJson_integer sampleFormatFloat 32 (.finite false 12 0) ['['] (Or.inl rfl)
    (by decide) (by decide) (by decide) (by decide) (by decide) shortestF_12

section Float32SampleFacts

open FloatVal

/-- The decimal `1073741800` has the `float32` value `2^30` as a nearest
`float32`: the next one below is `2^30 - 64`. -/
theorem nearest_2_30 : NearestFloat 32 (finite false 8388608 7) 1073741800 := by
  intro g hg
  have hf : (finite false 8388608 7).toRat = 1073741824 := by norm_num [toRat]
  rw [hf]
  cases g with
  | nan => simp [validAt, isFinite] at hg
  | inf n => simp [validAt, isFinite] at hg
  | finite n m x =>
    have hm : m < 16777216 := by
      simp [validAt, isFinite, valid32] at hg
      exact hg.1.1
    rw [show |(1073741800 : ℚ) - 1073741824| = 24 by norm_num]
    by_contra hcon
    rw [not_le] at hcon
    by_cases hx : (6 : Int) ≤ x
    · rw [← scaled_toRat n m x 6 hx] at hcon
      have h1 : |((1073741800 - scaled n m x 6 * 64 : Int) : ℚ)| < ((24 : Int) : ℚ) := by
        push_cast
        norm_num at hcon ⊢
        exact hcon
      rw [← Int.cast_abs, Int.cast_lt] at h1
      have := abs_lt.1 h1
      omega
    · have hx5 : x ≤ 5 := by omega
      have h2 : (2 : ℚ) ^ x ≤ (2 : ℚ) ^ (5 : Int) := zpow_le_zpow_right₀ (by norm_num) hx5
      have hp : (0 : ℚ) < (2 : ℚ) ^ x := zpow_pos (by norm_num) _
      have habs : |(finite n m x).toRat| = (m : ℚ) * (2 : ℚ) ^ x := by
        rw [← toRat_Abs]
        simp [Abs, toRat]
      have hm' : (m : ℚ) ≤ 16777215 := by
        have : m ≤ 16777215 := by omega
        exact_mod_cast this
      have h3 : |(finite n m x).toRat| ≤ 16777215 * 32 := by
        rw [habs]
        norm_num at h2
        nlinarith [Nat.cast_nonneg (α := ℚ) m]
      have h4 := le_abs_self (finite n m x).toRat
      have h5 := abs_lt.1 hcon
      norm_num at h3
      linarith

/-- The string `1073741800` is the shortest rendering of the `float32` value
`2^30`: no decimal of fewer than eight digits reads back as it. -/
theorem shortestF_2_30 :
    ShortestF 32 (finite false 8388608 7) ['1', '0', '7', '3', '7', '4', '1', '8', '0', '0'] := by
  have hv : decValue [1, 0, 7, 3, 7, 4, 1, 8] 10 = 1073741800 := by
    norm_num [decValue, Nat.ofDigits]
  have hf : (Abs (finite false 8388608 7)).toRat = 1073741824 := by norm_num [Abs, toRat]
  refine ⟨[1, 0, 7, 3, 7, 4, 1, 8], 10, ⟨by simp, by decide, by simp, by simp⟩, ?_, ?_,
    by decide⟩
  · rw [hv]
    exact nearest_2_30
  · intro D x hD0 hD
    rw [hf]
    have hD7 : D < 10000000 := by simpa using hD
    have hD0' : (1 : ℚ) ≤ (D : ℚ) := by exact_mod_cast hD0
    have hD7' : (D : ℚ) ≤ 9999999 := by
      have : D ≤ 9999999 := by omega
      exact_mod_cast this
    by_cases hlo : (D : ℚ) * (10 : ℚ) ^ x ≤ 1073741792
    · refine ⟨finite false 16777215 6, by decide, by norm_num [toRat], ?_⟩
      have hg : (finite false 16777215 6).toRat = 1073741760 := by norm_num [toRat]
      rw [hg, abs_of_nonpos (by linarith : (D : ℚ) * (10 : ℚ) ^ x - 1073741824 ≤ 0), abs_le]
      constructor <;> linarith
    · rw [not_le] at hlo
      by_cases hhi : (1073741888 : ℚ) ≤ (D : ℚ) * (10 : ℚ) ^ x
      · refine ⟨finite false 8388609 7, by decide, by norm_num [toRat], ?_⟩
        have hg : (finite false 8388609 7).toRat = 1073741952 := by norm_num [toRat]
        rw [hg, abs_of_nonneg (by linarith : (0 : ℚ) ≤ (D : ℚ) * (10 : ℚ) ^ x - 1073741824),
          abs_le]
        constructor <;> linarith
      · exfalso
        rw [not_le] at hhi
        by_cases hx : (3 : Int) ≤ x
        · obtain ⟨k, hk⟩ : ∃ k : Nat, x = (k : Int) + 3 := ⟨(x - 3).toNat, by omega⟩
          have hw : (D : ℚ) * (10 : ℚ) ^ x = ((D * 10 ^ k * 1000 : Nat) : ℚ) := by
            rw [hk, zpow_add₀ (by norm_num), zpow_natCast]
            push_cast
            ring
          rw [hw] at hlo hhi
          have h1 : 1073741792 < D * 10 ^ k * 1000 := by exact_mod_cast hlo
          have h2 : D * 10 ^ k * 1000 < 1073741888 := by exact_mod_cast hhi
          omega
        · have hx2 : x ≤ 2 := by omega
          have h2 : (10 : ℚ) ^ x ≤ (10 : ℚ) ^ (2 : Int) := zpow_le_zpow_right₀ (by norm_num) hx2
          have hp : (0 : ℚ) < (10 : ℚ) ^ x := zpow_pos (by norm_num) _
          norm_num at h2
          nlinarith

end Float32SampleFacts

/-- C7, as stated, fails at the `float32` value `2^30 = 1073741824`: the
shortest decimal that reads back as it is `1.0737418e9`, which
`strconv.FormatFloat` lays out as `1073741800`, so that `floatToJson` does not
append the integer itself. -/
theorem C7_counterexample_float32 :
    ¬ ∀ (FormatFloat : FormatFloatFn) (bits : Int) (f : FloatVal) (e : Buffer) (N : Nat),
        (bits = 32 ∨ bits = 64) → f.isFinite = true → f.isInteger = true →
        f.representableAt bits = true → FloatVal.le c1 (FloatVal.Abs f) = true →
        FloatVal.lt (FloatVal.Abs f) c64_1e21 = true →
        ShortestF bits f (FormatFloat f 'f' (-1) bits) → (FloatVal.Abs f).toRat = (N : ℚ) →
        floatToJson FormatFloat bits f e =
          some (e ++ ((if f.signbit then ['-'] else []) ++ Nat.toDigits 10 N)) := by
  intro h
  have h1 := h (fun _ _ _ _ => ['1', '0', '7', '3', '7', '4', '1', '8', '0', '0']) 32
    (.finite false 8388608 7) [] 1073741824 (Or.inl rfl) (by decide) (by decide) (by decide)
    (by decide) (by decide) shortestF_2_30 (by norm_num [FloatVal.Abs, FloatVal.toRat])
  revert h1
  decide

/-- The float cases of `TestValueToJson`, with `strconv.FormatFloat` as in
`sampleFormatFloat`: `float32(12)` is written `12`, `float64(13)` is written
`13`, `100e-100` is written `1e-98`; besides, `1e-9` is written `1e-9`, `1e21`
is written `1e+21`, `1e-6` is written `0.000001` and zero is written `0`. -/
theorem floatToJson_test_values :
    floatToJson sampleFormatFloat 32 (.finite false 12 0) [] = some ['1', '2'] ∧
      floatToJson sampleFormatFloat 64 (.finite false 13 0) [] = some ['1', '3'] ∧
      floatToJson sampleFormatFloat 64 (.finite false 6156563468186637 (-378)) [] =
        some ['1', 'e', '-', '9', '8'] ∧
      floatToJson sampleFormatFloat 64 (.finite false 4835703278458517 (-82)) [] =
        some ['1', 'e', '-', '9'] ∧
      floatToJson sampleFormatFloat 64 c64_1e21 [] = some ['1', 'e', '+', '2', '1'] ∧
      floatToJson sampleFormatFloat 64 c64_1e_6 [] =
        some ['0', '.', '0', '0', '0', '0', '0', '1'] ∧
      floatToJson sampleFormatFloat 64 c0 [] = some ['0'] := by
  refine ⟨?_, ?_, ?_, ?_, ?_, ?_, ?_⟩ <;> decide

/-- The string `1e-98` is a rendering of `100e-100` that reads back as it. -/
theorem roundTripE_1e_98 :
    RoundTripE 64 (.finite false 6156563468186637 (-378)) ['1', 'e', '-', '9', '8'] :=
  ⟨[1], -97, ⟨by simp, by simp, by simp, by simp⟩,
    nearest_of_half_ulp 6156563468186637 (-378) _ (by norm_num)
      (by
        rw [abs_le]
        constructor <;> norm_num [decValue]),
    by decide⟩

/-- The float constants of `floatToJson` are the roundings of the decimal
constants of the source: `c64_1e_6` is a nearest `float64` to `10^-6`,
`c64_1e21` is `10^21` exactly, and the `float32` constants, with 24-bit
mantissas, lie within half a unit in the last place of `10^-6` and `10^21`. -/
theorem float_constants_rounded :
    NearestFloat 64 c64_1e_6 ((10 : ℚ) ^ (-6 : Int)) ∧
      c64_1e21.toRat = (10 : ℚ) ^ (21 : Nat) ∧
      (c32_1e_6.valid32 = true ∧
        |(10 : ℚ) ^ (-6 : Int) - c32_1e_6.toRat| ≤ (2 : ℚ) ^ (-43 : Int) / 2) ∧
      (c32_1e21.valid32 = true ∧
        |(10 : ℚ) ^ (21 : Nat) - c32_1e21.toRat| ≤ (2 : ℚ) ^ (46 : Nat) / 2) := by
  refine ⟨?_, toRat_c64_1e21, ⟨by decide, ?_⟩, ⟨by decide, ?_⟩⟩
  · exact nearest_of_half_ulp 4722366482869645 (-72) _ (by norm_num)
      (by
        rw [abs_le]
        constructor <;> norm_num)
  · rw [abs_le]
    constructor <;> norm_num [c32_1e_6, FloatVal.toRat]
  · rw [abs_le]
    constructor <;> norm_num [c32_1e21, FloatVal.toRat]

/-! ## Invariants of `Value` under construction and assignment -/

/-- C11. Every value returned by one of the nine constructors satisfies the tag
invariant (at most one of `isVar`, `isNull`, `isEnum` is set, and `valType` is
`reflect.Invalid` exactly when one is set); the scalar and container
constructors set no flag and set `valType` to String, Bool, Int, Float64, Array
and Map respectively. -/
theorem C11_constructors_tag_invariant (s : GoString) (b : Bool) (i : Int) (x : FloatVal)
    (list : Option (List Value)) (keyValues : Arguments) :
    ((makeStringValue s).TagInvariant ∧ (makeBooleanValue b).TagInvariant ∧
        (makeIntValue i).TagInvariant ∧ (makeFloatValue x).TagInvariant ∧
        (makeEnumValue s).TagInvariant ∧ makeNullValue.TagInvariant ∧
        (makeArrayValue list).TagInvariant ∧ (makeStructValue keyValues).TagInvariant ∧
        (makeVariableValue s).TagInvariant) ∧
      ((makeStringValue s).noFlag ∧ (makeStringValue s).valType = reflect.String) ∧
      ((makeBooleanValue b).noFlag ∧ (makeBooleanValue b).valType = reflect.Bool) ∧
      ((makeIntValue i).noFlag ∧ (makeIntValue i).valType = reflect.Int) ∧
      ((makeFloatValue x).noFlag ∧ (makeFloatValue x).valType = reflect.Float64) ∧
      ((makeArrayValue list).noFlag ∧ (makeArrayValue list).valType = reflect.Array) ∧
      ((makeStructValue keyValues).noFlag ∧
        (makeStructValue keyValues).valType = reflect.Map) ∧
      ((makeEnumValue s).isEnum = true ∧ (makeEnumValue s).isVar = false ∧
        (makeEnumValue s).isNull = false ∧ (makeEnumValue s).valType = reflect.Invalid) ∧
      (makeNullValue.isNull = true ∧ makeNullValue.isVar = false ∧
        makeNullValue.isEnum = false ∧ makeNullValue.valType = reflect.Invalid) ∧
      ((makeVariableValue s).isVar = true ∧ (makeVariableValue s).isNull = false ∧
        (makeVariableValue s).isEnum = false ∧
        (makeVariableValue s).valType = reflect.Invalid) := by
  refine ⟨⟨?_, ?_, ?_, ?_, ?_, ?_, ?_, ?_, ?_⟩, ?_, ?_, ?_, ?_, ?_, ?_, ?_, ?_, ?_⟩ <;>
    simp [Value.TagInvariant, Value.flagCount, Value.noFlag, makeStringValue, makeBooleanValue,
      makeIntValue, makeFloatValue, makeEnumValue, makeNullValue, makeArrayValue,
      makeStructValue, makeVariableValue, Value.zero]

section ValueFacts

theorem SetToValueOf_flags (v other : Value) :
    (v.SetToValueOf other).isVar = v.isVar ∧ (v.SetToValueOf other).isNull = v.isNull ∧
      (v.SetToValueOf other).isEnum = v.isEnum := by
  unfold Value.SetToValueOf
  simp only
  split_ifs <;> exact ⟨rfl, rfl, rfl⟩

theorem SetToValueOf_valType (v other : Value) :
    (v.SetToValueOf other).valType = other.valType := by
  unfold Value.SetToValueOf
  simp only
  split_ifs <;> rfl

theorem SetToValueOfAndExpect_ok {v other : Value} {expect : reflect.Kind}
    (h : (v.SetToValueOfAndExpect other expect).2 = none) :
    (v.SetToValueOfAndExpect other expect).1 = v.SetToValueOf other := by
  by_cases hne : other.valType = expect
  · simp [Value.SetToValueOfAndExpect, hne]
  · simp [Value.SetToValueOfAndExpect, hne] at h

/-- After `SetToValueOf` the receiver satisfies `TagDisjoint` exactly when it
has no flag set or the kind copied is not a scalar/container kind. -/
theorem SetToValueOf_tagDisjoint_iff (v other : Value) :
    (v.SetToValueOf other).TagDisjoint ↔ (Value.isPayloadKind other.valType → v.noFlag) := by
  obtain ⟨h1, h2, h3⟩ := SetToValueOf_flags v other
  unfold Value.TagDisjoint Value.noFlag
  rw [SetToValueOf_valType, h1, h2, h3]

end ValueFacts

/-- C12, as stated, fails: a null value and an Int value both satisfy the
invariant, but after `SetToValueOf` the null value has `valType` Int while
`isNull` is still set. -/
theorem C12_counterexample_flagged_receiver :
    makeNullValue.TagDisjoint ∧ (makeIntValue 5).TagDisjoint ∧
      ¬ (makeNullValue.SetToValueOf (makeIntValue 5)).TagDisjoint ∧
      (makeNullValue.SetToValueOfAndExpect (makeIntValue 5) reflect.Int).2 = none ∧
      ¬ (makeNullValue.SetToValueOfAndExpect (makeIntValue 5) reflect.Int).1.TagDisjoint := by
  refine ⟨?_, ?_, ?_, rfl, ?_⟩
  · simp [Value.TagDisjoint, Value.isPayloadKind, makeNullValue, Value.zero]
  · simp [Value.TagDisjoint, Value.noFlag, makeIntValue, Value.zero]
  · simp [Value.TagDisjoint, Value.isPayloadKind, Value.noFlag, Value.SetToValueOf,
      makeNullValue, makeIntValue, Value.zero]
  · simp [Value.TagDisjoint, Value.isPayloadKind, Value.noFlag, Value.SetToValueOfAndExpect,
      Value.SetToValueOf, makeNullValue, makeIntValue, Value.zero]

/-- C12, amended. `SetToValueOf` and a successful `SetToValueOfAndExpect` never
change the flags of the receiver and give it the kind of `other`; so for a
receiver `v` satisfying the invariant and every `other` (satisfying it or
not), the receiver satisfies it afterwards exactly when it has no flag set or
`other.valType` is not a scalar/container kind, in particular whenever the
receiver has no flag set. -/
theorem C12_SetToValueOf_tagDisjoint (v other : Value) (expect : reflect.Kind)
    (hv : v.TagDisjoint) :
    ((v.SetToValueOf other).TagDisjoint ↔ (Value.isPayloadKind other.valType → v.noFlag)) ∧
      ((v.SetToValueOfAndExpect other expect).2 = none →
        ((v.SetToValueOfAndExpect other expect).1.TagDisjoint ↔
          (Value.isPayloadKind other.valType → v.noFlag))) ∧
      (v.noFlag → (v.SetToValueOf other).TagDisjoint ∧
        (v.SetToValueOfAndExpect other expect).1.TagDisjoint) := by
  refine ⟨SetToValueOf_tagDisjoint_iff v other, ?_, ?_⟩
  · intro hok
    rw [SetToValueOfAndExpect_ok hok]
    exact SetToValueOf_tagDisjoint_iff v other
  · intro hnf
    refine ⟨(SetToValueOf_tagDisjoint_iff v other).2 (fun _ => hnf), ?_⟩
    unfold Value.SetToValueOfAndExpect
    split_ifs
    · exact hv
    · exact (SetToValueOf_tagDisjoint_iff v other).2 (fun _ => hnf)

/-- Witness of the amended C12: an Int value copied into a String value. -/
theorem C12_SetToValueOf_tagDisjoint_witness :
    ((makeStringValue ['a']).SetToValueOf (makeIntValue 5)).TagDisjoint :=
  ((C12_SetToValueOf_tagDisjoint (makeStringValue ['a']) (makeIntValue 5) reflect.Int
    (by simp [Value.TagDisjoint, Value.noFlag, makeStringValue, Value.zero])).2.2
    (by simp [Value.noFlag, makeStringValue, Value.zero])).1
section PayloadFacts

theorem constructors_onlyTagPayload (s : GoString) (b : Bool) (i : Int) (x : FloatVal)
    (list : Option (List Value)) (keyValues : Arguments) :
    (makeStringValue s).OnlyTagPayload ∧ (makeBooleanValue b).OnlyTagPayload ∧
      (makeIntValue i).OnlyTagPayload ∧ (makeFloatValue x).OnlyTagPayload ∧
      (makeEnumValue s).OnlyTagPayload ∧ makeNullValue.OnlyTagPayload ∧
      (makeArrayValue list).OnlyTagPayload ∧ (makeStructValue keyValues).OnlyTagPayload ∧
      (makeVariableValue s).OnlyTagPayload := by
  refine ⟨?_, ?_, ?_, ?_, ?_, ?_, ?_, ?_, ?_⟩ <;> intro pf hpf <;> cases pf <;>
    simp_all [Value.tagField, Value.fieldIsZero, makeStringValue, makeBooleanValue,
      makeIntValue, makeFloatValue, makeEnumValue, makeNullValue, makeArrayValue,
      makeStructValue, makeVariableValue, Value.zero]

/-- `SetToValueOf` keeps `OnlyTagPayload` for a receiver without flag that
already has the kind of `other`, or whose payload fields are all zero. -/
theorem SetToValueOf_onlyTagPayload (v other : Value) (hv : v.OnlyTagPayload)
    (hnf : v.noFlag) (h : v.valType = other.valType ∨ v.payloadZero) :
    (v.SetToValueOf other).OnlyTagPayload := by
  obtain ⟨f1, f2, f3⟩ := hnf
  have hz : ∀ pf : Value.PayloadField,
      (if other.valType = reflect.String then some Value.PayloadField.stringValue
        else if other.valType = reflect.Int then some .intValue
        else if other.valType = reflect.Float64 then some .floatValue
        else if other.valType = reflect.Bool then some .booleanValue
        else if other.valType = reflect.Array then some .listValue
        else if other.valType = reflect.Map then some .objectValue
        else none) ≠ some pf → v.fieldIsZero pf := by
    intro pf hpf
    rcases h with h | h
    · apply hv pf
      simp only [Value.tagField, f1, f2, f3, Bool.false_eq_true, if_false, h]
      exact hpf
    · exact h pf
  intro pf hpf
  have hpf' := hpf
  simp only [Value.tagField, (SetToValueOf_flags v other).1, (SetToValueOf_flags v other).2.1,
    (SetToValueOf_flags v other).2.2, SetToValueOf_valType, f1, f2, f3, Bool.false_eq_true,
    if_false] at hpf'
  have hzpf := hz pf hpf'
  unfold Value.SetToValueOf
  simp only
  split_ifs with h1 h2 h3 h4 h5 h6 <;> cases pf <;>
    simp_all [Value.fieldIsZero]

end PayloadFacts

/-- C13, as stated, fails: after copying an Int value into a value built by
`makeStringValue`, `stringValue` is still populated although the tag selects
`intValue`. -/
theorem C13_counterexample_stale_payload :
    Reachable ((makeStringValue ['a']).SetToValueOf (makeIntValue 5)) ∧
      ((makeStringValue ['a']).SetToValueOf (makeIntValue 5)).tagField = some .intValue ∧
      ((makeStringValue ['a']).SetToValueOf (makeIntValue 5)).stringValue = ['a'] ∧
      ¬ ((makeStringValue ['a']).SetToValueOf (makeIntValue 5)).OnlyTagPayload := by
  refine ⟨Reachable.set _ _ (Reachable.string _) (Reachable.int _), rfl, rfl, ?_⟩
  intro h
  have := h .stringValue (by decide)
  simp [Value.fieldIsZero, Value.SetToValueOf, makeStringValue, makeIntValue, Value.zero] at this

/-- C13, amended. Every value returned by a constructor has a non-zero payload
only in the field selected by its tag; `SetToValueOf` and a successful
`SetToValueOfAndExpect` keep this when the receiver has no flag set and either
has the kind of `other` already or holds no payload at all. In general the
call overwrites only the field selected by the kind of `other` and leaves the
earlier payload in place: after copying an Int value into a value built by
`makeStringValue`, `stringValue` still holds the string. -/
theorem C13_onlyTagPayload (v other : Value) (expect : reflect.Kind) (s : GoString) (b : Bool)
    (i : Int) (x : FloatVal) (list : Option (List Value)) (keyValues : Arguments)
    (hv : v.OnlyTagPayload) (hnf : v.noFlag)
    (h : v.valType = other.valType ∨ v.payloadZero) :
    ((makeStringValue s).OnlyTagPayload ∧ (makeBooleanValue b).OnlyTagPayload ∧
        (makeIntValue i).OnlyTagPayload ∧ (makeFloatValue x).OnlyTagPayload ∧
        (makeEnumValue s).OnlyTagPayload ∧ makeNullValue.OnlyTagPayload ∧
        (makeArrayValue list).OnlyTagPayload ∧ (makeStructValue keyValues).OnlyTagPayload ∧
        (makeVariableValue s).OnlyTagPayload) ∧
      (v.SetToValueOf other).OnlyTagPayload ∧
      ((v.SetToValueOfAndExpect other expect).2 = none →
        (v.SetToValueOfAndExpect other expect).1.OnlyTagPayload) ∧
      (((makeStringValue s).SetToValueOf (makeIntValue i)).stringValue = s ∧
        ((makeStringValue s).SetToValueOf (makeIntValue i)).intValue = i) := by
  refine ⟨constructors_onlyTagPayload s b i x list keyValues,
    SetToValueOf_onlyTagPayload v other hv hnf h, ?_, rfl, rfl⟩
  intro hok
  rw [SetToValueOfAndExpect_ok hok]
  exact SetToValueOf_onlyTagPayload v other hv hnf h

/-- Witness of the amended C13: an Int value copied into an Int value. -/
theorem C13_onlyTagPayload_witness :
    ((makeIntValue 3).SetToValueOf (makeIntValue 5)).OnlyTagPayload :=
  (C13_onlyTagPayload (makeIntValue 3) (makeIntValue 5) reflect.Int [] false 0
    (.finite false 0 0) none none
    (constructors_onlyTagPayload [] false 3 (.finite false 0 0) none none).2.2.1
    (by simp [Value.noFlag, makeIntValue, Value.zero]) (Or.inl rfl)).2.1

/-! ## Properties of the resolver model -/

section ResolverFacts

theorem resolveSelections_nil (env : ResolveEnv) (tn : GoString)
    (fields : List (GoString × HostValue)) (path : List PathElem) (depth : Nat) (first : Bool) :
    resolveSelections env tn fields [] path depth first = ([], [], first) := by
  simp [resolveSelections]

/-- What one selection writes and records, and the new value of `first`. -/
theorem resolveSelections_cons (env : ResolveEnv) (tn : GoString)
    (fields : List (GoString × HostValue)) (sel : Selection) (rest : List Selection)
    (path : List PathElem) (depth : Nat) (first : Bool) :
    resolveSelections env tn fields (sel :: rest) path depth first =
      ((resolveSelections env tn fields [sel] path depth first).1 ++
          (resolveSelections env tn fields rest path depth
            (resolveSelections env tn fields [sel] path depth first).2.2).1,
        (resolveSelections env tn fields [sel] path depth first).2.1 ++
          (resolveSelections env tn fields rest path depth
            (resolveSelections env tn fields [sel] path depth first).2.2).2.1,
        (resolveSelections env tn fields rest path depth
            (resolveSelections env tn fields [sel] path depth first).2.2).2.2) := by
  cases sel <;> simp [resolveSelections]

/-- A selection set resolved in two parts. -/
theorem resolveSelections_append (env : ResolveEnv) (tn : GoString)
    (fields : List (GoString × HostValue)) (pre post : List Selection)
    (path : List PathElem) (depth : Nat) (first : Bool) :
    resolveSelections env tn fields (pre ++ post) path depth first =
      ((resolveSelections env tn fields pre path depth first).1 ++
          (resolveSelections env tn fields post path depth
            (resolveSelections env tn fields pre path depth first).2.2).1,
        (resolveSelections env tn fields pre path depth first).2.1 ++
          (resolveSelections env tn fields post path depth
            (resolveSelections env tn fields pre path depth first).2.2).2.1,
        (resolveSelections env tn fields post path depth
            (resolveSelections env tn fields pre path depth first).2.2).2.2) := by
  induction pre generalizing first with
  | nil => simp [resolveSelections_nil]
  | cons sel pre ih =>
    rw [List.cons_append, resolveSelections_cons, ih, resolveSelections_cons env tn fields sel pre]
    simp [List.append_assoc]

/-- A selection omitted by its directives writes nothing, records nothing and
leaves `first` as it is. -/
theorem resolveSelections_skipped (env : ResolveEnv) (tn : GoString)
    (fields : List (GoString × HostValue)) (sel : Selection)
    (path : List PathElem) (depth : Nat) (first : Bool)
    (h : shouldSkip sel.directives = true) :
    resolveSelections env tn fields [sel] path depth first = ([], [], first) := by
  cases sel <;>
    · simp only [Selection.directives] at h
      simp [resolveSelections, h]

end ResolverFacts

section SliceFacts

theorem intercalate_cons_eq {α : Type} (sep x : List α) (xs : List (List α)) :
    List.intercalate sep (x :: xs) = x ++ (xs.map fun y => sep ++ y).flatten := by
  induction xs generalizing x with
  | nil => simp [List.intercalate]
  | cons y ys ih =>
    have h := ih y
    simp only [List.intercalate] at h ⊢
    rw [List.intersperse_cons₂, List.flatten_cons, List.flatten_cons, h]
    simp

/-- The elements of a slice from a positive index on: a comma and the element,
for each element in order. -/
theorem resolveElems_pos (env : ResolveEnv) (elems : List HostValue) (sels : List Selection)
    (path : List PathElem) (depth : Nat) (i : Nat) (hi : i ≠ 0) :
    resolveElems env elems sels path depth i =
      (((elems.enumFrom i).map fun p =>
          [','] ++ (resolveValue env p.2 sels (path ++ [.index p.1]) depth).1).flatten,
        ((elems.enumFrom i).map fun p =>
          (resolveValue env p.2 sels (path ++ [.index p.1]) depth).2).flatten) := by
  induction elems generalizing i with
  | nil => simp [resolveElems]
  | cons el rest ih =>
    rw [resolveElems, ih (i + 1) (by omega)]
    simp [hi]

end SliceFacts

/-- C19. For a slice the resolver writes `null` when the slice is nil, `[]`
when it is non-nil and empty, and otherwise `[`, the elements in order
separated by single commas, and `]`; the elements are resolved in the same
way, so that a nil inner slice is written `null` inside the outer list. The
errors recorded are those of the elements, in order. -/
theorem C19_resolve_slice (env : ResolveEnv) (elems : List HostValue) (sels : List Selection)
    (path : List PathElem) (depth : Nat) :
    resolveValue env (.slice none) sels path depth = (jsonNull, []) ∧
      resolveValue env (.slice (some [])) sels path depth = (['[', ']'], []) ∧
      resolveValue env (.slice (some elems)) sels path depth =
        (['['] ++ List.intercalate [',']
            (elems.enum.map fun p =>
              (resolveValue env p.2 sels (path ++ [.index p.1]) depth).1) ++ [']'],
          (elems.enum.map fun p =>
              (resolveValue env p.2 sels (path ++ [.index p.1]) depth).2).flatten) ∧
      resolveValue env (.slice (some [.slice none])) sels path depth =
        (['['] ++ jsonNull ++ [']'], []) := by
  refine ⟨by simp [resolveValue], by simp [resolveValue, resolveElems], ?_,
    by simp [resolveValue, resolveElems]⟩
  cases elems with
  | nil => simp [resolveValue, resolveElems, List.intercalate]
  | cons el rest =>
    rw [resolveValue, resolveElems, resolveElems_pos env rest sels path depth (0 + 1) (by omega),
      List.enum_cons, List.map_cons, intercalate_cons_eq]
    simp [List.map_map, Function.comp_def]

/-- C20. `valueToJson` writes `null` for a nil pointer and for a value of an
unsupported kind, and for a non-nil pointer exactly what it writes for the
value pointed to; hence `null` also for a pointer to a nil pointer. -/
theorem C20_valueToJson_pointer (FormatFloat : FormatFloatFn) (v : HostValue) :
    valueToJson FormatFloat (.ptr none) = jsonNull ∧
      valueToJson FormatFloat .unsupported = jsonNull ∧
      valueToJson FormatFloat (.ptr (some v)) = valueToJson FormatFloat v ∧
      valueToJson FormatFloat (.ptr (some (.ptr none))) = jsonNull := by
  refine ⟨?_, ?_, ?_, ?_⟩ <;> simp [valueToJson]

/-- The scalar cases of `TestValueToJson` in the model, with
`strconv.FormatFloat` as in `sampleFormatFloat`. -/
theorem valueToJson_test_values :
    valueToJson sampleFormatFloat (.string ['a', '"', 'b']) = ['"', 'a', '\\', '"', 'b', '"'] ∧
      valueToJson sampleFormatFloat (.bool true) = ['t', 'r', 'u', 'e'] ∧
      valueToJson sampleFormatFloat (.bool false) = ['f', 'a', 'l', 's', 'e'] ∧
      valueToJson sampleFormatFloat (.int 1) = ['1'] ∧
      valueToJson sampleFormatFloat (.uint 10) = ['1', '0'] ∧
      valueToJson sampleFormatFloat (.float32 (.finite false 12 0)) = ['1', '2'] ∧
      valueToJson sampleFormatFloat (.float64 (.finite false 13 0)) = ['1', '3'] ∧
      valueToJson sampleFormatFloat (.float64 (.finite false 6156563468186637 (-378))) =
        ['1', 'e', '-', '9', '8'] ∧
      valueToJson sampleFormatFloat (.ptr (some (.string ['a', '"', 'b']))) =
        ['"', 'a', '\\', '"', 'b', '"'] ∧
      valueToJson sampleFormatFloat (.ptr (some (.uint 10))) = ['1', '0'] ∧
      valueToJson sampleFormatFloat (.ptr none) = ['n', 'u', 'l', 'l'] ∧
      valueToJson sampleFormatFloat .unsupported = ['n', 'u', 'l', 'l'] := by
  refine ⟨?_, ?_, ?_, ?_, ?_, ?_, ?_, ?_, ?_, ?_, ?_, ?_⟩ <;> decide

/-- C17, as stated, fails: of two operators the one named by `OperatorTarget`
selects a field the root does not have, and `Resolve` returns an error. -/
theorem C17_counterexample_target_error :
    Resolve sampleFormatFloat
        ⟨.struct ['T'] [], .struct ['M'] [], .struct ['S'] [], 255⟩
        [⟨.query, ['A'], [.field none ['x'] [] []]⟩, ⟨.query, ['B'], []⟩] ⟨['A']⟩ =
      (['{', '}'], [⟨.UnknownField, "x does not exists on T".toList, [.key ['x']]⟩]) := by
  simp [Resolve, execOperator, resolveValue, resolveSelections, resolveField, shouldSkip,
    typenameField, fieldKey]

/-- C17, amended. For a document with more than one operator, `Resolve` with
`OperatorTarget` unset returns the body `{}` and exactly one error, of kind
`AmbiguousOperator`; with `OperatorTarget` set to the name of one of the
operators it executes only that operator (the first of that name): body and
errors are exactly those of resolving this operator alone, so there is no
error when its selections resolve without error. -/
theorem C17_Resolve_multiple_operators (FormatFloat : FormatFloatFn) (s : Schema)
    (pre post : List Operator) (op : Operator) (options : ResolveOptions)
    (hlen : 1 < (pre ++ op :: post).length)
    (hpre : ∀ o ∈ pre, o.name ≠ op.name) (hname : op.name ≠ []) :
    ((Resolve FormatFloat s (pre ++ op :: post) ⟨[]⟩).1 = ['{', '}'] ∧
        ∃ err, (Resolve FormatFloat s (pre ++ op :: post) ⟨[]⟩).2 = [err] ∧
          err.kind = .AmbiguousOperator) ∧
      (options.OperatorTarget = op.name →
        Resolve FormatFloat s (pre ++ op :: post) options = execOperator FormatFloat s op ∧
        Resolve FormatFloat s (pre ++ op :: post) options =
          Resolve FormatFloat s [op] options) := by
  have hshape : ∃ a b rest, pre ++ op :: post = a :: b :: rest := by
    cases h : pre ++ op :: post with
    | nil => simp at h
    | cons a l =>
      cases l with
      | nil => rw [h] at hlen; simp at hlen
      | cons b rest => exact ⟨a, b, rest, rfl⟩
  obtain ⟨a, b, rest, hab⟩ := hshape
  constructor
  · rw [hab]
    simp [Resolve, ambiguousOperator]
  · intro htarget
    have hfind : (pre ++ op :: post).find? (fun o => o.name = options.OperatorTarget) =
        some op := by
      have hnone : pre.find? (fun o => o.name = options.OperatorTarget) = none := by
        rw [List.find?_eq_none]
        intro o ho
        simpa [htarget] using hpre o ho
      rw [List.find?_append, hnone]
      simp [htarget]
    have h1 : Resolve FormatFloat s (pre ++ op :: post) options =
        execOperator FormatFloat s op := by
      rw [hab] at hfind ⊢
      have hne : options.OperatorTarget ≠ [] := by rw [htarget]; exact hname
      simp only [Resolve, hne, if_false, hfind]
    exact ⟨h1, by rw [h1]; simp [Resolve]⟩

/-- Witness of the amended C17: the two operators of `TestExecMultipleOperators`
with `OperatorTarget` set to `QueryB`. -/
theorem C17_Resolve_multiple_operators_witness :
    Resolve sampleFormatFloat
        ⟨.struct ['T'] [(['C'], .string []), (['D'], .string [])], .struct ['M'] [],
          .struct ['S'] [], 255⟩
        ([⟨.query, "QueryA".toList, [.field none ['a'] [] [], .field none ['b'] [] []]⟩] ++
          ⟨.query, "QueryB".toList, [.field none ['c'] [] [], .field none ['d'] [] []]⟩ :: [])
        ⟨"QueryB".toList⟩ =
      execOperator sampleFormatFloat
        ⟨.struct ['T'] [(['C'], .string []), (['D'], .string [])], .struct ['M'] [],
          .struct ['S'] [], 255⟩
        ⟨.query, "QueryB".toList, [.field none ['c'] [] [], .field none ['d'] [] []]⟩ :=
  ((C17_Resolve_multiple_operators sampleFormatFloat _
    [⟨.query, "QueryA".toList, [.field none ['a'] [] [], .field none ['b'] [] []]⟩] []
    ⟨.query, "QueryB".toList, [.field none ['c'] [] [], .field none ['d'] [] []]⟩
    ⟨"QueryB".toList⟩ (by simp) (by simp) (by simp)).2 rfl).1

/-- The two operators of `TestExecMultipleOperators` in the model: without
`OperatorTarget` the body is `{}` with one error, with `QueryB` the body is
`{"c":"","d":""}` without error. -/
theorem Resolve_test_multiple_operators :
    Resolve sampleFormatFloat
        ⟨.struct ['T'] [(['A'], .string []), (['B'], .string []), (['C'], .string []),
          (['D'], .string [])], .struct ['M'] [], .struct ['S'] [], 255⟩
        [⟨.query, "QueryA".toList, [.field none ['a'] [] [], .field none ['b'] [] []]⟩,
          ⟨.query, "QueryB".toList, [.field none ['c'] [] [], .field none ['d'] [] []]⟩]
        ⟨"QueryB".toList⟩ = ("\x7b\"c\":\"\",\"d\":\"\"\x7d".toList, []) ∧
      (Resolve sampleFormatFloat
        ⟨.struct ['T'] [(['A'], .string []), (['B'], .string []), (['C'], .string []),
          (['D'], .string [])], .struct ['M'] [], .struct ['S'] [], 255⟩
        [⟨.query, "QueryA".toList, [.field none ['a'] [] [], .field none ['b'] [] []]⟩,
          ⟨.query, "QueryB".toList, [.field none ['c'] [] [], .field none ['d'] [] []]⟩]
        ⟨[]⟩).1 = ['{', '}'] := by
  constructor <;>
    simp [Resolve, execOperator, resolveValue, resolveSelections, resolveField, shouldSkip,
      typenameField, fieldKey, eqFold, stringToJson, escapeByte, valueToJson, ambiguousOperator]

section ElideFacts

mutual

theorem resolveValue_congr (env : ResolveEnv) (sels sels' : List Selection)
    (h : SameSelections env sels sels') :
    ∀ (v : HostValue) (path : List PathElem) (depth : Nat),
      resolveValue env v sels path depth = resolveValue env v sels' path depth
  | .struct tn fields, path, depth => by simp [resolveValue, h tn fields]
  | .ptr none, path, depth => by simp [resolveValue]
  | .ptr (some t), path, depth => by
    rw [resolveValue, resolveValue]
    exact resolveValue_congr env sels sels' h t path depth
  | .slice none, path, depth => by simp [resolveValue]
  | .slice (some elems), path, depth => by
    rw [resolveValue, resolveValue, resolveElems_congr env sels sels' h elems path depth 0]
  | .string s, path, depth => by simp [resolveValue]
  | .bool b, path, depth => by simp [resolveValue]
  | .int i, path, depth => by simp [resolveValue]
  | .uint n, path, depth => by simp [resolveValue]
  | .float32 f, path, depth => by simp [resolveValue]
  | .float64 f, path, depth => by simp [resolveValue]
  | .time t, path, depth => by simp [resolveValue]
  | .unsupported, path, depth => by simp [resolveValue]

theorem resolveElems_congr (env : ResolveEnv) (sels sels' : List Selection)
    (h : SameSelections env sels sels') :
    ∀ (elems : List HostValue) (path : List PathElem) (depth : Nat) (i : Nat),
      resolveElems env elems sels path depth i = resolveElems env elems sels' path depth i
  | [], path, depth, i => by simp [resolveElems]
  | el :: rest, path, depth, i => by
    rw [resolveElems, resolveElems, resolveValue_congr env sels sels' h el,
      resolveElems_congr env sels sels' h rest]

end

theorem resolveField_congr (env : ResolveEnv) (ch ch' : List Selection)
    (h : SameSelections env ch ch') (tn : GoString) (fields : List (GoString × HostValue))
    (key name : GoString) (path : List PathElem) (depth : Nat) (first : Bool) :
    resolveField env tn fields key name ch path depth first =
      resolveField env tn fields key name ch' path depth first := by
  induction fields with
  | nil => simp [resolveField]
  | cons f rest ih =>
    obtain ⟨fieldName, fieldValue⟩ := f
    rw [resolveField, resolveField, ih, resolveValue_congr env ch ch' h]

theorem sameSelections_context (env : ResolveEnv) (pre post : List Selection)
    (sel sel' : Selection) (h : SameSelections env [sel] [sel']) :
    SameSelections env (pre ++ sel :: post) (pre ++ sel' :: post) := by
  intro tn fields path depth first
  rw [resolveSelections_append, resolveSelections_append env tn fields pre (sel' :: post),
    resolveSelections_cons env tn fields sel, resolveSelections_cons env tn fields sel', h]

theorem omits_of_neutral {d : Directive} (h : d.neutral = true) : d.omits = false := by
  unfold Directive.neutral at h
  unfold Directive.omits
  cases hv : d.ifValue <;> simp_all

theorem shouldSkip_of_mem {ds : List Directive} {d : Directive} (hd : d ∈ ds)
    (h : d.omits = true) : shouldSkip ds = true := by
  unfold shouldSkip
  rw [List.any_eq_true]
  exact ⟨d, hd, h⟩

theorem shouldSkip_drop_neutral (ds₁ ds₂ : List Directive) {d : Directive}
    (h : d.neutral = true) : shouldSkip (ds₁ ++ d :: ds₂) = shouldSkip (ds₁ ++ ds₂) := by
  simp [shouldSkip, omits_of_neutral h]

/-- The changes of `Elides` leave the resolution of every struct unchanged. -/
theorem sameSelections_of_elides (env : ResolveEnv) {sels sels' : List Selection}
    (h : Elides sels sels') : SameSelections env sels sels' := by
  induction h with
  | delete pre post sel d hd homit =>
    intro tn fields path depth first
    rw [resolveSelections_append, resolveSelections_append env tn fields pre post,
      resolveSelections_cons env tn fields sel,
      resolveSelections_skipped env tn fields sel _ _ _ (shouldSkip_of_mem hd homit)]
    simp
  | dropDirective pre post sel ds₁ ds₂ d hds hneutral =>
    apply sameSelections_context
    intro tn fields path depth first
    cases sel <;>
      · simp only [Selection.directives] at hds
        simp [Selection.withDirectives, resolveSelections, hds,
          shouldSkip_drop_neutral ds₁ ds₂ hneutral]
  | inside pre post sel ch _ ih =>
    apply sameSelections_context
    intro tn fields path depth first
    cases sel with
    | field a n ds c =>
      simp only [Selection.sels] at ih
      simp [Selection.withSels, resolveSelections, resolveField_congr env c ch ih]
    | fragmentSpread n ds c =>
      simp only [Selection.sels] at ih
      simp [Selection.withSels, resolveSelections, ih tn fields]
    | inlineFragment t ds c =>
      simp only [Selection.sels] at ih
      simp [Selection.withSels, resolveSelections, ih tn fields]

end ElideFacts

theorem find_sameOperator (FormatFloat : FormatFloatFn) (s : Schema) (target : GoString)
    (dflt : GoString × List ResolveError) {ops ops' : List Operator}
    (h : List.Forall₂ (SameOperator FormatFloat s) ops ops') :
    (match ops.find? fun op => op.name = target with
      | some op => execOperator FormatFloat s op
      | none => dflt) =
    (match ops'.find? fun op => op.name = target with
      | some op => execOperator FormatFloat s op
      | none => dflt) := by
  induction h with
  | nil => rfl
  | @cons a b l l' hab _ ih =>
    obtain ⟨hn, he⟩ := hab
    by_cases ht : a.name = target
    · have ht' : b.name = target := by rw [← hn]; exact ht
      simp [List.find?_cons, ht, ht', he]
    · have ht' : ¬ b.name = target := by rw [← hn]; exact ht
      simpa [List.find?_cons, ht, ht'] using ih

theorem Resolve_congr (FormatFloat : FormatFloatFn) (s : Schema) (options : ResolveOptions)
    {ops ops' : List Operator} (h : List.Forall₂ (SameOperator FormatFloat s) ops ops') :
    Resolve FormatFloat s ops options = Resolve FormatFloat s ops' options := by
  cases h with
  | nil => rfl
  | @cons a b l l' hab htl =>
    cases htl with
    | nil => simp [Resolve, hab.2]
    | @cons c d m m' hcd htl' =>
      have hall : List.Forall₂ (SameOperator FormatFloat s) (a :: c :: m) (b :: d :: m') :=
        List.Forall₂.cons hab (List.Forall₂.cons hcd htl')
      have hf := find_sameOperator FormatFloat s options.OperatorTarget
        (ambiguousOperator "no operator has the name of the operator target".toList) hall
      simp only [Resolve]
      split_ifs
      · rfl
      · exact hf

theorem sameOperator_refl (FormatFloat : FormatFloatFn) (s : Schema) (ops : List Operator) :
    List.Forall₂ (SameOperator FormatFloat s) ops ops := by
  induction ops with
  | nil => exact List.Forall₂.nil
  | cons a l ih => exact List.Forall₂.cons ⟨rfl, rfl⟩ ih

/-- C18. A selection carrying `@skip(if: true)` or `@include(if: false)` writes
no key and records no error; a query and the same query with such a selection
deleted, or with a directive `@skip(if: false)` or `@include(if: true)`
removed, at any depth of the selection sets of one of its operators, are
resolved alike against every value, and `Resolve` returns the same body and
the same errors for both. -/
theorem C18_directives_elide (FormatFloat : FormatFloatFn) (s : Schema)
    (pre post : List Operator) (op : Operator) (sels' : List Selection)
    (options : ResolveOptions) (env : ResolveEnv) (v : HostValue) (path : List PathElem)
    (depth : Nat) (h : Elides op.sels sels') :
    (∀ (sel : Selection) (d : Directive) (tn : GoString) (fields : List (GoString × HostValue))
        (first : Bool), d ∈ sel.directives → d.omits = true →
        resolveSelections env tn fields [sel] path depth first = ([], [], first)) ∧
      resolveValue env v op.sels path depth = resolveValue env v sels' path depth ∧
      Resolve FormatFloat s (pre ++ op :: post) options =
        Resolve FormatFloat s (pre ++ ⟨op.kind, op.name, sels'⟩ :: post) options := by
  refine ⟨?_, ?_, ?_⟩
  · intro sel d tn fields first hd homit
    exact resolveSelections_skipped env tn fields sel path depth first
      (shouldSkip_of_mem hd homit)
  · exact resolveValue_congr env _ _ (sameSelections_of_elides env h) v path depth
  · apply Resolve_congr
    apply List.rel_append (sameOperator_refl FormatFloat s pre)
    refine List.Forall₂.cons ⟨rfl, ?_⟩ (sameOperator_refl FormatFloat s post)
    unfold execOperator
    exact resolveValue_congr _ _ _ (sameSelections_of_elides _ h) _ _ _

/-- Witness of C18: the first query of `TestExecTheSkipDerive`, where the field
`b` carries `@skip(if: true)`, is resolved like the query without `b`. -/
theorem C18_directives_elide_witness :
    Resolve sampleFormatFloat
        ⟨.struct ['T'] [(['A'], .string ['x']), (['B'], .string ['y']), (['C'], .string ['z'])],
          .struct ['M'] [], .struct ['S'] [], 255⟩
        ([] ++ ⟨.query, [], [.field none ['a'] [] []] ++
          .field none ['b'] [⟨['s', 'k', 'i', 'p'], true⟩] [] :: [.field none ['c'] [] []]⟩ :: [])
        ⟨[]⟩ =
      Resolve sampleFormatFloat
        ⟨.struct ['T'] [(['A'], .string ['x']), (['B'], .string ['y']), (['C'], .string ['z'])],
          .struct ['M'] [], .struct ['S'] [], 255⟩
        ([] ++ ⟨.query, [], [.field none ['a'] [] []] ++ [.field none ['c'] [] []]⟩ :: [])
        ⟨[]⟩ :=
  (C18_directives_elide sampleFormatFloat _ [] []
    ⟨.query, [], [.field none ['a'] [] []] ++
      .field none ['b'] [⟨['s', 'k', 'i', 'p'], true⟩] [] :: [.field none ['c'] [] []]⟩
    ([.field none ['a'] [] []] ++ [.field none ['c'] [] []]) ⟨[]⟩ ⟨sampleFormatFloat, 255⟩
    .unsupported [] 0
    (Elides.delete _ _ _ ⟨['s', 'k', 'i', 'p'], true⟩ (List.mem_singleton.2 rfl) rfl)).2.2

/-- The queries of `TestExecTheSkipDerive` in the model. -/
theorem Resolve_test_skip :
    (execOperator sampleFormatFloat
        ⟨.struct ['T'] [(['A'], .string ['x']), (['B'], .string ['y']), (['C'], .string ['z'])],
          .struct ['M'] [], .struct ['S'] [], 255⟩
        ⟨.query, [], [.field none ['a'] [] [],
          .field none ['b'] [⟨['s', 'k', 'i', 'p'], true⟩] [], .field none ['c'] [] []]⟩) =
      ("\x7b\"a\":\"x\",\"c\":\"z\"\x7d".toList, []) ∧
    (execOperator sampleFormatFloat
        ⟨.struct ['T'] [(['A'], .string ['x']), (['B'], .string ['y']), (['C'], .string ['z'])],
          .struct ['M'] [], .struct ['S'] [], 255⟩
        ⟨.query, [], [.field none ['a'] [] [],
          .inlineFragment (some ['R', 'o', 'o', 't']) [⟨['s', 'k', 'i', 'p'], false⟩]
            [.field none ['b'] [] []],
          .field none ['c'] [] []]⟩) =
      ("\x7b\"a\":\"x\",\"b\":\"y\",\"c\":\"z\"\x7d".toList, []) := by
  constructor <;>
    simp [execOperator, resolveValue, resolveSelections, resolveField, shouldSkip,
      Directive.omits, typenameField, fieldKey, eqFold, stringToJson, escapeByte, valueToJson]

/-! ## Properties of the parser -/

section ParserFacts

theorem skipIgnored_length (b : Bool) (s : GoString) :
    (skipIgnored b s).length ≤ s.length := by
  induction s generalizing b with
  | nil => cases b <;> simp [skipIgnored]
  | cons c cs ih =>
    cases b
    · simp only [skipIgnored]
      split_ifs
      · exact Nat.le_succ_of_le (ih false)
      · exact Nat.le_succ_of_le (ih true)
      · exact le_refl _
    · simp only [skipIgnored]
      split_ifs
      · exact Nat.le_succ_of_le (ih false)
      · exact Nat.le_succ_of_le (ih true)

theorem isNameByte_of_isNameStart {c : Char} (h : isNameStart c = true) :
    isNameByte c = true := by
  simp only [isNameStart, isNameByte, Char.isAlphanum, Bool.or_eq_true] at h ⊢
  tauto

theorem ne_nulByte_of_isNameByte {c : Char} (h : isNameByte c = true) : c ≠ nulByte := by
  intro hc
  subst hc
  revert h
  decide

theorem nulByte_not_mem_name {n : GoString} (h : ∀ c ∈ n, isNameByte c = true) :
    nulByte ∉ n := fun hm => ne_nulByte_of_isNameByte (h _ hm) rfl

theorem readName_spec {s n t : GoString} (h : readName s = some (n, t)) :
    s = n ++ t ∧ n ≠ [] ∧ (∀ c ∈ n, isNameByte c = true) ∧
      (∀ c ∈ t.head?, isNameByte c = false) := by
  cases s with
  | nil => simp [readName] at h
  | cons c cs =>
    simp only [readName] at h
    split_ifs at h with hc
    simp only [Option.some.injEq] at h
    rw [List.span_eq_take_drop] at h
    simp only [Prod.mk.injEq] at h
    obtain ⟨hn, ht⟩ := h
    refine ⟨?_, ?_, ?_, ?_⟩
    · rw [← hn, ← ht, List.takeWhile_append_dropWhile]
    · rw [← hn, List.takeWhile_cons, isNameByte_of_isNameStart hc]
      simp
    · intro x hx
      rw [← hn] at hx
      exact List.mem_takeWhile_imp hx
    · intro x hx
      rw [← ht] at hx
      have := List.head?_dropWhile_not isNameByte (c :: cs)
      rw [Option.mem_def] at hx
      rw [hx] at this
      simpa using this

theorem readName_length {s n t : GoString} (h : readName s = some (n, t)) :
    t.length < s.length := by
  obtain ⟨hs, hn, _, _⟩ := readName_spec h
  subst hs
  cases n with
  | nil => exact absurd rfl hn
  | cons a l => simp; omega

theorem readName_nul {s n t : GoString} (h : readName s = some (n, t)) : nulByte ∉ n :=
  nulByte_not_mem_name (readName_spec h).2.2.1

theorem expectOpen_spec {s t : GoString} (h : expectOpen s = some t) : s = '{' :: t := by
  cases s with
  | nil => simp [expectOpen] at h
  | cons c cs =>
    simp only [expectOpen] at h
    split_ifs at h with hc
    simp only [Option.some.injEq] at h
    rw [hc, h]

theorem expectByte_spec {b : Char} {s t : GoString} (h : expectByte b s = some t) :
    s = b :: t := by
  cases s with
  | nil => simp [expectByte] at h
  | cons c cs =>
    simp only [expectByte] at h
    split_ifs at h with hc
    simp only [Option.some.injEq] at h
    rw [hc, h]

theorem expectByte_length {b : Char} {s t : GoString} (h : expectByte b s = some t) :
    t.length < s.length := by
  rw [expectByte_spec h]; simp

theorem matchOn_spec {s t : GoString} (h : matchOn s = some t) :
    ∃ c, isWhitespace c = true ∧ s = 'o' :: 'n' :: c :: t := by
  unfold matchOn at h
  split at h
  · split_ifs at h with hc
    simp only [Option.some.injEq] at h
    obtain ⟨ha, hb, hw⟩ := hc
    exact ⟨_, hw, by rw [ha, hb, h]⟩
  · simp at h

theorem matchDots_spec {s t : GoString} (h : matchDots s = some t) :
    s = '.' :: '.' :: '.' :: t := by
  unfold matchDots at h
  split at h
  · split_ifs at h with hc
    simp only [Option.some.injEq] at h
    obtain ⟨ha, hb, hw⟩ := hc
    rw [ha, hb, hw, h]
  · simp at h

theorem opcodeOf_operator (kind : OperatorKind) (name : GoString) :
    opcodeOf ('o' :: kindLetter kind :: name) = some .operator := by
  cases kind <;> simp [opcodeOf, kindLetter]

theorem nul_not_mem_operator (kind : OperatorKind) {name : GoString} (h : nulByte ∉ name) :
    nulByte ∉ 'o' :: kindLetter kind :: name := by
  intro hm
  rcases List.mem_cons.1 hm with h1 | h1
  · revert h1; decide
  · rcases List.mem_cons.1 h1 with h2 | h2
    · cases kind <;> revert h2 <;> decide
    · exact h h2

end ParserFacts

section ReaderFacts

theorem within_mono {α : Type} {rest : α → GoString} {s s1 : GoString} {r : Except GoString α}
    (h : Within rest s1 r) (hs : s1.length ≤ s.length) : Within rest s r := by
  cases r with
  | error p => exact le_trans h hs
  | ok a => exact le_trans h hs

theorem within_error {α : Type} (rest : α → GoString) {s p : GoString}
    (h : p.length ≤ s.length) : Within rest s (.error p) := h

theorem within_ok {α : Type} (rest : α → GoString) {s : GoString} {a : α}
    (h : (rest a).length ≤ s.length) : Within rest s (.ok a) := h

theorem scanString_within (st : StringState) (s : GoString) :
    Within id s (scanString st s) := by
  induction s generalizing st with
  | nil => cases st <;> exact Nat.le_refl _
  | cons c t ih =>
    cases st with
    | plain =>
      simp only [scanString]
      split_ifs
      · exact within_ok id (Nat.le_succ _)
      · exact within_mono (ih _) (Nat.le_succ _)
      · exact within_mono (ih _) (Nat.le_succ _)
      · exact within_error id (Nat.le_refl _)
    | escape =>
      simp only [scanString]
      split_ifs
      · exact within_mono (ih _) (Nat.le_succ _)
      · exact within_mono (ih _) (Nat.le_succ _)
      · exact within_error id (Nat.le_refl _)
    | hex due =>
      simp only [scanString]
      split_ifs
      · exact within_mono (ih _) (Nat.le_succ _)
      · exact within_error id (Nat.le_refl _)

theorem scanBlockString_within (k : Nat) (s : GoString) :
    Within id s (scanBlockString k s) := by
  induction s generalizing k with
  | nil => cases k <;> exact Nat.le_refl _
  | cons c t ih =>
    cases k with
    | succ k => simp only [scanBlockString]; exact within_mono (ih _) (Nat.le_succ _)
    | zero =>
      simp only [scanBlockString]
      split_ifs
      · exact within_ok id (by simp only [id, List.length_drop, List.length_cons]; omega)
      · exact within_mono (ih _) (Nat.le_succ _)
      · exact within_mono (ih _) (Nat.le_succ _)
      · exact within_error id (Nat.le_refl _)

theorem scanStringValue_within (s : GoString) : Within id s (scanStringValue s) := by
  unfold scanStringValue
  split_ifs
  · exact within_mono (scanBlockString_within _ _) (by simp)
  · exact scanString_within _ _

theorem dropWhile_length (p : Char → Bool) (s : GoString) :
    (s.dropWhile p).length ≤ s.length := by
  induction s with
  | nil => simp
  | cons c t ih =>
    simp only [List.dropWhile_cons]
    split_ifs
    · exact Nat.le_succ_of_le ih
    · exact Nat.le_refl _

theorem scanDigits_length {s t : GoString} (h : scanDigits s = some t) :
    t.length < s.length := by
  cases s with
  | nil => simp [scanDigits] at h
  | cons c cs =>
    simp only [scanDigits] at h
    split_ifs at h
    simp only [Option.some.injEq] at h
    rw [← h]
    exact Nat.lt_succ_of_le (dropWhile_length _ _)

theorem numberEnd_within (s : GoString) : Within id s (numberEnd s) := by
  cases s with
  | nil => exact Nat.le_refl _
  | cons c t =>
    simp only [numberEnd]
    split_ifs
    · exact within_error id (Nat.le_refl _)
    · exact within_ok id (Nat.le_refl _)

theorem skipSign_length (s : GoString) : (skipSign s).length ≤ s.length := by
  cases s with
  | nil => simp [skipSign]
  | cons c t =>
    simp only [skipSign]
    split_ifs
    · exact Nat.le_succ _
    · exact Nat.le_refl _

theorem scanExponent_within (s : GoString) : Within id s (scanExponent s) := by
  cases s with
  | nil => exact Nat.le_refl _
  | cons c t =>
    simp only [scanExponent]
    split_ifs
    · have h1 := skipSign_length t
      split
      · rename_i t1 h
        have := scanDigits_length h
        exact within_mono (numberEnd_within t1) (by simp only [List.length_cons]; omega)
      · exact within_error id (by simp only [List.length_cons]; omega)
    · exact numberEnd_within _

theorem scanFraction_within (s : GoString) : Within id s (scanFraction s) := by
  unfold scanFraction
  split
  · rename_i t h
    have h1 := expectByte_length h
    split
    · rename_i t1 h2
      have := scanDigits_length h2
      exact within_mono (scanExponent_within t1) (by omega)
    · exact within_error id (by omega)
  · exact scanExponent_within s

theorem expectByte_getD_length (b : Char) (s : GoString) :
    ((expectByte b s).getD s).length ≤ s.length := by
  rcases Option.eq_none_or_eq_some (expectByte b s) with h | ⟨t, h⟩
  · rw [h]; exact Nat.le_refl _
  · rw [h]; exact Nat.le_of_lt (expectByte_length h)

theorem scanNumber_within (s : GoString) : Within id s (scanNumber s) := by
  unfold scanNumber
  have h0 := expectByte_getD_length '-' s
  generalize (expectByte '-' s).getD s = s1 at h0
  cases s1 with
  | nil => exact within_error id (Nat.zero_le _)
  | cons c t =>
    simp only
    split_ifs
    · exact within_mono (scanFraction_within t) (by simp only [List.length_cons] at h0; omega)
    · exact within_mono (scanFraction_within _)
        (by have := dropWhile_length Char.isDigit t; simp only [List.length_cons] at h0; omega)
    · exact within_error id h0

theorem scanValueAux_within (n : Nat) (m : ValueMode) (av : Bool) (s : GoString) :
    Within id s (scanValueAux n m av s) := by
  induction n generalizing m s with
  | zero => exact within_error id (Nat.le_refl _)
  | succ n ih =>
    cases s with
    | nil => cases m <;> exact within_error id (Nat.le_refl _)
    | cons c t =>
      have hsk := skipIgnored_length false t
      cases m with
      | value =>
        simp only [scanValueAux]
        split_ifs
        · split
          · rename_i t1 h
            exact within_ok id (by have := readName_length h; simp only [id, List.length_cons]; omega)
          · exact within_error id (by simp only [List.length_cons]; omega)
        · exact within_error id (Nat.le_refl _)
        · exact within_mono (scanStringValue_within t) (Nat.le_succ _)
        · exact within_mono (ih _ _) (by simp only [List.length_cons]; omega)
        · exact within_mono (ih _ _) (by simp only [List.length_cons]; omega)
        · exact scanNumber_within _
        · split
          · rename_i t1 h
            exact within_ok id (Nat.le_of_lt (readName_length h))
          · exact within_error id (Nat.le_refl _)
      | items =>
        simp only [scanValueAux]
        split_ifs
        · exact within_ok id (Nat.le_succ _)
        · have h1 := ih .value (c :: t)
          split
          · rename_i t1 h
            rw [h] at h1
            exact within_mono (ih _ _) (le_trans (skipIgnored_length false t1) h1)
          · rename_i p h
            rw [h] at h1
            exact h1
      | fields =>
        simp only [scanValueAux]
        split_ifs
        · exact within_ok id (Nat.le_succ _)
        · split
          · exact within_error id (Nat.le_refl _)
          · rename_i x t1 h
            have h1 := readName_length h
            have h2 := skipIgnored_length false t1
            split
            · exact within_error id (by omega)
            · rename_i t2 h3
              have h4 := expectByte_length h3
              have h5 := skipIgnored_length false t2
              have h6 := ih .value (skipIgnored false t2)
              split
              · rename_i t3 h7
                rw [h7] at h6
                exact within_mono (ih _ _)
                  (le_trans (skipIgnored_length false t3) (le_trans h6 (by omega)))
              · rename_i p h7
                rw [h7] at h6
                exact le_trans h6 (by omega)

theorem scanValue_within (av : Bool) (s : GoString) : Within id s (scanValue av s) :=
  scanValueAux_within _ _ _ _

theorem scanValue_ok_length {av : Bool} {s t : GoString} (h : scanValue av s = .ok t) :
    t.length ≤ s.length := by
  have := scanValue_within av s
  rw [h] at this
  exact this

theorem scanValue_error_length {av : Bool} {s p : GoString} (h : scanValue av s = .error p) :
    p.length ≤ s.length := by
  have := scanValue_within av s
  rw [h] at this
  exact this

theorem within_ok_length {α : Type} {rest : α → GoString} {s : GoString} {r : Except GoString α}
    {a : α} (hw : Within rest s r) (h : r = .ok a) : (rest a).length ≤ s.length := by
  rw [h] at hw
  exact hw

theorem within_error_length {α : Type} {rest : α → GoString} {s p : GoString}
    {r : Except GoString α} (hw : Within rest s r) (h : r = .error p) :
    p.length ≤ s.length := by
  rw [h] at hw
  exact hw

theorem scanArguments_within (n : Nat) (av : Bool) (s : GoString) :
    Within Prod.snd s (scanArguments n av s) := by
  induction n generalizing s with
  | zero => exact within_error _ (Nat.le_refl _)
  | succ n ih =>
    cases s with
    | nil => exact within_error _ (Nat.le_refl _)
    | cons c t =>
      simp only [scanArguments]
      split_ifs
      · exact within_ok _ (Nat.le_succ _)
      · split
        · exact within_error _ (Nat.le_refl _)
        · rename_i name t1 h
          have h1 := readName_length h
          have h2 := skipIgnored_length false t1
          split
          · exact within_error _ (by omega)
          · rename_i t2 h3
            have h4 := expectByte_length h3
            have h5 := skipIgnored_length false t2
            split
            · rename_i p h6
              exact within_error _ (by have := scanValue_error_length h6; omega)
            · rename_i t3 h6
              have h7 := scanValue_ok_length h6
              have h8 := skipIgnored_length false t3
              have h9 := ih (skipIgnored false t3)
              split
              · rename_i p h10
                exact within_error _ (by have := within_error_length h9 h10; omega)
              · rename_i args t4 h10
                exact within_ok _ (by have := within_ok_length h9 h10; simp only at this ⊢; omega)

theorem scanOptArguments_within (av : Bool) (s : GoString) :
    Within Prod.snd s (scanOptArguments av s) := by
  unfold scanOptArguments
  split
  · rename_i t h
    have h1 := expectByte_length h
    have h2 := skipIgnored_length false s
    exact within_mono (scanArguments_within _ _ _)
      (by have := skipIgnored_length false t; omega)
  · exact within_ok _ (Nat.le_refl _)

theorem scanDirectives_within (n : Nat) (k : AttachKind) (av : Bool) (s : GoString) :
    Within Prod.snd s (scanDirectives n k av s) := by
  induction n generalizing s with
  | zero => exact within_error _ (Nat.le_refl _)
  | succ n ih =>
    simp only [scanDirectives]
    split
    · exact within_ok _ (Nat.le_refl _)
    · rename_i t h
      have h1 := expectByte_length h
      have h2 := skipIgnored_length false s
      have h3 := skipIgnored_length false t
      split
      · exact within_error _ (by omega)
      · rename_i name t1 h4
        have h5 := readName_length h4
        have h6 := scanOptArguments_within av t1
        split
        · rename_i p h7
          exact within_error _ (by have := within_error_length h6 h7; omega)
        · rename_i args t2 h7
          have h8 := within_ok_length h6 h7
          have h9 := ih t2
          split
          · rename_i p h10
            exact within_error _ (by have := within_error_length h9 h10; simp only at h8; omega)
          · rename_i rest t3 h10
            exact within_ok _
              (by have := within_ok_length h9 h10; simp only at h8 this ⊢; omega)

theorem skipBang_length (s : GoString) : (skipBang s).length ≤ s.length := by
  unfold skipBang
  split
  · rename_i t h
    have := expectByte_length h
    have := skipIgnored_length false s
    omega
  · exact Nat.le_refl _

theorem scanType_within (n : Nat) (s : GoString) : Within id s (scanType n s) := by
  induction n generalizing s with
  | zero => exact within_error _ (Nat.le_refl _)
  | succ n ih =>
    cases s with
    | nil => exact within_error _ (Nat.le_refl _)
    | cons c t =>
      simp only [scanType]
      have h0 := skipIgnored_length false t
      split_ifs
      · have h1 := ih (skipIgnored false t)
        split
        · rename_i p h2
          exact within_error _
            (by have := within_error_length h1 h2; simp only [List.length_cons]; omega)
        · rename_i t1 h2
          have h3 := within_ok_length h1 h2
          have h4 := skipIgnored_length false t1
          simp only [id] at h3
          split
          · rename_i t2 h5
            exact within_ok _ (by
              have := expectByte_length h5
              have := skipBang_length t2
              simp only [id, List.length_cons]; omega)
          · exact within_error _ (by simp only [List.length_cons]; omega)
      · split
        · rename_i x t1 h
          exact within_ok _ (by
            have := readName_length h
            have := skipBang_length t1
            simp only [id]; omega)
        · exact within_error _ (Nat.le_refl _)

theorem scanDefault_within (s : GoString) : Within id s (scanDefault s) := by
  unfold scanDefault
  split
  · rename_i t h
    have h1 := expectByte_length h
    have h2 := skipIgnored_length false s
    exact within_mono (scanValue_within _ _) (by have := skipIgnored_length false t; omega)
  · exact within_ok _ (Nat.le_refl _)

theorem scanVariableDefs_within (n : Nat) (s : GoString) :
    Within Prod.snd s (scanVariableDefs n s) := by
  induction n generalizing s with
  | zero => exact within_error _ (Nat.le_refl _)
  | succ n ih =>
    cases s with
    | nil => exact within_error _ (Nat.le_refl _)
    | cons c t =>
      simp only [scanVariableDefs]
      have h0 := skipIgnored_length false t
      split_ifs
      · exact within_ok _ (Nat.le_succ _)
      · split
        · exact within_error _ (by simp only [List.length_cons]; omega)
        · rename_i name t1 h
          have h1 := readName_length h
          have h2 := skipIgnored_length false t1
          split
          · exact within_error _ (by simp only [List.length_cons]; omega)
          · rename_i t2 h3
            have h4 := expectByte_length h3
            have h5 := skipIgnored_length false t2
            have h6 := scanType_within (t2.length + 1) (skipIgnored false t2)
            split
            · rename_i p h7
              exact within_error _
                (by have := within_error_length h6 h7; simp only [List.length_cons]; omega)
            · rename_i t3 h7
              have h8 := within_ok_length h6 h7
              have h9 := scanDefault_within t3
              simp only [id] at h8
              split
              · rename_i p h10
                exact within_error _
                  (by have := within_error_length h9 h10; simp only [List.length_cons]; omega)
              · rename_i t4 h10
                have h11 := within_ok_length h9 h10
                have h12 := scanDirectives_within (t4.length + 1) .variableDirective false t4
                simp only [id] at h11
                split
                · rename_i p h13
                  exact within_error _ (by
                    have := within_error_length h12 h13
                    simp only [List.length_cons]; omega)
                · rename_i ds t5 h13
                  have h14 := within_ok_length h12 h13
                  have h15 := skipIgnored_length false t5
                  have h16 := ih (skipIgnored false t5)
                  simp only at h14
                  split
                  · rename_i p h17
                    exact within_error _ (by
                      have := within_error_length h16 h17
                      simp only [List.length_cons]; omega)
                  · rename_i rest t6 h17
                    exact within_ok _ (by
                      have := within_ok_length h16 h17
                      simp only [List.length_cons] at this ⊢; omega)
      · exact within_error _ (Nat.le_refl _)

theorem scanOptVariableDefs_within (s : GoString) :
    Within Prod.snd s (scanOptVariableDefs s) := by
  unfold scanOptVariableDefs
  split
  · rename_i t h
    have h1 := expectByte_length h
    have h2 := skipIgnored_length false s
    exact within_mono (scanVariableDefs_within _ _)
      (by have := skipIgnored_length false t; omega)
  · exact within_ok _ (Nat.le_refl _)

theorem scanAlias_within (first t : GoString) :
    Within (fun x => x.2.2) t (scanAlias first t) := by
  unfold scanAlias
  have h0 := skipIgnored_length false t
  split
  · rename_i t1 h
    have h1 := expectByte_length h
    have h2 := skipIgnored_length false t1
    split
    · exact within_error _ (by omega)
    · rename_i name t2 h3
      exact within_ok _ (by have := readName_length h3; simp only; omega)
  · exact within_ok _ (Nat.le_refl _)

theorem scanAlias_name {first t name t2 : GoString} {pre : List Attachment}
    (hf : nulByte ∉ first) (h : scanAlias first t = .ok (name, pre, t2)) : nulByte ∉ name := by
  unfold scanAlias at h
  split at h
  · split at h
    · cases h
    · rename_i n t3 h3
      simp only [Except.ok.injEq, Prod.mk.injEq] at h
      rw [← h.1]
      exact readName_nul h3
  · simp only [Except.ok.injEq, Prod.mk.injEq] at h
    rw [← h.1]
    exact hf

end ReaderFacts

section StepFacts

theorem fail_outcome (ctx : parserCtx) (s : GoString) (h : s.length ≤ ctx.query.length) :
    StepOutcome ctx (ctx.fail s).1 (ctx.fail s).2 :=
  StepOutcome.failed _ rfl rfl h rfl h

theorem expectOpen_length {s t : GoString} (h : expectOpen s = some t) :
    t.length < s.length := by
  rw [expectOpen_spec h]; simp

theorem matchOn_length {s t : GoString} (h : matchOn s = some t) : t.length < s.length := by
  obtain ⟨c, _, hs⟩ := matchOn_spec h
  rw [hs]; simp; omega

theorem matchDots_length {s t : GoString} (h : matchDots s = some t) :
    t.length < s.length := by
  rw [matchDots_spec h]; simp; omega

theorem opcodeOf_field (name : GoString) : opcodeOf ('f' :: name) = some .field := by
  simp [opcodeOf]

theorem opcodeOf_spread (name : GoString) :
    opcodeOf ('s' :: 'f' :: name) = some .fragmentSpread := by
  simp [opcodeOf]

theorem opcodeOf_inline (name : GoString) :
    opcodeOf ('s' :: 't' :: name) = some .inlineFragment := by
  simp [opcodeOf]

theorem nul_not_mem_cons {c : Char} {name : GoString} (hc : c ≠ nulByte)
    (h : nulByte ∉ name) : nulByte ∉ c :: name := by
  intro hm
  rcases List.mem_cons.1 hm with h1 | h1
  · exact hc h1.symm
  · exact h h1

theorem outcome_operator (ctx : parserCtx) (kind : OperatorKind) (name rest : GoString)
    (atts : List Attachment) (hnul : nulByte ∉ name) (htop : ctx.scopes = [])
    (hlen : rest.length < ctx.query.length) :
    StepOutcome ctx ((startOperator ctx kind name rest).attach atts) false :=
  StepOutcome.opened ('o' :: kindLetter kind :: name) .operator atts
    (nul_not_mem_operator kind hnul) (Or.inl ⟨htop, opcodeOf_operator _ _⟩)
    (show _ = _ by simp [startOperator, parserCtx.attach]) (show _ = _ from rfl)
    (show _ = _ from rfl) hlen

theorem attach_nil (ctx : parserCtx) : ctx.attach [] = ctx := by
  cases ctx
  simp [parserCtx.attach, attachBytes]

theorem outcome_fragmentDef (ctx : parserCtx) (name typeCond rest : GoString)
    (atts : List Attachment) (hnul : nulByte ∉ name) (hnul1 : nulByte ∉ typeCond)
    (htop : ctx.scopes = []) (hlen : rest.length < ctx.query.length) :
    StepOutcome ctx ((startFragmentDef ctx name typeCond rest).attach atts) false :=
  StepOutcome.openedFragment name typeCond .fragmentDef atts hnul hnul1 htop
    (show _ = _ by simp [startFragmentDef, parserCtx.attach]) (show _ = _ from rfl)
    (show _ = _ from rfl) hlen

theorem outcome_field (ctx : parserCtx) (name rest : GoString) (atts : List Attachment)
    (hnul : nulByte ∉ name) (hin : ctx.scopes ≠ [])
    (hlen : rest.length < ctx.query.length) :
    StepOutcome ctx ((startField ctx name rest).attach atts) false :=
  StepOutcome.opened ('f' :: name) .field atts (nul_not_mem_cons (by decide) hnul)
    (Or.inr ⟨hin, Or.inl (opcodeOf_field _)⟩)
    (show _ = _ by simp [startField, parserCtx.attach]) (show _ = _ from rfl)
    (show _ = _ from rfl) hlen

theorem outcome_inline (ctx : parserCtx) (typeCond rest : GoString) (atts : List Attachment)
    (hnul : nulByte ∉ typeCond) (hin : ctx.scopes ≠ [])
    (hlen : rest.length < ctx.query.length) :
    StepOutcome ctx ((startInlineFragment ctx typeCond rest).attach atts) false :=
  StepOutcome.opened ('s' :: 't' :: typeCond) .inlineFragment atts
    (nul_not_mem_cons (by decide) (nul_not_mem_cons (by decide) hnul))
    (Or.inr ⟨hin, Or.inr (opcodeOf_inline _)⟩)
    (show _ = _ by simp [startInlineFragment, parserCtx.attach]) (show _ = _ from rfl)
    (show _ = _ from rfl) hlen

theorem outcome_spread (ctx : parserCtx) (name rest : GoString)
    (hnul : nulByte ∉ name) (hin : ctx.scopes ≠ [])
    (hlen : rest.length < ctx.query.length) :
    StepOutcome ctx (startFragmentSpread ctx name rest) false :=
  StepOutcome.spread ('s' :: 'f' :: name)
    (nul_not_mem_cons (by decide) (nul_not_mem_cons (by decide) hnul)) hin
    (opcodeOf_spread _)
    (show _ = _ by simp [startFragmentSpread]) (show _ = _ from rfl) (show _ = _ from rfl) hlen

theorem operatorHeader_outcome (ctx : parserCtx) (kind : OperatorKind) (name s : GoString)
    (hnul : nulByte ∉ name) (hs : s.length ≤ ctx.query.length) (htop : ctx.scopes = []) :
    StepOutcome ctx (operatorHeader ctx kind name s).1 (operatorHeader ctx kind name s).2 := by
  have h0 := scanOptVariableDefs_within s
  rcases hv : scanOptVariableDefs s with p | ⟨vars, t1⟩
  · simp only [operatorHeader, hv]
    exact fail_outcome _ _ (by have := within_error_length h0 hv; omega)
  have h1 := within_ok_length h0 hv
  simp only at h1
  have h2 := scanDirectives_within (t1.length + 1) .directive true t1
  rcases hd : scanDirectives (t1.length + 1) .directive true t1 with p | ⟨ds, t2⟩
  · simp only [operatorHeader, hv, hd]
    exact fail_outcome _ _ (by have := within_error_length h2 hd; omega)
  have h3 := within_ok_length h2 hd
  simp only at h3
  have h4 := skipIgnored_length false t2
  rcases Option.eq_none_or_eq_some (expectOpen (skipIgnored false t2)) with ho | ⟨t3, ho⟩
  · simp only [operatorHeader, hv, hd, ho]
    exact fail_outcome _ _ (by omega)
  · simp only [operatorHeader, hv, hd, ho]
    have h5 := expectOpen_length ho
    exact outcome_operator _ _ _ _ _ hnul htop (by omega)

theorem stepOperator_outcome (ctx : parserCtx) (kind : OperatorKind) (s : GoString)
    (hs : s.length ≤ ctx.query.length) (htop : ctx.scopes = []) :
    StepOutcome ctx (stepOperator ctx kind s).1 (stepOperator ctx kind s).2 := by
  rcases Option.eq_none_or_eq_some (readName s) with hn | ⟨⟨name, t⟩, hn⟩
  · simp only [stepOperator, hn]
    exact operatorHeader_outcome _ _ _ _ (by simp) hs htop
  · have h1 := readName_length hn
    simp only [stepOperator, hn]
    exact operatorHeader_outcome _ _ _ _ (readName_nul hn) (by omega) htop

theorem stepFragmentDef_outcome (ctx : parserCtx) (s : GoString)
    (hs : s.length ≤ ctx.query.length) (htop : ctx.scopes = []) :
    StepOutcome ctx (stepFragmentDef ctx s).1 (stepFragmentDef ctx s).2 := by
  rcases Option.eq_none_or_eq_some (readName s) with hn | ⟨⟨name, t⟩, hn⟩
  · simp only [stepFragmentDef, hn]
    exact fail_outcome _ _ hs
  have h1 := readName_length hn
  have h2 := skipIgnored_length false t
  rcases Option.eq_none_or_eq_some (matchOn (skipIgnored false t)) with hon | ⟨t1, hon⟩
  · simp only [stepFragmentDef, hn, hon]
    exact fail_outcome _ _ (by omega)
  have h3 := matchOn_length hon
  have h4 := skipIgnored_length false t1
  rcases Option.eq_none_or_eq_some (readName (skipIgnored false t1)) with
    hty | ⟨⟨typeCond, t2⟩, hty⟩
  · simp only [stepFragmentDef, hn, hon, hty]
    exact fail_outcome _ _ (by omega)
  have h5 := readName_length hty
  have h5a := scanDirectives_within (t2.length + 1) .directive true t2
  rcases hd : scanDirectives (t2.length + 1) .directive true t2 with p | ⟨ds, t3⟩
  · simp only [stepFragmentDef, hn, hon, hty, hd]
    exact fail_outcome _ _ (by have := within_error_length h5a hd; omega)
  have h5b := within_ok_length h5a hd
  simp only at h5b
  have h6 := skipIgnored_length false t3
  rcases Option.eq_none_or_eq_some (expectOpen (skipIgnored false t3)) with ho | ⟨t4, ho⟩
  · simp only [stepFragmentDef, hn, hon, hty, hd, ho]
    exact fail_outcome _ _ (by omega)
  have h7 := expectOpen_length ho
  simp only [stepFragmentDef, hn, hon, hty, hd, ho]
  exact outcome_fragmentDef _ _ _ _ _ (readName_nul hn) (readName_nul hty) htop (by omega)

theorem stepDefinition_outcome (ctx : parserCtx) (htop : ctx.scopes = []) :
    StepOutcome ctx (stepDefinition ctx).1 (stepDefinition ctx).2 := by
  have h0 := skipIgnored_length false ctx.query
  rcases hq : skipIgnored false ctx.query with _ | ⟨c, s⟩
  · simp only [stepDefinition, hq]
    exact StepOutcome.finished htop rfl rfl htop rfl
  rw [hq] at h0
  rcases Option.eq_none_or_eq_some (expectOpen (c :: s)) with ho | ⟨t, ho⟩
  swap
  · simp only [stepDefinition, hq, ho]
    have h1 := expectOpen_length ho
    rw [← attach_nil (startOperator ctx .query [] t)]
    exact outcome_operator _ _ _ _ _ (by simp) htop (by omega)
  rcases Option.eq_none_or_eq_some (readName (c :: s)) with hn | ⟨⟨w, t⟩, hn⟩
  · simp only [stepDefinition, hq, ho, hn]
    exact fail_outcome _ _ h0
  have h1 := readName_length hn
  have h2 := skipIgnored_length false t
  by_cases hw : w = ['f', 'r', 'a', 'g', 'm', 'e', 'n', 't']
  · simp only [stepDefinition, hq, ho, hn, if_pos hw]
    exact stepFragmentDef_outcome _ _ (by omega) htop
  rcases Option.eq_none_or_eq_some (operatorKeyword w) with hk | ⟨kind, hk⟩
  · simp only [stepDefinition, hq, ho, hn, if_neg hw, hk]
    exact fail_outcome _ _ h0
  · simp only [stepDefinition, hq, ho, hn, if_neg hw, hk]
    exact stepOperator_outcome _ _ _ (by omega) htop

theorem stepSpread_outcome (ctx : parserCtx) (s : GoString)
    (hs : s.length < ctx.query.length) (hin : ctx.scopes ≠ []) :
    StepOutcome ctx (stepSpread ctx s).1 (stepSpread ctx s).2 := by
  rcases Option.eq_none_or_eq_some (matchOn s) with hon | ⟨t, hon⟩
  · rcases Option.eq_none_or_eq_some (expectOpen s) with ho | ⟨t, ho⟩
    swap
    · have h1 := expectOpen_length ho
      have h2 := skipIgnored_length false t
      rcases Option.eq_none_or_eq_some (expectByte '@' (skipIgnored false t)) with
        ha | ⟨t1, ha⟩
      · simp only [stepSpread, hon, ho, ha]
        rw [← attach_nil (startInlineFragment ctx [] t)]
        exact outcome_inline _ _ _ _ (by simp) hin (by omega)
      · simp only [stepSpread, hon, ho, ha]
        exact fail_outcome _ _ (by omega)
    rcases Option.eq_none_or_eq_some (expectByte '@' s) with ha | ⟨t1, ha⟩
    swap
    · simp only [stepSpread, hon, ho, ha]
      rw [← attach_nil (startInlineFragment ctx [] s)]
      exact outcome_inline _ _ _ _ (by simp) hin hs
    rcases Option.eq_none_or_eq_some (readName s) with hn | ⟨⟨name, t⟩, hn⟩
    · simp only [stepSpread, hon, ho, ha, hn]
      exact fail_outcome _ _ (by omega)
    have h1 := readName_length hn
    by_cases hname : name = ['o', 'n']
    · simp only [stepSpread, hon, ho, ha, hn, if_pos hname]
      exact fail_outcome _ _ (by omega)
    · simp only [stepSpread, hon, ho, ha, hn, if_neg hname]
      exact outcome_spread _ _ _ (readName_nul hn) hin (by omega)
  have h1 := matchOn_length hon
  have h2 := skipIgnored_length false t
  rcases Option.eq_none_or_eq_some (readName (skipIgnored false t)) with
    hty | ⟨⟨typeCond, t1⟩, hty⟩
  · simp only [stepSpread, hon, hty]
    exact fail_outcome _ _ (by omega)
  have h3 := readName_length hty
  have h3a := scanDirectives_within (t1.length + 1) .directive true t1
  rcases hd : scanDirectives (t1.length + 1) .directive true t1 with p | ⟨ds, t2⟩
  · simp only [stepSpread, hon, hty, hd]
    exact fail_outcome _ _ (by have := within_error_length h3a hd; omega)
  have h3b := within_ok_length h3a hd
  simp only at h3b
  have h4 := skipIgnored_length false t2
  rcases Option.eq_none_or_eq_some (expectOpen (skipIgnored false t2)) with ho | ⟨t3, ho⟩
  · simp only [stepSpread, hon, hty, hd, ho]
    exact fail_outcome _ _ (by omega)
  have h5 := expectOpen_length ho
  simp only [stepSpread, hon, hty, hd, ho]
  exact outcome_inline _ _ _ _ (readName_nul hty) hin (by omega)

theorem stepInlineDirectives_outcome (ctx : parserCtx) (c : Char) (s : GoString)
    (hs : (c :: s).length ≤ ctx.query.length) (hc : c = '@') (hin : ctx.scopes ≠ []) :
    StepOutcome ctx (stepInlineDirectives ctx (c :: s)).1
      (stepInlineDirectives ctx (c :: s)).2 := by
  subst hc
  have h0 := scanDirectives_within (('@' :: s).length + 1) .directive true ('@' :: s)
  rcases hd : scanDirectives (('@' :: s).length + 1) .directive true ('@' :: s) with
    p | ⟨ds, t⟩
  · simp only [stepInlineDirectives, hd]
    exact fail_outcome _ _ (by have := within_error_length h0 hd; omega)
  have h1 := within_ok_length h0 hd
  simp only at h1
  have h2 := skipIgnored_length false t
  rcases Option.eq_none_or_eq_some (expectOpen (skipIgnored false t)) with ho | ⟨t1, ho⟩
  · simp only [stepInlineDirectives, hd, ho]
    exact fail_outcome _ _ (by omega)
  · simp only [stepInlineDirectives, hd, ho]
    have h3 := expectOpen_length ho
    exact StepOutcome.attached ds hin rfl rfl rfl (show t1.length < _ by omega)

theorem stepField_outcome (ctx : parserCtx) (first t : GoString) (hf : nulByte ∉ first)
    (ht : t.length < ctx.query.length) (hin : ctx.scopes ≠ []) :
    StepOutcome ctx (stepField ctx first t).1 (stepField ctx first t).2 := by
  obtain ⟨k, outer, hsc⟩ := List.exists_cons_of_ne_nil hin
  have h0 := scanAlias_within first t
  rcases ha : scanAlias first t with p | ⟨name, pre, t2⟩
  · simp only [stepField, ha]
    exact fail_outcome _ _ (by have := within_error_length h0 ha; omega)
  have h1 := within_ok_length h0 ha
  simp only at h1
  have hname := scanAlias_name hf ha
  have h2 := scanOptArguments_within true t2
  rcases hg : scanOptArguments true t2 with p | ⟨args, t3⟩
  · simp only [stepField, ha, hg]
    exact fail_outcome _ _ (by have := within_error_length h2 hg; omega)
  have h3 := within_ok_length h2 hg
  simp only at h3
  have h4 := scanDirectives_within (t3.length + 1) .directive true t3
  rcases hd : scanDirectives (t3.length + 1) .directive true t3 with p | ⟨ds, t4⟩
  · simp only [stepField, ha, hg, hd]
    exact fail_outcome _ _ (by have := within_error_length h4 hd; omega)
  have h5 := within_ok_length h4 hd
  simp only at h5
  have h6 := skipIgnored_length false t4
  rcases Option.eq_none_or_eq_some (expectOpen (skipIgnored false t4)) with ho | ⟨t5, ho⟩
  · simp only [stepField, ha, hg, hd, ho, endScope, startField, parserCtx.attach]
    exact StepOutcome.leaf ('f' :: name) (pre ++ args ++ ds)
      (nul_not_mem_cons (by decide) hname) hin
      (opcodeOf_field _) (show _ = _ by simp) (show _ = _ from rfl) (show _ = _ from rfl)
      (show t4.length < _ by omega)
  · simp only [stepField, ha, hg, hd, ho]
    have h7 := expectOpen_length ho
    exact outcome_field _ _ _ _ hname hin (by omega)

theorem stepSelection_outcome (ctx : parserCtx) (hin : ctx.scopes ≠ []) :
    StepOutcome ctx (stepSelection ctx).1 (stepSelection ctx).2 := by
  have h0 := skipIgnored_length false ctx.query
  obtain ⟨k, outer, hsc⟩ := List.exists_cons_of_ne_nil hin
  rcases hq : skipIgnored false ctx.query with _ | ⟨c, s⟩
  · simp only [stepSelection, hq]
    exact fail_outcome _ _ (by simp)
  rw [hq] at h0
  by_cases hc : c = '}'
  · simp only [stepSelection, hq, if_pos hc, endScope, hsc]
    simp only [List.length_cons] at h0
    exact StepOutcome.closed k hsc rfl rfl (show s.length < _ by omega)
  by_cases hat : c = '@' ∧ pendingInline ctx = true
  · simp only [stepSelection, hq, if_neg hc, if_pos hat]
    exact stepInlineDirectives_outcome _ _ _ h0 hat.1 hin
  simp only [List.length_cons] at h0
  rcases Option.eq_none_or_eq_some (matchDots (c :: s)) with hd | ⟨t, hd⟩
  swap
  · simp only [stepSelection, hq, if_neg hc, if_neg hat, hd]
    have h1 := matchDots_length hd
    have h2 := skipIgnored_length false t
    simp only [List.length_cons] at h1
    exact stepSpread_outcome _ _ (by omega) hin
  rcases Option.eq_none_or_eq_some (readName (c :: s)) with hn | ⟨⟨name, t⟩, hn⟩
  · simp only [stepSelection, hq, if_neg hc, if_neg hat, hd, hn]
    exact fail_outcome _ _ (by simp only [List.length_cons]; omega)
  have h1 := readName_length hn
  simp only [List.length_cons] at h1
  simp only [stepSelection, hq, if_neg hc, if_neg hat, hd, hn]
  exact stepField_outcome _ _ _ (readName_nul hn) (by omega) hin

theorem step_outcome (ctx : parserCtx) : StepOutcome ctx (step ctx).1 (step ctx).2 := by
  unfold step
  cases hsc : ctx.scopes with
  | nil => exact stepDefinition_outcome ctx hsc
  | cons k outer => exact stepSelection_outcome ctx (by rw [hsc]; simp)

end StepFacts

section RunFacts

theorem step_length (ctx : parserCtx) (h : (step ctx).2 = false) :
    (step ctx).1.query.length < ctx.query.length := by
  have ho := step_outcome ctx
  rw [h] at ho
  cases ho <;> assumption

theorem step_length_le (ctx : parserCtx) : (step ctx).1.query.length ≤ ctx.query.length := by
  have ho := step_outcome ctx
  generalize (step ctx).1 = ctx1 at ho
  generalize (step ctx).2 = b at ho
  cases ho with
  | finished _ _ _ _ hq => rw [hq]; exact Nat.zero_le _
  | failed _ _ _ _ _ hq => exact hq
  | opened _ _ _ _ _ _ _ _ hq => exact Nat.le_of_lt hq
  | openedFragment _ _ _ _ _ _ _ _ _ _ hq => exact Nat.le_of_lt hq
  | spread _ _ _ _ _ _ _ hq => exact Nat.le_of_lt hq
  | leaf _ _ _ _ _ _ _ _ hq => exact Nat.le_of_lt hq
  | closed _ _ _ _ hq => exact Nat.le_of_lt hq
  | attached _ _ _ _ _ hq => exact Nat.le_of_lt hq

theorem skipToSync_length (s : GoString) : (skipToSync s).length ≤ s.length := by
  induction s with
  | nil => exact Nat.le_refl _
  | cons c t ih =>
    simp only [skipToSync]
    split_ifs
    · exact Nat.le_refl _
    · exact Nat.le_succ_of_le ih

theorem skipDefinition_length (depth : Nat) (s : GoString) :
    (skipDefinition depth s).length ≤ s.length := by
  induction s generalizing depth with
  | nil => exact Nat.le_refl _
  | cons c t ih =>
    simp only [skipDefinition]
    split_ifs
    · exact Nat.le_succ _
    · exact Nat.le_succ_of_le (ih _)
    · exact Nat.le_succ_of_le (ih _)
    · exact Nat.le_succ_of_le (ih _)

/-- The recovery moves the cursor forward from where the failed step began. -/
theorem recover_length (ctx failed : parserCtx) (hle : failed.query.length ≤ ctx.query.length)
    (hne : failed.query ≠ []) : (recover ctx failed).query.length < ctx.query.length := by
  have hpos : 0 < failed.query.length := List.length_pos.2 hne
  have key : ∀ s : GoString, s.length ≤ failed.query.length →
      (if s.length < ctx.query.length then s else s.drop 1).length < ctx.query.length := by
    intro s hs
    split_ifs with h
    · exact h
    · simp only [List.length_drop]
      omega
  unfold recover
  cases failed.scopes with
  | nil => exact key _ (skipDefinition_length _ _)
  | cons k outer => exact key _ (skipToSync_length _)

/-- The parser returns: fuel above the number of unread bytes is enough. -/
theorem run_total (fuel : Nat) (ctx : parserCtx) (h : ctx.query.length < fuel) :
    ∃ r, run fuel ctx = some r := by
  induction fuel generalizing ctx with
  | zero => omega
  | succ n ih =>
    simp only [run]
    by_cases hd : (step ctx).2 = true
    · rw [if_pos hd]
      rcases hq : (step ctx).1.query with _ | ⟨c, t⟩
      · exact ⟨_, rfl⟩
      · have := recover_length ctx (step ctx).1 (step_length_le ctx) (by rw [hq]; simp)
        exact ih _ (by omega)
    · rw [if_neg hd]
      have := step_length ctx (by simpa using hd)
      exact ih _ (by omega)

/-- More fuel does not change the result. -/
theorem run_mono {fuel : Nat} {ctx r : parserCtx} (h : run fuel ctx = some r) (k : Nat) :
    run (fuel + k) ctx = some r := by
  induction fuel generalizing ctx with
  | zero => simp [run] at h
  | succ n ih =>
    rw [Nat.add_right_comm]
    simp only [run] at h ⊢
    by_cases hd : (step ctx).2 = true
    · rw [if_pos hd] at h ⊢
      rcases hq : (step ctx).1.query with _ | ⟨c, t⟩
      · rw [hq] at h
        exact h
      · rw [hq] at h
        exact ih h
    · rw [if_neg hd] at h ⊢
      exact ih h

theorem run_fuel_irrelevant {m n : Nat} {ctx r : parserCtx} (h : run m ctx = some r)
    (hn : ctx.query.length < n) : run n ctx = some r := by
  obtain ⟨r1, h1⟩ := run_total n ctx hn
  have a := run_mono h n
  have b := run_mono h1 m
  rw [Nat.add_comm] at b
  rw [a] at b
  rw [h1, ← Option.some.inj b]

/-- Induction over the steps of a run. -/
theorem run_induction (P Q : parserCtx → Prop)
    (hstep : ∀ ctx, P ctx → (step ctx).2 = false → P (step ctx).1)
    (hrec : ∀ ctx, P ctx → (step ctx).2 = true → (step ctx).1.query ≠ [] →
      P (recover ctx (step ctx).1))
    (hdone : ∀ ctx, P ctx → (step ctx).2 = true → (step ctx).1.query = [] →
      Q (closeAll (step ctx).1))
    (fuel : Nat) (ctx r : parserCtx) (h0 : P ctx) (h : run fuel ctx = some r) : Q r := by
  induction fuel generalizing ctx with
  | zero => simp [run] at h
  | succ n ih =>
    simp only [run] at h
    by_cases hd : (step ctx).2 = true
    · rw [if_pos hd] at h
      rcases hq : (step ctx).1.query with _ | ⟨c, t⟩
      · rw [hq] at h
        rw [← Option.some.inj h]
        exact hdone ctx h0 hd hq
      · rw [hq] at h
        exact ih _ (hrec ctx h0 hd (by rw [hq]; simp)) h
    · rw [if_neg hd] at h
      exact ih _ (hstep ctx h0 (by simpa using hd)) h

theorem splitRecords_record (r rest : GoString) (h : nulByte ∉ r) :
    splitRecords (r ++ nulByte :: rest) = (splitRecords rest).map fun rs => r :: rs := by
  induction r with
  | nil => simp [splitRecords]
  | cons c cs ih =>
    have hc : c ≠ nulByte := fun hc => h (by rw [hc]; simp)
    have hcs : nulByte ∉ cs := fun hm => h (List.mem_cons_of_mem _ hm)
    rw [List.cons_append, splitRecords, if_neg hc, ih hcs]
    cases splitRecords rest <;> rfl

theorem splitRecords_append {a b : GoString} {ra rb : List GoString}
    (ha : splitRecords a = some ra) (hb : splitRecords b = some rb) :
    splitRecords (a ++ b) = some (ra ++ rb) := by
  induction a generalizing ra with
  | nil =>
    simp only [splitRecords, Option.some.injEq] at ha
    subst ha
    simpa using hb
  | cons c cs ih =>
    rw [List.cons_append, splitRecords]
    rw [splitRecords] at ha
    by_cases hc : c = nulByte
    · rw [if_pos hc] at ha ⊢
      cases hcs : splitRecords cs with
      | none => rw [hcs] at ha; simp at ha
      | some rs =>
        rw [hcs] at ha
        simp only [Option.map_some', Option.some.injEq] at ha
        rw [ih hcs, ← ha]
        rfl
    · rw [if_neg hc] at ha ⊢
      cases hcs : splitRecords cs with
      | none => rw [hcs] at ha; simp at ha
      | some rs =>
        rw [hcs] at ha
        cases rs with
        | nil => simp at ha
        | cons r rs1 =>
          simp only [Option.some.injEq] at ha
          rw [ih hcs, ← ha]
          rfl

theorem splitRecords_snoc {res r : GoString} {recs : List GoString}
    (h : splitRecords res = some recs) (hr : nulByte ∉ r) :
    splitRecords (res ++ r ++ [nulByte]) = some (recs ++ [r]) := by
  rw [List.append_assoc]
  apply splitRecords_append h
  rw [splitRecords_record r [] hr]
  rfl

theorem openScopes_snoc (recs : List GoString) (r : GoString) :
    openScopes (recs ++ [r]) = (openScopes recs).bind fun st => scopeStep st r := by
  unfold openScopes
  rw [List.foldlM_append]
  cases List.foldlM scopeStep (false, 0) recs with
  | none => rfl
  | some st => simp [List.foldlM]

theorem opcodeOf_end : opcodeOf ['e'] = some .endScope := by
  simp [opcodeOf]

theorem nul_not_mem_end : nulByte ∉ ['e'] := by decide

/-- The record of a sub-record without its closing NUL. -/
theorem attachment_record (a : Attachment) :
    ∃ r, a.bytes = r ++ [nulByte] ∧ nulByte ∉ r ∧ opcodeOf r = some .attachment := by
  refine ⟨a.kind.letter :: a.payload.filter (fun c => c != nulByte), rfl, ?_, ?_⟩
  · intro hm
    rcases List.mem_cons.1 hm with h | h
    · cases hk : a.kind <;> rw [hk] at h <;> revert h <;> decide
    · have := (List.mem_filter.1 h).2
      simp at this
  · cases hk : a.kind <;> simp [opcodeOf, AttachKind.letter]

/-- The sub-records are records that open and close no scope. -/
theorem scopes_attach {res : GoString} {recs : List GoString} {d : Nat}
    (atts : List Attachment) (hsplit : splitRecords res = some recs)
    (hopen : openScopes recs = some (false, d)) (hd : 0 < d) :
    ∃ recs1, splitRecords (res ++ attachBytes atts) = some recs1 ∧
      openScopes recs1 = some (false, d) := by
  induction atts generalizing res recs with
  | nil => exact ⟨recs, by simpa [attachBytes] using hsplit, hopen⟩
  | cons a rest ih =>
    obtain ⟨r, hr, hnul, hop⟩ := attachment_record a
    have h1 : splitRecords (res ++ r ++ [nulByte]) = some (recs ++ [r]) :=
      splitRecords_snoc hsplit hnul
    have h2 : openScopes (recs ++ [r]) = some (false, d) := by
      rw [openScopes_snoc, hopen]
      simp [scopeStep, hop, hd]
    obtain ⟨recs1, h3, h4⟩ := ih h1 h2
    refine ⟨recs1, ?_, h4⟩
    rw [← h3, attachBytes, hr]
    simp

theorem scopesMatch_step (ctx : parserCtx) (h : ScopesMatch ctx) :
    ScopesMatch (step ctx).1 := by
  obtain ⟨recs, hsplit, hopen⟩ := h
  have ho := step_outcome ctx
  generalize (step ctx).1 = ctx1 at ho
  generalize (step ctx).2 = b at ho
  cases ho with
  | finished htop hres _ hsc _ =>
    exact ⟨recs, by rw [hres]; exact hsplit, by rw [hsc, ← htop]; exact hopen⟩
  | failed e hres _ _ hsc _ =>
    exact ⟨recs, by rw [hres]; exact hsplit, by rw [hsc]; exact hopen⟩
  | opened r k atts hnul hcase hres _ hsc _ =>
    have h1 : splitRecords (ctx.res ++ r ++ [nulByte]) = some (recs ++ [r]) :=
      splitRecords_snoc hsplit hnul
    have h2 : openScopes (recs ++ [r]) = some (false, ctx.scopes.length + 1) := by
      rw [openScopes_snoc, hopen]
      rcases hcase with ⟨htop, hop⟩ | ⟨hin, hop | hop⟩
      · simp [scopeStep, hop, htop]
      · have : 0 < ctx.scopes.length := List.length_pos.2 hin
        simp [scopeStep, hop, this]
      · have : 0 < ctx.scopes.length := List.length_pos.2 hin
        simp [scopeStep, hop, this]
    obtain ⟨recs1, h3, h4⟩ := scopes_attach atts h1 h2 (Nat.succ_pos _)
    exact ⟨recs1, by rw [hres]; exact h3, by rw [hsc]; exact h4⟩
  | openedFragment name typeCond k atts hnul hnul1 htop hres _ hsc _ =>
    have h1 : splitRecords (ctx.res ++ ('F' :: name) ++ [nulByte] ++ typeCond ++ [nulByte]) =
        some (recs ++ ['F' :: name] ++ [typeCond]) :=
      splitRecords_snoc (splitRecords_snoc hsplit (nul_not_mem_cons (by decide) hnul)) hnul1
    have h2 : openScopes (recs ++ ['F' :: name] ++ [typeCond]) =
        some (false, ctx.scopes.length + 1) := by
      rw [openScopes_snoc, openScopes_snoc, hopen, htop]
      simp [scopeStep, opcodeOf]
    obtain ⟨recs1, h3, h4⟩ := scopes_attach atts h1 h2 (Nat.succ_pos _)
    exact ⟨recs1, by rw [hres]; exact h3, by rw [hsc]; exact h4⟩
  | spread r hnul hin hop hres _ hsc _ =>
    refine ⟨recs ++ [r], by rw [hres]; exact splitRecords_snoc hsplit hnul, ?_⟩
    rw [openScopes_snoc, hopen, hsc]
    have : 0 < ctx.scopes.length := List.length_pos.2 hin
    simp [scopeStep, hop, this]
  | leaf r atts hnul hin hop hres _ hsc _ =>
    have hpos : 0 < ctx.scopes.length := List.length_pos.2 hin
    have h1 : splitRecords (ctx.res ++ r ++ [nulByte]) = some (recs ++ [r]) :=
      splitRecords_snoc hsplit hnul
    have h2 : openScopes (recs ++ [r]) = some (false, ctx.scopes.length + 1) := by
      rw [openScopes_snoc, hopen]
      simp [scopeStep, hop, hpos]
    obtain ⟨recs1, h3, h4⟩ := scopes_attach atts h1 h2 (Nat.succ_pos _)
    refine ⟨recs1 ++ [['e']], ?_, ?_⟩
    · rw [hres]
      have := splitRecords_snoc h3 nul_not_mem_end
      simpa using this
    · rw [openScopes_snoc, h4, hsc]
      simp [scopeStep, opcodeOf_end]
  | closed k hsc hres _ _ =>
    refine ⟨recs ++ [['e']], ?_, ?_⟩
    · rw [hres]
      have := splitRecords_snoc hsplit nul_not_mem_end
      simpa using this
    · rw [openScopes_snoc, hopen, hsc]
      simp [scopeStep, opcodeOf_end]
  | attached atts hin hres _ hsc _ =>
    obtain ⟨recs1, h3, h4⟩ := scopes_attach atts hsplit hopen (List.length_pos.2 hin)
    exact ⟨recs1, by rw [hres]; exact h3, by rw [hsc]; exact h4⟩

theorem scopesMatch_recover (ctx failed : parserCtx) (h : ScopesMatch failed) :
    ScopesMatch (recover ctx failed) := h

/-- Closing the open scopes leaves a balanced bytecode. -/
theorem balanced_closeAll (ctx : parserCtx) (h : ScopesMatch ctx) :
    Balanced (closeAll ctx).res := by
  obtain ⟨recs, hsplit, hopen⟩ := h
  have key : ∀ (scopes : List ScopeKind) (res : GoString) (recs : List GoString),
      splitRecords res = some recs → openScopes recs = some (false, scopes.length) →
      Balanced (res ++ closeScopes scopes) := by
    intro scopes
    induction scopes with
    | nil =>
      intro res recs h1 h2
      unfold Balanced
      simp only [closeScopes, List.append_nil]
      rw [h1, Option.some_bind, h2]
      rfl
    | cons k outer ih =>
      intro res recs h1 h2
      have h3 : splitRecords (res ++ ['e'] ++ [nulByte]) = some (recs ++ [['e']]) :=
        splitRecords_snoc h1 nul_not_mem_end
      have h4 : openScopes (recs ++ [['e']]) = some (false, outer.length) := by
        rw [openScopes_snoc, h2]
        simp [scopeStep, opcodeOf_end]
      have := ih _ _ h3 h4
      simpa [closeScopes] using this
  exact key ctx.scopes ctx.res recs hsplit hopen

/-- The bytecode of a run is balanced, whatever the errors. -/
theorem run_balanced (fuel : Nat) (ctx r : parserCtx) (h0 : ScopesMatch ctx)
    (h : run fuel ctx = some r) : Balanced r.res :=
  run_induction ScopesMatch (fun r => Balanced r.res)
    (fun ctx hc _ => scopesMatch_step ctx hc)
    (fun ctx hc _ _ => scopesMatch_recover ctx _ (scopesMatch_step ctx hc))
    (fun ctx hc _ _ => balanced_closeAll _ (scopesMatch_step ctx hc))
    fuel ctx r h0 h

theorem parseQuery_total (query : GoString) : ∃ r, parseQuery query = some r := by
  obtain ⟨r, hr⟩ := run_total (query.length + 1) ⟨[], query, [], []⟩ (Nat.lt_succ_self _)
  exact ⟨_, by simp only [parseQuery, parseQueryToBytecode, hr]; rfl⟩

/-- The bytecode of every query is balanced: no scope dangles (section 8). -/
theorem parseQuery_balanced (query res : GoString) (errs : List ParseError)
    (h : parseQuery query = some (res, errs)) : Balanced res := by
  simp only [parseQuery, parseQueryToBytecode, Option.map_eq_some'] at h
  obtain ⟨r, hr, hres⟩ := h
  simp only [Prod.mk.injEq] at hres
  rw [← hres.1]
  exact run_balanced _ ⟨[], query, [], []⟩ r ⟨[], rfl, rfl⟩ hr

end RunFacts

/-- C14. The parser returns for every query, and when it returns no error the
bytecode is balanced: it is a sequence of records ended by NUL in which every
operator, field, inline-fragment and fragment-definition record is closed by
its own `e` record at its nesting level, a fragment spread and the sub-records
of aliases, arguments, directives and variable definitions open no scope, no
`e` closes a scope that is not open, and no scope is open at the end. -/
theorem C14_parseQuery_balanced (query : GoString) :
    (∃ r, parseQuery query = some r) ∧
      ∀ res, parseQuery query = some (res, []) → Balanced res :=
  ⟨parseQuery_total query, fun res h => parseQuery_balanced query res [] h⟩

section LexerFacts

theorem isNameByte_of_isWhitespace {c : Char} (h : isWhitespace c = true) :
    isNameByte c = false := by
  simp only [isWhitespace, Bool.or_eq_true, decide_eq_true_eq] at h
  rcases h with (((h | h) | h) | h) | h <;> subst h <;> decide

theorem ne_hash_of_isNameByte {c : Char} (h : isNameByte c = true) : c ≠ '#' := by
  intro hc; subst hc; revert h; decide

theorem skipIgnored_self {c : Char} (s : GoString) (hw : isWhitespace c = false)
    (hc : c ≠ '#') : skipIgnored false (c :: s) = c :: s := by
  simp [skipIgnored, hw, hc]

theorem skipIgnored_whitespace (ws s : GoString) (hws : ∀ c ∈ ws, isWhitespace c = true) :
    skipIgnored false (ws ++ s) = skipIgnored false s := by
  induction ws with
  | nil => rfl
  | cons c cs ih =>
    have hc := hws c (List.mem_cons_self _ _)
    rw [List.cons_append, skipIgnored, if_pos hc]
    exact ih fun x hx => hws x (List.mem_cons_of_mem _ hx)

theorem not_isWhitespace_of_isNameByte {c : Char} (h : isNameByte c = true) :
    isWhitespace c = false := by
  cases hw : isWhitespace c with
  | false => rfl
  | true => rw [isNameByte_of_isWhitespace hw] at h; cases h

theorem isName_spec {n : GoString} (h : isName n = true) :
    ∃ c cs, n = c :: cs ∧ isNameStart c = true ∧ ∀ x ∈ c :: cs, isNameByte x = true := by
  cases n with
  | nil => simp [isName] at h
  | cons c cs =>
    simp only [isName, Bool.and_eq_true, List.all_eq_true] at h
    refine ⟨c, cs, rfl, h.1, ?_⟩
    intro x hx
    rcases List.mem_cons.1 hx with hx | hx
    · rw [hx]; exact isNameByte_of_isNameStart h.1
    · exact h.2 x hx

theorem span_name (n s : GoString) (hn : ∀ x ∈ n, isNameByte x = true)
    (hs : endsName s = true) : List.span isNameByte (n ++ s) = (n, s) := by
  rw [List.span_eq_take_drop]
  have hs1 : List.takeWhile isNameByte s = [] := by
    cases s with
    | nil => rfl
    | cons c cs =>
      simp only [endsName, Bool.not_eq_true'] at hs
      simp [List.takeWhile_cons, hs]
  have hs2 : List.dropWhile isNameByte s = s := by
    cases s with
    | nil => rfl
    | cons c cs =>
      simp only [endsName, Bool.not_eq_true'] at hs
      simp [List.dropWhile_cons, hs]
  rw [List.takeWhile_append_of_pos hn, List.dropWhile_append_of_pos hn, hs1, hs2]
  simp

theorem readName_name (n s : GoString) (hn : isName n = true) (hs : endsName s = true) :
    readName (n ++ s) = some (n, s) := by
  obtain ⟨c, cs, rfl, hc, hall⟩ := isName_spec hn
  rw [readName.eq_def]
  simp only [List.cons_append, hc, if_true]
  rw [← List.cons_append, span_name _ _ hall hs]

theorem skipIgnored_name (ws n s : GoString) (hws : ∀ c ∈ ws, isWhitespace c = true)
    (hn : isName n = true) : skipIgnored false (ws ++ (n ++ s)) = n ++ s := by
  rw [skipIgnored_whitespace ws _ hws]
  obtain ⟨c, cs, rfl, hc, _⟩ := isName_spec hn
  have hb := isNameByte_of_isNameStart hc
  exact skipIgnored_self _ (not_isWhitespace_of_isNameByte hb) (ne_hash_of_isNameByte hb)

theorem skipIgnored_open (ws s : GoString) (hws : ∀ c ∈ ws, isWhitespace c = true) :
    skipIgnored false (ws ++ '{' :: s) = '{' :: s := by
  rw [skipIgnored_whitespace ws _ hws]
  exact skipIgnored_self _ (by decide) (by decide)

theorem skipIgnored_dots (ws s : GoString) (hws : ∀ c ∈ ws, isWhitespace c = true) :
    skipIgnored false (ws ++ '.' :: s) = '.' :: s := by
  rw [skipIgnored_whitespace ws _ hws]
  exact skipIgnored_self _ (by decide) (by decide)

theorem readName_open (s : GoString) : readName ('{' :: s) = none := by
  simp [readName, isNameStart]

theorem expectOpen_name (n s : GoString) (hn : isName n = true) :
    expectOpen (n ++ s) = none := by
  obtain ⟨c, cs, rfl, hc, _⟩ := isName_spec hn
  have : c ≠ '{' := by
    intro h; subst h; revert hc; decide
  simp [expectOpen, this]

theorem matchDots_name (n s : GoString) (hn : isName n = true) :
    matchDots (n ++ s) = none := by
  obtain ⟨c, cs, rfl, hc, _⟩ := isName_spec hn
  have : c ≠ '.' := by
    intro h; subst h; revert hc; decide
  unfold matchDots
  split
  · rename_i a b d t heq
    simp only [List.cons_append, List.cons.injEq] at heq
    rw [if_neg]
    rintro ⟨ha, _, _⟩
    exact this (heq.1.trans ha)
  · rfl

theorem matchOn_name (n s : GoString) (hn : isName n = true) (hs : endsName s = true)
    (hne : n ≠ ['o', 'n']) : matchOn (n ++ s) = none := by
  obtain ⟨c, cs, rfl, hc, hall⟩ := isName_spec hn
  cases hm : matchOn ((c :: cs) ++ s) with
  | none => rfl
  | some t =>
    exfalso
    obtain ⟨w, hw, heq⟩ := matchOn_spec hm
    have hwn := isNameByte_of_isWhitespace hw
    cases cs with
    | nil =>
      simp only [List.cons_append, List.nil_append, List.cons.injEq] at heq
      have h2 : endsName ('n' :: w :: t) = false := rfl
      rw [heq.2, h2] at hs
      cases hs
    | cons c1 cs1 =>
      cases cs1 with
      | nil =>
        simp only [List.cons_append, List.nil_append, List.cons.injEq] at heq
        exact hne (by rw [heq.1, heq.2.1])
      | cons c2 cs2 =>
        simp only [List.cons_append, List.cons.injEq] at heq
        have := hall c2 (by simp)
        rw [heq.2.2.1, hwn] at this
        cases this

end LexerFacts

section SpreadFacts

theorem endsName_open (ws s : GoString) (hws : ∀ c ∈ ws, isWhitespace c = true) :
    endsName (ws ++ '{' :: s) = true := by
  cases ws with
  | nil => rfl
  | cons c cs =>
    simp only [List.cons_append, endsName, Bool.not_eq_true']
    exact isNameByte_of_isWhitespace (hws c (List.mem_cons_self _ _))

theorem step_selection (ctx : parserCtx) (hin : ctx.scopes ≠ []) :
    step ctx = stepSelection ctx := by
  obtain ⟨k, outer, hsc⟩ := List.exists_cons_of_ne_nil hin
  simp only [step, hsc]

theorem stepSelection_dots_at (ctx : parserCtx) (s : GoString)
    (h1 : skipIgnored false ctx.query = '.' :: '.' :: '.' :: s) :
    stepSelection ctx = stepSpread ctx (skipIgnored false s) := by
  have h2 : ('.' : Char) ≠ '}' := by decide
  have h3 : ¬ (('.' : Char) = '@' ∧ pendingInline ctx = true) := fun h => by
    have := h.1
    revert this
    decide
  simp only [stepSelection, h1, if_neg h2, if_neg h3, matchDots, and_self, if_true]

theorem stepSelection_dots (ctx : parserCtx) (ws s : GoString)
    (hws : ∀ c ∈ ws, isWhitespace c = true) (hq : ctx.query = ws ++ '.' :: '.' :: '.' :: s) :
    stepSelection ctx = stepSpread ctx (skipIgnored false s) :=
  stepSelection_dots_at ctx s (by rw [hq]; exact skipIgnored_dots ws _ hws)

theorem expectByte_name (b : Char) (n s : GoString) (hn : isName n = true)
    (hb : isNameStart b = false) : expectByte b (n ++ s) = none := by
  obtain ⟨c, cs, rfl, hc, _⟩ := isName_spec hn
  have : c ≠ b := by
    intro h; subst h; rw [hb] at hc; cases hc
  simp [expectByte, this]

theorem stepSpread_name (ctx : parserCtx) (name rest : GoString) (hname : isName name = true)
    (hne : name ≠ ['o', 'n']) (hrest : endsName rest = true) :
    stepSpread ctx (name ++ rest) = (startFragmentSpread ctx name rest, false) := by
  simp only [stepSpread, matchOn_name name rest hname hrest hne, expectOpen_name name rest hname,
    expectByte_name '@' name rest hname (by decide),
    readName_name name rest hname hrest, if_neg hne]

theorem matchOn_on (w : Char) (s : GoString) (hw : isWhitespace w = true) :
    matchOn ('o' :: 'n' :: w :: s) = some s := by
  simp [matchOn, hw]

/-- Where no `@` follows, no directive is read. -/
theorem scanDirectives_none (n : Nat) (k : AttachKind) (av : Bool) (s : GoString)
    (h : expectByte '@' (skipIgnored false s) = none) :
    scanDirectives (n + 1) k av s = .ok ([], s) := by
  simp only [scanDirectives, h]

theorem stepSpread_on (ctx : parserCtx) (w : Char) (ws3 ws4 typeCond s : GoString)
    (hw : isWhitespace w = true) (h3 : ∀ c ∈ ws3, isWhitespace c = true)
    (h4 : ∀ c ∈ ws4, isWhitespace c = true) (hty : isName typeCond = true) :
    stepSpread ctx ('o' :: 'n' :: w :: (ws3 ++ (typeCond ++ (ws4 ++ '{' :: s)))) =
      (startInlineFragment ctx typeCond s, false) := by
  have hd : scanDirectives ((ws4 ++ '{' :: s).length + 1) .directive true (ws4 ++ '{' :: s) =
      .ok ([], ws4 ++ '{' :: s) :=
    scanDirectives_none _ _ _ _ (by rw [skipIgnored_open ws4 s h4]; rfl)
  simp only [stepSpread, matchOn_on w _ hw, skipIgnored_name ws3 typeCond _ h3 hty,
    readName_name typeCond _ hty (endsName_open ws4 s h4), hd, skipIgnored_open ws4 s h4,
    expectOpen, if_true, attach_nil]

theorem stepSpread_not_on (ctx : parserCtx) (s : GoString) (h : matchOn s = none) :
    (stepSpread ctx s).2 = true ∨ (∃ t, (stepSpread ctx s).1 = startInlineFragment ctx [] t) ∨
      ∃ name t, (stepSpread ctx s).1 = startFragmentSpread ctx name t := by
  rcases Option.eq_none_or_eq_some (expectOpen s) with ho | ⟨t, ho⟩
  swap
  · rcases Option.eq_none_or_eq_some (expectByte '@' (skipIgnored false t)) with ha | ⟨t1, ha⟩
    · simp only [stepSpread, h, ho, ha]
      exact Or.inr (Or.inl ⟨t, rfl⟩)
    · simp only [stepSpread, h, ho, ha]
      exact Or.inl rfl
  rcases Option.eq_none_or_eq_some (expectByte '@' s) with ha | ⟨t1, ha⟩
  swap
  · simp only [stepSpread, h, ho, ha]
    exact Or.inr (Or.inl ⟨s, rfl⟩)
  rcases Option.eq_none_or_eq_some (readName s) with hn | ⟨⟨name, t⟩, hn⟩
  · simp only [stepSpread, h, ho, ha, hn]
    exact Or.inl rfl
  by_cases hname : name = ['o', 'n']
  · simp only [stepSpread, h, ho, ha, hn, if_pos hname]
    exact Or.inl rfl
  · simp only [stepSpread, h, ho, ha, hn, if_neg hname]
    exact Or.inr (Or.inr ⟨name, t, rfl⟩)

end SpreadFacts

/-- C16. Inside a selection set, three dots followed by a name other than
`on`, for instance a name that merely starts with the letters `on`, are
parsed as a fragment spread: the step writes the single record `sf` with the
name and opens no scope, so that no `e` closes it. Three dots followed by the
keyword `on`, whitespace, a type name and an opening brace are parsed as an
inline fragment: the step writes the record `st` with the type name and opens a
scope. When what follows the dots is not `on` and whitespace, the step fails,
or writes `st` with no type name (a selection set or the directives of the
inline fragment follow), or writes an `sf` record. -/
theorem C16_spread_or_inline (ctx : parserCtx) (ws1 ws2 ws3 ws4 name typeCond rest s : GoString)
    (w : Char) (hin : ctx.scopes ≠ []) (h1 : ∀ c ∈ ws1, isWhitespace c = true)
    (h2 : ∀ c ∈ ws2, isWhitespace c = true) (h3 : ∀ c ∈ ws3, isWhitespace c = true)
    (h4 : ∀ c ∈ ws4, isWhitespace c = true) (hw : isWhitespace w = true)
    (hname : isName name = true) (hne : name ≠ ['o', 'n']) (hrest : endsName rest = true)
    (hty : isName typeCond = true) :
    (ctx.query = ws1 ++ '.' :: '.' :: '.' :: (ws2 ++ (name ++ rest)) →
        step ctx =
          (⟨ctx.res ++ 's' :: 'f' :: name ++ [nulByte], rest, ctx.errors, ctx.scopes⟩, false)) ∧
      (ctx.query = ws1 ++ '.' :: '.' :: '.' ::
            (ws2 ++ 'o' :: 'n' :: w :: (ws3 ++ (typeCond ++ (ws4 ++ '{' :: s)))) →
        step ctx =
          (⟨ctx.res ++ 's' :: 't' :: typeCond ++ [nulByte], s, ctx.errors,
            .inlineFragment :: ctx.scopes⟩, false)) ∧
      (ctx.query = ws1 ++ '.' :: '.' :: '.' :: s → matchOn (skipIgnored false s) = none →
        (step ctx).2 = true ∨ (∃ t, (step ctx).1 = startInlineFragment ctx [] t) ∨
          ∃ n t, (step ctx).1 = startFragmentSpread ctx n t) := by
  refine ⟨?_, ?_, ?_⟩
  · intro hq
    rw [step_selection ctx hin, stepSelection_dots ctx ws1 _ h1 hq,
      skipIgnored_name ws2 name rest h2 hname, stepSpread_name ctx name rest hname hne hrest]
    rfl
  · intro hq
    have hon : skipIgnored false (ws2 ++ 'o' :: 'n' :: w ::
        (ws3 ++ (typeCond ++ (ws4 ++ '{' :: s)))) =
        'o' :: 'n' :: w :: (ws3 ++ (typeCond ++ (ws4 ++ '{' :: s))) := by
      rw [skipIgnored_whitespace ws2 _ h2]
      exact skipIgnored_self _ (by decide) (by decide)
    rw [step_selection ctx hin, stepSelection_dots ctx ws1 _ h1 hq, hon,
      stepSpread_on ctx w ws3 ws4 typeCond s hw h3 h4 hty]
    rfl
  · intro hq hon
    rw [step_selection ctx hin, stepSelection_dots ctx ws1 _ h1 hq]
    exact stepSpread_not_on ctx _ hon

/-- Witness of C16: the spread `... online` and the inline fragment
`... on baz` of the queries of `bytecode_test.go`. -/
theorem C16_spread_or_inline_witness :
    step ⟨['o', 'q', nulByte], "\n... online\nbar \x7d".toList, [], [.operator]⟩ =
        (⟨['o', 'q', nulByte] ++ 's' :: 'f' :: "online".toList ++ [nulByte], "\nbar \x7d".toList,
          [], [.operator]⟩, false) ∧
      step ⟨['o', 'q', nulByte], "\n... on baz \x7bbazField\x7d".toList, [], [.operator]⟩ =
        (⟨['o', 'q', nulByte] ++ 's' :: 't' :: "baz".toList ++ [nulByte], "bazField\x7d".toList,
          [], [.inlineFragment, .operator]⟩, false) :=
  ⟨(C16_spread_or_inline ⟨['o', 'q', nulByte], "\n... online\nbar \x7d".toList, [], [.operator]⟩
      ['\n'] [' '] [] [' '] "online".toList "baz".toList "\nbar \x7d".toList [] ' '
      (by decide) (by decide) (by decide) (by decide) (by decide) (by decide) (by decide)
      (by decide) (by decide) (by decide)).1 rfl,
    (C16_spread_or_inline
      ⟨['o', 'q', nulByte], "\n... on baz \x7bbazField\x7d".toList, [], [.operator]⟩
      ['\n'] [' '] [] [' '] "online".toList "baz".toList [] "bazField\x7d".toList ' '
      (by decide) (by decide) (by decide) (by decide) (by decide) (by decide) (by decide)
      (by decide) (by decide) (by decide)).2.1 rfl⟩

section IgnoredFacts

theorem skipIgnored_comment (body : GoString) (nl : Char) (rest : GoString)
    (hb : ∀ c ∈ body, c ≠ '\n' ∧ c ≠ '\r') (hnl : nl = '\n' ∨ nl = '\r') :
    skipIgnored true (body ++ nl :: rest) = skipIgnored false rest := by
  induction body with
  | nil => simp only [List.nil_append, skipIgnored, if_pos hnl]
  | cons c cs ih =>
    have hc := hb c (List.mem_cons_self _ _)
    have : ¬ (c = '\n' ∨ c = '\r') := fun h => h.elim hc.1 hc.2
    rw [List.cons_append, skipIgnored, if_neg this]
    exact ih fun x hx => hb x (List.mem_cons_of_mem _ hx)

/-- The reader passes the ignored text. -/
theorem skipIgnored_ignored {ws : GoString} (h : IgnoredText ws) (s : GoString) :
    skipIgnored false (ws ++ s) = skipIgnored false s := by
  induction h with
  | nil => rfl
  | white c ws hc _ ih => rw [List.cons_append, skipIgnored, if_pos hc]; exact ih
  | comment body nl ws hb hnl _ ih =>
    have h1 : isWhitespace '#' = false := by decide
    rw [List.cons_append, skipIgnored, h1]
    simp only [Bool.false_eq_true, if_false, if_true, List.append_assoc, List.cons_append]
    rw [skipIgnored_comment body nl _ hb hnl]
    exact ih

theorem ignoredText_of_whitespace {ws : GoString} (h : ∀ c ∈ ws, isWhitespace c = true) :
    IgnoredText ws := by
  induction ws with
  | nil => exact IgnoredText.nil
  | cons c cs ih =>
    exact IgnoredText.white c cs (h c (List.mem_cons_self _ _))
      (ih fun x hx => h x (List.mem_cons_of_mem _ hx))

theorem ignoredText_append {a b : GoString} (ha : IgnoredText a) (hb : IgnoredText b) :
    IgnoredText (a ++ b) := by
  induction ha with
  | nil => exact hb
  | white c ws hc _ ih => exact IgnoredText.white c _ hc ih
  | comment body nl ws hbody hnl _ ih =>
    have := IgnoredText.comment body nl _ hbody hnl ih
    simpa using this

/-- Behind ignored text, the reader stops at a byte that is neither whitespace
nor the start of a comment. -/
theorem skipIgnored_token {ws : GoString} (h : IgnoredText ws) (c : Char) (s : GoString)
    (hw : isWhitespace c = false) (hc : c ≠ '#') :
    skipIgnored false (ws ++ c :: s) = c :: s := by
  rw [skipIgnored_ignored h]
  exact skipIgnored_self _ hw hc

theorem skipIgnored_isName {ws : GoString} (h : IgnoredText ws) (n s : GoString)
    (hn : isName n = true) : skipIgnored false (ws ++ (n ++ s)) = n ++ s := by
  rw [skipIgnored_ignored h]
  obtain ⟨c, cs, rfl, hc, _⟩ := isName_spec hn
  have hb := isNameByte_of_isNameStart hc
  exact skipIgnored_self _ (not_isWhitespace_of_isNameByte hb) (ne_hash_of_isNameByte hb)

theorem nextByte_token {ws : GoString} (h : IgnoredText ws) (c : Char) (s : GoString)
    (hw : isWhitespace c = false) (hc : c ≠ '#') : nextByte (ws ++ c :: s) = some c := by
  rw [nextByte, skipIgnored_token h c s hw hc]
  rfl

theorem nextByte_isName {ws : GoString} (h : IgnoredText ws) (n s : GoString)
    (hn : isName n = true) : ∃ c, nextByte (ws ++ (n ++ s)) = some c ∧ isNameStart c = true := by
  rw [nextByte, skipIgnored_isName h n s hn]
  obtain ⟨c, cs, rfl, hc, _⟩ := isName_spec hn
  exact ⟨c, rfl, hc⟩

theorem nextByte_ignored {ws : GoString} (h : IgnoredText ws) (s : GoString) :
    nextByte (ws ++ s) = nextByte s := by
  rw [nextByte, nextByte, skipIgnored_ignored h]

theorem expectByte_none_of_nextByte {b : Char} {s : GoString} (h : nextByte s ≠ some b) :
    expectByte b (skipIgnored false s) = none := by
  unfold nextByte at h
  cases hs : skipIgnored false s with
  | nil => rfl
  | cons c t =>
    rw [hs] at h
    have : c ≠ b := fun hc => h (by rw [hc]; rfl)
    simp [expectByte, this]

theorem expectOpen_none_of_nextByte {s : GoString} (h : nextByte s ≠ some '{') :
    expectOpen (skipIgnored false s) = none := by
  unfold nextByte at h
  cases hs : skipIgnored false s with
  | nil => rfl
  | cons c t =>
    rw [hs] at h
    have : c ≠ '{' := fun hc => h (by rw [hc]; rfl)
    simp [expectOpen, this]

theorem endsName_ignored {ws : GoString} (h : IgnoredText ws) (c : Char) (s : GoString)
    (hc : isNameByte c = false) : endsName (ws ++ c :: s) = true := by
  cases h with
  | nil => simp [endsName, hc]
  | white c1 ws1 hc1 _ =>
    simp only [List.cons_append, endsName, Bool.not_eq_true']
    exact isNameByte_of_isWhitespace hc1
  | comment body nl ws1 _ _ _ => rfl

theorem skipIgnored_idem (s : GoString) :
    skipIgnored false (skipIgnored false s) = skipIgnored false s := by
  have key : ∀ (b : Bool) (s : GoString),
      skipIgnored false (skipIgnored b s) = skipIgnored b s := by
    intro b s
    induction s generalizing b with
    | nil => cases b <;> rfl
    | cons c cs ih =>
      cases b
      · by_cases hw : isWhitespace c = true
        · simp only [skipIgnored, if_pos hw]; exact ih false
        · by_cases hc : c = '#'
          · simp only [skipIgnored, if_neg hw, if_pos hc]; exact ih true
          · simp only [skipIgnored, if_neg hw, if_neg hc, if_false]
      · simp only [skipIgnored]
        split_ifs
        · exact ih false
        · exact ih true
  exact key false s

end IgnoredFacts

section StringFacts

theorem quote_ne_backslash : quoteByte ≠ backslashByte := by decide

theorem scanString_complete {body : GoString} (h : StringChars body) (t : GoString) :
    scanString .plain (body ++ quoteByte :: t) = .ok t := by
  induction h with
  | nil => simp [scanString]
  | char c rest hc _ ih =>
    have h1 : c ≠ quoteByte := by
      intro h; subst h; revert hc; decide
    have h2 : c ≠ backslashByte := by
      intro h; subst h; revert hc; decide
    simp only [List.cons_append, scanString, if_neg h1, if_neg h2, hc, if_true]
    exact ih
  | escape c rest hc _ ih =>
    have h1 : backslashByte ≠ quoteByte := by decide
    by_cases hu : c = 'u'
    · subst hu; exact absurd hc (by decide)
    · simp only [List.cons_append, scanString, if_neg h1, if_true, if_neg hu, hc]
      exact ih
  | unicode a b c d rest ha hb hc hd _ ih =>
    have h1 : backslashByte ≠ quoteByte := by decide
    simp only [List.cons_append, scanString, if_neg h1, if_true, ha, hb, hc, hd]
    exact ih

theorem stringChars_head {body : GoString} (h : StringChars body) (t : GoString) :
    (body = [] → t.head? ≠ some quoteByte) →
    (body ++ quoteByte :: t).take 2 ≠ [quoteByte, quoteByte] := by
  intro ht
  cases h with
  | nil =>
    cases t with
    | nil => simp
    | cons c t1 =>
      have := ht rfl
      simp only [List.head?_cons, ne_eq, Option.some.injEq] at this
      simp [this]
  | char c rest hc _ =>
    have h1 : c ≠ quoteByte := by
      intro h; subst h; revert hc; decide
    cases rest <;> simp [h1]
  | escape c rest _ _ =>
    have h1 : backslashByte ≠ quoteByte := by decide
    simp [h1]
  | unicode a b c d rest _ _ _ _ _ =>
    have h1 : backslashByte ≠ quoteByte := by decide
    simp [h1]

theorem scanStringValue_plain {body : GoString} (h : StringChars body) (t : GoString)
    (ht : body = [] → t.head? ≠ some quoteByte) :
    scanStringValue (body ++ quoteByte :: t) = .ok t := by
  unfold scanStringValue
  rw [if_neg (stringChars_head h t ht)]
  exact scanString_complete h t

theorem scanBlockString_complete {s t : GoString} (h : BlockChars s t) :
    scanBlockString 0 s = .ok t := by
  induction h with
  | close t => simp [scanBlockString]
  | escaped s t _ ih =>
    have h1 : backslashByte ≠ quoteByte := by decide
    simp only [scanBlockString, h1, false_and, if_false, List.take, and_self, if_true]
    exact ih
  | char c s t hc h1 h2 _ ih =>
    simp only [scanBlockString, if_neg h1, if_neg h2, hc, if_true]
    exact ih

theorem scanStringValue_block {s t : GoString} (h : BlockChars s t) :
    scanStringValue (quoteByte :: quoteByte :: s) = .ok t := by
  unfold scanStringValue
  simp only [List.take, if_true, List.drop]
  exact scanBlockString_complete h

theorem blockChars_length {s t : GoString} (h : BlockChars s t) : t.length < s.length := by
  induction h with
  | close t => simp only [List.length_cons]; omega
  | escaped s t _ ih => simp only [List.length_cons]; omega
  | char c s t _ _ _ _ ih => simp only [List.length_cons]; omega

end StringFacts

section NumberFacts

theorem isNameByte_of_isDigit {c : Char} (h : c.isDigit = true) : isNameByte c = true := by
  simp [isNameByte, Char.isAlphanum, h]

theorem isDigits_spec {ds : GoString} (h : isDigits ds = true) :
    ∃ d r, ds = d :: r ∧ d.isDigit = true ∧ ∀ x ∈ r, x.isDigit = true := by
  cases ds with
  | nil => simp [isDigits] at h
  | cons d r =>
    simp only [isDigits, List.isEmpty_cons, Bool.not_false, Bool.true_and, List.all_cons,
      Bool.and_eq_true, List.all_eq_true] at h
    exact ⟨d, r, rfl, h.1, h.2⟩

theorem dropWhile_digits (ds r : GoString) (hds : ∀ x ∈ ds, x.isDigit = true)
    (hr : ∀ c ∈ r.head?, c.isDigit = false) : (ds ++ r).dropWhile Char.isDigit = r := by
  rw [List.dropWhile_append_of_pos hds]
  cases r with
  | nil => rfl
  | cons c cs =>
    have := hr c rfl
    simp [List.dropWhile_cons, this]

theorem scanDigits_complete (ds r : GoString) (h : isDigits ds = true)
    (hr : ∀ c ∈ r.head?, c.isDigit = false) : scanDigits (ds ++ r) = some r := by
  obtain ⟨d, rest, rfl, hd, hrest⟩ := isDigits_spec h
  simp only [List.cons_append, scanDigits, hd, if_true]
  rw [dropWhile_digits rest r hrest hr]

theorem endsNumber_head {t : GoString} (h : endsNumber t = true) :
    ∀ c ∈ t.head?, isNameByte c = false ∧ c ≠ '.' := by
  intro c hc
  cases t with
  | nil => cases hc
  | cons a l =>
    simp only [List.head?_cons, Option.mem_def, Option.some.injEq] at hc
    subst hc
    simpa [endsNumber] using h

theorem numberEnd_complete {t : GoString} (h : endsNumber t = true) : numberEnd t = .ok t := by
  cases t with
  | nil => rfl
  | cons c l =>
    have := endsNumber_head h c rfl
    simp [numberEnd, this.1, this.2]

theorem noDigit_of_endsNumber {t : GoString} (h : endsNumber t = true) :
    ∀ c ∈ t.head?, c.isDigit = false := by
  intro c hc
  have := (endsNumber_head h c hc).1
  cases hd : c.isDigit with
  | false => rfl
  | true => rw [isNameByte_of_isDigit hd] at this; cases this

theorem scanExponent_complete (exp t : GoString)
    (hexp : exp = [] ∨ ∃ e sg ds, (e = 'e' ∨ e = 'E') ∧ (sg = [] ∨ sg = ['+'] ∨ sg = ['-']) ∧
      isDigits ds = true ∧ exp = e :: (sg ++ ds))
    (ht : endsNumber t = true) : scanExponent (exp ++ t) = .ok t := by
  rcases hexp with rfl | ⟨e, sg, ds, he, hsg, hds, rfl⟩
  · cases t with
    | nil => rfl
    | cons c l =>
      have hc := endsNumber_head ht c rfl
      have h1 : ¬ (c = 'e' ∨ c = 'E') := by
        rintro (h | h) <;> subst h <;> exact absurd hc.1 (by decide)
      simp only [List.nil_append, scanExponent, if_neg h1]
      exact numberEnd_complete ht
  · have hskip : skipSign (sg ++ ds ++ t) = ds ++ t := by
      obtain ⟨d, rest, rfl, hd, _⟩ := isDigits_spec hds
      rcases hsg with rfl | rfl | rfl
      · have h1 : ¬ (d = '+' ∨ d = '-') := by
          rintro (h | h) <;> subst h <;> exact absurd hd (by decide)
        simp [skipSign, h1]
      · simp [skipSign]
      · simp [skipSign]
    simp only [List.cons_append, scanExponent, if_pos he, List.append_assoc]
    rw [← List.append_assoc, hskip, scanDigits_complete ds t hds (noDigit_of_endsNumber ht)]
    exact numberEnd_complete ht

theorem exponent_head (exp t : GoString)
    (hexp : exp = [] ∨ ∃ e sg ds, (e = 'e' ∨ e = 'E') ∧ (sg = [] ∨ sg = ['+'] ∨ sg = ['-']) ∧
      isDigits ds = true ∧ exp = e :: (sg ++ ds))
    (ht : endsNumber t = true) : ∀ c ∈ (exp ++ t).head?, c.isDigit = false ∧ c ≠ '.' := by
  rcases hexp with rfl | ⟨e, sg, ds, he, _, _, rfl⟩
  · intro c hc
    exact ⟨noDigit_of_endsNumber ht c hc, (endsNumber_head ht c hc).2⟩
  · intro c hc
    simp only [List.cons_append, List.head?_cons, Option.mem_def, Option.some.injEq] at hc
    subst hc
    rcases he with rfl | rfl <;> exact ⟨by decide, by decide⟩

theorem scanFraction_complete (frac exp t : GoString)
    (hfrac : frac = [] ∨ ∃ ds, isDigits ds = true ∧ frac = '.' :: ds)
    (hexp : exp = [] ∨ ∃ e sg ds, (e = 'e' ∨ e = 'E') ∧ (sg = [] ∨ sg = ['+'] ∨ sg = ['-']) ∧
      isDigits ds = true ∧ exp = e :: (sg ++ ds))
    (ht : endsNumber t = true) : scanFraction (frac ++ (exp ++ t)) = .ok t := by
  have hhead := exponent_head exp t hexp ht
  rcases hfrac with rfl | ⟨ds, hds, rfl⟩
  · have h1 : expectByte '.' (exp ++ t) = none := by
      cases hs : exp ++ t with
      | nil => rfl
      | cons c l =>
        rw [hs] at hhead
        have := (hhead c rfl).2
        simp [expectByte, this]
    simp only [List.nil_append, scanFraction, h1]
    exact scanExponent_complete exp t hexp ht
  · simp only [List.cons_append, scanFraction, expectByte, if_true]
    rw [scanDigits_complete ds (exp ++ t) hds fun c hc => (hhead c hc).1]
    exact scanExponent_complete exp t hexp ht

theorem fraction_head (frac exp t : GoString)
    (hfrac : frac = [] ∨ ∃ ds, isDigits ds = true ∧ frac = '.' :: ds)
    (hexp : exp = [] ∨ ∃ e sg ds, (e = 'e' ∨ e = 'E') ∧ (sg = [] ∨ sg = ['+'] ∨ sg = ['-']) ∧
      isDigits ds = true ∧ exp = e :: (sg ++ ds))
    (ht : endsNumber t = true) : ∀ c ∈ (frac ++ (exp ++ t)).head?, c.isDigit = false := by
  rcases hfrac with rfl | ⟨ds, _, rfl⟩
  · intro c hc
    exact (exponent_head exp t hexp ht c hc).1
  · intro c hc
    simp only [List.cons_append, List.head?_cons, Option.mem_def, Option.some.injEq] at hc
    subst hc
    decide

/-- The reader accepts the numbers of the grammar. -/
theorem scanNumber_complete {s t : GoString} (h : NumberText s t) : scanNumber s = .ok t := by
  cases h with
  | mk sign int frac exp t hsign hint hfrac hexp ht =>
    have hrest := scanFraction_complete frac exp t hfrac hexp ht
    have hhead := fraction_head frac exp t hfrac hexp ht
    have hint1 : ∃ d r, int = d :: r ∧ d.isDigit = true ∧ d ≠ '-' ∧
        ((d = '0' ∧ r = []) ∨ (d ≠ '0' ∧ ∀ x ∈ r, x.isDigit = true)) := by
      rcases hint with rfl | ⟨hd, hz⟩
      · exact ⟨'0', [], rfl, by decide, by decide, Or.inl ⟨rfl, rfl⟩⟩
      · obtain ⟨d, r, rfl, hd1, hr⟩ := isDigits_spec hd
        refine ⟨d, r, rfl, hd1, ?_, Or.inr ⟨?_, hr⟩⟩
        · intro h; subst h; exact absurd hd1 (by decide)
        · intro h; subst h; exact hz rfl
    obtain ⟨d, r, rfl, hd, hminus, hcase⟩ := hint1
    have hsigned : (expectByte '-' (sign ++ (d :: r ++ (frac ++ (exp ++ t))))).getD
        (sign ++ (d :: r ++ (frac ++ (exp ++ t)))) = d :: (r ++ (frac ++ (exp ++ t))) := by
      rcases hsign with rfl | rfl
      · simp [expectByte, hminus]
      · simp [expectByte]
    unfold scanNumber
    rw [hsigned]
    rcases hcase with ⟨hz, hr⟩ | ⟨hz, hr⟩
    · subst hz hr
      simp only [if_true, List.nil_append]
      exact hrest
    · simp only [if_neg hz, hd, if_true]
      rw [dropWhile_digits r _ hr hhead]
      exact hrest

theorem numberText_length {s t : GoString} (h : NumberText s t) : t.length < s.length := by
  cases h with
  | mk sign int frac exp t hsign hint hfrac hexp ht =>
    have : 0 < int.length := by
      rcases hint with rfl | ⟨hd, _⟩
      · simp
      · obtain ⟨d, r, rfl, _, _⟩ := isDigits_spec hd
        simp
    simp only [List.length_append]
    omega

theorem numberText_head {s t : GoString} (h : NumberText s t) :
    ∃ c r, s = c :: r ∧ (c = '-' ∨ c.isDigit = true) := by
  cases h with
  | mk sign int frac exp t hsign hint hfrac hexp ht =>
    rcases hsign with rfl | rfl
    · rcases hint with rfl | ⟨hd, _⟩
      · exact ⟨'0', _, rfl, Or.inr (by decide)⟩
      · obtain ⟨d, r, rfl, hd1, _⟩ := isDigits_spec hd
        exact ⟨d, _, rfl, Or.inr hd1⟩
    · exact ⟨'-', _, rfl, Or.inl rfl⟩

end NumberFacts

section ValueFacts

theorem isDigit_false_of_isNameStart {c : Char} (h : isNameStart c = true) :
    c.isDigit = false := by
  simp only [isNameStart, Char.isAlpha, Char.isUpper, Char.isLower, Bool.or_eq_true,
    Bool.and_eq_true, decide_eq_true_eq] at h
  cases hd : c.isDigit with
  | false => rfl
  | true =>
    exfalso
    simp only [Char.isDigit, Bool.and_eq_true, decide_eq_true_eq] at hd
    rcases h with (h | h) | h
    · exact absurd (Nat.le_trans (show (65 : UInt32).toNat ≤ c.val.toNat from h.1)
        (show c.val.toNat ≤ (57 : UInt32).toNat from hd.2)) (by decide)
    · exact absurd (Nat.le_trans (show (97 : UInt32).toNat ≤ c.val.toNat from h.1)
        (show c.val.toNat ≤ (57 : UInt32).toNat from hd.2)) (by decide)
    · subst h; simp at hd

/-- The first byte of a name starts a token of its own kind. -/
theorem nameStart_facts {c : Char} (h : isNameStart c = true) :
    isWhitespace c = false ∧ c ≠ '#' ∧ c ≠ '$' ∧ c ≠ quoteByte ∧ c ≠ '[' ∧ c ≠ '{' ∧
      c ≠ '-' ∧ c ≠ ']' ∧ c ≠ '}' ∧ c ≠ ')' ∧ c ≠ '@' ∧ c ≠ '.' ∧ c ≠ ':' ∧ c ≠ '(' := by
  have hb := isNameByte_of_isNameStart h
  refine ⟨not_isWhitespace_of_isNameByte hb, ne_hash_of_isNameByte hb, ?_, ?_, ?_, ?_, ?_, ?_,
    ?_, ?_, ?_, ?_, ?_, ?_⟩ <;> (intro hc; subst hc; exact absurd h (by decide))

/-- The first byte of a number starts a token of its own kind. -/
theorem numberStart_facts {c : Char} (h : c = '-' ∨ c.isDigit = true) :
    isWhitespace c = false ∧ c ≠ '#' ∧ c ≠ '$' ∧ c ≠ quoteByte ∧ c ≠ '[' ∧ c ≠ '{' ∧
      c ≠ ']' := by
  rcases h with rfl | h
  · exact ⟨by decide, by decide, by decide, by decide, by decide, by decide, by decide⟩
  · have hb := isNameByte_of_isDigit h
    refine ⟨not_isWhitespace_of_isNameByte hb, ne_hash_of_isNameByte hb, ?_, ?_, ?_, ?_, ?_⟩ <;>
      (intro hc; subst hc; exact absurd h (by decide))

theorem valueText_length {m : ValueMode} {av : Bool} {s t : GoString}
    (h : ValueText m av s t) : t.length < s.length := by
  induction h with
  | var ws n t _ hn _ =>
    simp only [List.length_cons, List.length_append]; omega
  | name av n t hn _ =>
    obtain ⟨c, cs, rfl, _, _⟩ := isName_spec hn
    simp only [List.length_cons, List.length_append]; omega
  | number av s t h => exact numberText_length h
  | string av body t _ _ => simp only [List.length_cons, List.length_append]; omega
  | block av s t h => have := blockChars_length h; simp only [List.length_cons]; omega
  | list av ws s t _ _ ih => simp only [List.length_cons, List.length_append]; omega
  | object av ws s t _ _ ih => simp only [List.length_cons, List.length_append]; omega
  | itemsEnd av t => simp
  | item av s ws s1 t _ _ _ ih1 ih2 => simp only [List.length_append] at ih1; omega
  | fieldsEnd av t => simp
  | field av n ws1 ws2 s ws3 s1 t _ _ _ _ _ _ ih1 ih2 =>
    simp only [List.length_cons, List.length_append] at ih1 ⊢; omega

/-- A value, the items of a list and the fields of an object start with a
byte that is not ignored. -/
theorem valueText_head {m : ValueMode} {av : Bool} {s t : GoString}
    (h : ValueText m av s t) :
    ∃ c r, s = c :: r ∧ isWhitespace c = false ∧ c ≠ '#' ∧ (m = .value → c ≠ ']') := by
  induction h with
  | var ws n t _ hn _ => exact ⟨'$', _, rfl, by decide, by decide, fun _ => by decide⟩
  | name av n t hn _ =>
    obtain ⟨c, cs, rfl, hc, _⟩ := isName_spec hn
    have := nameStart_facts hc
    exact ⟨c, _, rfl, this.1, this.2.1, fun _ => this.2.2.2.2.2.2.2.1⟩
  | number av s t h =>
    obtain ⟨c, r, rfl, hc⟩ := numberText_head h
    have := numberStart_facts hc
    exact ⟨c, r, rfl, this.1, this.2.1, fun _ => this.2.2.2.2.2.2⟩
  | string av body t _ _ => exact ⟨quoteByte, _, rfl, by decide, by decide, fun _ => by decide⟩
  | block av s t h => exact ⟨quoteByte, _, rfl, by decide, by decide, fun _ => by decide⟩
  | list av ws s t _ _ ih => exact ⟨'[', _, rfl, by decide, by decide, fun _ => by decide⟩
  | object av ws s t _ _ ih => exact ⟨'{', _, rfl, by decide, by decide, fun _ => by decide⟩
  | itemsEnd av t => exact ⟨']', _, rfl, by decide, by decide, fun h => by cases h⟩
  | item av s ws s1 t _ _ _ ih1 ih2 =>
    obtain ⟨c, r, hs, h1, h2, _⟩ := ih1
    exact ⟨c, r, hs, h1, h2, fun h => by cases h⟩
  | fieldsEnd av t => exact ⟨'}', _, rfl, by decide, by decide, fun h => by cases h⟩
  | field av n ws1 ws2 s ws3 s1 t hn _ _ _ _ _ ih1 ih2 =>
    obtain ⟨c, cs, rfl, hc, _⟩ := isName_spec hn
    have := nameStart_facts hc
    exact ⟨c, _, rfl, this.1, this.2.1, fun h => by cases h⟩

theorem skipIgnored_valueText {m : ValueMode} {av : Bool} {s t ws : GoString}
    (h : ValueText m av s t) (hws : IgnoredText ws) : skipIgnored false (ws ++ s) = s := by
  obtain ⟨c, r, rfl, h1, h2, _⟩ := valueText_head h
  exact skipIgnored_token hws c r h1 h2

/-- The reader accepts the values of the grammar, with fuel from the number of
bytes of the value on. -/
theorem scanValueAux_complete {m : ValueMode} {av : Bool} {s t : GoString}
    (h : ValueText m av s t) :
    ∀ n, s.length - t.length ≤ n → scanValueAux n m av s = .ok t := by
  induction h with
  | var ws n t hws hn ht =>
    intro k hk
    obtain ⟨j, rfl⟩ : ∃ j, k = j + 1 :=
      ⟨k - 1, by simp only [List.length_cons, List.length_append] at hk; omega⟩
    simp only [scanValueAux, if_true, skipIgnored_isName hws n t hn, readName_name n t hn ht]
  | name av n t hn ht =>
    intro k hk
    have hr := readName_name n t hn ht
    obtain ⟨c, cs, rfl, hc, _⟩ := isName_spec hn
    obtain ⟨j, rfl⟩ : ∃ j, k = j + 1 :=
      ⟨k - 1, by simp only [List.length_cons, List.length_append] at hk; omega⟩
    have hf := nameStart_facts hc
    have hd : ¬ (c = '-' ∨ c.isDigit = true) := by
      rintro (h | h)
      · exact hf.2.2.2.2.2.2.1 h
      · rw [isDigit_false_of_isNameStart hc] at h; cases h
    rw [List.cons_append] at hr ⊢
    simp only [scanValueAux, if_neg hf.2.2.1, if_neg hf.2.2.2.1, if_neg hf.2.2.2.2.1,
      if_neg hf.2.2.2.2.2.1, if_neg hd, hr]
  | number av s t h =>
    intro k hk
    have hlen := numberText_length h
    obtain ⟨j, rfl⟩ : ∃ j, k = j + 1 := ⟨k - 1, by omega⟩
    have hn := scanNumber_complete h
    obtain ⟨c, r, rfl, hc⟩ := numberText_head h
    have hf := numberStart_facts hc
    simp only [scanValueAux, if_neg hf.2.2.1, if_neg hf.2.2.2.1, if_neg hf.2.2.2.2.1,
      if_neg hf.2.2.2.2.2.1, if_pos hc, hn]
  | string av body t hb ht =>
    intro k hk
    obtain ⟨j, rfl⟩ : ∃ j, k = j + 1 :=
      ⟨k - 1, by simp only [List.length_cons, List.length_append] at hk; omega⟩
    have h1 : quoteByte ≠ '$' := by decide
    simp only [scanValueAux, if_neg h1, if_true, scanStringValue_plain hb t ht]
  | block av s t h =>
    intro k hk
    have hlen := blockChars_length h
    obtain ⟨j, rfl⟩ : ∃ j, k = j + 1 :=
      ⟨k - 1, by simp only [List.length_cons] at hk; omega⟩
    have h1 : quoteByte ≠ '$' := by decide
    simp only [scanValueAux, if_neg h1, if_true, scanStringValue_block h]
  | list av ws s t hws h ih =>
    intro k hk
    have hlen := valueText_length h
    obtain ⟨j, rfl⟩ : ∃ j, k = j + 1 :=
      ⟨k - 1, by simp only [List.length_cons, List.length_append] at hk; omega⟩
    have h1 : ('[' : Char) ≠ '$' := by decide
    have h2 : ('[' : Char) ≠ quoteByte := by decide
    simp only [scanValueAux, if_neg h1, if_neg h2, if_true, skipIgnored_valueText h hws]
    exact ih j (by simp only [List.length_cons, List.length_append] at hk; omega)
  | object av ws s t hws h ih =>
    intro k hk
    have hlen := valueText_length h
    obtain ⟨j, rfl⟩ : ∃ j, k = j + 1 :=
      ⟨k - 1, by simp only [List.length_cons, List.length_append] at hk; omega⟩
    have h1 : ('{' : Char) ≠ '$' := by decide
    have h2 : ('{' : Char) ≠ quoteByte := by decide
    have h3 : ('{' : Char) ≠ '[' := by decide
    simp only [scanValueAux, if_neg h1, if_neg h2, if_neg h3, if_true,
      skipIgnored_valueText h hws]
    exact ih j (by simp only [List.length_cons, List.length_append] at hk; omega)
  | itemsEnd av t =>
    intro k hk
    obtain ⟨j, rfl⟩ : ∃ j, k = j + 1 :=
      ⟨k - 1, by simp only [List.length_cons] at hk; omega⟩
    simp only [scanValueAux, if_true]
  | item av s ws s1 t h1 hws h2 ih1 ih2 =>
    intro k hk
    have hl1 := valueText_length h1
    have hl2 := valueText_length h2
    simp only [List.length_append] at hl1
    obtain ⟨j, rfl⟩ : ∃ j, k = j + 1 := ⟨k - 1, by omega⟩
    have e1 := ih1 j (by simp only [List.length_append]; omega)
    have e2 := ih2 j (by omega)
    obtain ⟨c, r, rfl, _, _, hc⟩ := valueText_head h1
    simp only [scanValueAux, if_neg (hc rfl), e1, skipIgnored_valueText h2 hws, e2]
  | fieldsEnd av t =>
    intro k hk
    obtain ⟨j, rfl⟩ : ∃ j, k = j + 1 :=
      ⟨k - 1, by simp only [List.length_cons] at hk; omega⟩
    simp only [scanValueAux, if_true]
  | field av n ws1 ws2 s ws3 s1 t hn hws1 hws2 h1 hws3 h2 ih1 ih2 =>
    intro k hk
    have hl1 := valueText_length h1
    have hl2 := valueText_length h2
    simp only [List.length_append, List.length_cons] at hl1 hk
    obtain ⟨j, rfl⟩ : ∃ j, k = j + 1 := ⟨k - 1, by omega⟩
    have e1 := ih1 j (by simp only [List.length_append]; omega)
    have e2 := ih2 j (by omega)
    have hr := readName_name n (ws1 ++ ':' :: (ws2 ++ s)) hn
      (endsName_ignored hws1 ':' _ (by decide))
    obtain ⟨c, cs, rfl, hc, _⟩ := isName_spec hn
    have hf := nameStart_facts hc
    rw [List.cons_append] at hr ⊢
    simp only [scanValueAux, if_neg hf.2.2.2.2.2.2.2.2.1, hr,
      skipIgnored_token hws1 ':' _ (by decide) (by decide), expectByte, if_true,
      skipIgnored_valueText h1 hws2, e1, skipIgnored_valueText h2 hws3, e2]

theorem scanValue_complete {av : Bool} {s t : GoString} (h : ValueText .value av s t) :
    scanValue av s = .ok t :=
  scanValueAux_complete h _ (by omega)

end ValueFacts

section ArgumentFacts

theorem argumentsText_length {av : Bool} {s t : GoString} (h : ArgumentsText av s t) :
    t.length < s.length := by
  induction h with
  | close t => simp
  | arg n ws1 ws2 s ws3 s1 t _ _ _ hv _ _ ih =>
    have := valueText_length hv
    simp only [List.length_cons, List.length_append] at this ⊢; omega

theorem argumentsText_head {av : Bool} {s t : GoString} (h : ArgumentsText av s t) :
    ∃ c r, s = c :: r ∧ isWhitespace c = false ∧ c ≠ '#' := by
  cases h with
  | close t => exact ⟨')', _, rfl, by decide, by decide⟩
  | arg n ws1 ws2 s ws3 s1 t hn _ _ _ _ _ =>
    obtain ⟨c, cs, rfl, hc, _⟩ := isName_spec hn
    have := nameStart_facts hc
    exact ⟨c, _, rfl, this.1, this.2.1⟩

theorem skipIgnored_argumentsText {av : Bool} {s t ws : GoString}
    (h : ArgumentsText av s t) (hws : IgnoredText ws) : skipIgnored false (ws ++ s) = s := by
  obtain ⟨c, r, rfl, h1, h2⟩ := argumentsText_head h
  exact skipIgnored_token hws c r h1 h2

/-- The reader accepts the arguments of the grammar. -/
theorem scanArguments_complete {av : Bool} {s t : GoString} (h : ArgumentsText av s t) :
    ∀ n, s.length - t.length ≤ n → ∃ args, scanArguments n av s = .ok (args, t) := by
  induction h with
  | close t =>
    intro k hk
    obtain ⟨j, rfl⟩ : ∃ j, k = j + 1 :=
      ⟨k - 1, by simp only [List.length_cons] at hk; omega⟩
    exact ⟨[], by simp only [scanArguments, if_true]⟩
  | arg n ws1 ws2 s ws3 s1 t hn hws1 hws2 hv hws3 hrest ih =>
    intro k hk
    have hl1 := valueText_length hv
    have hl2 := argumentsText_length hrest
    simp only [List.length_append, List.length_cons] at hl1 hk
    obtain ⟨j, rfl⟩ : ∃ j, k = j + 1 := ⟨k - 1, by omega⟩
    obtain ⟨args, e2⟩ := ih j (by omega)
    have e1 := scanValue_complete hv
    have hr := readName_name n (ws1 ++ ':' :: (ws2 ++ s)) hn
      (endsName_ignored hws1 ':' _ (by decide))
    obtain ⟨c, cs, rfl, hc, _⟩ := isName_spec hn
    have hf := nameStart_facts hc
    rw [List.cons_append] at hr ⊢
    simp only [scanArguments, if_neg hf.2.2.2.2.2.2.2.2.2.1, hr,
      skipIgnored_token hws1 ':' _ (by decide) (by decide), expectByte, if_true,
      skipIgnored_valueText hv hws2, e1, skipIgnored_argumentsText hrest hws3, e2]
    exact ⟨_, rfl⟩

theorem optArgumentsText_length {av : Bool} {s t : GoString} (h : OptArgumentsText av s t) :
    t.length ≤ s.length := by
  cases h with
  | none t => exact Nat.le_refl _
  | some ws ws1 s t _ _ h =>
    have := argumentsText_length h
    simp only [List.length_cons, List.length_append]; omega

theorem optArgumentsText_next {av : Bool} {s t : GoString} (h : OptArgumentsText av s t) :
    s = t ∨ nextByte s = some '(' := by
  cases h with
  | none t => exact Or.inl rfl
  | some ws ws1 s t hws _ _ => exact Or.inr (nextByte_token hws '(' _ (by decide) (by decide))

/-- The reader accepts the optional arguments of the grammar, when no opening
parenthesis follows them. -/
theorem scanOptArguments_complete {av : Bool} {s t : GoString} (h : OptArgumentsText av s t)
    (ht : nextByte t ≠ some '(') : ∃ args, scanOptArguments av s = .ok (args, t) := by
  cases h with
  | none t =>
    exact ⟨[], by simp only [scanOptArguments, expectByte_none_of_nextByte ht]⟩
  | some ws ws1 s t hws hws1 h =>
    obtain ⟨args, e⟩ := scanArguments_complete h ((ws1 ++ s).length + 1)
      (by simp only [List.length_append]; omega)
    refine ⟨args, ?_⟩
    simp only [scanOptArguments, skipIgnored_token hws '(' _ (by decide) (by decide),
      expectByte, if_true, skipIgnored_argumentsText h hws1, e]

theorem directivesText_length {av : Bool} {s t : GoString} (h : DirectivesText av s t) :
    t.length ≤ s.length := by
  induction h with
  | none t => exact Nat.le_refl _
  | directive ws ws1 n s s1 t _ _ _ _ ho _ ih =>
    have := optArgumentsText_length ho
    simp only [List.length_cons, List.length_append]; omega

theorem directivesText_next {av : Bool} {s t : GoString} (h : DirectivesText av s t) :
    s = t ∨ nextByte s = some '@' := by
  cases h with
  | none t => exact Or.inl rfl
  | directive ws ws1 n s s1 t hws _ _ _ _ _ =>
    exact Or.inr (nextByte_token hws '@' _ (by decide) (by decide))

/-- The reader accepts the directives of the grammar, when no `@` and no
opening parenthesis follow them. -/
theorem scanDirectives_complete {av : Bool} {s t : GoString} (k : AttachKind)
    (h : DirectivesText av s t) (ht : nextByte t ≠ some '@') (ht1 : nextByte t ≠ some '(') :
    ∀ n, s.length - t.length < n → ∃ ds, scanDirectives n k av s = .ok (ds, t) := by
  induction h with
  | none t =>
    intro m hm
    obtain ⟨j, rfl⟩ : ∃ j, m = j + 1 := ⟨m - 1, by omega⟩
    exact ⟨[], scanDirectives_none _ _ _ _ (expectByte_none_of_nextByte ht)⟩
  | directive ws ws1 n s s1 t hws hws1 hn hs ho hrest ih =>
    intro m hm
    have hl1 := optArgumentsText_length ho
    have hl2 := directivesText_length hrest
    simp only [List.length_append, List.length_cons] at hm
    obtain ⟨j, rfl⟩ : ∃ j, m = j + 1 := ⟨m - 1, by omega⟩
    obtain ⟨ds, e2⟩ := ih ht ht1 j (by omega)
    have hnext : nextByte s1 ≠ some '(' := by
      rcases directivesText_next hrest with h | h
      · rw [h]; exact ht1
      · rw [h]; decide
    obtain ⟨args, e1⟩ := scanOptArguments_complete ho hnext
    simp only [scanDirectives, skipIgnored_token hws '@' _ (by decide) (by decide), expectByte,
      if_true, skipIgnored_isName hws1 n s hn, readName_name n s hn hs, e1, e2]
    exact ⟨_, rfl⟩

/-- The directives read from an `@` behind ignored text are those read from
the `@`. -/
theorem scanDirectives_skip (n : Nat) (k : AttachKind) (av : Bool) (s t : GoString)
    (h : expectByte '@' (skipIgnored false s) = some t) :
    scanDirectives (n + 1) k av (skipIgnored false s) = scanDirectives (n + 1) k av s := by
  simp only [scanDirectives, skipIgnored_idem, h]

theorem aliasText_head {s t : GoString} (h : AliasText s t) :
    ∃ c r, s = c :: r ∧ isNameStart c = true := by
  cases h with
  | plain n t hn _ =>
    obtain ⟨c, cs, rfl, hc, _⟩ := isName_spec hn
    exact ⟨c, _, rfl, hc⟩
  | aliased a ws1 ws2 n t ha _ _ _ _ =>
    obtain ⟨c, cs, rfl, hc, _⟩ := isName_spec ha
    exact ⟨c, _, rfl, hc⟩

theorem aliasText_length {s t : GoString} (h : AliasText s t) : t.length < s.length := by
  cases h with
  | plain n t hn _ =>
    obtain ⟨c, cs, rfl, hc, _⟩ := isName_spec hn
    simp only [List.length_cons, List.length_append]; omega
  | aliased a ws1 ws2 n t ha _ _ _ _ =>
    obtain ⟨c, cs, rfl, hc, _⟩ := isName_spec ha
    simp only [List.length_cons, List.length_append]; omega

theorem isName_nul {n : GoString} (h : isName n = true) : nulByte ∉ n := by
  obtain ⟨c, cs, rfl, _, hall⟩ := isName_spec h
  exact nulByte_not_mem_name hall

/-- The reader accepts the name of a field with its optional alias, when no
colon follows it. -/
theorem scanAlias_complete {s t : GoString} (h : AliasText s t) (ht : nextByte t ≠ some ':') :
    ∃ first t0 name pre, readName s = some (first, t0) ∧
      scanAlias first t0 = .ok (name, pre, t) ∧ nulByte ∉ name := by
  cases h with
  | plain n t hn hend =>
    refine ⟨n, t, n, [], readName_name n t hn hend, ?_, isName_nul hn⟩
    simp only [scanAlias, expectByte_none_of_nextByte ht]
  | aliased a ws1 ws2 n t ha hws1 hws2 hn hend =>
    refine ⟨a, ws1 ++ ':' :: (ws2 ++ (n ++ t)), n, [⟨.aliasName, a⟩],
      readName_name a _ ha (endsName_ignored hws1 ':' _ (by decide)), ?_, isName_nul hn⟩
    simp only [scanAlias, skipIgnored_token hws1 ':' _ (by decide) (by decide), expectByte,
      if_true, skipIgnored_isName hws2 n t hn, readName_name n t hn hend]

end ArgumentFacts

section GrammarFacts

theorem steps_trans {a b c : parserCtx} (h1 : Steps a b) (h2 : Steps b c) : Steps a c := by
  induction h1 with
  | refl _ => exact h2
  | head a b _ hab _ ih => exact Steps.head a b _ hab (ih h2)

theorem steps_one {a b : parserCtx} (h : step a = (b, false)) : Steps a b :=
  Steps.head a b b h (Steps.refl b)

/-- A run that goes on after some steps gives the result of the whole run. -/
theorem run_of_steps {a b r : parserCtx} (h : Steps a b) :
    ∀ fuel, run fuel b = some r → ∃ fuel1, run fuel1 a = some r := by
  induction h with
  | refl _ => exact fun fuel h => ⟨fuel, h⟩
  | head a b c hab _ ih =>
    intro fuel hr
    obtain ⟨fuel1, h1⟩ := ih fuel hr
    refine ⟨fuel1 + 1, ?_⟩
    simp only [run, hab, Bool.false_eq_true, if_false]
    exact h1

theorem stepSelection_close (ctx : parserCtx) (k : ScopeKind) (outer : List ScopeKind)
    (ws t : GoString) (hsc : ctx.scopes = k :: outer) (hws : IgnoredText ws)
    (hq : ctx.query = ws ++ '}' :: t) :
    step ctx = (⟨ctx.res ++ ['e', nulByte], t, ctx.errors, outer⟩, false) := by
  have h1 : skipIgnored false ctx.query = '}' :: t := by
    rw [hq]; exact skipIgnored_token hws '}' t (by decide) (by decide)
  rw [step_selection ctx (by rw [hsc]; simp)]
  simp only [stepSelection, h1, if_true, endScope, hsc]

theorem stepSelection_name (ctx : parserCtx) (c : Char) (r first t0 : GoString)
    (hq : skipIgnored false ctx.query = c :: r) (hc : isNameStart c = true)
    (hr : readName (c :: r) = some (first, t0)) :
    stepSelection ctx = stepField ctx first t0 := by
  have hf := nameStart_facts hc
  have h1 : ¬ (c = '@' ∧ pendingInline ctx = true) := fun h => hf.2.2.2.2.2.2.2.2.2.2.1 h.1
  have h2 : matchDots (c :: r) = none := by
    unfold matchDots
    split
    · rename_i a b d t heq
      simp only [List.cons.injEq] at heq
      rw [if_neg]
      rintro ⟨ha, _, _⟩
      exact hf.2.2.2.2.2.2.2.2.2.2.2.1 (heq.1.trans ha)
    · rfl
  simp only [stepSelection, hq, if_neg hf.2.2.2.2.2.2.2.2.1, if_neg h1, h2, hr]

/-- The step of the parser over the head of a field of the grammar: what it
writes and where it leaves the cursor, for a field without selection set and
for a field with one. -/
theorem stepField_complete (ctx : parserCtx) {s t : GoString} (h : FieldText s t)
    (h1 : nextByte t ≠ some ':') (h2 : nextByte t ≠ some '(') (h3 : nextByte t ≠ some '@') :
    ∃ first t0 name atts, readName s = some (first, t0) ∧
      (nextByte t ≠ some '{' →
        stepField ctx first t0 =
          (⟨ctx.res ++ 'f' :: name ++ [nulByte] ++ attachBytes atts ++ ['e', nulByte], t,
            ctx.errors, ctx.scopes⟩, false)) ∧
      (∀ inner, skipIgnored false t = '{' :: inner →
        stepField ctx first t0 =
          (⟨ctx.res ++ 'f' :: name ++ [nulByte] ++ attachBytes atts, inner, ctx.errors,
            .field :: ctx.scopes⟩, false)) := by
  cases h
  rename_i s1 s2 ha ho hd
  · have n2 : nextByte s2 ≠ some '(' ∧ nextByte s2 ≠ some ':' := by
      rcases directivesText_next hd with h | h
      · rw [h]; exact ⟨h2, h1⟩
      · rw [h]; exact ⟨by decide, by decide⟩
    have n1 : nextByte s1 ≠ some ':' := by
      rcases optArgumentsText_next ho with h | h
      · rw [h]; exact n2.2
      · rw [h]; decide
    obtain ⟨first, t0, name, pre, hr, ea, _⟩ := scanAlias_complete ha n1
    obtain ⟨args, eo⟩ := scanOptArguments_complete ho n2.1
    obtain ⟨ds, ed⟩ := scanDirectives_complete .directive hd h3 h2 (s2.length + 1) (by omega)
    refine ⟨first, t0, name, pre ++ args ++ ds, hr, ?_, ?_⟩
    · intro h4
      simp only [stepField, ea, eo, ed, expectOpen_none_of_nextByte h4, endScope, startField,
        parserCtx.attach]
    · intro inner h4
      simp only [stepField, ea, eo, ed, h4, expectOpen, if_true, startField, parserCtx.attach]

theorem fieldText_head {s t : GoString} (h : FieldText s t) :
    ∃ c r, s = c :: r ∧ isNameStart c = true := by
  cases h
  rename_i s1 s2 ha ho hd
  exact aliasText_head ha

/-- The selections of the grammar start, behind ignored text, with a closing
brace, a dot or a name. -/
theorem selectionsText_next {s t : GoString} (h : SelectionsText s t) :
    ∃ c, nextByte s = some c ∧ (c = '}' ∨ c = '.' ∨ isNameStart c = true) := by
  cases h with
  | close ws t hws => exact ⟨'}', nextByte_token hws _ _ (by decide) (by decide), Or.inl rfl⟩
  | field ws s s1 t hws hf _ =>
    obtain ⟨c, r, rfl, hc⟩ := fieldText_head hf
    have := nameStart_facts hc
    exact ⟨c, nextByte_token hws c r this.1 this.2.1, Or.inr (Or.inr hc)⟩
  | fieldSet ws s ws1 inner rest t hws hf _ _ _ =>
    obtain ⟨c, r, rfl, hc⟩ := fieldText_head hf
    have := nameStart_facts hc
    exact ⟨c, nextByte_token hws c r this.1 this.2.1, Or.inr (Or.inr hc)⟩
  | spread ws ws1 name rest t hws _ _ _ _ _ =>
    exact ⟨'.', nextByte_token hws _ _ (by decide) (by decide), Or.inr (Or.inl rfl)⟩
  | inlineOn ws ws1 ws2 typeCond s ws3 inner rest t w hws _ _ _ _ _ _ _ _ _ =>
    exact ⟨'.', nextByte_token hws _ _ (by decide) (by decide), Or.inr (Or.inl rfl)⟩
  | inline ws ws1 s ws3 inner rest t hws _ _ _ _ _ =>
    exact ⟨'.', nextByte_token hws _ _ (by decide) (by decide), Or.inr (Or.inl rfl)⟩

/-- No colon, parenthesis, `@` or opening brace starts a selection. -/
theorem selectionsText_follows {s t : GoString} (h : SelectionsText s t) :
    nextByte s ≠ some ':' ∧ nextByte s ≠ some '(' ∧ nextByte s ≠ some '@' ∧
      nextByte s ≠ some '{' := by
  obtain ⟨c, hc, hcase⟩ := selectionsText_next h
  rw [hc]
  rcases hcase with rfl | rfl | hn
  · exact ⟨by decide, by decide, by decide, by decide⟩
  · exact ⟨by decide, by decide, by decide, by decide⟩
  · have := nameStart_facts hn
    simp only [ne_eq, Option.some.injEq]
    exact ⟨this.2.2.2.2.2.2.2.2.2.2.2.2.1, this.2.2.2.2.2.2.2.2.2.2.2.2.2,
      this.2.2.2.2.2.2.2.2.2.2.1, this.2.2.2.2.2.1⟩

theorem open_follows {ws : GoString} (hws : IgnoredText ws) (inner : GoString) :
    nextByte (ws ++ '{' :: inner) ≠ some ':' ∧ nextByte (ws ++ '{' :: inner) ≠ some '(' ∧
      nextByte (ws ++ '{' :: inner) ≠ some '@' := by
  rw [nextByte_token hws '{' inner (by decide) (by decide)]
  exact ⟨by decide, by decide, by decide⟩

theorem attachBytes_ends (atts : List Attachment) (r0 : GoString) :
    ∃ r1, r0 ++ [nulByte] ++ attachBytes atts = r1 ++ [nulByte] := by
  induction atts generalizing r0 with
  | nil => exact ⟨r0, by simp [attachBytes]⟩
  | cons a rest ih =>
    obtain ⟨r1, h⟩ := ih (r0 ++ [nulByte] ++
      (a.kind.letter :: a.payload.filter (fun c => c != nulByte)))
    exact ⟨r1, by rw [← h]; simp [attachBytes, Attachment.bytes]⟩

theorem matchOn_head (c : Char) (s : GoString) (hc : c ≠ 'o') : matchOn (c :: s) = none := by
  unfold matchOn
  split
  · rename_i a b d t heq
    simp only [List.cons.injEq] at heq
    rw [if_neg]
    rintro ⟨ha, _, _⟩
    exact hc (heq.1.trans ha)
  · rfl

theorem pendingInline_started (ctx : parserCtx) (r0 t : GoString)
    (h : ctx.res = r0 ++ [nulByte]) : pendingInline (startInlineFragment ctx [] t) = true := by
  simp [pendingInline, startInlineFragment, h]

/-- The parser accepts the selections of the grammar: from inside a scope it
reads them up to the closing brace, which closes the scope, without error. -/
theorem steps_selections {body t : GoString} (h : SelectionsText body t) :
    ∀ (res : GoString) (errors : List (ParseErrorKind × Nat)) (k : ScopeKind)
      (outer : List ScopeKind), (∃ r0, res = r0 ++ [nulByte]) →
      ∃ res1, (∃ r1, res1 = r1 ++ [nulByte]) ∧
        Steps ⟨res, body, errors, k :: outer⟩ ⟨res1, t, errors, outer⟩ := by
  induction h with
  | close ws t hws =>
    intro res errors k outer hres
    obtain ⟨r0, rfl⟩ := hres
    exact ⟨_, ⟨r0 ++ [nulByte] ++ ['e'], by simp⟩,
      steps_one (stepSelection_close _ k outer ws t rfl hws rfl)⟩
  | field ws s s1 t hws hf hrest ih =>
    intro res errors k outer hres
    have hn := selectionsText_follows hrest
    obtain ⟨first, t0, name, atts, hr, hleaf, _⟩ :=
      stepField_complete ⟨res, ws ++ s, errors, k :: outer⟩ hf hn.1 hn.2.1 hn.2.2.1
    obtain ⟨c, r, rfl, hc⟩ := fieldText_head hf
    have hf1 := nameStart_facts hc
    have hstep : step ⟨res, ws ++ c :: r, errors, k :: outer⟩ = _ :=
      (step_selection _ (by simp)).trans
        ((stepSelection_name _ c r first t0 (skipIgnored_token hws c r hf1.1 hf1.2.1) hc hr).trans
          (hleaf hn.2.2.2))
    obtain ⟨r0, rfl⟩ := hres
    obtain ⟨res1, hres1, hsteps⟩ := ih
      (r0 ++ [nulByte] ++ 'f' :: name ++ [nulByte] ++ attachBytes atts ++ ['e', nulByte])
      errors k outer ⟨r0 ++ [nulByte] ++ 'f' :: name ++ [nulByte] ++ attachBytes atts ++ ['e'],
        by simp⟩
    exact ⟨res1, hres1, Steps.head _ _ _ hstep hsteps⟩
  | fieldSet ws s ws1 inner rest t hws hf hws1 hinner hrest ih1 ih2 =>
    intro res errors k outer hres
    have hn := open_follows hws1 inner
    obtain ⟨first, t0, name, atts, hr, _, hset⟩ :=
      stepField_complete ⟨res, ws ++ s, errors, k :: outer⟩ hf hn.1 hn.2.1 hn.2.2
    obtain ⟨c, r, rfl, hc⟩ := fieldText_head hf
    have hf1 := nameStart_facts hc
    have hstep : step ⟨res, ws ++ c :: r, errors, k :: outer⟩ = _ :=
      (step_selection _ (by simp)).trans
        ((stepSelection_name _ c r first t0 (skipIgnored_token hws c r hf1.1 hf1.2.1) hc hr).trans
          (hset inner (skipIgnored_token hws1 '{' inner (by decide) (by decide))))
    obtain ⟨r0, rfl⟩ := hres
    obtain ⟨r1, hr1⟩ := attachBytes_ends atts (r0 ++ [nulByte] ++ 'f' :: name)
    obtain ⟨res1, hres1, hsteps1⟩ := ih1
      (r0 ++ [nulByte] ++ 'f' :: name ++ [nulByte] ++ attachBytes atts)
      errors .field (k :: outer) ⟨r1, hr1⟩
    obtain ⟨res2, hres2, hsteps2⟩ := ih2 res1 errors k outer hres1
    exact ⟨res2, hres2, Steps.head _ _ _ hstep (steps_trans hsteps1 hsteps2)⟩
  | spread ws ws1 name rest t hws hws1 hn hne hend hrest ih =>
    intro res errors k outer hres
    obtain ⟨r0, rfl⟩ := hres
    obtain ⟨res1, hres1, hsteps⟩ := ih (r0 ++ [nulByte] ++ 's' :: 'f' :: name ++ [nulByte])
      errors k outer ⟨r0 ++ [nulByte] ++ 's' :: 'f' :: name, by simp⟩
    refine ⟨res1, hres1, Steps.head _ _ _ ?_ hsteps⟩
    rw [step_selection _ (by simp),
      stepSelection_dots_at _ (ws1 ++ (name ++ rest))
        (skipIgnored_token hws '.' _ (by decide) (by decide)),
      skipIgnored_isName hws1 name rest hn, stepSpread_name _ name rest hn hne hend]
    rfl
  | inlineOn ws ws1 ws2 typeCond s ws3 inner rest t w hws hws1 hw hws2 hty hend hd hws3 hinner
      hrest ih1 ih2 =>
    intro res errors k outer hres
    have hn := open_follows hws3 inner
    obtain ⟨ds, ed⟩ := scanDirectives_complete .directive hd hn.2.2 hn.2.1 (s.length + 1)
      (by omega)
    obtain ⟨r0, rfl⟩ := hres
    obtain ⟨r1, hr1⟩ := attachBytes_ends ds (r0 ++ [nulByte] ++ 's' :: 't' :: typeCond)
    obtain ⟨res1, hres1, hsteps1⟩ := ih1
      (r0 ++ [nulByte] ++ 's' :: 't' :: typeCond ++ [nulByte] ++ attachBytes ds)
      errors .inlineFragment (k :: outer) ⟨r1, hr1⟩
    obtain ⟨res2, hres2, hsteps2⟩ := ih2 res1 errors k outer hres1
    refine ⟨res2, hres2, Steps.head _ _ _ ?_ (steps_trans hsteps1 hsteps2)⟩
    rw [step_selection _ (by simp),
      stepSelection_dots_at _ (ws1 ++ 'o' :: 'n' :: w :: (ws2 ++ (typeCond ++ s)))
        (skipIgnored_token hws '.' _ (by decide) (by decide)),
      skipIgnored_token hws1 'o' _ (by decide) (by decide)]
    simp only [stepSpread, matchOn_on w _ hw, skipIgnored_isName hws2 typeCond s hty,
      readName_name typeCond s hty hend, ed,
      skipIgnored_token hws3 '{' inner (by decide) (by decide), expectOpen, if_true,
      startInlineFragment, parserCtx.attach]
  | inline ws ws1 s ws3 inner rest t hws hws1 hd hws3 hinner hrest ih1 ih2 =>
    intro res errors k outer hres
    have hn := open_follows hws3 inner
    obtain ⟨r0, rfl⟩ := hres
    cases hd with
    | none _ =>
      obtain ⟨res1, hres1, hsteps1⟩ := ih1 (r0 ++ [nulByte] ++ ['s', 't', nulByte])
        errors .inlineFragment (k :: outer) ⟨r0 ++ [nulByte] ++ ['s', 't'], by simp⟩
      obtain ⟨res2, hres2, hsteps2⟩ := ih2 res1 errors k outer hres1
      refine ⟨res2, hres2, Steps.head _ _ _ ?_ (steps_trans hsteps1 hsteps2)⟩
      have hin := selectionsText_follows hinner
      rw [step_selection _ (by simp),
        stepSelection_dots_at _ (ws1 ++ (ws3 ++ '{' :: inner))
          (skipIgnored_token hws '.' _ (by decide) (by decide)),
        skipIgnored_ignored hws1, skipIgnored_token hws3 '{' inner (by decide) (by decide)]
      simp only [stepSpread, matchOn_head '{' inner (by decide), expectOpen, if_true,
        expectByte_none_of_nextByte hin.2.2.1, startInlineFragment]
      simp
    | directive ws4 ws5 n s0 s1 _ hws4 hws5 hdn hs0 ho hrestd =>
      have hd1 : DirectivesText true ('@' :: (ws5 ++ (n ++ s0))) (ws3 ++ '{' :: inner) :=
        DirectivesText.directive [] ws5 n s0 s1 _ IgnoredText.nil hws5 hdn hs0 ho hrestd
      obtain ⟨ds, ed⟩ := scanDirectives_complete .directive hd1 hn.2.2 hn.2.1
        (('@' :: (ws5 ++ (n ++ s0))).length + 1) (by omega)
      obtain ⟨r1, hr1⟩ := attachBytes_ends ds (r0 ++ [nulByte] ++ ['s', 't'])
      obtain ⟨res1, hres1, hsteps1⟩ := ih1
        (r0 ++ [nulByte] ++ ['s', 't'] ++ [nulByte] ++ attachBytes ds)
        errors .inlineFragment (k :: outer) ⟨r1, hr1⟩
      obtain ⟨res2, hres2, hsteps2⟩ := ih2 res1 errors k outer hres1
      have hstepA : step ⟨r0 ++ [nulByte], ws ++ '.' :: '.' :: '.' ::
          (ws1 ++ (ws4 ++ '@' :: (ws5 ++ (n ++ s0)))), errors, k :: outer⟩ =
          (startInlineFragment ⟨r0 ++ [nulByte], ws ++ '.' :: '.' :: '.' ::
            (ws1 ++ (ws4 ++ '@' :: (ws5 ++ (n ++ s0)))), errors, k :: outer⟩ []
            ('@' :: (ws5 ++ (n ++ s0))), false) := by
        rw [step_selection _ (by simp),
          stepSelection_dots_at _ (ws1 ++ (ws4 ++ '@' :: (ws5 ++ (n ++ s0))))
            (skipIgnored_token hws '.' _ (by decide) (by decide)),
          skipIgnored_ignored hws1, skipIgnored_token hws4 '@' _ (by decide) (by decide)]
        have h2 : ('@' : Char) ≠ '{' := by decide
        simp only [stepSpread, matchOn_head '@' _ (by decide), expectOpen, if_neg h2, expectByte,
          if_true]
      have hpend := pendingInline_started ⟨r0 ++ [nulByte], ws ++ '.' :: '.' :: '.' ::
        (ws1 ++ (ws4 ++ '@' :: (ws5 ++ (n ++ s0)))), errors, k :: outer⟩ r0
        ('@' :: (ws5 ++ (n ++ s0))) rfl
      have hstepB : step (startInlineFragment ⟨r0 ++ [nulByte], ws ++ '.' :: '.' :: '.' ::
            (ws1 ++ (ws4 ++ '@' :: (ws5 ++ (n ++ s0)))), errors, k :: outer⟩ []
            ('@' :: (ws5 ++ (n ++ s0)))) =
          (⟨r0 ++ [nulByte] ++ ['s', 't'] ++ [nulByte] ++ attachBytes ds, inner, errors,
            .inlineFragment :: k :: outer⟩, false) := by
        rw [step_selection _ (by simp [startInlineFragment])]
        have hq : skipIgnored false (startInlineFragment ⟨r0 ++ [nulByte],
            ws ++ '.' :: '.' :: '.' :: (ws1 ++ (ws4 ++ '@' :: (ws5 ++ (n ++ s0)))), errors,
            k :: outer⟩ [] ('@' :: (ws5 ++ (n ++ s0)))).query = '@' :: (ws5 ++ (n ++ s0)) :=
          skipIgnored_self _ (by decide) (by decide)
        have h1 : ('@' : Char) ≠ '}' := by decide
        simp only [stepSelection, hq, if_neg h1, hpend, and_self, if_true, stepInlineDirectives,
          ed, skipIgnored_token hws3 '{' inner (by decide) (by decide), expectOpen]
        simp [startInlineFragment]
      exact ⟨res2, hres2,
        Steps.head _ _ _ hstepA (Steps.head _ _ _ hstepB (steps_trans hsteps1 hsteps2))⟩

end GrammarFacts

section BareQueryFacts

theorem step_bare (t : GoString) :
    step ⟨[], '{' :: t, [], []⟩ = (⟨['o', 'q', nulByte], t, [], [.operator]⟩, false) := by
  have h1 : skipIgnored false ('{' :: t) = '{' :: t :=
    skipIgnored_self _ (by decide) (by decide)
  simp only [step, stepDefinition, h1, expectOpen, if_true]
  rfl

theorem operatorHeader_open (ctx : parserCtx) (kind : OperatorKind) (name t : GoString) :
    operatorHeader ctx kind name ('{' :: t) = (startOperator ctx kind name t, false) := by
  have h1 : skipIgnored false ('{' :: t) = '{' :: t :=
    skipIgnored_self _ (by decide) (by decide)
  have h2 : expectByte '(' ('{' :: t) = none := by simp [expectByte]
  have h3 : expectByte '@' ('{' :: t) = none := by simp [expectByte]
  simp only [operatorHeader, scanOptVariableDefs, h1, h2, List.length_cons, scanDirectives, h3,
    expectOpen, if_true, List.append_nil, attach_nil]

theorem step_query_keyword (ws t : GoString) (hws : IgnoredText ws) :
    step ⟨[], ['q', 'u', 'e', 'r', 'y'] ++ (ws ++ '{' :: t), [], []⟩ =
      (⟨['o', 'q', nulByte], t, [], [.operator]⟩, false) := by
  have h1 : skipIgnored false (['q', 'u', 'e', 'r', 'y'] ++ (ws ++ '{' :: t)) =
      'q' :: (['u', 'e', 'r', 'y'] ++ (ws ++ '{' :: t)) :=
    skipIgnored_self _ (by decide) (by decide)
  have h2 : expectOpen ('q' :: (['u', 'e', 'r', 'y'] ++ (ws ++ '{' :: t))) = none := by
    simp [expectOpen]
  have h3 : readName ('q' :: (['u', 'e', 'r', 'y'] ++ (ws ++ '{' :: t))) =
      some (['q', 'u', 'e', 'r', 'y'], ws ++ '{' :: t) :=
    readName_name ['q', 'u', 'e', 'r', 'y'] _ (by decide)
      (endsName_ignored hws '{' t (by decide))
  have h4 : (['q', 'u', 'e', 'r', 'y'] : GoString) ≠ ['f', 'r', 'a', 'g', 'm', 'e', 'n', 't'] := by
    decide
  have h5 : operatorKeyword ['q', 'u', 'e', 'r', 'y'] = some .query := by decide
  simp only [step, stepDefinition, h1, h2, h3, if_neg h4, h5, stepOperator,
    skipIgnored_token hws '{' t (by decide) (by decide), readName_open, operatorHeader_open]
  rfl

theorem run_errors_bound (n fuel : Nat) (ctx r : parserCtx)
    (h0 : (∀ e ∈ ctx.errors, e.2 ≤ n) ∧ ctx.query.length ≤ n)
    (h : run fuel ctx = some r) : ∀ e ∈ r.errors, e.2 ≤ n := by
  have hP : ∀ c : parserCtx, ((∀ e ∈ c.errors, e.2 ≤ n) ∧ c.query.length ≤ n) →
      (∀ e ∈ (step c).1.errors, e.2 ≤ n) := by
    intro c hc
    have ho := step_outcome c
    generalize (step c).1 = c1 at ho
    generalize (step c).2 = b at ho
    cases ho with
    | finished _ _ herr _ _ => rw [herr]; exact hc.1
    | failed e _ herr hle _ _ =>
      rw [herr]
      intro x hx
      rcases List.mem_append.1 hx with hx | hx
      · exact hc.1 x hx
      · rw [List.mem_singleton.1 hx]; exact le_trans hle hc.2
    | opened _ _ _ _ _ _ herr _ _ => rw [herr]; exact hc.1
    | openedFragment _ _ _ _ _ _ _ _ herr _ _ => rw [herr]; exact hc.1
    | spread _ _ _ _ _ herr _ _ => rw [herr]; exact hc.1
    | leaf _ _ _ _ _ _ herr _ _ => rw [herr]; exact hc.1
    | closed _ _ _ herr _ => rw [herr]; exact hc.1
    | attached _ _ _ herr _ _ => rw [herr]; exact hc.1
  exact run_induction (fun c => (∀ e ∈ c.errors, e.2 ≤ n) ∧ c.query.length ≤ n)
    (fun r => ∀ e ∈ r.errors, e.2 ≤ n)
    (fun c hc _ => ⟨hP c hc, le_trans (step_length_le c) hc.2⟩)
    (fun c hc _ hne => ⟨hP c hc,
      le_trans (Nat.le_of_lt (recover_length c _ (step_length_le c) hne)) hc.2⟩)
    (fun c hc _ _ => hP c hc) fuel ctx r h0 h

theorem inQuery_step (ctx : parserCtx) (h : InQuery ctx) : InQuery (step ctx).1 := by
  obtain ⟨body, hres, hend⟩ := h
  have ho := step_outcome ctx
  generalize (step ctx).1 = ctx1 at ho
  generalize (step ctx).2 = b at ho
  cases ho with
  | finished htop hr _ hsc _ => exact ⟨body, by rw [hr, hres], fun _ => hend htop⟩
  | failed e hr _ _ hsc _ =>
    exact ⟨body, by rw [hr, hres], fun h1 => hend (by rw [← hsc]; exact h1)⟩
  | opened r k atts _ _ hr _ hsc _ =>
    exact ⟨body ++ r ++ [nulByte] ++ attachBytes atts, by rw [hr, hres]; simp,
      fun h1 => by rw [hsc] at h1; cases h1⟩
  | openedFragment name typeCond k atts _ _ _ hr _ hsc _ =>
    exact ⟨body ++ ('F' :: name) ++ [nulByte] ++ typeCond ++ [nulByte] ++ attachBytes atts,
      by rw [hr, hres]; simp, fun h1 => by rw [hsc] at h1; cases h1⟩
  | spread r _ hin _ hr _ hsc _ =>
    exact ⟨body ++ r ++ [nulByte], by rw [hr, hres]; simp,
      fun h1 => absurd (by rw [← hsc]; exact h1) hin⟩
  | leaf r atts _ hin _ hr _ hsc _ =>
    exact ⟨body ++ r ++ [nulByte] ++ attachBytes atts ++ ['e', nulByte],
      by rw [hr, hres]; simp, fun _ => ⟨body ++ r ++ [nulByte] ++ attachBytes atts, rfl⟩⟩
  | closed k _ hr _ _ =>
    exact ⟨body ++ ['e', nulByte], by rw [hr, hres]; simp, fun _ => ⟨body, rfl⟩⟩
  | attached atts hin hr _ hsc _ =>
    exact ⟨body ++ attachBytes atts, by rw [hr, hres]; simp,
      fun h1 => absurd (by rw [← hsc]; exact h1) hin⟩

theorem closeScopes_ends (scopes : List ScopeKind) (h : scopes ≠ []) :
    ∃ pre, closeScopes scopes = pre ++ ['e', nulByte] := by
  induction scopes with
  | nil => exact absurd rfl h
  | cons k outer ih =>
    cases outer with
    | nil => exact ⟨[], rfl⟩
    | cons k1 outer1 =>
      obtain ⟨pre, hpre⟩ := ih (by simp)
      exact ⟨'e' :: nulByte :: pre, by rw [closeScopes, hpre]; rfl⟩

/-- The bytecode of a run from inside the first operator starts with the
record `oq` and ends with an `e` record. -/
theorem run_inQuery (fuel : Nat) (ctx r : parserCtx) (h0 : InQuery ctx)
    (h : run fuel ctx = some r) :
    ∃ body, r.res = 'o' :: 'q' :: nulByte :: body ++ ['e', nulByte] := by
  refine run_induction InQuery
    (fun r => ∃ body, r.res = 'o' :: 'q' :: nulByte :: body ++ ['e', nulByte])
    (fun c hc _ => inQuery_step c hc) (fun c hc _ _ => inQuery_step c hc) ?_ fuel ctx r h0 h
  intro c hc _ _
  obtain ⟨body, hres, hend⟩ := inQuery_step c hc
  by_cases hsc : (step c).1.scopes = []
  · obtain ⟨inner, hinner⟩ := hend hsc
    exact ⟨inner, by simp [closeAll, hres, hinner, hsc, closeScopes]⟩
  · obtain ⟨pre, hpre⟩ := closeScopes_ends _ hsc
    exact ⟨body ++ pre, by simp [closeAll, hres, hpre]⟩

theorem errorAt_shift (query : GoString) (n : Nat) (pre : GoString) (e : ParseErrorKind × Nat)
    (he : e.2 ≤ query.length) (hn : pre.length = n) :
    errorAt (pre ++ query) e = (errorAt query e).shift n := by
  simp only [errorAt, ParseError.shift, List.length_append, ParseError.mk.injEq, true_and]
  omega

/-- A run from inside a scope over the selections of the grammar, which end
the query, ends without error. -/
theorem run_selections {body : GoString} (h : SelectionsText body []) (r0 : GoString)
    (k : ScopeKind) {fuel : Nat} {r : parserCtx}
    (hr : run fuel ⟨r0 ++ [nulByte], body, [], [k]⟩ = some r) : r.errors = [] := by
  obtain ⟨res1, _, hsteps⟩ := steps_selections h (r0 ++ [nulByte]) [] k [] ⟨r0, rfl⟩
  have hlast : run 1 ⟨res1, [], [], []⟩ = some (closeAll ⟨res1, [], [], []⟩) := by
    simp [run, step, stepDefinition, skipIgnored]
  obtain ⟨fuel1, h1⟩ := run_of_steps hsteps 1 hlast
  have h2 := run_mono h1 fuel
  have h3 := run_mono hr fuel1
  rw [Nat.add_comm] at h3
  rw [h2] at h3
  rw [← Option.some.inj h3]
  rfl

end BareQueryFacts

/-- C15. A document that starts with the opening brace of a selection set is
parsed like the same text after the keyword `query` and any ignored text: both
parses return, with the same bytecode, which starts with the record `oq` of an
operator with no name and ends with the `e` record that closes it, and with the
same errors, each at the same byte of the selection set (its offset is larger
by the bytes put in front). For a selection set of the grammar of section 4.4,
with aliases, arguments, input values, directives, fragment spreads and inline
fragments, there is no error, so that the two results are exactly the same. -/
theorem C15_bare_selection_set (ws t : GoString) (hws : IgnoredText ws) :
    (∃ res errs,
      parseQuery ('{' :: t) = some (res, errs) ∧
        parseQuery (['q', 'u', 'e', 'r', 'y'] ++ ws ++ '{' :: t) =
          some (res, errs.map (ParseError.shift (5 + ws.length))) ∧
        ∃ body, res = 'o' :: 'q' :: nulByte :: body ++ ['e', nulByte]) ∧
      (SelectionsText t [] →
        ∃ body,
          parseQuery ('{' :: t) = some ('o' :: 'q' :: nulByte :: body ++ ['e', nulByte], []) ∧
            parseQuery (['q', 'u', 'e', 'r', 'y'] ++ ws ++ '{' :: t) =
              some ('o' :: 'q' :: nulByte :: body ++ ['e', nulByte], [])) := by
  obtain ⟨r, hr⟩ := run_total (t.length + 1) ⟨['o', 'q', nulByte], t, [], [.operator]⟩
    (Nat.lt_succ_self _)
  have hbound := run_errors_bound t.length _ _ r ⟨by simp, le_refl _⟩ hr
  obtain ⟨body, hbody⟩ := run_inQuery _ _ r ⟨[], rfl, fun h => by cases h⟩ hr
  have hA : parseQuery ('{' :: t) = some (r.res, r.errors.map (errorAt ('{' :: t))) := by
    have : run (t.length + 1 + 1) ⟨[], '{' :: t, [], []⟩ = some r := by
      rw [run, step_bare]
      exact hr
    simp only [parseQuery, parseQueryToBytecode, List.length_cons, this, Option.map_some']
  have hB : parseQuery (['q', 'u', 'e', 'r', 'y'] ++ ws ++ '{' :: t) =
      some (r.res, (r.errors.map (errorAt ('{' :: t))).map
        (ParseError.shift (5 + ws.length))) := by
    have hrun : run ((['q', 'u', 'e', 'r', 'y'] ++ ws ++ '{' :: t).length + 1)
        ⟨[], ['q', 'u', 'e', 'r', 'y'] ++ (ws ++ '{' :: t), [], []⟩ = some r := by
      rw [run, step_query_keyword ws t hws]
      exact run_fuel_irrelevant hr (by simp; omega)
    have hmap : r.errors.map (errorAt (['q', 'u', 'e', 'r', 'y'] ++ ws ++ '{' :: t)) =
        (r.errors.map (errorAt ('{' :: t))).map (ParseError.shift (5 + ws.length)) := by
      rw [List.map_map]
      apply List.map_congr_left
      intro e he
      exact errorAt_shift ('{' :: t) (5 + ws.length) (['q', 'u', 'e', 'r', 'y'] ++ ws) e
        (by have := hbound e he; simp only [List.length_cons]; omega) (by simp; omega)
    rw [← hmap]
    simp only [parseQuery, parseQueryToBytecode]
    rw [List.append_assoc] at hrun ⊢
    rw [hrun]
    rfl
  refine ⟨⟨r.res, r.errors.map (errorAt ('{' :: t)), hA, hB, body, hbody⟩, ?_⟩
  intro ht
  have herr : r.errors = [] := run_selections ht ['o', 'q'] .operator hr
  refine ⟨body, ?_, ?_⟩
  · rw [hA, herr, hbody]; rfl
  · rw [hB, herr, hbody]; rfl

/-- The queries of `bytecode_test.go` in the model: `parseQuery` returns the
expected bytecode and no error. -/
theorem parseQuery_test_values :
    parseQuery "\x7b\x7d".toList = some (['o', 'q', nulByte, 'e', nulByte], []) ∧
    parseQuery "query \x7b\x7d".toList = some (['o', 'q', nulByte, 'e', nulByte], []) ∧
    parseQuery "mutation \x7b\x7d".toList = some (['o', 'm', nulByte, 'e', nulByte], []) ∧
    parseQuery "subscription \x7b\x7d".toList = some (['o', 's', nulByte, 'e', nulByte], []) ∧
    parseQuery "query banana \x7b\x7d".toList =
      some ("oqbanana".toList ++ [nulByte, 'e', nulByte], []) ∧
    parseQuery "\x7b\x7d\x7b\x7d".toList =
      some (['o', 'q', nulByte, 'e', nulByte, 'o', 'q', nulByte, 'e', nulByte], []) ∧
    parseQuery "fragment Foo on Bar \x7b\x7d".toList =
      some ("FFoo".toList ++ nulByte :: "Bar".toList ++ [nulByte, 'e', nulByte], []) ∧
    parseQuery "query \x7b\n\tsome_field \x7b\n\tfoo\n\t... online\n\tbar\n\t\x7d\n\x7d".toList =
      some ("oq".toList ++ nulByte :: "fsome_field".toList ++ nulByte :: "ffoo".toList ++
        nulByte :: 'e' :: nulByte :: "sfonline".toList ++ nulByte :: "fbar".toList ++
        [nulByte, 'e', nulByte, 'e', nulByte, 'e', nulByte], []) ∧
    parseQuery
        "query \x7b\n\tsome_field \x7b\n\tfoo\n\t... on baz \x7b\n\tbazField\n\t\x7d\n\tbar\n\t\x7d\n\x7d".toList =
      some ("oq".toList ++ nulByte :: "fsome_field".toList ++ nulByte :: "ffoo".toList ++
        nulByte :: 'e' :: nulByte :: "stbaz".toList ++ nulByte :: "fbazField".toList ++
        nulByte :: 'e' :: nulByte :: 'e' :: nulByte :: "fbar".toList ++
        [nulByte, 'e', nulByte, 'e', nulByte, 'e', nulByte], []) := by
  refine ⟨?_, ?_, ?_, ?_, ?_, ?_, ?_, ?_, ?_⟩ <;> decide

/-- Queries with arguments, an alias, directives and variable definitions (the
queries of `resolve_test.go` and of section 8 have such) parse without error;
the sub-records follow the record they belong to. -/
theorem parseQuery_attachment_values :
    parseQuery "\x7bbar(a: \x22foo\x22)\x7d".toList =
      some ("oq".toList ++ nulByte :: "fbar".toList ++ nulByte :: "Aa:\x22foo\x22".toList ++
        [nulByte, 'e', nulByte, 'e', nulByte], []) ∧
    parseQuery "\x7baa: a\x7d".toList =
      some ("oq".toList ++ nulByte :: "fa".toList ++ nulByte :: "aaa".toList ++
        [nulByte, 'e', nulByte, 'e', nulByte], []) ∧
    parseQuery "\x7ba @skip(if:true) b\x7d".toList =
      some ("oq".toList ++ nulByte :: "fa".toList ++ nulByte :: "dskip".toList ++
        nulByte :: "Aif:true".toList ++ nulByte :: 'e' :: nulByte :: "fb".toList ++
        [nulByte, 'e', nulByte, 'e', nulByte], []) ∧
    parseQuery "query Q($v: Int) \x7ba\x7d".toList =
      some ("oqQ".toList ++ nulByte :: "Vv:Int".toList ++ nulByte :: "fa".toList ++
        [nulByte, 'e', nulByte, 'e', nulByte], []) ∧
    parseQuery "\x7bfoo(a:1,d:1.1)\x7ba d\x7d\x7d".toList =
      some ("oq".toList ++ nulByte :: "ffoo".toList ++ nulByte :: "Aa:1".toList ++
        nulByte :: "Ad:1.1".toList ++ nulByte :: "fa".toList ++ nulByte :: 'e' :: nulByte ::
        "fd".toList ++ [nulByte, 'e', nulByte, 'e', nulByte, 'e', nulByte], []) ∧
    parseQuery "\x7b... @skip(if: $v) \x7bb\x7d\x7d".toList =
      some ("oq".toList ++ nulByte :: "st".toList ++ nulByte :: "dskip".toList ++
        nulByte :: "Aif:$v".toList ++ nulByte :: "fb".toList ++
        [nulByte, 'e', nulByte, 'e', nulByte, 'e', nulByte], []) := by
  refine ⟨?_, ?_, ?_, ?_, ?_, ?_⟩ <;> decide

/-- Queries that break the grammar: the error is noted at its byte, the parse
recovers and goes on, and the scopes left open at the end are closed. -/
theorem parseQuery_error_values :
    parseQuery "\x7ba(b: !) c\n d\x7d".toList =
      some ("oq".toList ++ nulByte :: "fd".toList ++ [nulByte, 'e', nulByte, 'e', nulByte],
        [⟨.UnexpectedByte '!', 6⟩]) ∧
    parseQuery "\x7ba \x7bb".toList =
      some ("oq".toList ++ nulByte :: "fa".toList ++ nulByte :: "fb".toList ++
        [nulByte, 'e', nulByte, 'e', nulByte, 'e', nulByte], [⟨.UnexpectedEOF, 5⟩]) ∧
    parseQuery "\x7ba\x7d\x7d \x7bb\x7d".toList =
      some ("oq".toList ++ nulByte :: "fa".toList ++ nulByte :: 'e' :: nulByte :: 'e' ::
        nulByte :: "oq".toList ++ nulByte :: "fb".toList ++
        [nulByte, 'e', nulByte, 'e', nulByte], [⟨.UnexpectedByte '}', 3⟩]) ∧
    parseQuery "\x7b...a @d\x7d".toList =
      some ("oq".toList ++ nulByte :: "sfa".toList ++ [nulByte, 'e', nulByte],
        [⟨.UnexpectedByte '@', 6⟩]) ∧
    parseQuery "\x7ba(b: 01)\x7d".toList =
      some ("oq".toList ++ [nulByte, 'e', nulByte], [⟨.UnexpectedByte '1', 7⟩]) := by
  refine ⟨?_, ?_, ?_, ?_, ?_⟩ <;> decide

/-- The scope check on sample bytecodes: a missing `e`, an `e` too many, a
field outside an operator, an `e` after a fragment spread and a sub-record
outside a scope are rejected. -/
theorem balanced_test_values :
    Balanced ['o', 'q', nulByte, 'e', nulByte] ∧
    Balanced ("oq".toList ++ nulByte :: "fa".toList ++ nulByte :: "sfb".toList ++
      [nulByte, 'e', nulByte, 'e', nulByte]) ∧
    Balanced ("oq".toList ++ nulByte :: "fa".toList ++ nulByte :: "dskip".toList ++
      nulByte :: "Aif:true".toList ++ [nulByte, 'e', nulByte, 'e', nulByte]) ∧
    ¬ Balanced ['o', 'q', nulByte] ∧
    ¬ Balanced ['o', 'q', nulByte, 'e'] ∧
    ¬ Balanced ['o', 'q', nulByte, 'e', nulByte, 'e', nulByte] ∧
    ¬ Balanced ['f', 'a', nulByte, 'e', nulByte] ∧
    ¬ Balanced ("oq".toList ++ nulByte :: "sfb".toList ++
      [nulByte, 'e', nulByte, 'e', nulByte]) ∧
    ¬ Balanced ("dskip".toList ++ nulByte :: "oq".toList ++ [nulByte, 'e', nulByte]) := by
  refine ⟨?_, ?_, ?_, ?_, ?_, ?_, ?_, ?_, ?_⟩ <;> decide

/-- Witness of C14: a query with an alias, arguments, a directive and a
selection set parses without error, and its bytecode is balanced. -/
theorem C14_parseQuery_balanced_witness :
    Balanced ("oq".toList ++ nulByte :: "fsome_field".toList ++ nulByte :: "ax".toList ++
        nulByte :: "Aa:1".toList ++ nulByte :: "dskip".toList ++ nulByte ::
        "Aif:false".toList ++ nulByte :: "ffoo".toList ++ nulByte :: 'e' :: nulByte ::
        "fbar".toList ++ [nulByte, 'e', nulByte, 'e', nulByte, 'e', nulByte]) :=
  (C14_parseQuery_balanced
    "query \x7b\n\tx: some_field(a: 1) @skip(if: false) \x7b\n\tfoo\n\tbar\n\t\x7d\n\x7d".toList).2 _
    (by decide)

/-- The selections `bar(a: "foo") @skip(if: true) b`, closed by the brace, are
a text of the grammar. -/
theorem selectionsText_test_value :
    SelectionsText "bar(a: \x22foo\x22) @skip(if: true) b\x7d".toList [] :=
  SelectionsText.field [] "bar(a: \x22foo\x22) @skip(if: true) b\x7d".toList " b\x7d".toList []
    IgnoredText.nil
    (FieldText.mk _ "(a: \x22foo\x22) @skip(if: true) b\x7d".toList
      " @skip(if: true) b\x7d".toList _
      (AliasText.plain "bar".toList _ (by decide) (by decide))
      (OptArgumentsText.some [] [] "a: \x22foo\x22) @skip(if: true) b\x7d".toList _
        IgnoredText.nil IgnoredText.nil
        (ArgumentsText.arg "a".toList [] [' '] "\x22foo\x22) @skip(if: true) b\x7d".toList []
          ") @skip(if: true) b\x7d".toList _ (by decide) IgnoredText.nil
          (IgnoredText.white ' ' [] (by decide) IgnoredText.nil)
          (ValueText.string true "foo".toList _
            (StringChars.char 'f' _ (by decide) (StringChars.char 'o' _ (by decide)
              (StringChars.char 'o' _ (by decide) StringChars.nil)))
            (by decide))
          IgnoredText.nil (ArgumentsText.close _)))
      (DirectivesText.directive [' '] [] "skip".toList "(if: true) b\x7d".toList
        " b\x7d".toList _ (IgnoredText.white ' ' [] (by decide) IgnoredText.nil) IgnoredText.nil
        (by decide) (by decide)
        (OptArgumentsText.some [] [] "if: true) b\x7d".toList _ IgnoredText.nil IgnoredText.nil
          (ArgumentsText.arg "if".toList [] [' '] "true) b\x7d".toList [] ") b\x7d".toList _
            (by decide) IgnoredText.nil (IgnoredText.white ' ' [] (by decide) IgnoredText.nil)
            (ValueText.name true "true".toList _ (by decide) (by decide))
            IgnoredText.nil (ArgumentsText.close _)))
        (DirectivesText.none _)))
    (SelectionsText.field [' '] "b\x7d".toList "\x7d".toList []
      (IgnoredText.white ' ' [] (by decide) IgnoredText.nil)
      (FieldText.mk _ "\x7d".toList "\x7d".toList _
        (AliasText.plain "b".toList _ (by decide) (by decide))
        (OptArgumentsText.none _) (DirectivesText.none _))
      (SelectionsText.close [] [] IgnoredText.nil))

/-- Witness of C15: the selection set `{bar(a: "foo") @skip(if: true) b}`,
bare and after `query` and a space, gives the same bytecode and no error. -/
theorem C15_bare_selection_set_witness :
    ∃ body,
      parseQuery ('{' :: "bar(a: \x22foo\x22) @skip(if: true) b\x7d".toList) =
          some ('o' :: 'q' :: nulByte :: body ++ ['e', nulByte], []) ∧
        parseQuery (['q', 'u', 'e', 'r', 'y'] ++ [' '] ++
            '{' :: "bar(a: \x22foo\x22) @skip(if: true) b\x7d".toList) =
          some ('o' :: 'q' :: nulByte :: body ++ ['e', nulByte], []) :=
  (C15_bare_selection_set [' '] "bar(a: \x22foo\x22) @skip(if: true) b\x7d".toList
    (IgnoredText.white ' ' [] (by decide) IgnoredText.nil)).2 selectionsText_test_value

/-- The two parses of the witness of C15, evaluated. -/
theorem parseQuery_bare_values :
    parseQuery "\x7bbar(a: \x22foo\x22) @skip(if: true) b\x7d".toList =
      some ("oq".toList ++ nulByte :: "fbar".toList ++ nulByte :: "Aa:\x22foo\x22".toList ++
        nulByte :: "dskip".toList ++ nulByte :: "Aif:true".toList ++ nulByte :: 'e' ::
        nulByte :: "fb".toList ++ [nulByte, 'e', nulByte, 'e', nulByte], []) ∧
    parseQuery "query \x7bbar(a: \x22foo\x22) @skip(if: true) b\x7d".toList =
      some ("oq".toList ++ nulByte :: "fbar".toList ++ nulByte :: "Aa:\x22foo\x22".toList ++
        nulByte :: "dskip".toList ++ nulByte :: "Aif:true".toList ++ nulByte :: 'e' ::
        nulByte :: "fb".toList ++ [nulByte, 'e', nulByte, 'e', nulByte], []) := by
  refine ⟨?_, ?_⟩ <;> decide

section FuelFacts

theorem scanNumber_ok_length {s t : GoString} (h : scanNumber s = .ok t) :
    t.length < s.length := by
  unfold scanNumber at h
  have h0 := expectByte_getD_length '-' s
  generalize (expectByte '-' s).getD s = s1 at h0 h
  cases s1 with
  | nil => cases h
  | cons c r =>
    simp only [List.length_cons] at h0
    simp only at h
    split_ifs at h
    · have := within_ok_length (scanFraction_within r) h
      simp only [id] at this
      omega
    · have := within_ok_length (scanFraction_within _) h
      have := dropWhile_length Char.isDigit r
      simp only [id] at *
      omega

/-- A value that is read takes at least one byte. -/
theorem scanValueAux_ok_length {n : Nat} {av : Bool} {s t : GoString}
    (h : scanValueAux n .value av s = .ok t) : t.length < s.length := by
  cases n with
  | zero => cases h
  | succ n =>
    cases s with
    | nil => cases h
    | cons c r =>
      have hsk := skipIgnored_length false r
      simp only [scanValueAux] at h
      split_ifs at h
      · split at h
        · rename_i t1 hr
          simp only [Except.ok.injEq] at h
          have := readName_length hr
          rw [← h]
          simp only [List.length_cons]
          omega
        · cases h
      · have := within_ok_length (scanStringValue_within r) h
        simp only [id, List.length_cons] at *
        omega
      · have := within_ok_length (scanValueAux_within _ _ _ _) h
        simp only [id, List.length_cons] at *
        omega
      · have := within_ok_length (scanValueAux_within _ _ _ _) h
        simp only [id, List.length_cons] at *
        omega
      · exact scanNumber_ok_length h
      · split at h
        · rename_i t1 hr
          simp only [Except.ok.injEq] at h
          rw [← h]
          exact readName_length hr
        · cases h

/-- The bound of the reader of values is not reached: from twice the number
of unread bytes on (and one or two more), more fuel does not change the
result. -/
theorem scanValueAux_fuel (n : Nat) :
    ∀ (m : Nat) (k : ValueMode) (av : Bool) (s : GoString),
      2 * s.length + (if k = .value then 1 else 2) ≤ n →
      2 * s.length + (if k = .value then 1 else 2) ≤ m →
      scanValueAux n k av s = scanValueAux m k av s := by
  induction n with
  | zero =>
    intro m k av s hn _
    exfalso
    split_ifs at hn <;> omega
  | succ n ih =>
    intro m k av s hn hm
    obtain ⟨j, rfl⟩ : ∃ j, m = j + 1 := ⟨m - 1, by split_ifs at hm <;> omega⟩
    cases s with
    | nil => cases k <;> rfl
    | cons c r =>
      have hsk := skipIgnored_length false r
      simp only [List.length_cons] at hn hm
      cases k with
      | value =>
        simp only [if_true] at hn hm
        have e1 := ih j .items av (skipIgnored false r) (by simp only [reduceCtorEq, if_false]; omega)
          (by simp only [reduceCtorEq, if_false]; omega)
        have e2 := ih j .fields av (skipIgnored false r)
          (by simp only [reduceCtorEq, if_false]; omega)
          (by simp only [reduceCtorEq, if_false]; omega)
        simp only [scanValueAux, e1, e2]
      | items =>
        simp only [reduceCtorEq, if_false] at hn hm
        have e1 := ih j .value av (c :: r) (by simp only [if_true, List.length_cons]; omega)
          (by simp only [if_true, List.length_cons]; omega)
        simp only [scanValueAux, e1]
        split_ifs
        · rfl
        · rcases hv : scanValueAux j .value av (c :: r) with p | t1
          · rfl
          · have hl := scanValueAux_ok_length hv
            have hs1 := skipIgnored_length false t1
            simp only [List.length_cons] at hl
            exact ih j .items av (skipIgnored false t1)
              (by simp only [reduceCtorEq, if_false]; omega)
              (by simp only [reduceCtorEq, if_false]; omega)
      | fields =>
        simp only [reduceCtorEq, if_false] at hn hm
        simp only [scanValueAux]
        split_ifs
        · rfl
        · rcases Option.eq_none_or_eq_some (readName (c :: r)) with hr | ⟨⟨name, t1⟩, hr⟩
          · simp only [hr]
          · have h1 := readName_length hr
            have h2 := skipIgnored_length false t1
            simp only [List.length_cons] at h1
            rcases Option.eq_none_or_eq_some (expectByte ':' (skipIgnored false t1)) with
              hc | ⟨t2, hc⟩
            · simp only [hr, hc]
            · have h3 := expectByte_length hc
              have h4 := skipIgnored_length false t2
              have e1 := ih j .value av (skipIgnored false t2) (by simp only [if_true]; omega)
                (by simp only [if_true]; omega)
              simp only [hr, hc, e1]
              rcases hv : scanValueAux j .value av (skipIgnored false t2) with p | t3
              · rfl
              · have hl := scanValueAux_ok_length hv
                have hs3 := skipIgnored_length false t3
                exact ih j .fields av (skipIgnored false t3)
                  (by simp only [reduceCtorEq, if_false]; omega)
                  (by simp only [reduceCtorEq, if_false]; omega)

/-- More fuel than `scanValue` takes gives the result of `scanValue`. -/
theorem scanValue_fuel (av : Bool) (s : GoString) (n : Nat) (h : 2 * s.length + 1 ≤ n) :
    scanValueAux n .value av s = scanValue av s :=
  scanValueAux_fuel n _ .value av s (by simp only [if_true]; exact h)
    (by simp only [if_true]; exact Nat.le_refl _)

/-- The bound of the reader of arguments is not reached: above the number of
unread bytes, more fuel does not change the result. -/
theorem scanArguments_fuel (n : Nat) :
    ∀ (m : Nat) (av : Bool) (s : GoString), s.length < n → s.length < m →
      scanArguments n av s = scanArguments m av s := by
  induction n with
  | zero => intro m av s hn; omega
  | succ n ih =>
    intro m av s hn hm
    obtain ⟨j, rfl⟩ : ∃ j, m = j + 1 := ⟨m - 1, by omega⟩
    cases s with
    | nil => rfl
    | cons c r =>
      simp only [List.length_cons] at hn hm
      simp only [scanArguments]
      split_ifs
      · rfl
      · rcases Option.eq_none_or_eq_some (readName (c :: r)) with hr | ⟨⟨name, t1⟩, hr⟩
        · simp only [hr]
        · have h1 := readName_length hr
          have h2 := skipIgnored_length false t1
          simp only [List.length_cons] at h1
          rcases Option.eq_none_or_eq_some (expectByte ':' (skipIgnored false t1)) with
            hc | ⟨t2, hc⟩
          · simp only [hr, hc]
          · have h3 := expectByte_length hc
            have h4 := skipIgnored_length false t2
            simp only [hr, hc]
            rcases hv : scanValue av (skipIgnored false t2) with p | t3
            · rfl
            · have hl := scanValue_ok_length hv
              have hs3 := skipIgnored_length false t3
              simp only
              rw [ih j av (skipIgnored false t3) (by omega) (by omega)]

/-- The bound of the reader of directives is not reached. -/
theorem scanDirectives_fuel (n : Nat) :
    ∀ (m : Nat) (k : AttachKind) (av : Bool) (s : GoString), s.length < n → s.length < m →
      scanDirectives n k av s = scanDirectives m k av s := by
  induction n with
  | zero => intro m k av s hn; omega
  | succ n ih =>
    intro m k av s hn hm
    obtain ⟨j, rfl⟩ : ∃ j, m = j + 1 := ⟨m - 1, by omega⟩
    have h0 := skipIgnored_length false s
    simp only [scanDirectives]
    rcases Option.eq_none_or_eq_some (expectByte '@' (skipIgnored false s)) with hc | ⟨t, hc⟩
    · simp only [hc]
    · have h1 := expectByte_length hc
      have h2 := skipIgnored_length false t
      simp only [hc]
      rcases Option.eq_none_or_eq_some (readName (skipIgnored false t)) with
        hr | ⟨⟨name, t1⟩, hr⟩
      · simp only [hr]
      · have h3 := readName_length hr
        simp only [hr]
        rcases ho : scanOptArguments av t1 with p | ⟨args, t2⟩
        · rfl
        · have h4 := within_ok_length (scanOptArguments_within av t1) ho
          simp only at h4 ⊢
          rw [ih j k av t2 (by omega) (by omega)]

/-- The bound of the reader of types is not reached. -/
theorem scanType_fuel (n : Nat) :
    ∀ (m : Nat) (s : GoString), s.length < n → s.length < m → scanType n s = scanType m s := by
  induction n with
  | zero => intro m s hn; omega
  | succ n ih =>
    intro m s hn hm
    obtain ⟨j, rfl⟩ : ∃ j, m = j + 1 := ⟨m - 1, by omega⟩
    cases s with
    | nil => rfl
    | cons c r =>
      have h0 := skipIgnored_length false r
      simp only [List.length_cons] at hn hm
      simp only [scanType]
      rw [ih j (skipIgnored false r) (by omega) (by omega)]

/-- The bound of the reader of variable definitions is not reached. -/
theorem scanVariableDefs_fuel (n : Nat) :
    ∀ (m : Nat) (s : GoString), s.length < n → s.length < m →
      scanVariableDefs n s = scanVariableDefs m s := by
  induction n with
  | zero => intro m s hn; omega
  | succ n ih =>
    intro m s hn hm
    obtain ⟨j, rfl⟩ : ∃ j, m = j + 1 := ⟨m - 1, by omega⟩
    cases s with
    | nil => rfl
    | cons c r =>
      have h0 := skipIgnored_length false r
      simp only [List.length_cons] at hn hm
      simp only [scanVariableDefs]
      split_ifs
      · rfl
      · rcases Option.eq_none_or_eq_some (readName (skipIgnored false r)) with
          hr | ⟨⟨name, t1⟩, hr⟩
        · simp only [hr]
        · have h1 := readName_length hr
          have h2 := skipIgnored_length false t1
          rcases Option.eq_none_or_eq_some (expectByte ':' (skipIgnored false t1)) with
            hc | ⟨t2, hc⟩
          · simp only [hr, hc]
          · have h3 := expectByte_length hc
            have h4 := skipIgnored_length false t2
            simp only [hr, hc]
            rcases ht : scanType (t2.length + 1) (skipIgnored false t2) with p | t3
            · rfl
            · have h5 := within_ok_length (scanType_within _ _) ht
              simp only [id] at h5 ⊢
              rcases hd : scanDefault t3 with p | t4
              · rfl
              · have h6 := within_ok_length (scanDefault_within t3) hd
                simp only [id] at h6 ⊢
                rcases hdir : scanDirectives (t4.length + 1) .variableDirective false t4 with
                  p | ⟨ds, t5⟩
                · rfl
                · have h7 := within_ok_length (scanDirectives_within _ _ _ _) hdir
                  have h8 := skipIgnored_length false t5
                  simp only at h7 ⊢
                  rw [ih j (skipIgnored false t5) (by omega) (by omega)]
      · rfl

end FuelFacts

/-! ## Frame and round trip of the assignment of `Value` -/

/-- C22. Whenever `SetToValueOfAndExpect` returns a non-nil error, the receiver
is exactly what it was before the call: `valType`, the flags and every payload
field are unchanged. -/
theorem C22_SetToValueOfAndExpect_atomic (v other : Value) (expect : reflect.Kind)
    (herr : (v.SetToValueOfAndExpect other expect).2 ≠ none) :
    (v.SetToValueOfAndExpect other expect).1 = v := by
  unfold Value.SetToValueOfAndExpect at herr ⊢
  by_cases h : other.valType = expect
  · simp [h] at herr
  · simp [h]

/-- Witness of C22: an Int value offered where a String is expected leaves a
value built by `makeBooleanValue` as it was. -/
theorem C22_SetToValueOfAndExpect_atomic_witness :
    ((makeBooleanValue true).SetToValueOfAndExpect (makeIntValue 5) reflect.String).2 ≠ none ∧
      ((makeBooleanValue true).SetToValueOfAndExpect (makeIntValue 5) reflect.String).1 =
        makeBooleanValue true :=
  ⟨by decide,
    C22_SetToValueOfAndExpect_atomic (makeBooleanValue true) (makeIntValue 5) reflect.String
      (by decide)⟩

section FrameFacts

theorem SetToValueOf_untagged (v other : Value) :
    (v.SetToValueOf other).variable_ = v.variable_ ∧
      (v.SetToValueOf other).enumValue = v.enumValue ∧
      (v.SetToValueOf other).qlTypeName = v.qlTypeName := by
  unfold Value.SetToValueOf
  simp only
  split_ifs <;> exact ⟨rfl, rfl, rfl⟩

theorem SetToValueOf_stringValue (v other : Value) (h : other.valType ≠ reflect.String) :
    (v.SetToValueOf other).stringValue = v.stringValue := by
  unfold Value.SetToValueOf
  simp only [if_neg h]
  split_ifs <;> rfl

theorem SetToValueOf_intValue (v other : Value) (h : other.valType ≠ reflect.Int) :
    (v.SetToValueOf other).intValue = v.intValue := by
  unfold Value.SetToValueOf
  simp only [if_neg h]
  split_ifs <;> rfl

theorem SetToValueOf_floatValue (v other : Value) (h : other.valType ≠ reflect.Float64) :
    (v.SetToValueOf other).floatValue = v.floatValue := by
  unfold Value.SetToValueOf
  simp only [if_neg h]
  split_ifs <;> rfl

theorem SetToValueOf_booleanValue (v other : Value) (h : other.valType ≠ reflect.Bool) :
    (v.SetToValueOf other).booleanValue = v.booleanValue := by
  unfold Value.SetToValueOf
  simp only [if_neg h]
  split_ifs <;> rfl

theorem SetToValueOf_listValue (v other : Value) (h : other.valType ≠ reflect.Array) :
    (v.SetToValueOf other).listValue = v.listValue := by
  unfold Value.SetToValueOf
  simp only [if_neg h]
  split_ifs <;> rfl

theorem SetToValueOf_objectValue (v other : Value) (h : other.valType ≠ reflect.Map) :
    (v.SetToValueOf other).objectValue = v.objectValue := by
  unfold Value.SetToValueOf
  simp only [if_neg h]
  split_ifs <;> rfl

theorem SetToValueOf_other_kind (v other : Value) (h : ¬ Value.isPayloadKind other.valType) :
    v.SetToValueOf other = { v with valType := other.valType } := by
  simp only [Value.isPayloadKind, not_or] at h
  obtain ⟨h1, h2, h3, h4, h5, h6⟩ := h
  unfold Value.SetToValueOf
  simp only [if_neg h1, if_neg h2, if_neg h3, if_neg h4, if_neg h5, if_neg h6]

theorem not_isPayloadKind_invalid : ¬ Value.isPayloadKind reflect.Invalid := by
  unfold Value.isPayloadKind
  decide

end FrameFacts

/-- C23. `SetToValueOf` sets `valType` and changes no field besides but the
payload field selected by `other.valType`: the flags, `variable`, `enumValue`
and `qlTypeName` are never changed, each of the six payload fields is changed
only when `other.valType` is its kind, and when `other.valType` is none of
String, Int, Float64, Bool, Array, Map, as for the values built by
`makeNullValue`, `makeEnumValue` and `makeVariableValue`, nothing but `valType`
is changed. -/
theorem C23_SetToValueOf_frame (v other : Value) (s : GoString) :
    (v.SetToValueOf other).valType = other.valType ∧
      ((v.SetToValueOf other).isVar = v.isVar ∧ (v.SetToValueOf other).isNull = v.isNull ∧
        (v.SetToValueOf other).isEnum = v.isEnum ∧
        (v.SetToValueOf other).variable_ = v.variable_ ∧
        (v.SetToValueOf other).enumValue = v.enumValue ∧
        (v.SetToValueOf other).qlTypeName = v.qlTypeName) ∧
      ((other.valType ≠ reflect.String → (v.SetToValueOf other).stringValue = v.stringValue) ∧
        (other.valType ≠ reflect.Int → (v.SetToValueOf other).intValue = v.intValue) ∧
        (other.valType ≠ reflect.Float64 →
          (v.SetToValueOf other).floatValue = v.floatValue) ∧
        (other.valType ≠ reflect.Bool →
          (v.SetToValueOf other).booleanValue = v.booleanValue) ∧
        (other.valType ≠ reflect.Array → (v.SetToValueOf other).listValue = v.listValue) ∧
        (other.valType ≠ reflect.Map →
          (v.SetToValueOf other).objectValue = v.objectValue)) ∧
      (¬ Value.isPayloadKind other.valType →
        v.SetToValueOf other = { v with valType := other.valType }) ∧
      (v.SetToValueOf makeNullValue = { v with valType := reflect.Invalid } ∧
        v.SetToValueOf (makeEnumValue s) = { v with valType := reflect.Invalid } ∧
        v.SetToValueOf (makeVariableValue s) = { v with valType := reflect.Invalid }) := by
  obtain ⟨f1, f2, f3⟩ := SetToValueOf_flags v other
  obtain ⟨u1, u2, u3⟩ := SetToValueOf_untagged v other
  exact ⟨SetToValueOf_valType v other, ⟨f1, f2, f3, u1, u2, u3⟩,
    ⟨SetToValueOf_stringValue v other, SetToValueOf_intValue v other,
      SetToValueOf_floatValue v other, SetToValueOf_booleanValue v other,
      SetToValueOf_listValue v other, SetToValueOf_objectValue v other⟩,
    SetToValueOf_other_kind v other,
    ⟨SetToValueOf_other_kind v makeNullValue not_isPayloadKind_invalid,
      SetToValueOf_other_kind v (makeEnumValue s) not_isPayloadKind_invalid,
      SetToValueOf_other_kind v (makeVariableValue s) not_isPayloadKind_invalid⟩⟩

/-- Witness of C23: a String value assigned to a value built by `makeIntValue`
leaves `intValue` as it was, and a null value changes only `valType`. -/
theorem C23_SetToValueOf_frame_witness :
    ((makeIntValue 5).SetToValueOf (makeStringValue ['a'])).intValue = 5 ∧
      (makeIntValue 5).SetToValueOf makeNullValue =
        { makeIntValue 5 with valType := reflect.Invalid } :=
  ⟨(C23_SetToValueOf_frame (makeIntValue 5) (makeStringValue ['a']) []).2.2.1.2.1 (by decide),
    (C23_SetToValueOf_frame (makeIntValue 5) (makeStringValue ['a']) []).2.2.2.2.1⟩

/-- C24. Starting from the zero `Value`, after `SetToValueOf(other)` with
`other` built by `makeStringValue`, `makeIntValue`, `makeFloatValue`,
`makeBooleanValue`, `makeArrayValue` or `makeStructValue`, the receiver equals
`other` field for field. -/
theorem C24_SetToValueOf_round_trip (s : GoString) (i : Int) (x : FloatVal) (b : Bool)
    (list : Option (List Value)) (keyValues : Arguments) :
    Value.zero.SetToValueOf (makeStringValue s) = makeStringValue s ∧
      Value.zero.SetToValueOf (makeIntValue i) = makeIntValue i ∧
      Value.zero.SetToValueOf (makeFloatValue x) = makeFloatValue x ∧
      Value.zero.SetToValueOf (makeBooleanValue b) = makeBooleanValue b ∧
      Value.zero.SetToValueOf (makeArrayValue list) = makeArrayValue list ∧
      Value.zero.SetToValueOf (makeStructValue keyValues) = makeStructValue keyValues := by
  refine ⟨rfl, rfl, rfl, rfl, ?_, ?_⟩
  · cases list <;> rfl
  · cases keyValues <;> rfl

/-- C28. `makeArrayValue` and `makeStructValue` never store a nil container:
for a nil argument the field holds the empty non-nil container, for a non-nil
argument the argument itself, with the same elements in the same order, and
`valType` is Array, respectively Map. -/
theorem C28_containers_never_nil (list : Option (List Value)) (keyValues : Arguments)
    (l : List Value) (kv : List (GoString × Value)) :
    ((makeArrayValue list).listValue ≠ none ∧ (makeArrayValue list).valType = reflect.Array ∧
        (makeArrayValue none).listValue = some [] ∧
        (makeArrayValue (some l)).listValue = some l) ∧
      ((makeStructValue keyValues).objectValue ≠ none ∧
        (makeStructValue keyValues).valType = reflect.Map ∧
        (makeStructValue none).objectValue = some [] ∧
        (makeStructValue (some kv)).objectValue = some kv) := by
  refine ⟨⟨?_, ?_, rfl, rfl⟩, ⟨?_, ?_, rfl, rfl⟩⟩
  · cases list <;> simp [makeArrayValue]
  · cases list <;> rfl
  · cases keyValues <;> simp [makeStructValue]
  · cases keyValues <;> rfl

/-! ## Zero, the buffer and the bounds of the slices in `floatToJson` -/

section ZeroFacts

open FloatVal

theorem ne_zero_Abs (neg : Bool) (e : Int) :
    FloatVal.ne (Abs (.finite neg 0 e)) c0 = false := by
  rw [Bool.eq_false_iff, ne_eq, Abs, c0, ne_finite]
  simp [scaled]

theorem floatToJsonFmt_zero (bits : Int) (neg : Bool) (e : Int) :
    floatToJsonFmt bits (.finite neg 0 e) = 'f' := by
  simp [floatToJsonFmt, ne_zero_Abs]

end ZeroFacts

/-- C25. For a zero of either sign and every `bits`, 32 and 64 among them, the
test `abs != 0` fails, so the cutoff test is skipped and the format stays
`'f'`: what `floatToJson` appends is exactly
`strconv.FormatFloat(f, 'f', -1, bits)`. -/
theorem C25_floatToJson_zero (FormatFloat : FormatFloatFn) (bits : Int) (neg : Bool) (e : Int)
    (buf : Buffer) :
    FloatVal.ne (FloatVal.Abs (.finite neg 0 e)) c0 = false ∧
      floatToJsonFmt bits (.finite neg 0 e) = 'f' ∧
      floatToJson FormatFloat bits (.finite neg 0 e) buf =
        some (buf ++ FormatFloat (.finite neg 0 e) 'f' (-1) bits) ∧
      floatToJson FormatFloat 32 (.finite neg 0 e) buf =
        some (buf ++ FormatFloat (.finite neg 0 e) 'f' (-1) 32) ∧
      floatToJson FormatFloat 64 (.finite neg 0 e) buf =
        some (buf ++ FormatFloat (.finite neg 0 e) 'f' (-1) 64) := by
  have h : ∀ bits : Int, floatToJson FormatFloat bits (.finite neg 0 e) buf =
      some (buf ++ FormatFloat (.finite neg 0 e) 'f' (-1) bits) := by
    intro bits
    rw [floatToJson_finite FormatFloat bits (.finite neg 0 e) buf rfl, floatToJsonFmt_zero]
    simp
  exact ⟨ne_zero_Abs neg e, floatToJsonFmt_zero bits neg e, h bits, h 32, h 64⟩

section AppendFacts

theorem floatToJson_append (FormatFloat : FormatFloatFn) (bits : Int) (f : FloatVal)
    (p : Buffer) :
    floatToJson FormatFloat bits f p = some (p ++ floatToJsonBytes FormatFloat bits f) := by
  unfold floatToJsonBytes floatToJson
  simp only [Buffer.WriteString]
  split_ifs
  · simp
  · rw [cleanExp_eq]
    simp
  · simp

theorem cleanExp_ne_nil {b s : GoString} (hb : b ≠ []) (h : cleanExp b = some s) : s ≠ [] := by
  rw [cleanExp_eq] at h
  simp only [Option.some.injEq] at h
  rw [← h]
  split_ifs with hc
  · intro h0
    have := congrArg List.length h0
    simp only [List.length_append, List.length_take, List.length_drop, List.length_nil] at this
    omega
  · exact hb

end AppendFacts

/-- C26. `floatToJson` only appends to its buffer: for every content `p` of
the buffer, every float and every `bits`, the content after the call is `p`
followed by a suffix that is the same for every `p`; the suffix is not empty
as long as the string `strconv.FormatFloat` returns for the format chosen is
not empty, which holds of every rendering of a number. -/
theorem C26_floatToJson_append_only (FormatFloat : FormatFloatFn) (bits : Int) (f : FloatVal)
    (hne : FormatFloat f (floatToJsonFmt bits f) (-1) bits ≠ []) :
    floatToJsonBytes FormatFloat bits f ≠ [] ∧
      ∀ p : Buffer,
        floatToJson FormatFloat bits f p = some (p ++ floatToJsonBytes FormatFloat bits f) := by
  refine ⟨?_, floatToJson_append FormatFloat bits f⟩
  have h := floatToJson_append FormatFloat bits f []
  unfold floatToJson at h
  simp only [Buffer.WriteString, List.nil_append] at h
  split_ifs at h with h1 h2
  · rw [← Option.some.inj h]
    simp
  · have hfmt : floatToJsonFmt bits f = 'e' := by simpa using h2
    rw [hfmt] at hne h
    cases hc : cleanExp (FormatFloat f 'e' (-1) bits) with
    | none => rw [hc] at h; simp at h
    | some s =>
      rw [hc] at h
      rw [← Option.some.inj h]
      exact cleanExp_ne_nil hne hc
  · rw [← Option.some.inj h]
    exact hne

/-- Witness of C26 at `f = 13` with `bits = 64`. -/
theorem C26_floatToJson_append_only_witness :
    floatToJsonBytes sampleFormatFloat 64 (.finite false 13 0) ≠ [] ∧
      ∀ p : Buffer,
        floatToJson sampleFormatFloat 64 (.finite false 13 0) p =
          some (p ++ floatToJsonBytes sampleFormatFloat 64 (.finite false 13 0)) :=
  C26_floatToJson_append_only sampleFormatFloat 64 (.finite false 13 0) (by decide)

section SliceBoundFacts

theorem goSlice_eq_none_iff (b : GoString) (lo hi : Int) :
    goSlice b lo hi = none ↔ ¬ (0 ≤ lo ∧ lo ≤ hi ∧ hi ≤ len b) := by
  unfold goSlice
  split_ifs with h
  · simp [h]
  · simp [h]

end SliceBoundFacts

/-- C27. The clean-up of the exponent never indexes out of range, whatever the
formatted string `b`: every slice expression it evaluates is evaluated with
`n = len(b) >= 4` and bounds `0 <= low <= high <= n`, a string shorter than
four bytes is written as it is, and neither the clean-up nor `floatToJson`
raises the run-time error of a slice out of range. -/
theorem C27_cleanExp_in_range (FormatFloat : FormatFloatFn) (bits : Int) (f : FloatVal)
    (e : Buffer) (b : GoString) :
    (∀ p ∈ cleanExpSlices b, 4 ≤ len b ∧ 0 ≤ p.1 ∧ p.1 ≤ p.2 ∧ p.2 ≤ len b ∧
        goSlice b p.1 p.2 ≠ none) ∧
      (len b < 4 → cleanExpSlices b = [] ∧ cleanExp b = some b) ∧
      (4 ≤ len b →
        goSlice b (len b - 4) (len b - 1) ≠ none ∧ goSlice b 0 (len b - 2) ≠ none ∧
          goSlice b (len b - 1) (len b) ≠ none) ∧
      (∃ s, cleanExp b = some s) ∧
      (∃ r, floatToJson FormatFloat bits f e = some r) ∧
      (∀ lo hi : Int, goSlice b lo hi = none ↔ ¬ (0 ≤ lo ∧ lo ≤ hi ∧ hi ≤ len b)) := by
  refine ⟨?_, ?_, ?_, ⟨_, cleanExp_eq b⟩, ⟨_, floatToJson_append FormatFloat bits f e⟩,
    goSlice_eq_none_iff b⟩
  · intro p hp
    unfold cleanExpSlices at hp
    simp only at hp
    split_ifs at hp with h4
    · have hin : ∀ q : Int × Int, (q = (len b - 4, len b - 1) ∨ q = (0, len b - 2) ∨
          q = (len b - 1, len b)) → 4 ≤ len b ∧ 0 ≤ q.1 ∧ q.1 ≤ q.2 ∧ q.2 ≤ len b ∧
          goSlice b q.1 q.2 ≠ none := by
        intro q hq
        have hb : 4 ≤ len b ∧ 0 ≤ q.1 ∧ q.1 ≤ q.2 ∧ q.2 ≤ len b := by
          rcases hq with hq | hq | hq <;> subst hq <;> simp only <;> omega
        refine ⟨hb.1, hb.2.1, hb.2.2.1, hb.2.2.2, ?_⟩
        rw [ne_eq, goSlice_eq_none_iff]
        exact not_not.2 hb.2
      rcases List.mem_cons.1 hp with hp | hp
      · exact hin p (Or.inl hp)
      · split at hp
        · simp at hp
        · split_ifs at hp
          · simp only [List.mem_cons, List.mem_singleton, List.not_mem_nil, or_false] at hp
            exact hin p (Or.inr hp)
          · simp at hp
    · simp at hp
  · intro h
    have h4 : ¬ len b ≥ 4 := by omega
    constructor
    · simp [cleanExpSlices, h4]
    · simp [cleanExp, h4]
  · intro h
    refine ⟨?_, ?_, ?_⟩ <;> rw [ne_eq, goSlice_eq_none_iff] <;> omega

/-- Witness of C27 at the string `1e-09`: the three slices are evaluated, all
in range, and the clean-up gives `1e-9`. -/
theorem C27_cleanExp_in_range_witness :
    cleanExpSlices ['1', 'e', '-', '0', '9'] = [(1, 4), (0, 3), (4, 5)] ∧
      goSlice ['1', 'e', '-', '0', '9'] (len ['1', 'e', '-', '0', '9'] - 4)
        (len ['1', 'e', '-', '0', '9'] - 1) ≠ none :=
  ⟨by decide,
    ((C27_cleanExp_in_range sampleFormatFloat 64 c0 [] ['1', 'e', '-', '0', '9']).2.2.1
      (by decide)).1⟩

/-! ## The cutoffs of `floatToJson` at `bits = 32` -/

section Float32Facts

open FloatVal

/-- The absolute value of a float that is a `float32` is a `float32`. -/
theorem representableAt_Abs {f : FloatVal} (hfin : f.isFinite = true)
    (hrep : f.representableAt 32 = true) : (Abs f).representableAt 32 = true := by
  have hafin := isFinite_Abs hfin
  have h := toRat_toFloat32_of_representable hfin hrep
  have h1 : (toFloat32 (Abs f)).isFinite = true ∧
      (toFloat32 (Abs f)).toRat = (Abs f).toRat := by
    rw [toFloat32_Abs]
    refine ⟨isFinite_Abs h.1, ?_⟩
    rw [toRat_Abs, toRat_Abs, h.2]
  simp only [representableAt, if_true]
  have hne : FloatVal.ne (toFloat32 (Abs f)) (Abs f) = false := by
    rw [Bool.eq_false_iff, ne_eq, ne_iff_toRat h1.1 hafin]
    simp [h1.2]
  simp only [FloatVal.ne] at hne
  split at hne <;> simp_all

theorem floatToJsonFmt_32 (f : FloatVal) :
    floatToJsonFmt 32 f = 'e' ↔
      FloatVal.ne (Abs f) c0 = true ∧
        (FloatVal.lt (toFloat32 (Abs f)) c32_1e_6 = true ∨
          FloatVal.ge (toFloat32 (Abs f)) c32_1e21 = true) := by
  unfold floatToJsonFmt
  simp only [show ((32 : Int) == 64) = false from rfl, show ((32 : Int) == 32) = true from rfl,
    Bool.false_and, Bool.true_and, Bool.false_or, Bool.or_eq_true]
  split_ifs with h1 h2
  · simp [h1, h2]
  · simp [h1, h2]
  · simp [h1]

theorem floatToJsonFmt_32_small {f : FloatVal} (hfin : f.isFinite = true)
    (hrep : f.representableAt 32 = true) (hnz : FloatVal.ne (Abs f) c0 = true)
    (hlt : FloatVal.lt (Abs f) c32_1e_6 = true) : floatToJsonFmt 32 f = 'e' := by
  have hafin := isFinite_Abs hfin
  obtain ⟨h32fin, h32val⟩ :=
    toRat_toFloat32_of_representable hafin (representableAt_Abs hfin hrep)
  rw [floatToJsonFmt_32]
  refine ⟨hnz, Or.inl ?_⟩
  rw [lt_iff_toRat (b := c32_1e_6) h32fin rfl, h32val]
  exact (lt_iff_toRat (b := c32_1e_6) hafin rfl).1 hlt

end Float32Facts

/-- C29, as stated, fails at zero: zero is a `float32` below the `float32`
nearest to `1e-6`, and with `bits = 32` the format chosen for it is `'f'`. -/
theorem C29_counterexample_zero :
    ¬ ∀ f : FloatVal, f.isFinite = true → f.representableAt 32 = true →
        FloatVal.lt (FloatVal.Abs f) c32_1e_6 = true → floatToJsonFmt 32 f = 'e' := by
  intro h
  have := h c0 (by decide) (by decide) (by decide)
  revert this
  decide

/-- C29, amended. With `bits = 32` the format is `'e'` exactly when `|f|` is
not zero and `float32(|f|)` is below the `float32` nearest to `1e-6` or at
least the `float32` nearest to `1e21`. So the `float32` nearest to `1e-6`,
which lies within half a unit in the last place of `10^-6`, is written in fixed
notation, although as a `float64` it is below the constant `1e-6` and would be
written in exponential notation with `bits = 64`; and every `float32` other
than zero whose absolute value is below it is written in exponential
notation. -/
theorem C29_float32_cutoff (FormatFloat : FormatFloatFn) (f : FloatVal) (e : Buffer)
    (hfin : f.isFinite = true) (hrep : f.representableAt 32 = true)
    (hnz : FloatVal.ne (FloatVal.Abs f) c0 = true)
    (hlt : FloatVal.lt (FloatVal.Abs f) c32_1e_6 = true) :
    (∀ g : FloatVal, floatToJsonFmt 32 g = 'e' ↔
        FloatVal.ne (FloatVal.Abs g) c0 = true ∧
          (FloatVal.lt (FloatVal.toFloat32 (FloatVal.Abs g)) c32_1e_6 = true ∨
            FloatVal.ge (FloatVal.toFloat32 (FloatVal.Abs g)) c32_1e21 = true)) ∧
      (c32_1e_6.representableAt 32 = true ∧
        |(10 : ℚ) ^ (-6 : Int) - c32_1e_6.toRat| ≤ (2 : ℚ) ^ (-43 : Int) / 2) ∧
      (floatToJsonFmt 32 c32_1e_6 = 'f' ∧
        floatToJson FormatFloat 32 c32_1e_6 e =
          some (e ++ FormatFloat c32_1e_6 'f' (-1) 32)) ∧
      (FloatVal.lt c32_1e_6 c64_1e_6 = true ∧ floatToJsonFmt 64 c32_1e_6 = 'e') ∧
      (floatToJsonFmt 32 f = 'e' ∧
        ∃ s, cleanExp (FormatFloat f 'e' (-1) 32) = some s ∧
          floatToJson FormatFloat 32 f e = some (e ++ s)) := by
  have hf := floatToJsonFmt_32_small hfin hrep hnz hlt
  have h6 : floatToJsonFmt 32 c32_1e_6 = 'f' := by decide
  refine ⟨floatToJsonFmt_32, ⟨by decide, float_constants_rounded.2.2.1.2⟩, ⟨h6, ?_⟩,
    ⟨by decide, by decide⟩, hf, ?_⟩
  · rw [floatToJson_finite FormatFloat 32 c32_1e_6 e rfl, h6]
    simp
  · rw [floatToJson_finite FormatFloat 32 f e hfin, hf, cleanExp_eq]
    exact ⟨_, rfl, by simp⟩

/-- Witness of the amended C29 at the float `2^-20`, which is a `float32`
below `1e-6`. -/
theorem C29_float32_cutoff_witness :
    floatToJsonFmt 32 (.finite false 1 (-20)) = 'e' :=
  (C29_float32_cutoff sampleFormatFloat (.finite false 1 (-20)) [] (by decide) (by decide)
    (by decide) (by decide)).2.2.2.2.1

/-! ## Properties of the response -/

section ResponseFacts

theorem writeJoined_false (xs : List GoString) :
    writeJoined false xs = (xs.map fun x => ',' :: x).flatten := by
  induction xs with
  | nil => rfl
  | cons x xs ih => simp [writeJoined, ih]

theorem writeJoined_true (xs : List GoString) :
    writeJoined true xs = List.intercalate [','] xs := by
  cases xs with
  | nil => rfl
  | cons x xs =>
    rw [intercalate_cons_eq]
    simp [writeJoined, writeJoined_false]

end ResponseFacts

/-- C21. `GenerateResponse` returns the body under the key `data` alone when
there is no error, and otherwise the body followed by the key `errors` with an
array of one object per error, in the order of the list and separated by
commas, each with the message as a JSON string under `message` and the path
under `path`; the call of `TestExecGenerateResponse` on the body and the error
of the query with a field that does not exist returns the text the test
expects. -/
theorem C21_GenerateResponse (Hints : Type) (body : GoString) (hints : Hints)
    (e : ResolveError) (es : List ResolveError) :
    GenerateResponse body hints [] = "\x7b\"data\":".toList ++ body ++ "\x7d".toList ∧
      GenerateResponse body hints (e :: es) =
        "\x7b\"data\":".toList ++ body ++ ",\"errors\":[".toList ++
          List.intercalate [','] ((e :: es).map errorToJson) ++ "]\x7d".toList ∧
      errorToJson e =
        "\x7b\"message\":".toList ++ stringToJson e.message ++ ",\"path\":[".toList ++
          List.intercalate [','] (e.path.map pathElemToJson) ++ "]\x7d".toList ∧
      GenerateResponse "\x7b\"a\":\"foo\",\"b\":\"bar\"\x7d".toList ()
          [⟨.UnknownField,
            "non_existing_field does not exists on TestExecSimpleQueryData".toList,
            [.key "non_existing_field".toList]⟩] =
        ("\x7b\"data\":\x7b\"a\":\"foo\",\"b\":\"bar\"\x7d,\"errors\":[\x7b\"message\":" ++
          "\"non_existing_field does not exists on TestExecSimpleQueryData\"," ++
          "\"path\":[\"non_existing_field\"]\x7d]\x7d").toList := by
  refine ⟨rfl, ?_, ?_, by decide⟩
  · simp only [GenerateResponse, writeJoined_true]
  · simp only [errorToJson, writeJoined_true]

/-- The query of `TestExecGenerateResponse` in the model: the resolver gives
the body and the error that `GenerateResponse` is called with in C21. -/
theorem Resolve_test_generateResponse :
    execOperator sampleFormatFloat
        ⟨.struct "TestExecSimpleQueryData".toList
            [(['A'], .string "foo".toList), (['B'], .string "bar".toList),
              (['C'], .string "baz".toList)],
          .struct ['M'] [], .struct ['S'] [], 255⟩
        ⟨.query, [], [.field none ['a'] [] [], .field none ['b'] [] [],
          .field none "non_existing_field".toList [] []]⟩ =
      ("\x7b\"a\":\"foo\",\"b\":\"bar\"\x7d".toList,
        [⟨.UnknownField,
          "non_existing_field does not exists on TestExecSimpleQueryData".toList,
          [.key "non_existing_field".toList]⟩]) := by
  simp [execOperator, resolveValue, resolveSelections, resolveField, shouldSkip,
    typenameField, fieldKey, eqFold, stringToJson, escapeByte, valueToJson]

end Graphql
